import Mathlib

/-!
Verification development for the Deeplearning compute engine.

Shallow embedding of `include/Matrix.hpp`, `include/matrix.hpp`,
`include/Layer/BatchNormalize.hpp` and `include/Pooling.hpp`.

Conventions of the embedding.

* `float` / `double` values are elements of a field `R` with exact arithmetic;
  `std::sqrt` and `std::pow` are supplied as operations on `R` (`RealOps`).
  The forward pass of `BatchNormalize` asks only for the operations it uses, so
  that it also runs on `Double`, a model of the normal range of binary64 with
  round to nearest even (no overflow, subnormal, infinity or NaN).
* A `Matrix` owns a raw buffer `T* v`; the buffer is a map from offsets to
  values, entry `(i, j)` living at offset `i * n + j` (row major).  Only the
  offsets below `m * n` are meaningful.  Memory obtained from `new T[m*n]` is
  uninitialised: every allocation takes its initial contents as an argument.
* Counted `for` loops are `forLoop`; `#pragma omp` regions run their iterations
  in program order (the build without OpenMP).
* The build modelled is the default one: none of `USE_EIGEN`, `USE_BLAS`,
  `USE_MPI`, `USE_GPU` is defined.  The `USE_MPI` branches of `BatchNormalize`
  are embedded separately (`init_slice`, `apply_mpi`, `calc_gradient_mpi`,
  `param_mix`): a method takes its `rank` and the group size `nprocs` as
  arguments, and the collectives are functions of what every rank sends.
  `apply_mpi_ndebug` adds the trap of the `int` division by the batch size and
  `apply_mpi_debug` the assertions of every `operator ()`; a collective that
  one rank of the group does not reach has no result.
* `int` values are natural numbers (all products stay within the range of `int`);
  the indices of `operator ()` in a build with assertions and the counter
  `cnt_flop` are integers.  Where the range matters the `int` value is reduced
  to 32 bits: the product `m*n` in `Heap.Matrix` (`int_mul`) and the factor
  `2*l-1` of the counter (`int_wrap`).
* The `USE_BLAS` branches of the multiplies are embedded separately (`*_blas`),
  next to the vendor routine `gemm` and the transposed view `tMatrix`, neither of
  which is among the sources.
* Where the length of the allocation matters, the struct is embedded with
  `mem_size` and a buffer of known length (`Heap.Matrix`); an operation that
  allocates has no result when `new` throws, and `reshape` takes the flag
  `NDEBUG` as an argument.
* The `assert`s on argument shapes in `mult` make the call fail (`none`); the
  bounds `assert`s inside `operator ()` are preconditions of the theorems (row
  and column indices in range), except where a claim is about the build with
  assertions (`operator_call`, `operator_mul_debug`).
* Copy construction and assignment of a `Matrix` copy the value; the timers
  `t_*` are not modelled, and the counter `cnt_flop` is followed on its own
  (`*_cnt_flop`).
* Loops with a stride (`y += stlide`) or a division (`i /= w`) carry fuel.
  `forStep` stops silently when the fuel is used up; `forStepM`, `reduction_loop`
  and the method `Pooling.apply_debug` built on them return `none` in that case,
  so that a result `some _` says that the loop ended by its condition.
* `LU_decomp`, `pivoting` and `FBS` compare and divide in an ordered field;
  `FBS` is embedded for both headers (`FBS`, `FBS_vec`), on the naive path of
  the product `transpose(P)*B`.
* Of the `USE_GPU` build only the control flow of the reduction loop of
  `calc_gradient` is embedded (`reduction_loop`); the work-item limit of the
  device is an argument.
-/

namespace Deeplearning

/-- Counted loop `for( int i = 0; i < n; ++i ) body` threading a state. -/
def forLoop {σ : Type} (n : Nat) (body : Nat → σ → σ) (s : σ) : σ :=
  match n with
  | 0 => s
  | k + 1 => body k (forLoop k body s)

/-- The struct `Matrix<T>` of `Matrix.hpp`: `m` rows, `n` columns, buffer `v`. -/
structure Matrix (R : Type) where
  m : Nat
  n : Nat
  v : Nat → R

namespace Matrix

variable {R : Type}

/-- Constructor `Matrix( m, n )` of `Matrix.hpp`: `v = new T[m*n]`, contents `g` left as found. -/
def alloc (g : Nat → R) (m n : Nat) : Matrix R := ⟨m, n, g⟩

/-- Read access `operator () ( i, j )`: `v[i*n + j]`. -/
def get (A : Matrix R) (i j : Nat) : R := A.v (i * A.n + j)

/-- Write access through `operator () ( i, j )`: `v[i*n + j] = x`. -/
def set (A : Matrix R) (i j : Nat) (x : R) : Matrix R :=
  ⟨A.m, A.n, Function.update A.v (i * A.n + j) x⟩

/-- Function `Matrix<T>::zeros( m, n )` of `Matrix.hpp`: allocate, then `ret.v[i] = 0.0` for `i < m*n`. -/
def zeros [Zero R] (g : Nat → R) (m n : Nat) : Matrix R :=
  let ret := alloc g m n
  forLoop (m * n) (fun i ret => ⟨ret.m, ret.n, Function.update ret.v i 0⟩) ret

/-- Free function `operator * ( const Matrix<double>& m1, const Matrix<double>& m2 )` of
`Matrix.hpp` on the naive triple-loop path (the `Matrix<float>` overload has the same body). -/
def operator_mul [Zero R] [Add R] [Mul R] (g : Nat → R) (m1 m2 : Matrix R) : Matrix R :=
  let m := m1.m
  let n := m2.n
  let l := m1.n
  let ret := alloc g m n
  forLoop m (fun i ret =>
    forLoop n (fun j ret =>
      let sum := forLoop l (fun k sum => sum + m1.get i k * m2.get k j) 0
      ret.set i j sum) ret) ret

/-- Friend `operator *` of the struct in `matrix.hpp`: the same triple loop, the result buffer being a
value-initialised `std::vector<T>(m*n, T())`. -/
def operator_mul_vec [Zero R] [Add R] [Mul R] (m1 m2 : Matrix R) : Matrix R :=
  let m := m1.m
  let n := m2.n
  let l := m1.n
  let ret : Matrix R := ⟨m, n, fun _ => 0⟩
  forLoop m (fun i ret =>
    forLoop n (fun j ret =>
      let sum := forLoop l (fun k sum => sum + m1.get i k * m2.get k j) 0
      ret.set i j sum) ret) ret

/-- Default constructor `Matrix()`: `m(0), n(0), v(NULL)`. -/
def empty [Zero R] : Matrix R := ⟨0, 0, fun _ => 0⟩

/-- Test data: the `m × n` matrix whose buffer holds the list `xs` in row-major order. -/
def ofList [Zero R] (m n : Nat) (xs : List R) : Matrix R := ⟨m, n, fun p => xs.getD p 0⟩

/-- Member `operator += ( const Matrix<T>& m1 )` of `Matrix.hpp`: with `m`, `n` taken from the
argument, `this->v[i] += m1.v[i]` for `i < m*n`. -/
def operator_add_assign [Add R] (self m1 : Matrix R) : Matrix R :=
  let m := m1.m
  let n := m1.n
  forLoop (m * n) (fun i self => ⟨self.m, self.n, Function.update self.v i (self.v i + m1.v i)⟩)
    self

/-- Member `operator /= ( const T& c )` of `Matrix.hpp`: `this->v[i] /= c` for `i < m*n`. -/
def operator_div_assign [Div R] (self : Matrix R) (c : R) : Matrix R :=
  forLoop (self.m * self.n)
    (fun i self => ⟨self.m, self.n, Function.update self.v i (self.v i / c)⟩) self

/-- Specialisation `Matrix<float>::mult ( alpha, B, beta, C )` of `Matrix.hpp` on the path without
`USE_BLAS`; the three `assert`s on the shapes abort the call (`none`), otherwise the triple loop
stores `sum` in `C(i,j)`.  The arguments `alpha` and `beta` do not occur in the loop. -/
def mult_float [Zero R] [Add R] [Mul R] (self : Matrix R) (alpha : R) (B : Matrix R) (beta : R)
    (C : Matrix R) : Option (Matrix R) :=
  let m := self.m
  let n := B.n
  let l := self.n
  if self.n = B.m ∧ m = C.m ∧ n = C.n then
    some (forLoop m (fun i C =>
      forLoop n (fun j C =>
        let sum := forLoop l (fun k sum => sum + self.get i k * B.get k j) 0
        C.set i j sum) C) C)
  else none

/-- Specialisation `Matrix<double>::mult ( alpha, B, beta, C )` of `Matrix.hpp` on the path without
`USE_BLAS`.  The source line is `sum += (*this)(0i,k)*B(k,j);`: the row index is the literal `0i`
(the imaginary constant of value zero), not the loop variable `i`; it is embedded by its value,
row `0`. -/
def mult_double [Zero R] [Add R] [Mul R] (self : Matrix R) (alpha : R) (B : Matrix R) (beta : R)
    (C : Matrix R) : Option (Matrix R) :=
  let m := self.m
  let n := B.n
  let l := self.n
  if self.n = B.m ∧ m = C.m ∧ n = C.n then
    some (forLoop m (fun i C =>
      forLoop n (fun j C =>
        let sum := forLoop l (fun k sum => sum + self.get 0 k * B.get k j) 0
        C.set i j sum) C) C)
  else none

end Matrix

/-- The functions `std::sqrt` and `std::pow` of `<cmath>` on the scalar type. -/
structure RealOps (R : Type) where
  sqrt : R → R
  pow : R → R → R

/-- Element `vec[0]` of a `std::vector<Matrix<T>>`. -/
def vec0 {R : Type} [Zero R] (vec : List (Matrix R)) : Matrix R := vec.getD 0 Matrix.empty

/-- The class `BatchNormalize<Matrix, Real>` with the members of its base `Layer` that it uses:
the map and unit counts, the activation of this layer `func` and of the previous one `prev_func`
(a `Function` object is called as `(*f)(U, isdiff)`), the parameters `W`, `b`, and the
statistics `mean`, `var`. -/
structure BatchNormalize (R : Type) where
  prev_num_map : Nat
  num_map : Nat
  prev_num_unit : Nat
  num_unit : Nat
  func : Matrix R → Bool → Matrix R
  prev_func : Matrix R → Bool → Matrix R
  W : List (Matrix R)
  b : List (Matrix R)
  mean : Matrix R
  var : Matrix R

namespace BatchNormalize

variable {R : Type}

/-- The member `const Real EPS = 1.0E-8`. -/
def EPS [OfScientific R] : R := 1.0E-8

/-- Constructor `BatchNormalize( prev_num_map, prev_num_unit, f )`; `prev_func` is a member of the
base class which the constructor does not touch (`pf`), `mean` and `var` are default
constructed, and `W`, `b` are one uninitialised `1 × num_map` matrix each. -/
def ctor [Zero R] (gW gb : Nat → R) (pf : Matrix R → Bool → Matrix R)
    (prev_num_map prev_num_unit : Nat) (f : Matrix R → Bool → Matrix R) : BatchNormalize R :=
  let num_map := prev_num_map
  let num_unit := prev_num_unit
  ⟨prev_num_map, num_map, prev_num_unit, num_unit, f, pf,
    [Matrix.alloc gW 1 num_map], [Matrix.alloc gb 1 num_map], Matrix.empty, Matrix.empty⟩

/-- Lines 468 to 477 of `apply`: the loop nest accumulating the rows of `U` into `mean`, then
`mean /= U.n`. -/
def apply_mean [Add R] [Div R] [NatCast R] (self : BatchNormalize R) (my_offset my_size : Nat)
    (U mean : Matrix R) : Matrix R :=
  let mean := forLoop self.num_map (fun i mean =>
    forLoop my_size (fun j mean =>
      forLoop U.n (fun k mean =>
        mean.set i j (mean.get i j + U.get (i * self.prev_num_unit + my_offset + j) k))
        mean) mean) mean
  mean.operator_div_assign (U.n : R)

/-- Lines 479 to 491 of `apply`: the loop nest accumulating the squared deviations into `var`,
then `var /= U.n`. -/
def apply_var [Add R] [Sub R] [Mul R] [Div R] [NatCast R] (self : BatchNormalize R)
    (my_offset my_size : Nat)
    (U mean var : Matrix R) : Matrix R :=
  let var := forLoop self.num_map (fun i var =>
    forLoop my_size (fun j var =>
      forLoop U.n (fun k var =>
        let v := U.get (i * self.prev_num_unit + my_offset + j) k - mean.get i j
        var.set i j (var.get i j + v * v)) var) var) var
  var.operator_div_assign (U.n : R)

/-- Lines 493 to 507 of `apply` (branch without `USE_MPI`): the loop nest writing the normalised,
scaled and shifted entries of `ret`. -/
def apply_ret [Zero R] [Add R] [Sub R] [Mul R] [Div R] [OfScientific R] (ops : RealOps R)
    (self : BatchNormalize R) (my_size : Nat)
    (U mean var ret : Matrix R) : Matrix R :=
  forLoop self.num_map (fun i ret =>
    forLoop my_size (fun j ret =>
      forLoop U.n (fun k ret =>
        ret.set (i * self.num_unit + j) k
          ((vec0 self.W).get 0 i * (U.get (i * self.prev_num_unit + j) k - mean.get i j)
              / ops.sqrt (var.get i j + EPS) + (vec0 self.b).get 0 i)) ret) ret) ret

/-- Method `apply ( const Matrix<Real>& U, bool use_func )` (CPU, no `USE_MPI`): returns `ret`
and the layer with the recomputed `mean` and `var`. -/
def apply [Zero R] [Add R] [Sub R] [Mul R] [Div R] [NatCast R] [OfScientific R]
    (ops : RealOps R) (self : BatchNormalize R) (g_stat g_ret : Nat → R)
    (U : Matrix R) (use_func : Bool) : Matrix R × BatchNormalize R :=
  let my_offset := 0
  let my_size := self.num_unit
  let var := Matrix.zeros g_stat self.num_map my_size
  let mean := var
  let ret := Matrix.alloc g_ret (self.num_map * self.num_unit) U.n
  let mean := apply_mean self my_offset my_size U mean
  let var := apply_var self my_offset my_size U mean var
  let ret := apply_ret ops self my_size U mean var ret
  let ret := if use_func then self.func ret false else ret
  (ret, ⟨self.prev_num_map, self.num_map, self.prev_num_unit, self.num_unit, self.func,
    self.prev_func, self.W, self.b, mean, var⟩)

/-- Method `calc_delta ( const Matrix<Real>& U, const Matrix<Real>& delta )` (CPU, no `USE_MPI`). -/
def calc_delta [Field R] (ops : RealOps R) (self : BatchNormalize R) (g : Nat → R)
    (U delta : Matrix R) : Matrix R :=
  let my_offset := 0
  let my_size := self.prev_num_unit
  let nx_delta := Matrix.alloc g (self.prev_num_map * self.prev_num_unit) delta.n
  let U_appl := self.prev_func U false
  let U_diff := self.prev_func U true
  forLoop self.num_map (fun i nx_delta =>
    forLoop my_size (fun j nx_delta =>
      forLoop U.n (fun k nx_delta =>
        let tmp := forLoop U.n (fun l (tmp : R × R) =>
          (tmp.1 + delta.get (i * self.num_unit + my_offset + j) l,
           tmp.2 + delta.get (i * self.num_unit + my_offset + j) l
              * (U_appl.get (i * self.prev_num_unit + my_offset + j) l - self.mean.get i j)))
          (0, 0)
        let tmp1 := tmp.1 / (U.n : R)
        let tmp2 := tmp.2 / (U.n : R)
        nx_delta.set (i * self.prev_num_unit + j) k
          ((vec0 self.W).get 0 i / ops.sqrt (self.var.get i j + EPS)
              * delta.get (i * self.num_unit + my_offset + j) k
              * U_diff.get (i * self.prev_num_unit + j) k
            - (vec0 self.W).get 0 i / ops.sqrt (self.var.get i j + EPS)
              * U_diff.get (i * self.prev_num_unit + j) k * tmp1
            - (vec0 self.W).get 0 i / ops.pow (self.var.get i j + EPS) 1.5
              * U_diff.get (i * self.prev_num_unit + j) k
              * (U_appl.get (i * self.prev_num_unit + j) k - self.mean.get i j) * tmp2))
        nx_delta) nx_delta) nx_delta

/-- Method `calc_gradient ( const Matrix<Real>& U, const Matrix<Real>& delta )` (CPU, no
`USE_MPI`): the pair `(nabla_W, nabla_b)`. -/
def calc_gradient [Field R] (ops : RealOps R) (self : BatchNormalize R) (gW gb : Nat → R)
    (U delta : Matrix R) : List (Matrix R) × List (Matrix R) :=
  let my_offset := 0
  let my_size := self.prev_num_unit
  let nabla_W := [Matrix.alloc gW 1 self.num_map]
  let nabla_b := [Matrix.alloc gb 1 self.num_map]
  let U_apply := self.prev_func U false
  forLoop self.num_map (fun i (nabla : List (Matrix R) × List (Matrix R)) =>
    let tmp_nabla1 := forLoop my_size (fun j tmp_nabla1 =>
      forLoop U.n (fun k tmp_nabla1 =>
        tmp_nabla1 + delta.get (i * self.num_unit + my_offset + j) k
          * (U_apply.get (i * self.prev_num_unit + my_offset + j) k - self.mean.get i j)
          / ops.sqrt (self.var.get i j + EPS)) tmp_nabla1) 0
    let tmp_nabla2 := forLoop my_size (fun j tmp_nabla2 =>
      forLoop U.n (fun k tmp_nabla2 =>
        tmp_nabla2 + delta.get (i * self.num_unit + my_offset + j) k) tmp_nabla2) 0
    (nabla.1.set 0 ((vec0 nabla.1).set 0 i tmp_nabla1),
     nabla.2.set 0 ((vec0 nabla.2).set 0 i tmp_nabla2))) (nabla_W, nabla_b)

/-- Method `update_W ( dW, db )`: `this->W[0] += dW[0]; this->b[0] += db[0];`. -/
def update_W [Zero R] [Add R] (self : BatchNormalize R) (dW db : List (Matrix R)) :
    BatchNormalize R :=
  ⟨self.prev_num_map, self.num_map, self.prev_num_unit, self.num_unit, self.func,
    self.prev_func, self.W.set 0 ((vec0 self.W).operator_add_assign (vec0 dW)),
    self.b.set 0 ((vec0 self.b).operator_add_assign (vec0 db)), self.mean, self.var⟩

/-- The facts the constructor establishes and every method keeps: the previous counts equal the
own ones, and `W`, `b` hold one matrix of shape `1 × num_map` each. -/
def WF (self : BatchNormalize R) : Prop :=
  self.prev_num_map = self.num_map ∧ self.prev_num_unit = self.num_unit ∧
  (∃ W0, self.W = [W0] ∧ W0.m = 1 ∧ W0.n = self.num_map) ∧
  (∃ b0, self.b = [b0] ∧ b0.m = 1 ∧ b0.n = self.num_map)

/-- The layer with entry `(0, i)` of `W[0]` replaced by `t`. -/
def perturb_W [Zero R] (self : BatchNormalize R) (i : Nat) (t : R) : BatchNormalize R :=
  ⟨self.prev_num_map, self.num_map, self.prev_num_unit, self.num_unit, self.func,
    self.prev_func, self.W.set 0 ((vec0 self.W).set 0 i t), self.b, self.mean, self.var⟩

/-- The layer with entry `(0, i)` of `b[0]` replaced by `t`. -/
def perturb_b [Zero R] (self : BatchNormalize R) (i : Nat) (t : R) : BatchNormalize R :=
  ⟨self.prev_num_map, self.num_map, self.prev_num_unit, self.num_unit, self.func,
    self.prev_func, self.W, self.b.set 0 ((vec0 self.b).set 0 i t), self.mean, self.var⟩

end BatchNormalize

/-- The identity activation as a `Function` object: the argument in value mode, the all-ones
matrix of the same shape in derivative mode. -/
def identity_func {R : Type} [One R] (U : Matrix R) (isdiff : Bool) : Matrix R :=
  if isdiff then ⟨U.m, U.n, fun _ => 1⟩ else U

/-- Batch mean of the first `N` values `a 0, …, a (N-1)` of one row. -/
def rowMean {R : Type} [Field R] (N : Nat) (a : Nat → R) : R :=
  (∑ l ∈ Finset.range N, a l) / (N : R)

/-- Biased batch variance of the first `N` values of one row. -/
def rowVar {R : Type} [Field R] (N : Nat) (a : Nat → R) : R :=
  (∑ l ∈ Finset.range N, (a l - rowMean N a) * (a l - rowMean N a)) / (N : R)

/-- Normalised, scaled and shifted value of sample `k` of one row. -/
def rowOut {R : Type} [Field R] (ops : RealOps R) (W b : R) (N : Nat) (a : Nat → R)
    (k : Nat) : R :=
  W * (a k - rowMean N a) / ops.sqrt (rowVar N a + BatchNormalize.EPS) + b

/-- The scalar `Σ_{r,k} delta(r,k) * y(r,k)` over `rows` rows and `N` samples. -/
def loss {R : Type} [Field R] (rows N : Nat) (delta y : Matrix R) : R :=
  ∑ r ∈ Finset.range rows, ∑ k ∈ Finset.range N, delta.get r k * y.get r k

/-! ### Worker partition (build with `USE_MPI`)

The members `rank` and `nprocs` of the base class exist only in the build with `USE_MPI`; the
methods of that build take them as arguments.  A `std::vector<int>` is a map from index to
value. -/

/-- The slice offset `rank*num_unit/nprocs` that `init` and `calc_gradient` compute. -/
def partition_offset (rank units nprocs : Nat) : Nat := rank * units / nprocs

/-- The slice size `(rank+1)*num_unit/nprocs - rank*num_unit/nprocs` that `init` and
`calc_gradient` compute. -/
def partition_size (rank units nprocs : Nat) : Nat :=
  (rank + 1) * units / nprocs - rank * units / nprocs

namespace BatchNormalize

variable {R : Type}

/-- Lines 102 to 105 of `init` (branch `USE_MPI`): the pair `(offset, my_size)`. -/
def init_slice (self : BatchNormalize R) (rank nprocs : Nat) : Nat × Nat :=
  let my_size := (rank + 1) * self.num_unit / nprocs - rank * self.num_unit / nprocs
  let offset := rank * self.num_unit / nprocs
  (offset, my_size)

/-- Lines 149 to 152 of `calc_gradient` (branch `USE_MPI`): the pair `(my_offset, my_size)`. -/
def calc_gradient_slice (self : BatchNormalize R) (rank nprocs : Nat) : Nat × Nat :=
  let my_size := (rank + 1) * self.prev_num_unit / nprocs - rank * self.prev_num_unit / nprocs
  let my_offset := rank * self.prev_num_unit / nprocs
  (my_offset, my_size)

/-- Lines 445 to 453 of `apply` (branch `USE_MPI`): the vectors `size`, `offset` and the pair
`(my_offset, my_size)` derived from them, as `(my_offset, my_size, size, offset)`. -/
def apply_slice (self : BatchNormalize R) (rank nprocs : Nat) (U : Matrix R) :
    Nat × Nat × (Nat → Nat) × (Nat → Nat) :=
  let vecs := forLoop nprocs (fun i (vecs : (Nat → Nat) × (Nat → Nat)) =>
    (Function.update vecs.1 i
        (((i + 1) * self.num_unit / nprocs - i * self.num_unit / nprocs) * U.n),
     Function.update vecs.2 i (i * self.num_unit / nprocs * U.n)))
    (fun _ => 0, fun _ => 0)
  let size := vecs.1
  let offset := vecs.2
  let my_size := size rank / U.n
  let my_offset := offset rank / U.n
  (my_offset, my_size, size, offset)

/-- Lines 302 to 310 of `calc_delta` (branch `USE_MPI`): as `apply_slice`, from
`prev_num_unit`. -/
def calc_delta_slice (self : BatchNormalize R) (rank nprocs : Nat) (U : Matrix R) :
    Nat × Nat × (Nat → Nat) × (Nat → Nat) :=
  let vecs := forLoop nprocs (fun i (vecs : (Nat → Nat) × (Nat → Nat)) =>
    (Function.update vecs.1 i
        (((i + 1) * self.prev_num_unit / nprocs - i * self.prev_num_unit / nprocs) * U.n),
     Function.update vecs.2 i (i * self.prev_num_unit / nprocs * U.n)))
    (fun _ => 0, fun _ => 0)
  let size := vecs.1
  let offset := vecs.2
  let my_size := size rank / U.n
  let my_offset := offset rank / U.n
  (my_offset, my_size, size, offset)

end BatchNormalize

/-! ### Sub-blocks, tensors and the materialising transpose -/

namespace Matrix

variable {R : Type}

/-- Member `sub ( y, x, h, w ) const` of `Matrix.hpp`: a fresh `h × w` matrix with
`ret(j, i) = (*this)(y + j, x + i)`, the loop over the columns `i` outside. -/
def sub (g : Nat → R) (self : Matrix R) (y x h w : Nat) : Matrix R :=
  let ret := alloc g h w
  forLoop w (fun i ret =>
    forLoop h (fun j ret => ret.set j i (self.get (y + j) (x + i))) ret) ret

/-- Member `sub ( y, x, h, w, mat )` of `Matrix.hpp`: `(*this)(y+j, x+i) = mat(j, i)`, the loop
over the columns `i` outside (the local `ret(h, w)` it allocates is never used). -/
def sub_insert (self : Matrix R) (y x h w : Nat) (mat : Matrix R) : Matrix R :=
  forLoop w (fun i self =>
    forLoop h (fun j self => self.set (y + j) (x + i) (mat.get j i)) self) self

/-- Function `Matrix<T>::to_matrix( tensor )` of `Matrix.hpp`: the matrices of the vector stacked
along the rows, `ret(i*leng + j, k) = tensor[i](j, k)`. -/
def to_matrix [Zero R] (g : Nat → R) (tensor : List (Matrix R)) : Matrix R :=
  let num_map := tensor.length
  let leng := (tensor.getD 0 empty).m
  let ret := alloc g (num_map * leng) (tensor.getD 0 empty).n
  forLoop num_map (fun i ret =>
    forLoop leng (fun j ret =>
      forLoop (tensor.getD i empty).n (fun k ret =>
        ret.set (i * leng + j) k ((tensor.getD i empty).get j k)) ret) ret) ret

/-- Function `Matrix<T>::to_tensor( mat, num_map )` of `Matrix.hpp`: a vector of `num_map`
default-constructed matrices, element `i` then assigned `mat.sub(i*leng, 0, leng, mat.n)` with
`leng = mat.m / num_map`; `g i` is the memory the `i`-th call of `sub` finds. -/
def to_tensor [Zero R] (g : Nat → Nat → R) (mat : Matrix R) (num_map : Nat) :
    List (Matrix R) :=
  let ret := List.replicate num_map empty
  let leng := mat.m / num_map
  forLoop num_map (fun i ret => ret.set i (mat.sub (g i) (i * leng) 0 leng mat.n)) ret

/-- Function `Matrix<T>::transpose( mat )` of `matrix.hpp` (the materialising one): a
value-initialised `n × m` buffer with `ret(i, j) = mat(j, i)`. -/
def transpose_vec [Zero R] (mat : Matrix R) : Matrix R :=
  let m := mat.m
  let n := mat.n
  let ret : Matrix R := ⟨n, m, fun _ => 0⟩
  forLoop n (fun i ret => forLoop m (fun j ret => ret.set i j (mat.get j i)) ret) ret

end Matrix

/-! ### Collectives and the methods of the build with `USE_MPI`

All ranks of the inner group run the same method on the same input; rank `r` finds the memory
`g r` when it allocates. -/

/-- Modelled from the spec: the collective `MPI_Allgatherv` of the MPI library, which the layer
calls and the repository does not contain.  Every rank ends with the complete result: block `r`
of the receive buffer, `recvcounts r` elements at displacement `displs r` from `base`, holds the
first `recvcounts r` elements of the send buffer of rank `r`. -/
def MPI_Allgatherv {R : Type} (nprocs : Nat) (sendbuf : Nat → Nat → R) (recvbuf : Nat → R)
    (base : Nat) (recvcounts displs : Nat → Nat) : Nat → R :=
  forLoop nprocs (fun r recvbuf =>
    forLoop (recvcounts r) (fun e recvbuf =>
      Function.update recvbuf (base + displs r + e) (sendbuf r e)) recvbuf) recvbuf

/-- Modelled from the spec: the collective `MPI_Allreduce` of the MPI library with `MPI_SUM`
on one element, which the layer calls and the repository does not contain.  Every rank ends with
the sum of the contributions of all ranks. -/
def MPI_Allreduce_sum {R : Type} [Zero R] [Add R] (nprocs : Nat) (contrib : Nat → R) : R :=
  forLoop nprocs (fun r sum => sum + contrib r) 0

namespace BatchNormalize

variable {R : Type}

/-- Lines 493 to 507 of `apply` (branch `USE_MPI`): the loop nest writing the entries of the
slice into `tmp_ret`. -/
def apply_tmp_ret [Field R] (ops : RealOps R) (self : BatchNormalize R)
    (my_offset my_size : Nat) (U mean var tmp_ret : Matrix R) : Matrix R :=
  forLoop self.num_map (fun i tmp_ret =>
    forLoop my_size (fun j tmp_ret =>
      forLoop U.n (fun k tmp_ret =>
        tmp_ret.set (i * my_size + j) k
          ((vec0 self.W).get 0 i
              * (U.get (i * self.prev_num_unit + my_offset + j) k - mean.get i j)
              / ops.sqrt (var.get i j + EPS) + (vec0 self.b).get 0 i)) tmp_ret) tmp_ret) tmp_ret

/-- Lines 445 to 507 of `apply` (branch `USE_MPI`), what rank `rank` computes before the
collective: `tmp_ret` and the layer with the statistics of its slice. -/
def apply_local [Field R] (ops : RealOps R) (self : BatchNormalize R) (rank nprocs : Nat)
    (g_stat g_tmp : Nat → R) (U : Matrix R) : Matrix R × BatchNormalize R :=
  let slice := self.apply_slice rank nprocs U
  let my_offset := slice.1
  let my_size := slice.2.1
  let var := Matrix.zeros g_stat self.num_map my_size
  let mean := var
  let tmp_ret := Matrix.alloc g_tmp (self.num_map * my_size) U.n
  let mean := apply_mean self my_offset my_size U mean
  let var := apply_var self my_offset my_size U mean var
  let tmp_ret := apply_tmp_ret ops self my_offset my_size U mean var tmp_ret
  (tmp_ret, ⟨self.prev_num_map, self.num_map, self.prev_num_unit, self.num_unit, self.func,
    self.prev_func, self.W, self.b, mean, var⟩)

/-- Method `apply ( const Matrix<Real>& U, bool use_func )` of the build with `USE_MPI` on rank
`rank`: the local part, then for every channel `i` the all-gather from `&tmp_ret(i*my_size,0)`
into `&ret(i*num_unit,0)` with counts `size` and displacements `offset`, then the activation.
Every `operator ()` is the plain buffer access here (a build without assertions) and the
division by `U.n` is the one of `apply_slice`, right for a batch that is not empty; the trap of
that division and the assertions are in `apply_mpi_ndebug` and `apply_mpi_debug`. -/
def apply_mpi [Field R] (ops : RealOps R) (self : BatchNormalize R) (rank nprocs : Nat)
    (g_stat g_tmp : Nat → Nat → R) (g_ret : Nat → R) (U : Matrix R) (use_func : Bool) :
    Matrix R × BatchNormalize R :=
  let slice := self.apply_slice rank nprocs U
  let size := slice.2.2.1
  let offset := slice.2.2.2
  let ret := Matrix.alloc g_ret (self.num_map * self.num_unit) U.n
  let loc := apply_local ops self rank nprocs (g_stat rank) (g_tmp rank) U
  let ret := forLoop self.num_map (fun i ret =>
    ⟨ret.m, ret.n, MPI_Allgatherv nprocs
      (fun r e =>
        (apply_local ops self r nprocs (g_stat r) (g_tmp r) U).1.v
          (i * (self.apply_slice r nprocs U).2.1
            * (apply_local ops self r nprocs (g_stat r) (g_tmp r) U).1.n + e))
      ret.v (i * self.num_unit * ret.n) size offset⟩) ret
  let ret := if use_func then self.func ret false else ret
  (ret, loc.2)

/-- Lines 149 to 179 of `calc_gradient` (branch `USE_MPI`) for channel `i`: the partial sums
`(tmp_nabla1, tmp_nabla2)` of rank `rank` over its slice, before the collective. -/
def calc_gradient_local [Field R] (ops : RealOps R) (self : BatchNormalize R)
    (rank nprocs : Nat) (U delta : Matrix R) (i : Nat) : R × R :=
  let slice := self.calc_gradient_slice rank nprocs
  let my_offset := slice.1
  let my_size := slice.2
  let U_apply := self.prev_func U false
  let tmp_nabla1 := forLoop my_size (fun j tmp_nabla1 =>
    forLoop U.n (fun k tmp_nabla1 =>
      tmp_nabla1 + delta.get (i * self.num_unit + my_offset + j) k
        * (U_apply.get (i * self.prev_num_unit + my_offset + j) k - self.mean.get i j)
        / ops.sqrt (self.var.get i j + EPS)) tmp_nabla1) 0
  let tmp_nabla2 := forLoop my_size (fun j tmp_nabla2 =>
    forLoop U.n (fun k tmp_nabla2 =>
      tmp_nabla2 + delta.get (i * self.num_unit + my_offset + j) k) tmp_nabla2) 0
  (tmp_nabla1, tmp_nabla2)

/-- Method `calc_gradient ( U, delta )` of the build with `USE_MPI` on rank `rank`; `selfs r` is
the layer object of rank `r`.  Each partial sum is replaced by its all-reduce before it is
stored. -/
def calc_gradient_mpi [Field R] (ops : RealOps R) (selfs : Nat → BatchNormalize R)
    (rank nprocs : Nat) (gW gb : Nat → R) (U delta : Matrix R) :
    List (Matrix R) × List (Matrix R) :=
  let self := selfs rank
  let nabla_W := [Matrix.alloc gW 1 self.num_map]
  let nabla_b := [Matrix.alloc gb 1 self.num_map]
  forLoop self.num_map (fun i (nabla : List (Matrix R) × List (Matrix R)) =>
    let tmp_nabla1 := MPI_Allreduce_sum nprocs
      (fun r => (calc_gradient_local ops (selfs r) r nprocs U delta i).1)
    let tmp_nabla2 := MPI_Allreduce_sum nprocs
      (fun r => (calc_gradient_local ops (selfs r) r nprocs U delta i).2)
    (nabla.1.set 0 ((vec0 nabla.1).set 0 i tmp_nabla1),
     nabla.2.set 0 ((vec0 nabla.2).set 0 i tmp_nabla2))) (nabla_W, nabla_b)

/-- Lines 651 to 661 of `param_mix`: the vector `w` holding row `0` of `W[0]` followed by row `0`
of `b[0]`, before the collective. -/
def param_mix_w [Zero R] (self : BatchNormalize R) : Nat → R :=
  let tmp := (vec0 self.W).n
  let w : Nat → R := fun _ => 0
  let tmp_W := vec0 self.W
  let w := forLoop tmp_W.n (fun i w => Function.update w i (tmp_W.get 0 i)) w
  let tmp_b := vec0 self.b
  forLoop tmp_b.n (fun i w => Function.update w (tmp + i) (tmp_b.get 0 i)) w

/-- Method `param_mix ()` (build with `USE_MPI`) on rank `rank` of an outer group of `nprocs`
workers; `selfs r` is the layer object of rank `r`.  The all-reduce over the `cnt` elements of
`w` is the element-wise sum over the group. -/
def param_mix [Field R] (selfs : Nat → BatchNormalize R) (rank nprocs : Nat) :
    BatchNormalize R :=
  let self := selfs rank
  if self.W.length = 0 then self
  else
    let cnt := (vec0 self.W).n + (vec0 self.b).n
    let tmp := (vec0 self.W).n
    let w := param_mix_w self
    let w : Nat → R := fun e =>
      if e < cnt then MPI_Allreduce_sum nprocs (fun r => param_mix_w (selfs r) e) else w e
    let tmp_W := vec0 self.W
    let tmp_W := forLoop tmp_W.n (fun i tmp_W => tmp_W.set 0 i (w i / (nprocs : R))) tmp_W
    let W := self.W.set 0 tmp_W
    let tmp_b := vec0 self.b
    let tmp_b := forLoop tmp_b.n (fun i tmp_b => tmp_b.set 0 i (w (tmp + i) / (nprocs : R)))
      tmp_b
    let b := self.b.set 0 tmp_b
    ⟨self.prev_num_map, self.num_map, self.prev_num_unit, self.num_unit, self.func,
      self.prev_func, W, b, self.mean, self.var⟩

end BatchNormalize

/-! ### Debug build: the assertions of `Matrix.hpp`

An `assert` whose condition is false aborts the process: the call has no result (`none`). -/

/-- Counted loop whose body can abort: the loop stops at the first iteration without result. -/
def forLoopM {σ : Type} (n : Nat) (body : Nat → σ → Option σ) (s : σ) : Option σ :=
  match n with
  | 0 => some s
  | k + 1 => (forLoopM k body s).bind (body k)

namespace Matrix

variable {R : Type}

/-- Member `operator () ( int i, int j )` of `Matrix.hpp` (both the `const` and the mutable one)
in a build with assertions: `assert( 0 <= i && i < m ); assert( 0 <= j && j < n );` and then the
reference `v[i*n + j]`, given here by its position in the buffer. -/
def operator_call (self : Matrix R) (i j : Int) : Option Int :=
  if 0 ≤ i ∧ i < (self.m : Int) then
    if 0 ≤ j ∧ j < (self.n : Int) then some (i * (self.n : Int) + j)
    else none
  else none

/-- Reading `A(i,j)` in a build with assertions. -/
def read (self : Matrix R) (i j : Int) : Option R :=
  (self.operator_call i j).map (fun p => self.v p.toNat)

/-- Writing `A(i,j) = x` in a build with assertions. -/
def write (self : Matrix R) (i j : Int) (x : R) : Option (Matrix R) :=
  (self.operator_call i j).map (fun p => ⟨self.m, self.n, Function.update self.v p.toNat x⟩)

/-- Free function `operator * ( const Matrix<double>& m1, const Matrix<double>& m2 )` of
`Matrix.hpp` on the naive path in a build with assertions: the function itself asserts nothing
about the shapes; every `m1(i,k)`, `m2(k,j)` and `ret(i,j)` goes through `operator ()`. -/
def operator_mul_debug [Zero R] [Add R] [Mul R] (g : Nat → R) (m1 m2 : Matrix R) :
    Option (Matrix R) :=
  let m := m1.m
  let n := m2.n
  let l := m1.n
  let ret := alloc g m n
  forLoopM m (fun i ret =>
    forLoopM n (fun j ret =>
      (forLoopM l (fun k sum =>
        (m1.read i k).bind (fun a => (m2.read k j).bind (fun b => some (sum + a * b)))) 0).bind
        (fun sum => ret.write i j sum)) ret) ret

/-- Friend `operator + ( const Matrix<T>& m1, const Matrix<T>& m2 )` of `Matrix.hpp`: the shape is
taken from `m1`, then `ret.v[i] = m1.v[i] + m2.v[i]` for `i < m*n`.  There is no `assert`, and the
buffers are indexed directly. -/
def operator_add [Add R] (g : Nat → R) (m1 m2 : Matrix R) : Matrix R :=
  let m := m1.m
  let n := m1.n
  let ret := alloc g m n
  forLoop (m * n) (fun i ret => ⟨ret.m, ret.n, Function.update ret.v i (m1.v i + m2.v i)⟩) ret

/-- Friend binary `operator - ( const Matrix<T>& m1, const Matrix<T>& m2 )` of `Matrix.hpp`. -/
def operator_sub [Sub R] (g : Nat → R) (m1 m2 : Matrix R) : Matrix R :=
  let m := m1.m
  let n := m1.n
  let ret := alloc g m n
  forLoop (m * n) (fun i ret => ⟨ret.m, ret.n, Function.update ret.v i (m1.v i - m2.v i)⟩) ret

/-- Member `operator -= ( const Matrix<T>& m1 )` of `Matrix.hpp`: with `m`, `n` taken from the
argument, `this->v[i] -= m1.v[i]` for `i < m*n`. -/
def operator_sub_assign [Sub R] (self m1 : Matrix R) : Matrix R :=
  let m := m1.m
  let n := m1.n
  forLoop (m * n) (fun i self => ⟨self.m, self.n, Function.update self.v i (self.v i - m1.v i)⟩)
    self

/-- Static `Matrix<T>::hadamard ( m1, m2 )` of `Matrix.hpp`: the shape is taken from `m1`, then
`ret.v[i] = m1.v[i]*m2.v[i]` for `i < m*n`; no `assert`. -/
def hadamard [Mul R] (g : Nat → R) (m1 m2 : Matrix R) : Matrix R :=
  let m := m1.m
  let n := m1.n
  let ret := alloc g m n
  forLoop (m * n) (fun i ret => ⟨ret.m, ret.n, Function.update ret.v i (m1.v i * m2.v i)⟩) ret

/-- Member `hadamard ( const Matrix<T>& A )` of `Matrix.hpp`:
`assert( this->m == A.m && this->n == A.n );` and then `this->v[i] *= A.v[i]` for `i < m*n`. -/
def hadamard_member [Mul R] (self A : Matrix R) : Option (Matrix R) :=
  let m := self.m
  let n := self.n
  if self.m = A.m ∧ self.n = A.n then
    some (forLoop (m * n)
      (fun i self => ⟨self.m, self.n, Function.update self.v i (self.v i * A.v i)⟩) self)
  else none

end Matrix

/-! ### The counter `cnt_flop`

`long long cnt_flop = 0;` is a global of `Matrix.hpp`; a function that touches it ends with one
`cnt_flop += ...;`.  The value of the counter after a call is given as a function of its value
before the call and of the operands; the products are formed in `long long`, the factor
`2*l-1` in `int`. -/

namespace Matrix

variable {R : Type}

/-- The value an `int` expression takes when its value in the integers is `z`: `z` reduced to
the range of 32-bit two's complement.  Signed overflow is undefined in C++; the reduced value is
what the usual compilers compute. -/
def int_wrap (z : Int) : Int := (z + 2 ^ 31) % 2 ^ 32 - 2 ^ 31

/-- Counter after `operator *` (all overloads) and after `mult` (all overloads):
`cnt_flop += (long long)m*n*(2*l-1);` with `m`, `n`, `l` the locals of the function; the factor
`2*l-1` is formed in `int` before it is converted for the product. -/
def cnt_flop_gemm (m n l : Nat) (cnt_flop : Int) : Int :=
  cnt_flop + (m : Int) * (n : Int) * int_wrap (2 * (l : Int) - 1)

/-- Counter after `operator * ( m1, m2 )`: `m = m1.m, n = m2.n, l = m1.n`. -/
def operator_mul_cnt_flop (m1 m2 : Matrix R) (cnt_flop : Int) : Int :=
  cnt_flop_gemm m1.m m2.n m1.n cnt_flop

/-- Counter after `A.mult( alpha, B, beta, C )` when the three `assert`s pass:
`m = this->m, n = B.n, l = this->n`. -/
def mult_cnt_flop (self B C : Matrix R) (cnt_flop : Int) : Option Int :=
  if self.n = B.m ∧ self.m = C.m ∧ B.n = C.n then some (cnt_flop_gemm self.m B.n self.n cnt_flop)
  else none

/-- Counter after the friends `operator +`, binary and unary `operator -`, `operator * ( c, m1 )`
and the members `operator +=`, `operator -=` with operand `m1`: `cnt_flop += (long long)m*n;` with
`m = m1.m, n = m1.n`; the same for `operator *= ( c )` and `operator /= ( c )` on `*this`. -/
def elementwise_cnt_flop (m1 : Matrix R) (cnt_flop : Int) : Int :=
  cnt_flop + (m1.m : Int) * (m1.n : Int)

end Matrix

/-! ### The buffer as an allocation

For the claims about the length of the buffer the struct of `Matrix.hpp` is embedded with its
member `mem_size` and with `v` as a pointer to an array of known length: `none` is `NULL`,
`some xs` an array of `xs.length` elements obtained from `new T[xs.length]`.  Dimensions are
natural numbers.  Reading outside an array gives `0`, writing outside has no effect. -/

namespace Heap

/-- The struct `Matrix<T>` of `Matrix.hpp`: `int m, n; long long mem_size; T* v;`. -/
structure Matrix (R : Type) where
  m : Nat
  n : Nat
  mem_size : Nat
  v : Option (List R)

/-- Expression `new T[k]`: an array of `k` elements with the contents `g` found in memory. -/
def new {R : Type} (g : Nat → R) (k : Nat) : Option (List R) := some ((List.range k).map g)

/-- The value of the `int` product `a*b` of two non-negative `int` values: the product reduced
to the range of 32-bit two's complement.  Signed overflow is undefined in C++; the reduced
product is what the usual compilers compute. -/
def int_mul (a b : Nat) : Int := (((a * b : Nat) : Int) + 2 ^ 31) % 2 ^ 32 - 2 ^ 31

/-- Expression `new T[k]` with an `int` count `k`: a negative count makes `new` throw (`none`),
otherwise the result points to an array of `k` elements. -/
def new_int {R : Type} (g : Nat → R) (k : Int) : Option (Option (List R)) :=
  if k < 0 then none else some (new g k.toNat)

/-- Number of elements of the array `v` points to (`0` for `NULL`). -/
def length {R : Type} (v : Option (List R)) : Nat :=
  match v with
  | none => 0
  | some xs => xs.length

/-- Reading `v[i]`. -/
def rd {R : Type} [Zero R] (v : Option (List R)) (i : Nat) : R :=
  match v with
  | none => 0
  | some xs => xs.getD i 0

/-- Writing `v[i] = x`. -/
def wr {R : Type} (v : Option (List R)) (i : Nat) (x : R) : Option (List R) :=
  v.map (fun xs => xs.set i x)

namespace Matrix

variable {R : Type}

/-- Reading `A(i,j)`, that is `v[i*n + j]`. -/
def get [Zero R] (A : Matrix R) (i j : Nat) : R := rd A.v (i * A.n + j)

/-- Writing `A(i,j) = x`, that is `v[i*n + j] = x`. -/
def set (A : Matrix R) (i j : Nat) (x : R) : Matrix R :=
  ⟨A.m, A.n, A.mem_size, wr A.v (i * A.n + j) x⟩

/-- Writing `A.v[i] = x`. -/
def setv (A : Matrix R) (i : Nat) (x : R) : Matrix R := ⟨A.m, A.n, A.mem_size, wr A.v i x⟩

/-- Constructor `Matrix(): m(0), n(0), v(NULL), mem_size(0)`. -/
def ctor_default : Matrix R := ⟨0, 0, 0, none⟩

/-- Constructor `Matrix( m, n ) : m(m), n(n), mem_size((long long)m*n)` with `v = new T[m*n];`:
`mem_size` is the product in `long long`, the count of `new` is the product in `int`. -/
def ctor (g : Nat → R) (m n : Nat) : Option (Matrix R) :=
  (new_int g (int_mul m n)).map (fun v => ⟨m, n, m * n, v⟩)

/-- Constructor `Matrix( const std::vector<T>& v ) : m(v.size()), n(1), mem_size((long long)m*n)`
with `this->v = new T[m*n]; for( int i = 0; i < m; ++i ) this->v[i] = v[i];`. -/
def ctor_vector [Zero R] (g : Nat → R) (v : List R) : Option (Matrix R) :=
  let m := v.length
  let n := 1
  (new_int g (int_mul m n)).map (fun p =>
    let self : Matrix R := ⟨m, n, m * n, p⟩
    forLoop m (fun i self => self.setv i (v.getD i 0)) self)

/-- Copy constructor `Matrix( const Matrix<T>& mat )`; the bound `m*n` of its loop is the
product in `int`. -/
def ctor_copy [Zero R] (g : Nat → R) (mat : Matrix R) : Option (Matrix R) :=
  let m := mat.m
  let n := mat.n
  let mem_size := m * n
  if m = 0 ∨ n = 0 then some ⟨m, n, mem_size, none⟩
  else
    (new_int g (int_mul m n)).map (fun p =>
      let self : Matrix R := ⟨m, n, mem_size, p⟩
      forLoop (int_mul m n).toNat (fun i self => self.setv i (rd mat.v i)) self)

/-- Assignment `operator = ( const Matrix& mat )`: the old array is deleted, then as in the copy
constructor (with the early `return *this` for an empty `mat`). -/
def operator_assign [Zero R] (g : Nat → R) (self mat : Matrix R) : Option (Matrix R) :=
  let m := mat.m
  let n := mat.n
  let mem_size := m * n
  if m = 0 ∨ n = 0 then some ⟨m, n, mem_size, none⟩
  else
    (new_int g (int_mul m n)).map (fun p =>
      let self : Matrix R := ⟨m, n, mem_size, p⟩
      forLoop (int_mul m n).toNat (fun i self => self.setv i (rd mat.v i)) self)

/-- Member `reshape ( int m, int n )`: `assert( (long long)m*n <= mem_size );` and then
`this->m = m; this->n = n;`.  Neither `v` nor `mem_size` is touched.  With `NDEBUG` defined
(`ndebug`) the assertion is compiled out. -/
def reshape (ndebug : Bool) (self : Matrix R) (m n : Nat) : Option (Matrix R) :=
  if ndebug = true ∨ m * n ≤ self.mem_size then some ⟨m, n, self.mem_size, self.v⟩ else none

/-- Member `sub ( y, x, h, w ) const`, the extraction of a block. -/
def sub [Zero R] (g : Nat → R) (self : Matrix R) (y x h w : Nat) : Option (Matrix R) :=
  (ctor g h w).map (fun ret =>
    forLoop w (fun i ret =>
      forLoop h (fun j ret => ret.set j i (self.get (y + j) (x + i))) ret) ret)

/-- Member `sub ( y, x, h, w, mat )`, the insertion of a block; the local `Matrix<T> ret(h, w)`
is allocated and destroyed without being used. -/
def sub_insert [Zero R] (g : Nat → R) (self : Matrix R) (y x h w : Nat) (mat : Matrix R) :
    Option (Matrix R) :=
  (ctor g h w).map (fun _ =>
    forLoop w (fun i self =>
      forLoop h (fun j self => self.set (y + j) (x + i) (mat.get j i)) self) self)

/-- Friend `operator + ( m1, m2 )`. -/
def operator_add [Zero R] [Add R] (g : Nat → R) (m1 m2 : Matrix R) : Option (Matrix R) :=
  let m := m1.m
  let n := m1.n
  (ctor g m n).map (fun ret =>
    forLoop (int_mul m n).toNat (fun i ret => ret.setv i (rd m1.v i + rd m2.v i)) ret)

/-- Friend binary `operator - ( m1, m2 )`. -/
def operator_sub [Zero R] [Sub R] (g : Nat → R) (m1 m2 : Matrix R) : Option (Matrix R) :=
  let m := m1.m
  let n := m1.n
  (ctor g m n).map (fun ret =>
    forLoop (int_mul m n).toNat (fun i ret => ret.setv i (rd m1.v i - rd m2.v i)) ret)

/-- Friend unary `operator - ( m1 )`. -/
def operator_neg [Zero R] [Neg R] (g : Nat → R) (m1 : Matrix R) : Option (Matrix R) :=
  let m := m1.m
  let n := m1.n
  (ctor g m n).map (fun ret =>
    forLoop (int_mul m n).toNat (fun i ret => ret.setv i (- rd m1.v i)) ret)

/-- Friend `operator * ( const T& c, const Matrix<T>& m1 )`. -/
def operator_smul [Zero R] [Mul R] (g : Nat → R) (c : R) (m1 : Matrix R) : Option (Matrix R) :=
  let m := m1.m
  let n := m1.n
  (ctor g m n).map (fun ret =>
    forLoop (int_mul m n).toNat (fun i ret => ret.setv i (c * rd m1.v i)) ret)

/-- Friend `operator * ( const Matrix<T>& m1, const T& c )`: `return c*m1;`. -/
def operator_mul_scalar [Zero R] [Mul R] (g : Nat → R) (m1 : Matrix R) (c : R) :
    Option (Matrix R) :=
  operator_smul g c m1

/-- Friend `operator / ( const Matrix<T>& m1, const T& c )`: `return (1.0/c)*m1;`. -/
def operator_div_scalar [Zero R] [One R] [Mul R] [Div R] (g : Nat → R) (m1 : Matrix R) (c : R) :
    Option (Matrix R) :=
  operator_smul g (1 / c) m1

/-- Free function `operator * ( m1, m2 )` on the naive path. -/
def operator_mul [Zero R] [Add R] [Mul R] (g : Nat → R) (m1 m2 : Matrix R) :
    Option (Matrix R) :=
  let m := m1.m
  let n := m2.n
  let l := m1.n
  (ctor g m n).map (fun ret =>
    forLoop m (fun i ret =>
      forLoop n (fun j ret =>
        let sum := forLoop l (fun k sum => sum + m1.get i k * m2.get k j) 0
        ret.set i j sum) ret) ret)

/-- Member `operator += ( m1 )`. -/
def operator_add_assign [Zero R] [Add R] (self m1 : Matrix R) : Matrix R :=
  let m := m1.m
  let n := m1.n
  forLoop (int_mul m n).toNat (fun i self => self.setv i (rd self.v i + rd m1.v i)) self

/-- Member `operator -= ( m1 )`. -/
def operator_sub_assign [Zero R] [Sub R] (self m1 : Matrix R) : Matrix R :=
  let m := m1.m
  let n := m1.n
  forLoop (int_mul m n).toNat (fun i self => self.setv i (rd self.v i - rd m1.v i)) self

/-- Member `operator *= ( const Matrix<T>& m1 )`: `*this = *this*m1;`, a product into a
temporary followed by an assignment. -/
def operator_mul_assign [Zero R] [Add R] [Mul R] (g g' : Nat → R) (self m1 : Matrix R) :
    Option (Matrix R) :=
  (operator_mul g self m1).bind (fun p => operator_assign g' self p)

/-- Member `operator *= ( const T& c )`. -/
def operator_mul_assign_scalar [Zero R] [Mul R] (self : Matrix R) (c : R) : Matrix R :=
  forLoop (int_mul self.m self.n).toNat (fun i self => self.setv i (rd self.v i * c)) self

/-- Member `operator /= ( const T& c )`. -/
def operator_div_assign [Zero R] [Div R] (self : Matrix R) (c : R) : Matrix R :=
  forLoop (int_mul self.m self.n).toNat (fun i self => self.setv i (rd self.v i / c)) self

/-- The invariant of the claim: the array `v` points to has `m * n` elements. -/
def Exact (A : Matrix R) : Prop := length A.v = A.m * A.n

/-- The invariant the operations keep: `mem_size` is the number of elements of the array and the
shape fits into it. -/
def Fits (A : Matrix R) : Prop := length A.v = A.mem_size ∧ A.m * A.n ≤ A.mem_size

/-- The call returns (no exception, no failed assertion) and its result satisfies `P`. -/
def Returns (r : Option (Matrix R)) (P : Matrix R → Prop) : Prop := ∃ M, r = some M ∧ P M

end Matrix

end Heap

/-- Matrix `B` has the shape, the `mem_size` and the array length of `A`. -/
def Heap.Matrix.Same {R : Type} (A B : Heap.Matrix R) : Prop :=
  B.m = A.m ∧ B.n = A.n ∧ B.mem_size = A.mem_size ∧ Heap.length B.v = Heap.length A.v

/-! ### The transposed view and the build with `USE_BLAS` -/

/-- Modelled from the spec: the struct `tMatrix<T>` of `tMatrix.hpp`, a file `Matrix.hpp` includes
and the sources do not contain.  It is the transposed view of the spec: logical rows `m`, logical
columns `n` and a reference `mat` to the matrix viewed, which it neither owns nor changes. -/
structure tMatrix (R : Type) where
  m : Nat
  n : Nat
  mat : Matrix R

/-- Modelled from the spec: `operator () ( i, j )` of the missing `tMatrix<T>`: element `(i, j)`
of the view is element `(j, i)` of the matrix viewed. -/
def tMatrix.get {R : Type} (self : tMatrix R) (i j : Nat) : R := self.mat.get j i

/-- Static `Matrix<T>::transpose ( mat )` of `Matrix.hpp`: `return tMatrix<T>(&mat);`.  The
constructor of the missing `tMatrix<T>` is modelled from the spec: the logical shape of the view
of an `m × n` matrix is `n × m`. -/
def Matrix.transpose {R : Type} (mat : Matrix R) : tMatrix R := ⟨mat.n, mat.m, mat⟩

/-- Modelled from the spec: the routines `dgemm_` / `sgemm_` declared `extern "C"` in
`Matrix.hpp`, the standard column-major routine of BLAS:
`C := alpha*op(A)*op(B) + beta*C` with `op(A)` of shape `m × k`, `op(B)` of shape `k × n`,
`C` of shape `m × n`, element `(i, j)` of a stored matrix with leading dimension `ld` at position
`i + j*ld`, and `op(X) = X` for the flag `'N'`, the transpose of `X` for `'T'`. -/
def gemm {R : Type} [Zero R] [Add R] [Mul R] (transa transb : Char) (m n k : Nat) (alpha : R)
    (A : Nat → R) (lda : Nat) (B : Nat → R) (ldb : Nat) (beta : R) (C : Nat → R) (ldc : Nat) :
    Nat → R :=
  forLoop n (fun j C =>
    forLoop m (fun i C =>
      let temp := forLoop k (fun l temp =>
        temp + (if transa = 'N' then A (i + l * lda) else A (l + i * lda))
          * (if transb = 'N' then B (l + j * ldb) else B (j + l * ldb))) 0
      Function.update C (i + j * ldc) (alpha * temp + beta * C (i + j * ldc))) C) C

/-- What a multiply of the build with `USE_BLAS` does to the outside: an expression `&X(0,0)`
taking the address of the first element of operand number `operand` (in the order of the
arguments of the vendor call), and the vendor call with its flags, dimensions and leading
dimensions. -/
inductive Effect where
  | address (operand : Nat)
  | gemm (transa transb : Char) (m n k lda ldb ldc : Nat)
  deriving DecidableEq

/-- Whether the effect is the vendor call. -/
def Effect.isGemm : Effect → Bool
  | Effect.address _ => false
  | Effect.gemm _ _ _ _ _ _ _ _ => true

/-- Whether the vendor routine is invoked in a list of effects. -/
def invoked (effects : List Effect) : Bool := effects.any Effect.isGemm

namespace Matrix

variable {R : Type}

/-- Free function `operator * ( const Matrix<double>& m1, const tMatrix<double>& m2 )` of
`Matrix.hpp` on the naive path (the `float` overload has the same body). -/
def operator_mul_t [Zero R] [Add R] [Mul R] (g : Nat → R) (m1 : Matrix R) (m2 : tMatrix R) :
    Matrix R :=
  let m := m1.m
  let n := m2.n
  let l := m1.n
  let ret := alloc g m n
  forLoop m (fun i ret =>
    forLoop n (fun j ret =>
      let sum := forLoop l (fun k sum => sum + m1.get i k * m2.get k j) 0
      ret.set i j sum) ret) ret

/-- Free function `operator * ( const Matrix<double>& m1, const Matrix<double>& m2 )` in the
build with `USE_BLAS`: the result and the effects of the call.  In this and the following
functions `&X(0,0)` is the start of the buffer of `X`; the bounds `assert`s of `operator ()` in
it are not modelled (for operands of matching shapes `(0, 0)` is in range inside the guard). -/
def operator_mul_blas [Zero R] [One R] [Add R] [Mul R] (g : Nat → R) (m1 m2 : Matrix R) :
    Matrix R × List Effect :=
  let m := m1.m
  let n := m2.n
  let l := m1.n
  let ret := alloc g m n
  if m ≠ 0 ∧ n ≠ 0 ∧ l ≠ 0 then
    (⟨ret.m, ret.n, gemm 'N' 'N' n m l 1 m2.v n m1.v l 0 ret.v n⟩,
      [Effect.address 0, Effect.address 1, Effect.address 2, Effect.gemm 'N' 'N' n m l n l n])
  else (ret, [])

/-- Free function `operator * ( const Matrix<double>& m1, const tMatrix<double>& m2 )` in the
build with `USE_BLAS`; `&m2(0,0)` is the start of the buffer of the matrix viewed. -/
def operator_mul_t_blas [Zero R] [One R] [Add R] [Mul R] (g : Nat → R) (m1 : Matrix R)
    (m2 : tMatrix R) : Matrix R × List Effect :=
  let m := m1.m
  let n := m2.n
  let l := m1.n
  let ret := alloc g m n
  let k := m2.m
  if m ≠ 0 ∧ n ≠ 0 ∧ l ≠ 0 then
    (⟨ret.m, ret.n, gemm 'T' 'N' n m l 1 m2.mat.v k m1.v l 0 ret.v n⟩,
      [Effect.address 0, Effect.address 1, Effect.address 2, Effect.gemm 'T' 'N' n m l k l n])
  else (ret, [])

/-- Specialisation `Matrix<T>::mult ( alpha, const Matrix<T>& B, beta, C )` in the build with
`USE_BLAS` (`float` and `double` have the same body): the three `assert`s, then the guarded
vendor call on the buffer of `C`.  With `NDEBUG` defined (`ndebug = true`) the `assert`s are
compiled out. -/
def mult_blas [Zero R] [Add R] [Mul R] (ndebug : Bool) (self : Matrix R) (alpha : R)
    (B : Matrix R) (beta : R) (C : Matrix R) : Option (Matrix R × List Effect) :=
  let m := self.m
  let n := B.n
  let l := self.n
  if ndebug = true ∨ (self.n = B.m ∧ m = C.m ∧ n = C.n) then
    if m ≠ 0 ∧ n ≠ 0 ∧ l ≠ 0 then
      some (⟨C.m, C.n, gemm 'N' 'N' n m l alpha B.v n self.v l beta C.v n⟩,
        [Effect.address 0, Effect.address 1, Effect.address 2, Effect.gemm 'N' 'N' n m l n l n])
    else some (C, [])
  else none

/-- Specialisation `Matrix<T>::mult ( alpha, const tMatrix<T>& B, beta, C )` in the build with
`USE_BLAS`. -/
def mult_t_blas [Zero R] [Add R] [Mul R] (ndebug : Bool) (self : Matrix R) (alpha : R)
    (B : tMatrix R) (beta : R) (C : Matrix R) : Option (Matrix R × List Effect) :=
  let m := self.m
  let n := B.n
  let l := self.n
  if ndebug = true ∨ (self.n = B.m ∧ m = C.m ∧ n = C.n) then
    let k := B.m
    if m ≠ 0 ∧ n ≠ 0 ∧ l ≠ 0 then
      some (⟨C.m, C.n, gemm 'T' 'N' n m l alpha B.mat.v k self.v l beta C.v n⟩,
        [Effect.address 0, Effect.address 1, Effect.address 2, Effect.gemm 'T' 'N' n m l k l n])
    else some (C, [])
  else none

end Matrix

namespace tMatrix

variable {R : Type}

/-- Free function `operator * ( const tMatrix<double>& m1, const Matrix<double>& m2 )` of
`Matrix.hpp` on the naive path. -/
def operator_mul [Zero R] [Add R] [Mul R] (g : Nat → R) (m1 : tMatrix R) (m2 : Matrix R) :
    Matrix R :=
  let m := m1.m
  let n := m2.n
  let l := m1.n
  let ret := Matrix.alloc g m n
  forLoop m (fun i ret =>
    forLoop n (fun j ret =>
      let sum := forLoop l (fun k sum => sum + m1.get i k * m2.get k j) 0
      ret.set i j sum) ret) ret

/-- Free function `operator * ( const tMatrix<double>& m1, const tMatrix<double>& m2 )` of
`Matrix.hpp` on the naive path. -/
def operator_mul_t [Zero R] [Add R] [Mul R] (g : Nat → R) (m1 m2 : tMatrix R) : Matrix R :=
  let m := m1.m
  let n := m2.n
  let l := m1.n
  let ret := Matrix.alloc g m n
  forLoop m (fun i ret =>
    forLoop n (fun j ret =>
      let sum := forLoop l (fun k sum => sum + m1.get i k * m2.get k j) 0
      ret.set i j sum) ret) ret

/-- Free function `operator * ( const tMatrix<double>& m1, const Matrix<double>& m2 )` in the
build with `USE_BLAS`. -/
def operator_mul_blas [Zero R] [One R] [Add R] [Mul R] (g : Nat → R) (m1 : tMatrix R)
    (m2 : Matrix R) : Matrix R × List Effect :=
  let m := m1.m
  let n := m2.n
  let l := m1.n
  let ret := Matrix.alloc g m n
  if m ≠ 0 ∧ n ≠ 0 ∧ l ≠ 0 then
    (⟨ret.m, ret.n, gemm 'N' 'T' n m l 1 m2.v n m1.mat.v m 0 ret.v n⟩,
      [Effect.address 0, Effect.address 1, Effect.address 2, Effect.gemm 'N' 'T' n m l n m n])
  else (ret, [])

/-- Free function `operator * ( const tMatrix<double>& m1, const tMatrix<double>& m2 )` in the
build with `USE_BLAS`: the call is
`dgemm_(&transA, &transB, &m, &n, &l, &ONE, &m1(0,0), &l, &m2(0,0), &n, &ZERO, &ret(0,0), &m)`
with both flags `'T'`. -/
def operator_mul_t_blas [Zero R] [One R] [Add R] [Mul R] (g : Nat → R) (m1 m2 : tMatrix R) :
    Matrix R × List Effect :=
  let m := m1.m
  let n := m2.n
  let l := m1.n
  let ret := Matrix.alloc g m n
  if m ≠ 0 ∧ n ≠ 0 ∧ l ≠ 0 then
    (⟨ret.m, ret.n, gemm 'T' 'T' m n l 1 m1.mat.v l m2.mat.v n 0 ret.v m⟩,
      [Effect.address 0, Effect.address 1, Effect.address 2, Effect.gemm 'T' 'T' m n l l n m])
  else (ret, [])

/-- Specialisation `tMatrix<T>::mult ( alpha, const Matrix<T>& B, beta, C )` in the build with
`USE_BLAS`. -/
def mult_blas [Zero R] [Add R] [Mul R] (ndebug : Bool) (self : tMatrix R) (alpha : R)
    (B : Matrix R) (beta : R) (C : Matrix R) : Option (Matrix R × List Effect) :=
  let m := self.m
  let n := B.n
  let l := self.n
  if ndebug = true ∨ (self.n = B.m ∧ m = C.m ∧ n = C.n) then
    if m ≠ 0 ∧ n ≠ 0 ∧ l ≠ 0 then
      some (⟨C.m, C.n, gemm 'N' 'T' n m l alpha B.v n self.mat.v m beta C.v n⟩,
        [Effect.address 0, Effect.address 1, Effect.address 2, Effect.gemm 'N' 'T' n m l n m n])
    else some (C, [])
  else none

/-- Specialisation `tMatrix<T>::mult ( alpha, const tMatrix<T>& B, beta, C )` in the build with
`USE_BLAS`: the call is
`dgemm_(&transA, &transB, &n, &m, &l, &alpha, &B(0,0), &k, &(*this)(0,0), &m, &beta, &C(0,0), &n)`
with `k = B.m` and both flags `'T'`. -/
def mult_t_blas [Zero R] [Add R] [Mul R] (ndebug : Bool) (self : tMatrix R) (alpha : R)
    (B : tMatrix R) (beta : R) (C : Matrix R) : Option (Matrix R × List Effect) :=
  let m := self.m
  let n := B.n
  let l := self.n
  if ndebug = true ∨ (self.n = B.m ∧ m = C.m ∧ n = C.n) then
    let k := B.m
    if m ≠ 0 ∧ n ≠ 0 ∧ l ≠ 0 then
      some (⟨C.m, C.n, gemm 'T' 'T' n m l alpha B.mat.v k self.mat.v m beta C.v n⟩,
        [Effect.address 0, Effect.address 1, Effect.address 2, Effect.gemm 'T' 'T' n m l k m n])
    else some (C, [])
  else none

end tMatrix

/-- A multiply with locals `m`, `n`, `l` that returned `r` (result and effects) short-circuits on
zero-sized operands: the vendor routine is invoked if and only if `m ≠ 0`, `n ≠ 0` and `l ≠ 0`,
and when one of them is zero there is no effect at all (no address taken, no vendor call) and the
result is `ret` as it was. -/
def ShortCircuits {R : Type} (m n l : Nat) (ret : Matrix R) (r : Matrix R × List Effect) :
    Prop :=
  (invoked r.2 = true ↔ (m ≠ 0 ∧ n ≠ 0 ∧ l ≠ 0)) ∧ ((m = 0 ∨ n = 0 ∨ l = 0) → r = (ret, []))

/-! ### Pooling

The class `Pooling` of `Pooling.hpp`.  Its base `Layer` and the type `Mat` are declared in
`Layer.hpp`, which is not among the sources: the members of the base that `apply` uses are
fields of the structure; `Mat` is a matrix with the row-major `operator () ( i, j )` and the
members `m`, `n` that `Matrix.hpp` and `matrix.hpp` both have, and a fresh `Mat( rows, cols )`
takes its initial contents as an argument (whether they are zero or left as found).  The indices
kept in `S` are stored as values of the scalar type. -/

/-- Loop `for( y = y0; y < bound; y += step ) body` threading a state: `fuel` bounds the number
of iterations, and `bound` of them are enough when `step ≥ 1` (with `step = 0` and `y0 < bound`
the loop of the source does not end). -/
def forStep {σ : Type} (fuel y bound step : Nat) (body : Nat → σ → σ) (s : σ) : σ :=
  match fuel with
  | 0 => s
  | fuel + 1 => if y < bound then forStep fuel (y + step) bound step body (body y s) else s

/-- The class `Pooling` with the members of `Layer` it uses. -/
structure Pooling (R : Type) where
  prev_num_map : Nat
  prev_num_unit : Nat
  prev_ldu : Nat
  num_map : Nat
  num_unit : Nat
  ldu : Nat
  m : Nat
  n : Nat
  stlide : Nat
  activate_func : R → R
  activate_diff_func : R → R
  S : List (Matrix R)

namespace Pooling

variable {R : Type}

/-- Lines 125 to 136 of `apply`: `int idx = 0; double val = U[i](x+prev_ldu*y,j);` and the loops
over the window `s < m`, `t < n`; the pair `(val, idx)` they leave.  The tests `nx < 0` and
`ny < 0` of the source never hold for natural numbers. -/
def window [LinearOrder R] (self : Pooling R) (Ui : Matrix R) (j y x : Nat) : R × Nat :=
  let Y := self.prev_num_unit / self.prev_ldu
  let X := self.prev_ldu
  let idx := 0
  let val := Ui.get (x + self.prev_ldu * y) j
  forLoop self.m (fun s w =>
    forLoop self.n (fun t (w : R × Nat) =>
      let nx := x + s
      let ny := y + t
      if nx ≥ X ∨ ny ≥ Y then w
      else if w.1 < Ui.get (nx + ny * self.prev_ldu) j then
        (Ui.get (nx + ny * self.prev_ldu) j, nx + ny * self.prev_ldu)
      else w) w) (val, idx)

/-- Lines 122 to 140 of `apply` for one map: the loops over the samples `j` and the window
origins `(x, y)`, writing `ret[i]` (first component) and `new_S[i]` (second component). -/
def apply_map [LinearOrderedField R] (self : Pooling R) (Ui : Matrix R) (U0n : Nat)
    (st : Matrix R × Matrix R) : Matrix R × Matrix R :=
  let Y := self.prev_num_unit / self.prev_ldu
  let X := self.prev_ldu
  forLoop U0n (fun j st =>
    forStep Y 0 Y self.stlide (fun y st =>
      forStep X 0 X self.stlide (fun x (st : Matrix R × Matrix R) =>
        let w := self.window Ui j y x
        (st.1.set (x / self.stlide + (y / self.stlide) * self.ldu) j w.1,
         st.2.set (x / self.stlide + (y / self.stlide) * self.ldu) j (w.2 : R))) st) st) st

/-- Lines 148 to 150 of `apply` for one map:
`ret[i](j,k) = (use_func ? activate_func(ret[i](j,k)) : ret[i](j,k))`. -/
def apply_func (self : Pooling R) (use_func : Bool) (ret_i : Matrix R) : Matrix R :=
  forLoop ret_i.m (fun j ret_i =>
    forLoop ret_i.n (fun k ret_i =>
      ret_i.set j k (if use_func then self.activate_func (ret_i.get j k) else ret_i.get j k))
      ret_i) ret_i

/-- Method `apply ( const std::vector<Mat>& U, bool use_func )`: the returned vector and the
layer with `S = new_S`.  `gS` is the memory found by the one `Mat` copied into every element
of `new_S`, `g i` the memory found by `ret[i] = Mat(num_unit, U[0].n)`. -/
def apply [LinearOrderedField R] (self : Pooling R) (gS : Nat → R) (g : Nat → Nat → R)
    (U : List (Matrix R)) (use_func : Bool) : List (Matrix R) × Pooling R :=
  let U0n := (U.getD 0 Matrix.empty).n
  let new_S := List.replicate self.num_map (Matrix.alloc gS self.num_unit U0n)
  let ret := List.replicate self.num_map Matrix.empty
  let st := forLoop self.num_map (fun i (st : List (Matrix R) × List (Matrix R)) =>
    let st_i := self.apply_map (U.getD i Matrix.empty) U0n
      (Matrix.alloc (g i) self.num_unit U0n, st.2.getD i Matrix.empty)
    (st.1.set i st_i.1, st.2.set i st_i.2)) (ret, new_S)
  let ret := forLoop self.num_map (fun i ret =>
    ret.set i (self.apply_func use_func (ret.getD i Matrix.empty))) st.1
  (ret, ⟨self.prev_num_map, self.prev_num_unit, self.prev_ldu, self.num_map, self.num_unit,
    self.ldu, self.m, self.n, self.stlide, self.activate_func, self.activate_diff_func, st.2⟩)

end Pooling

/-! ### Pooling: `apply` in a build with assertions -/

/-- Loop `for( y = y0; y < bound; y += step ) body` whose body may abort.  `fuel` bounds the
number of iterations: the result is `none` when the body aborts, and also when `fuel`
iterations have run and the condition `y < bound` still holds. -/
def forStepM {σ : Type} (fuel y bound step : Nat) (body : Nat → σ → Option σ) (s : σ) :
    Option σ :=
  match fuel with
  | 0 => if y < bound then none else some s
  | fuel + 1 =>
    if y < bound then (body y s).bind (forStepM fuel (y + step) bound step body) else some s

namespace Pooling

variable {R : Type}

/-- Lines 125 to 136 of `apply` in a build with assertions: every `U[i](…,j)` goes through
`operator ()`, which aborts outside the shape of `U[i]`. -/
def window_debug [LinearOrder R] (self : Pooling R) (Ui : Matrix R) (j y x : Nat) :
    Option (R × Nat) :=
  let Y := self.prev_num_unit / self.prev_ldu
  let X := self.prev_ldu
  let idx := 0
  (Ui.read ((x + self.prev_ldu * y : Nat) : Int) (j : Int)).bind (fun val =>
    forLoopM self.m (fun s w =>
      forLoopM self.n (fun t (w : R × Nat) =>
        let nx := x + s
        let ny := y + t
        if nx ≥ X ∨ ny ≥ Y then some w
        else
          (Ui.read ((nx + ny * self.prev_ldu : Nat) : Int) (j : Int)).bind (fun u =>
            if w.1 < u then
              (Ui.read ((nx + ny * self.prev_ldu : Nat) : Int) (j : Int)).map
                (fun val => (val, nx + ny * self.prev_ldu))
            else some w)) w) (val, idx))

/-- Lines 122 to 140 of `apply` for one map in a build with assertions.  The state holds
`ret[i]` and `new_S[i]` and the list of the cells `(row, column)` written by lines 137 and 138,
in the order of the writes. -/
def apply_map_debug [LinearOrderedField R] (self : Pooling R) (Ui : Matrix R) (U0n : Nat)
    (st : (Matrix R × Matrix R) × List (Nat × Nat)) :
    Option ((Matrix R × Matrix R) × List (Nat × Nat)) :=
  let Y := self.prev_num_unit / self.prev_ldu
  let X := self.prev_ldu
  forLoopM U0n (fun j st =>
    forStepM Y 0 Y self.stlide (fun y st =>
      forStepM X 0 X self.stlide (fun x (st : (Matrix R × Matrix R) × List (Nat × Nat)) =>
        (self.window_debug Ui j y x).bind (fun w =>
          (st.1.1.write ((x / self.stlide + (y / self.stlide) * self.ldu : Nat) : Int) (j : Int)
            w.1).bind (fun ret_i =>
          (st.1.2.write ((x / self.stlide + (y / self.stlide) * self.ldu : Nat) : Int) (j : Int)
            (w.2 : R)).map (fun new_S_i =>
          ((ret_i, new_S_i),
            st.2 ++ [(x / self.stlide + (y / self.stlide) * self.ldu, j)]))))) st) st) st

/-- Lines 148 to 150 of `apply` for one map in a build with assertions. -/
def apply_func_debug (self : Pooling R) (use_func : Bool) (ret_i : Matrix R) :
    Option (Matrix R) :=
  forLoopM ret_i.m (fun j ret_i =>
    forLoopM ret_i.n (fun k ret_i =>
      (ret_i.read (j : Int) (k : Int)).bind (fun u =>
        ret_i.write (j : Int) (k : Int) (if use_func then self.activate_func u else u)))
      ret_i) ret_i

/-- Method `apply ( const std::vector<Mat>& U, bool use_func )` in a build with assertions,
with bounded fuel for the loops over `y` and `x`: `none` when an access leaves its matrix or
the vector `U`, or when a loop does not reach its bound; otherwise what `apply` returns, the
layer with `S = new_S`, and for every map the list of the cells written. -/
def apply_debug [LinearOrderedField R] (self : Pooling R) (gS : Nat → R) (g : Nat → Nat → R)
    (U : List (Matrix R)) (use_func : Bool) :
    Option ((List (Matrix R) × Pooling R) × List (List (Nat × Nat))) :=
  (U.get? 0).bind (fun U0 =>
    let U0n := U0.n
    let new_S := List.replicate self.num_map (Matrix.alloc gS self.num_unit U0n)
    let ret := List.replicate self.num_map Matrix.empty
    (forLoopM self.num_map
      (fun i (st : (List (Matrix R) × List (Matrix R)) × List (List (Nat × Nat))) =>
        (U.get? i).bind (fun Ui =>
          (self.apply_map_debug Ui U0n
            ((Matrix.alloc (g i) self.num_unit U0n, st.1.2.getD i Matrix.empty), [])).map
            (fun st_i => ((st.1.1.set i st_i.1.1, st.1.2.set i st_i.1.2), st.2 ++ [st_i.2]))))
      ((ret, new_S), [])).bind (fun st =>
    (forLoopM self.num_map (fun i ret =>
      (self.apply_func_debug use_func (ret.getD i Matrix.empty)).map (fun r => ret.set i r))
      st.1.1).map (fun ret =>
    ((ret, ⟨self.prev_num_map, self.prev_num_unit, self.prev_ldu, self.num_map, self.num_unit,
      self.ldu, self.m, self.n, self.stlide, self.activate_func, self.activate_diff_func,
      st.1.2⟩), st.2))))

end Pooling

/-! ### The reduction loop of the GPU `calc_gradient` -/

/-- The loop `for( int i = start; i > 0; i /= w ) run_kernel( PRG::BN_GRAD, i, num_map );` of the
method `calc_gradient ( const clMatrix<Real>& U, const clMatrix<Real>& delta )` (build with
`USE_GPU`), `w` being `cl_device_manager.get_max_work_item(0)`: the first work sizes `i` of the
kernel launches, in order.  `fuel` bounds the number of iterations; the result is `none` when the
fuel is used up before the condition `i > 0` fails. -/
def reduction_loop (fuel w i : Nat) : Option (List Nat) :=
  match fuel with
  | 0 => if i > 0 then none else some []
  | fuel + 1 => if i > 0 then (reduction_loop fuel w (i / w)).map (fun l => i :: l) else some []

/-- The start value `my_size*U.n` of the reduction loop in the build without `USE_MPI`
(`my_size = this->prev_num_unit`), `n` the number of columns of `U`. -/
def BatchNormalize.reduction_start {R : Type} (self : BatchNormalize R) (n : Nat) : Nat :=
  let my_size := self.prev_num_unit
  my_size * n

/-! ### LU decomposition and substitution (`Matrix.hpp`) -/

/-- Loop `for( int i = lo; i < hi; ++i ) body` threading a state. -/
def forFrom {σ : Type} (lo hi : Nat) (body : Nat → σ → σ) (s : σ) : σ :=
  forLoop (hi - lo) (fun t => body (lo + t)) s

/-- Loop `for( int i = n-1; i >= 0; --i ) body` threading a state. -/
def forDown {σ : Type} (n : Nat) (body : Nat → σ → σ) (s : σ) : σ :=
  match n with
  | 0 => s
  | k + 1 => forDown k body (body k s)

namespace Matrix

variable {R : Type}

/-- Function `Matrix<T>::eye( m, n )` of `Matrix.hpp`: `zeros(m, n)`, then `ret(i,i) = 1.0` for
`i < std::min(m,n)`. -/
def eye [Zero R] [One R] (g : Nat → R) (m n : Nat) : Matrix R :=
  let ret := zeros g m n
  forLoop (min m n) (fun i ret => ret.set i i 1) ret

/-- Function `pivoting ( A, L, U, j )` of `Matrix.hpp`: the row index it returns. -/
def pivoting [LinearOrderedField R] (A L U : Matrix R) (j : Nat) : Nat :=
  let m := A.m
  let n := A.n
  let max_pivot := L.get j 0
  let idx := j
  (forFrom j (min m n) (fun i (st : R × Nat) =>
    let sum : R := 0
    let max_pivot := forLoop n (fun k max_pivot => max max_pivot (L.get i k)) st.1
    let sum := forLoop i (fun k sum => sum + L.get i k * U.get k j / max_pivot) sum
    let x := A.get i j / max_pivot + sum
    if max_pivot < x then (x, i) else (max_pivot, st.2)) (max_pivot, idx)).2

/-- Function `LU_decomp ( A, L, U, P )` of `Matrix.hpp`: the matrices left in `L`, `U`, `P`
(`A` is passed by value and its rows are swapped in the copy).  `gL`, `gU`, `gP` are the
contents found by the allocations of `eye` and `zeros`. -/
def LU_decomp [LinearOrderedField R] (gL gU gP : Nat → R) (A : Matrix R) :
    Matrix R × Matrix R × Matrix R :=
  let m := A.m
  let n := A.n
  let L := if m > n then eye gL m n else eye gL m m
  let U := if m > n then zeros gU n n else eye gU m n
  let P := eye gP m m
  let st := forLoop m (fun i (st : Matrix R × Matrix R × Matrix R × Matrix R) =>
    let A := st.1
    let L := st.2.1
    let U := st.2.2.1
    let P := st.2.2.2
    let idx := pivoting A L U i
    let AP : Matrix R × Matrix R :=
      if idx ≠ i then
        let A := forLoop (min m n) (fun j A =>
          (A.set i j (A.get idx j)).set idx j (A.get i j)) A
        let P := P.set idx idx 0
        let P := P.set i i 0
        let P := P.set idx i 1
        let P := P.set i idx 1
        (A, P)
      else (A, P)
    let A := AP.1
    let P := AP.2
    let LU := forLoop n (fun j (LU : Matrix R × Matrix R) =>
      let sum := forLoop (min i j) (fun k sum => sum + LU.1.get i k * LU.2.get k j) 0
      if i > j then (LU.1.set i j ((A.get i j - sum) / LU.2.get j j), LU.2)
      else (LU.1, LU.2.set i j (A.get i j - sum))) (L, U)
    (A, LU.1, LU.2, P)) (A, L, U, P)
  (st.2.1, st.2.2.1, st.2.2.2)

/-- The first loop of `FBS` (forward substitution into `Y`), the same in `Matrix.hpp` and
`matrix.hpp`; `m = L.m`, `B` is the right-hand side after `B = transpose(P)*B`, and `sum` is a
`std::vector<T> sum(B.n, T())`. -/
def FBS_forward [Zero R] [Add R] [Sub R] [Mul R] [Div R] (m : Nat) (L B Y : Matrix R) :
    Matrix R :=
  forLoop m (fun i Y =>
    let sum : Nat → R := fun _ => 0
    let sum := forLoop B.n (fun j sum =>
      forLoop i (fun k sum => Function.update sum j (sum j + L.get i k * Y.get k j)) sum) sum
    forLoop B.n (fun j Y => Y.set i j ((B.get i j - sum j) / L.get i i)) Y) Y

/-- The second loop of `FBS` (back substitution into `X`), the same in `Matrix.hpp` and
`matrix.hpp`; `m = L.m`, `n = L.n`. -/
def FBS_backward [Zero R] [Add R] [Sub R] [Mul R] [Div R] (m n : Nat) (U B Y X : Matrix R) :
    Matrix R :=
  forDown m (fun i X =>
    let sum : Nat → R := fun _ => 0
    let sum := forLoop B.n (fun j sum =>
      forFrom i n (fun k sum => Function.update sum j (sum j + U.get i k * X.get k j)) sum) sum
    forLoop B.n (fun j X => X.set i j ((Y.get i j - sum j) / U.get i i)) X) X

/-- Function `FBS ( L, U, P, B )` of `Matrix.hpp` on the naive path of the product: `Y` and `X`
are `zeros(B.m, B.n)`, `B = Matrix<T>::transpose(P)*B` is the product of the transposed view of
`P` with `B`. -/
def FBS [Field R] (gY gX gB : Nat → R) (L U P B : Matrix R) : Matrix R :=
  let m := L.m
  let n := L.n
  let Y := zeros gY B.m B.n
  let X := zeros gX B.m B.n
  let B := tMatrix.operator_mul gB (transpose P) B
  let Y := FBS_forward m L B Y
  FBS_backward m n U B Y X

/-- Function `FBS ( L, U, P, B )` of `matrix.hpp`: `zeros` value-initialises, the transpose is
materialised. -/
def FBS_vec [Field R] (L U P B : Matrix R) : Matrix R :=
  let m := L.m
  let n := L.n
  let Y : Matrix R := ⟨B.m, B.n, fun _ => 0⟩
  let X : Matrix R := ⟨B.m, B.n, fun _ => 0⟩
  let B := operator_mul_vec (transpose_vec P) B
  let Y := FBS_forward m L B Y
  FBS_backward m n U B Y X

end Matrix

/-! ### Pooling: backward pass -/

namespace Pooling

variable {R : Type}

/-- Lines 83 to 97 of `calc_delta`: `int idx1 = x/stlide + y/stlide*ldu, idx2 = x+y*prev_ldu;
double val = U[i](x+y*prev_ldu,j);` and the loops over the window `s < m`, `t < n`; the triple
`(idx1, idx2, val)` they leave.  The tests `nx < 0` and `ny < 0` of the source never hold for
natural numbers. -/
def window_delta [LinearOrder R] (self : Pooling R) (Ui : Matrix R) (j x y : Nat) :
    Nat × Nat × R :=
  let Y := self.prev_num_unit / self.prev_ldu
  let X := self.prev_ldu
  let idx1 := x / self.stlide + y / self.stlide * self.ldu
  let idx2 := x + y * self.prev_ldu
  let val := Ui.get (x + y * self.prev_ldu) j
  forLoop self.m (fun s w =>
    forLoop self.n (fun t (w : Nat × Nat × R) =>
      let nx := x + s
      let ny := y + t
      if nx ≥ X ∨ ny ≥ Y then w
      else
        let nx := (x + s) / self.stlide
        let ny := (y + t) / self.stlide
        if w.2.2 < Ui.get ((x + s) + (y + t) * self.prev_ldu) j then
          let idx1 := nx + ny * self.ldu
          let idx2 := (x + s) + (y + t) * self.prev_ldu
          (idx1, idx2, Ui.get idx2 j)
        else w) w) (idx1, idx2, val)

/-- Lines 80 to 100 of `calc_delta` for one map: the loops over the samples `j` and the window
origins `(x, y)`, writing `nx_delta[i]`; `prev_activate_diff_func` is the member of `Layer`. -/
def calc_delta_map [LinearOrderedField R] (self : Pooling R) (prev_activate_diff_func : R → R)
    (Ui delta_i nx_delta_i : Matrix R) : Matrix R :=
  let Y := self.prev_num_unit / self.prev_ldu
  let X := self.prev_ldu
  forLoop Ui.n (fun j nx_delta_i =>
    forStep X 0 X self.stlide (fun x nx_delta_i =>
      forStep Y 0 Y self.stlide (fun y (nx_delta_i : Matrix R) =>
        let w := self.window_delta Ui j x y
        let idx1 := w.1
        let idx2 := w.2.1
        nx_delta_i.set idx2 j (delta_i.get idx1 j * prev_activate_diff_func (Ui.get idx2 j)))
        nx_delta_i) nx_delta_i) nx_delta_i

/-- Method `calc_delta ( const std::vector<Mat>& U, const std::vector<Mat>& delta )`: the
returned vector `nx_delta`.  `g i` is the memory found by `nx_delta[i] = Mat(U[i].m, U[i].n)`. -/
def calc_delta [LinearOrderedField R] (self : Pooling R) (prev_activate_diff_func : R → R)
    (g : Nat → Nat → R) (U delta : List (Matrix R)) : List (Matrix R) :=
  let nx_delta := List.replicate self.prev_num_map Matrix.empty
  forLoop self.prev_num_map (fun i nx_delta =>
    let Ui := U.getD i Matrix.empty
    nx_delta.set i (self.calc_delta_map prev_activate_diff_func Ui
      (delta.getD i Matrix.empty) (Matrix.alloc (g i) Ui.m Ui.n))) nx_delta

end Pooling

/-! ### The type `double`

The claims on exact arithmetic hold in a field.  To run the same embedded code in the arithmetic
of the machine, the scalar type below carries the operations of `double` with their rounding. -/

/-- Modelled from the spec: the power `2^z` of the binary floating-point format, as a rational
number. -/
def pow2 (z : Int) : ℚ :=
  if 0 ≤ z then ((2 ^ z.toNat : Nat) : ℚ) else 1 / ((2 ^ (-z).toNat : Nat) : ℚ)

/-- Modelled from the spec: the binary exponent `⌊log₂ a⌋` of a rational number `a > 0`, found
bit by bit among the exponents `-1023, …, 1024` (the exponents of the normal numbers, `-1022` to
`1023`, lie inside). -/
def ilog2 (a : ℚ) : Int :=
  let t := forDown 11 (fun b t =>
    if pow2 (((t + 2 ^ b : Nat) : Int) - 1023) ≤ a then t + 2 ^ b else t) 0
  (t : Int) - 1023

/-- Modelled from the spec: the integer square root `⌊√n⌋` of a natural number `n < 2^108`,
bit by bit from bit 53 down. -/
def isqrt (n : Nat) : Nat :=
  forDown 54 (fun b r => if (r + 2 ^ b) * (r + 2 ^ b) ≤ n then r + 2 ^ b else r) 0

/-- Modelled from the spec: rounding of a rational number `x ≥ 0` to the nearest integer, ties
to the even one. -/
def round_even (x : ℚ) : Int :=
  let f := Rat.floor x
  let r := x - (f : ℚ)
  if r < 1 / 2 then f else if 1 / 2 < r then f + 1 else if f % 2 = 0 then f else f + 1

/-- Modelled from the spec: rounding of a real result to the type `double` (IEEE 754 binary64,
53 bits of precision, round to nearest, ties to even), for results that are zero or of magnitude
from `2^-1022` to below `2^1024`: overflow, subnormal numbers, infinities and NaN are not
modelled. -/
def round_double (q : ℚ) : ℚ :=
  if q = 0 then 0
  else
    let a := if q < 0 then -q else q
    let e := ilog2 a
    let m := round_even (a * pow2 (52 - e))
    let r := (m : ℚ) * pow2 (e - 52)
    if q < 0 then -r else r

/-- Modelled from the spec: `std::sqrt` on the type `double`, the correctly rounded square root
of a value `q ≥ 0` (`0` stands for the NaN of a negative argument). -/
def sqrt_double (q : ℚ) : ℚ :=
  if q ≤ 0 then 0
  else
    let e := ilog2 q
    let E := Int.fdiv e 2
    let Q := q * pow2 (2 * (52 - E))
    let f : Int := (isqrt (Rat.floor Q).toNat : Int)
    let half := ((f : ℚ) + 1 / 2) * ((f : ℚ) + 1 / 2)
    let m := if Q < half then f else if half < Q then f + 1 else if f % 2 = 0 then f else f + 1
    (m : ℚ) * pow2 (E - 52)

/-- Modelled from the spec: the rational number `q` is a value of the type `double` inside the
range of the model: zero, or a normal number (magnitude from `2^-1022` to below `2^1024`, and
rounding leaves it as it is). -/
def representable (q : ℚ) : Prop :=
  q = 0 ∨ (pow2 (-1022) ≤ (if q < 0 then -q else q) ∧ (if q < 0 then -q else q) < pow2 1024 ∧
    round_double q = q)

instance (q : ℚ) : Decidable (representable q) := by
  unfold representable
  infer_instance

/-- Modelled from the spec: a finite value of the built-in type `double`, given by the rational
number it denotes. -/
structure Double where
  val : ℚ
  deriving DecidableEq

instance : Zero Double := ⟨⟨0⟩⟩

instance : One Double := ⟨⟨1⟩⟩

/-- Modelled from the spec: `a + b` on `double`. -/
instance : Add Double := ⟨fun a b => ⟨round_double (a.val + b.val)⟩⟩

/-- Modelled from the spec: `a - b` on `double`. -/
instance : Sub Double := ⟨fun a b => ⟨round_double (a.val - b.val)⟩⟩

/-- Modelled from the spec: `a * b` on `double`. -/
instance : Mul Double := ⟨fun a b => ⟨round_double (a.val * b.val)⟩⟩

/-- Modelled from the spec: `a / b` on `double` for `b ≠ 0`. -/
instance : Div Double := ⟨fun a b => ⟨round_double (a.val / b.val)⟩⟩

/-- Modelled from the spec: the conversion of an `int` to `double`. -/
instance : NatCast Double := ⟨fun n => ⟨round_double (n : ℚ)⟩⟩

/-- Modelled from the spec: a decimal literal of type `double`. -/
instance : OfScientific Double :=
  ⟨fun m s e => ⟨round_double (OfScientific.ofScientific m s e : ℚ)⟩⟩

/-- The functions of `<cmath>` on `double`: `std::sqrt` is `sqrt_double`; `std::pow`, which
`apply` does not call, is left as the identity in its first argument. -/
def double_ops : RealOps Double := ⟨fun x => ⟨sqrt_double x.val⟩, fun x _ => x⟩

/-! ### The build with `USE_MPI`: the division by the batch size and the assertions

The `int` divisions by `U.n` in lines 452 and 453 of `apply` end the process for an empty batch
in every build.  In a build with assertions every `operator ()` of `apply` checks its indices,
also the two that only form the addresses handed to `MPI_Allgatherv`.  A rank that ends before a
collective never calls it, and the collective then completes on no rank of the group. -/

namespace BatchNormalize

variable {R : Type}

/-- Lines 445 to 453 of `apply` (branch `USE_MPI`) with the `int` division as the processor runs
it: `size[rank]/U.n` and `offset[rank]/U.n` have no result for `U.n = 0`. -/
def apply_slice_checked (self : BatchNormalize R) (rank nprocs : Nat) (U : Matrix R) :
    Option (Nat × Nat × (Nat → Nat) × (Nat → Nat)) :=
  let vecs := forLoop nprocs (fun i (vecs : (Nat → Nat) × (Nat → Nat)) =>
    (Function.update vecs.1 i
        (((i + 1) * self.num_unit / nprocs - i * self.num_unit / nprocs) * U.n),
     Function.update vecs.2 i (i * self.num_unit / nprocs * U.n)))
    (fun _ => 0, fun _ => 0)
  let size := vecs.1
  let offset := vecs.2
  if U.n = 0 then none
  else
    let my_size := size rank / U.n
    let my_offset := offset rank / U.n
    some (my_offset, my_size, size, offset)

/-- Method `apply ( const Matrix<Real>& U, bool use_func )` of the build with `USE_MPI` and
without assertions (`NDEBUG`): every `operator ()` is the plain buffer access of `apply_mpi`;
what is left to end the process is the division by `U.n`. -/
def apply_mpi_ndebug [Field R] (ops : RealOps R) (self : BatchNormalize R) (rank nprocs : Nat)
    (g_stat g_tmp : Nat → Nat → R) (g_ret : Nat → R) (U : Matrix R) (use_func : Bool) :
    Option (Matrix R × BatchNormalize R) :=
  (self.apply_slice_checked rank nprocs U).map (fun _ =>
    apply_mpi ops self rank nprocs g_stat g_tmp g_ret U use_func)

/-- Lines 468 to 477 of `apply` in a build with assertions: `mean(i,j) += U(…, k)` goes through
`operator ()` on `U` and on `mean`; then `mean /= U.n`, which indexes the buffer directly. -/
def apply_mean_debug [Field R] (self : BatchNormalize R) (my_offset my_size : Nat)
    (U mean : Matrix R) : Option (Matrix R) :=
  (forLoopM self.num_map (fun i mean =>
    forLoopM my_size (fun j mean =>
      forLoopM U.n (fun k mean =>
        (U.read ((i * self.prev_num_unit + my_offset + j : Nat) : Int) (k : Int)).bind (fun u =>
          (mean.read (i : Int) (j : Int)).bind (fun a =>
            mean.write (i : Int) (j : Int) (a + u)))) mean) mean) mean).map
    (fun mean => mean.operator_div_assign (U.n : R))

/-- Lines 479 to 491 of `apply` in a build with assertions. -/
def apply_var_debug [Field R] (self : BatchNormalize R) (my_offset my_size : Nat)
    (U mean var : Matrix R) : Option (Matrix R) :=
  (forLoopM self.num_map (fun i var =>
    forLoopM my_size (fun j var =>
      forLoopM U.n (fun k var =>
        (U.read ((i * self.prev_num_unit + my_offset + j : Nat) : Int) (k : Int)).bind (fun u =>
          (mean.read (i : Int) (j : Int)).bind (fun a =>
            let v := u - a
            (var.read (i : Int) (j : Int)).bind (fun s =>
              var.write (i : Int) (j : Int) (s + v * v))))) var) var) var).map
    (fun var => var.operator_div_assign (U.n : R))

/-- Lines 493 to 507 of `apply` (branch without `USE_MPI`) in a build with assertions. -/
def apply_ret_debug [Field R] (ops : RealOps R) (self : BatchNormalize R) (my_size : Nat)
    (U mean var ret : Matrix R) : Option (Matrix R) :=
  forLoopM self.num_map (fun i ret =>
    forLoopM my_size (fun j ret =>
      forLoopM U.n (fun k ret =>
        ((vec0 self.W).read 0 (i : Int)).bind (fun w =>
          (U.read ((i * self.prev_num_unit + j : Nat) : Int) (k : Int)).bind (fun u =>
            (mean.read (i : Int) (j : Int)).bind (fun a =>
              (var.read (i : Int) (j : Int)).bind (fun s =>
                ((vec0 self.b).read 0 (i : Int)).bind (fun b =>
                  ret.write ((i * self.num_unit + j : Nat) : Int) (k : Int)
                    (w * (u - a) / ops.sqrt (s + EPS) + b))))))) ret) ret) ret

/-- Lines 493 to 507 of `apply` (branch `USE_MPI`) in a build with assertions. -/
def apply_tmp_ret_debug [Field R] (ops : RealOps R) (self : BatchNormalize R)
    (my_offset my_size : Nat) (U mean var tmp_ret : Matrix R) : Option (Matrix R) :=
  forLoopM self.num_map (fun i tmp_ret =>
    forLoopM my_size (fun j tmp_ret =>
      forLoopM U.n (fun k tmp_ret =>
        ((vec0 self.W).read 0 (i : Int)).bind (fun w =>
          (U.read ((i * self.prev_num_unit + my_offset + j : Nat) : Int) (k : Int)).bind
            (fun u =>
              (mean.read (i : Int) (j : Int)).bind (fun a =>
                (var.read (i : Int) (j : Int)).bind (fun s =>
                  ((vec0 self.b).read 0 (i : Int)).bind (fun b =>
                    tmp_ret.write ((i * my_size + j : Nat) : Int) (k : Int)
                      (w * (u - a) / ops.sqrt (s + EPS) + b))))))) tmp_ret) tmp_ret) tmp_ret

/-- Method `apply ( const Matrix<Real>& U, bool use_func )` (CPU, no `USE_MPI`) in a build with
assertions. -/
def apply_debug [Field R] (ops : RealOps R) (self : BatchNormalize R) (g_stat g_ret : Nat → R)
    (U : Matrix R) (use_func : Bool) : Option (Matrix R × BatchNormalize R) :=
  let my_offset := 0
  let my_size := self.num_unit
  let var := Matrix.zeros g_stat self.num_map my_size
  let mean := var
  let ret := Matrix.alloc g_ret (self.num_map * self.num_unit) U.n
  (apply_mean_debug self my_offset my_size U mean).bind (fun mean =>
    (apply_var_debug self my_offset my_size U mean var).bind (fun var =>
      (apply_ret_debug ops self my_size U mean var ret).map (fun ret =>
        let ret := if use_func then self.func ret false else ret
        (ret, ⟨self.prev_num_map, self.num_map, self.prev_num_unit, self.num_unit, self.func,
          self.prev_func, self.W, self.b, mean, var⟩))))

/-- Lines 445 to 507 of `apply` (branch `USE_MPI`) in a build with assertions, what rank `rank`
computes before the collective. -/
def apply_local_debug [Field R] (ops : RealOps R) (self : BatchNormalize R)
    (rank nprocs : Nat) (g_stat g_tmp : Nat → R) (U : Matrix R) :
    Option (Matrix R × BatchNormalize R) :=
  (self.apply_slice_checked rank nprocs U).bind (fun slice =>
    let my_offset := slice.1
    let my_size := slice.2.1
    let var := Matrix.zeros g_stat self.num_map my_size
    let mean := var
    let tmp_ret := Matrix.alloc g_tmp (self.num_map * my_size) U.n
    (apply_mean_debug self my_offset my_size U mean).bind (fun mean =>
      (apply_var_debug self my_offset my_size U mean var).bind (fun var =>
        (apply_tmp_ret_debug ops self my_offset my_size U mean var tmp_ret).map
          (fun tmp_ret =>
            (tmp_ret, ⟨self.prev_num_map, self.num_map, self.prev_num_unit, self.num_unit,
              self.func, self.prev_func, self.W, self.b, mean, var⟩)))))

/-- What rank `r` hands to the collective of channel `i` in a build with assertions: the
elements of its `tmp_ret` from `&tmp_ret(i*my_size,0)` on, where `operator ()` checks the
indices `(i*my_size, 0)`; no result if the rank does not get that far. -/
def apply_send [Field R] (ops : RealOps R) (self : BatchNormalize R) (r nprocs : Nat)
    (g_stat g_tmp : Nat → R) (U : Matrix R) (i : Nat) : Option (Nat → R) :=
  (self.apply_slice_checked r nprocs U).bind (fun slice =>
    (apply_local_debug ops self r nprocs g_stat g_tmp U).bind (fun loc =>
      (loc.1.operator_call ((i * slice.2.1 : Nat) : Int) 0).map
        (fun p e => loc.1.v (p.toNat + e))))

end BatchNormalize

/-- Modelled from the spec: the collective `MPI_Allgatherv` for a group in which a rank may end
before the call (`sendbuf r = none`): the collective has a result only if every rank of the
group calls it, and then the result of `MPI_Allgatherv`. -/
def MPI_Allgatherv_debug {R : Type} (nprocs : Nat) (sendbuf : Nat → Option (Nat → R))
    (recvbuf : Nat → R) (base : Nat) (recvcounts displs : Nat → Nat) : Option (Nat → R) :=
  forLoopM nprocs (fun r recvbuf =>
    (sendbuf r).map (fun buf =>
      forLoop (recvcounts r) (fun e recvbuf =>
        Function.update recvbuf (base + displs r + e) (buf e)) recvbuf)) recvbuf

namespace BatchNormalize

variable {R : Type}

/-- Method `apply ( const Matrix<Real>& U, bool use_func )` of the build with `USE_MPI` and with
assertions on rank `rank`: the local part, then for every channel `i` the all-gather from
`&tmp_ret(i*my_size,0)` into `&ret(i*num_unit,0)`, both addresses formed through the checking
`operator ()`, then the activation. -/
def apply_mpi_debug [Field R] (ops : RealOps R) (self : BatchNormalize R) (rank nprocs : Nat)
    (g_stat g_tmp : Nat → Nat → R) (g_ret : Nat → R) (U : Matrix R) (use_func : Bool) :
    Option (Matrix R × BatchNormalize R) :=
  (self.apply_slice_checked rank nprocs U).bind (fun slice =>
    let size := slice.2.2.1
    let offset := slice.2.2.2
    let ret := Matrix.alloc g_ret (self.num_map * self.num_unit) U.n
    (apply_local_debug ops self rank nprocs (g_stat rank) (g_tmp rank) U).bind (fun loc =>
      (forLoopM self.num_map (fun i ret =>
        (ret.operator_call ((i * self.num_unit : Nat) : Int) 0).bind (fun p =>
          (MPI_Allgatherv_debug nprocs
            (fun r => apply_send ops self r nprocs (g_stat r) (g_tmp r) U i)
            ret.v p.toNat size offset).map (fun v => ⟨ret.m, ret.n, v⟩))) ret).map
        (fun ret => (if use_func then self.func ret false else ret, loc.2))))

end BatchNormalize

/-! ### Concrete data used to instantiate the theorems -/

/-- Stand-ins for `sqrt` and `pow` on the rationals, for theorems that hold for every
`RealOps`. -/
def exOps : RealOps ℚ := ⟨fun u => u, fun u _ => u⟩

/-- A layer with one channel of two units, built by the constructor, scale `2` and shift `1`,
identity activations. -/
def exLayer (R : Type) [Field R] : BatchNormalize R :=
  BatchNormalize.ctor (fun _ => 2) (fun _ => 1) identity_func 1 2 identity_func

/-- A batch of three samples: unit `0` holds `5, 5, 5`, unit `1` holds `1, 2, 3`. -/
def exU (R : Type) [Field R] : Matrix R := Matrix.ofList 2 3 [5, 5, 5, 1, 2, 3]

/-- A downstream delta for `exU`. -/
def exDelta (R : Type) [Field R] : Matrix R := Matrix.ofList 2 3 [1, 0, 2, 3, 1, 0]

/-- A pooling layer on one map of `4 × 4` units with window `2 × 2` and stride `2`: the output
has `2 × 2` units; the activation adds `100`. -/
def exPool : Pooling ℚ := ⟨1, 16, 4, 1, 4, 2, 2, 2, 2, fun u => u + 100, fun _ => 1, []⟩

/-- An input for `exPool`: one map, one sample, the units `1, …, 12` and `16, 15, 14, 13`. -/
def exPoolU : List (Matrix ℚ) :=
  [Matrix.ofList 16 1 [1, 2, 3, 4, 5, 6, 7, 8, 9, 10, 11, 12, 16, 15, 14, 13]]

/-- A pooling layer on one map of `2 × 2` units with window `1 × 1` and stride `1` whose output
row length `ldu` is `1`: the `3` output units do not tell the four window origins apart. -/
def exPoolNarrow : Pooling ℚ := ⟨1, 4, 2, 1, 3, 1, 1, 1, 1, fun u => u, fun _ => 1, []⟩

/-- An input for `exPoolNarrow`: one map, one sample, the units `10, 20, 30, 40`. -/
def exPoolNarrowU : List (Matrix ℚ) := [Matrix.ofList 4 1 [10, 20, 30, 40]]

/-- A pooling layer on one map of `2 × 1` units with window `1 × 1` and stride `1`: the output
is the input. -/
def exPoolRow : Pooling ℚ := ⟨1, 2, 2, 1, 2, 2, 1, 1, 1, fun u => u, fun _ => 1, []⟩

/-- An input for `exPoolRow`: one map, one sample, the units `3, 5`. -/
def exPoolRowU : List (Matrix ℚ) := [Matrix.ofList 2 1 [3, 5]]

/-- A 3×3 matrix whose decomposition swaps rows 0 and 2 at step 0 and rows 1 and 2 at step 1. -/
def exLU : Matrix ℚ := Matrix.ofList 3 3 [0, 2, 0, 0, 0, 1, 2, 0, 0]

/-- A pooling layer on one map of a 3×1 grid with window 2×1 and stride 1 (overlapping
windows), `ldu = 3`, `num_unit = 3`. -/
def exPoolOverlap : Pooling ℚ := ⟨1, 3, 3, 1, 3, 3, 2, 1, 1, fun u => u, fun _ => 1, []⟩

/-- One map, one sample: the column `(1, 5, 2)`. -/
def exPoolOverlapU : List (Matrix ℚ) := [Matrix.ofList 3 1 [1, 5, 2]]

/-- The delta of the pooling layer: the column `(10, 20, 30)`. -/
def exPoolOverlapDelta : List (Matrix ℚ) := [Matrix.ofList 3 1 [10, 20, 30]]

/-- A lower-triangular `2 × 2` matrix with nonzero diagonal. -/
def exLower : Matrix ℚ := Matrix.ofList 2 2 [1, 0, 3, 2]

/-- An upper-triangular `2 × 2` matrix with nonzero diagonal. -/
def exUpper : Matrix ℚ := Matrix.ofList 2 2 [2, 1, 0, 4]

/-- The `2 × 2` matrix that swaps the two rows. -/
def exSwap : Matrix ℚ := Matrix.ofList 2 2 [0, 1, 1, 0]

/-- A right-hand side with one column. -/
def exRhs : Matrix ℚ := Matrix.ofList 2 1 [5, 6]

/-- A pooling layer on two maps of `2 × 1` units with window `1 × 1` and stride `1`. -/
def exPoolTwo : Pooling ℚ := ⟨2, 2, 2, 2, 2, 2, 1, 1, 1, fun u => u, fun _ => 1, []⟩

/-- Two matrices of two rows each: the first has two columns, the second one column. -/
def exRaggedU : List (Matrix ℚ) := [Matrix.ofList 2 2 [1, 2, 3, 4], Matrix.ofList 2 1 [5, 6]]

/-- Two matrices of two rows and two columns each. -/
def exEvenU : List (Matrix ℚ) :=
  [Matrix.ofList 2 2 [1, 2, 3, 4], Matrix.ofList 2 2 [5, 6, 7, 8]]

/-- A pooling layer without maps. -/
def exPoolNone : Pooling ℚ := ⟨0, 2, 2, 0, 2, 2, 1, 1, 1, fun u => u, fun _ => 1, []⟩

/-- A pooling layer on one map of `4 × 1` units with window `1 × 1` and stride `2` whose output
has one unit only, with `ldu = 2`. -/
def exPoolShort : Pooling ℚ := ⟨1, 4, 4, 1, 1, 2, 1, 1, 2, fun u => u, fun _ => 1, []⟩

/-- An input for `exPoolShort`: one map, one sample, the units `1, 2, 3, 4`. -/
def exPoolShortU : List (Matrix ℚ) := [Matrix.ofList 4 1 [1, 2, 3, 4]]

/-- A layer on `double` with one channel of one unit, scale `2` and shift `1`. -/
def exLayerD : BatchNormalize Double :=
  BatchNormalize.ctor (fun _ => ⟨2⟩) (fun _ => ⟨1⟩) identity_func 1 1 identity_func

/-- A batch of three samples of one unit, all holding the `double` nearest to `0.1`. -/
def exConstU : Matrix Double := Matrix.ofList 1 3 [0.1, 0.1, 0.1]

/-- A batch of three samples of one unit, all holding `5.0`. -/
def exFiveU : Matrix Double := Matrix.ofList 1 3 [5.0, 5.0, 5.0]

/-- A `2 × 3` matrix on the heap with the buffer `new double[6]` filled with `1, …, 6`. -/
def exHeap : Heap.Matrix ℚ := ⟨2, 3, 6, some [1, 2, 3, 4, 5, 6]⟩

/-- An empty batch for `exLayer`: two rows and no sample. -/
def exEmptyBatch : Matrix ℚ := Matrix.ofList 2 0 []

/-- A layer with one channel of one unit, built by the constructor, scale `2` and shift `1`,
identity activations. -/
def exLayerOne : BatchNormalize ℚ :=
  BatchNormalize.ctor (fun _ => 2) (fun _ => 1) identity_func 1 1 identity_func

/-- A batch of two samples for `exLayerOne`: the unit holds `5, 7`. -/
def exOneU : Matrix ℚ := Matrix.ofList 1 2 [5, 7]

/-- A state transformer on matrices that keeps the shape and acts on every buffer offset on its
own: offset `p` of the result is `Φ n p` of offset `p` of the argument, `n` the column count. -/
def Pointwise {R : Type} (T : Matrix R → Matrix R) (Φ : Nat → Nat → R → R) : Prop :=
  ∀ A : Matrix R, (T A).m = A.m ∧ (T A).n = A.n ∧ ∀ p, (T A).v p = Φ A.n p (A.v p)

/-! ## Loop lemmas -/

section Loops

variable {σ : Type}

theorem forLoop_zero (body : Nat → σ → σ) (s : σ) : forLoop 0 body s = s := rfl

theorem forLoop_succ (n : Nat) (body : Nat → σ → σ) (s : σ) :
    forLoop (n + 1) body s = body n (forLoop n body s) := rfl

theorem forLoop_congr {n : Nat} {f g : Nat → σ → σ} (h : ∀ i, i < n → ∀ x, f i x = g i x)
    (s : σ) : forLoop n f s = forLoop n g s := by
  induction n with
  | zero => rfl
  | succ k ih =>
    rw [forLoop_succ, forLoop_succ, ih (fun i hi x => h i (Nat.lt_succ_of_lt hi) x)]
    exact h k (Nat.lt_succ_self k) _

/-- A loop none of whose iterations changes the state leaves it unchanged. -/
theorem forLoop_frame {n : Nat} {f : Nat → σ → σ} (h : ∀ i, i < n → ∀ x, f i x = x) (s : σ) :
    forLoop n f s = s := by
  induction n with
  | zero => rfl
  | succ k ih =>
    rw [forLoop_succ, ih (fun i hi x => h i (Nat.lt_succ_of_lt hi) x)]
    exact h k (Nat.lt_succ_self k) _

/-- A loop only one of whose iterations changes the state performs that iteration. -/
theorem forLoop_single {n : Nat} {f : Nat → σ → σ} (i0 : Nat) (hi0 : i0 < n)
    (h : ∀ i, i < n → i ≠ i0 → ∀ x, f i x = x) (s : σ) : forLoop n f s = f i0 s := by
  induction n with
  | zero => exact absurd hi0 (Nat.not_lt_zero _)
  | succ k ih =>
    rw [forLoop_succ]
    by_cases hk : i0 = k
    · subst hk
      rw [forLoop_frame (fun i hi x => h i (Nat.lt_succ_of_lt hi) (Nat.ne_of_lt hi) x)]
    · have hlt : i0 < k := by omega
      rw [h k (Nat.lt_succ_self k) (fun e => hk e.symm)]
      exact ih hlt (fun i hi hne x => h i (Nat.lt_succ_of_lt hi) hne x)

/-- Two nested loops only one of whose inner iterations changes the state. -/
theorem forLoop_single2 {M N : Nat} {f : Nat → Nat → σ → σ} (i0 j0 : Nat) (hi0 : i0 < M)
    (hj0 : j0 < N)
    (h : ∀ i j, i < M → j < N → ¬ (i = i0 ∧ j = j0) → ∀ x, f i j x = x) (s : σ) :
    forLoop M (fun i x => forLoop N (fun j x => f i j x) x) s = f i0 j0 s := by
  rw [forLoop_single i0 hi0]
  · exact forLoop_single j0 hj0 (fun j hj hne x => h i0 j hi0 hj (fun e => hne e.2) x) s
  · intro i hi hne x
    exact forLoop_frame (fun j hj y => h i j hi hj (fun e => hne e.1) y) x

/-- Three nested loops only one of whose innermost iterations changes the state. -/
theorem forLoop_single3 {M N K : Nat} {f : Nat → Nat → Nat → σ → σ} (i0 j0 k0 : Nat)
    (hi0 : i0 < M) (hj0 : j0 < N) (hk0 : k0 < K)
    (h : ∀ i j k, i < M → j < N → k < K → ¬ (i = i0 ∧ j = j0 ∧ k = k0) → ∀ x, f i j k x = x)
    (s : σ) :
    forLoop M (fun i x => forLoop N (fun j x => forLoop K (fun k x => f i j k x) x) x) s
      = f i0 j0 k0 s := by
  rw [forLoop_single i0 hi0]
  · exact forLoop_single2 j0 k0 hj0 hk0
      (fun j k hj hk hne x => h i0 j k hi0 hj hk (fun e => hne ⟨e.2.1, e.2.2⟩) x) s
  · intro i hi hne x
    refine forLoop_frame (fun j hj y => ?_) x
    exact forLoop_frame (fun k hk z => h i j k hi hj hk (fun e => hne e.1) z) y

/-- The accumulation loop `for k < n: sum += f k` adds the finite sum of `f`. -/
theorem forLoop_add_sum {R : Type} [AddCommMonoid R] (n : Nat) (f : Nat → R) (s : R) :
    forLoop n (fun k sum => sum + f k) s = s + ∑ k ∈ Finset.range n, f k := by
  induction n with
  | zero => simp [forLoop]
  | succ k ih => rw [forLoop_succ, ih, Finset.sum_range_succ, add_assoc]

/-- Two accumulators carried as a pair through one loop. -/
theorem forLoop_add_sum_pair {R : Type} [AddCommMonoid R] (n : Nat) (f g : Nat → R) :
    forLoop n (fun l (tmp : R × R) => (tmp.1 + f l, tmp.2 + g l)) (0, 0)
      = (∑ l ∈ Finset.range n, f l, ∑ l ∈ Finset.range n, g l) := by
  induction n with
  | zero => simp [forLoop]
  | succ k ih => rw [forLoop_succ, ih, Finset.sum_range_succ, Finset.sum_range_succ]

/-- The doubly nested accumulation `for j < N: for k < K: sum += f j k`. -/
theorem forLoop_add_sum2 {R : Type} [AddCommMonoid R] (N K : Nat) (f : Nat → Nat → R) (s : R) :
    forLoop N (fun j sum => forLoop K (fun k sum => sum + f j k) sum) s
      = s + ∑ j ∈ Finset.range N, ∑ k ∈ Finset.range K, f j k := by
  simp only [forLoop_add_sum]

/-- A sum over `M * N` consecutive indices, split into `M` blocks of `N`. -/
theorem sum_range_mul {R : Type} [AddCommMonoid R] (M N : Nat) (f : Nat → R) :
    ∑ r ∈ Finset.range (M * N), f r
      = ∑ i ∈ Finset.range M, ∑ j ∈ Finset.range N, f (i * N + j) := by
  induction M with
  | zero => simp
  | succ k ih => rw [Nat.succ_mul, Finset.sum_range_add, ih, Finset.sum_range_succ]

end Loops

/-! ## Row-major addressing and loops over matrices -/

section MatrixLoops

variable {R : Type}

/-- Row-major offsets of in-range columns determine row and column. -/
theorem idx_inj {n i j i' j' : Nat} (hj : j < n) (hj' : j' < n)
    (h : i * n + j = i' * n + j') : i = i' ∧ j = j' := by
  have hn : 0 < n := Nat.lt_of_le_of_lt (Nat.zero_le _) hj
  have hd : (j + i * n) / n = (j' + i' * n) / n := by rw [Nat.add_comm, h, Nat.add_comm]
  have hm : (j + i * n) % n = (j' + i' * n) % n := by rw [Nat.add_comm, h, Nat.add_comm]
  rw [Nat.add_mul_div_right _ _ hn, Nat.add_mul_div_right _ _ hn, Nat.div_eq_of_lt hj,
    Nat.div_eq_of_lt hj'] at hd
  rw [Nat.add_mul_mod_self_right, Nat.add_mul_mod_self_right, Nat.mod_eq_of_lt hj,
    Nat.mod_eq_of_lt hj'] at hm
  exact ⟨by omega, hm⟩

theorem pointwise_set (r c : Nat) (g : R → R) :
    Pointwise (fun A : Matrix R => A.set r c (g (A.get r c)))
      (fun n p x => if p = r * n + c then g x else x) := by
  intro A
  refine ⟨rfl, rfl, fun p => ?_⟩
  simp only [Matrix.set, Matrix.get, Function.update_apply]
  split_ifs with h
  · rw [h]
  · rfl

theorem pointwise_forLoop (N : Nat) (body : Nat → Matrix R → Matrix R)
    (Φ : Nat → Nat → Nat → R → R) (h : ∀ i, Pointwise (body i) (Φ i)) :
    Pointwise (fun A => forLoop N body A)
      (fun n p x => forLoop N (fun i x => Φ i n p x) x) := by
  induction N with
  | zero => intro A; exact ⟨rfl, rfl, fun _ => rfl⟩
  | succ k ih =>
    intro A
    obtain ⟨h1, h2, h3⟩ := ih A
    obtain ⟨g1, g2, g3⟩ := h k (forLoop k body A)
    refine ⟨?_, ?_, fun p => ?_⟩
    · show (body k (forLoop k body A)).m = A.m
      rw [g1]; exact h1
    · show (body k (forLoop k body A)).n = A.n
      rw [g2]; exact h2
    · show (body k (forLoop k body A)).v p = Φ k A.n p (forLoop k (fun i x => Φ i A.n p x) (A.v p))
      have h2' : (forLoop k body A).n = A.n := h2
      have h3' : (forLoop k body A).v p = forLoop k (fun i x => Φ i A.n p x) (A.v p) := h3 p
      rw [g3, h2', h3']

/-- The loop nest `for i < M: for j < N: A(i,j) = val i j` keeps the shape of `A` and leaves
`val i j` in entry `(i, j)`. -/
theorem assign2_spec (M N : Nat) (val : Nat → Nat → R) (A : Matrix R) (hN : N ≤ A.n) :
    (forLoop M (fun i A => forLoop N (fun j A => A.set i j (val i j)) A) A).m = A.m ∧
    (forLoop M (fun i A => forLoop N (fun j A => A.set i j (val i j)) A) A).n = A.n ∧
    ∀ i j, i < M → j < N →
      (forLoop M (fun i A => forLoop N (fun j A => A.set i j (val i j)) A) A).get i j
        = val i j := by
  have hP := pointwise_forLoop M
    (fun i (A : Matrix R) => forLoop N (fun j A => A.set i j (val i j)) A) _
    (fun i => pointwise_forLoop N (fun j (A : Matrix R) => A.set i j (val i j)) _
      (fun j => pointwise_set i j (fun _ => val i j)))
  obtain ⟨h1, h2, h3⟩ := hP A
  refine ⟨h1, h2, fun i0 j0 hi0 hj0 => ?_⟩
  simp only at h1 h2 h3
  rw [Matrix.get, h2, h3]
  rw [forLoop_single2 (f := fun i j x => if i0 * A.n + j0 = i * A.n + j then val i j else x)
    i0 j0 hi0 hj0]
  · simp
  · intro i j _ hj hne x
    have hne' : ¬ (i0 * A.n + j0 = i * A.n + j) := fun e =>
      hne (by
        obtain ⟨e1, e2⟩ := idx_inj (Nat.lt_of_lt_of_le hj0 hN) (Nat.lt_of_lt_of_le hj hN) e
        exact ⟨e1.symm, e2.symm⟩)
    simp [hne']

theorem idx_lt {m n i j : Nat} (hi : i < m) (hj : j < n) : i * n + j < m * n := by
  calc i * n + j < i * n + n := by omega
    _ = (i + 1) * n := (Nat.succ_mul i n).symm
    _ ≤ m * n := Nat.mul_le_mul_right n hi

theorem pointwise_flat (i : Nat) (op : R → R) :
    Pointwise (fun A : Matrix R => ⟨A.m, A.n, Function.update A.v i (op (A.v i))⟩)
      (fun _ p x => if p = i then op x else x) := by
  intro A
  refine ⟨rfl, rfl, fun p => ?_⟩
  simp only [Function.update_apply]
  split_ifs with h
  · rw [h]
  · rfl

/-- The flat loop `for i < T: v[i] = op i v[i]` keeps the shape and maps every offset below `T`. -/
theorem flat_loop_spec (T : Nat) (op : Nat → R → R) (A : Matrix R) :
    (forLoop T (fun i A => (⟨A.m, A.n, Function.update A.v i (op i (A.v i))⟩ : Matrix R)) A).m
      = A.m ∧
    (forLoop T (fun i A => (⟨A.m, A.n, Function.update A.v i (op i (A.v i))⟩ : Matrix R)) A).n
      = A.n ∧
    ∀ p, p < T →
      (forLoop T (fun i A => (⟨A.m, A.n, Function.update A.v i (op i (A.v i))⟩ : Matrix R)) A).v p
        = op p (A.v p) := by
  obtain ⟨h1, h2, h3⟩ := pointwise_forLoop T
    (fun i (A : Matrix R) => (⟨A.m, A.n, Function.update A.v i (op i (A.v i))⟩ : Matrix R)) _
    (fun i => pointwise_flat i (op i)) A
  refine ⟨h1, h2, fun p hp => ?_⟩
  simp only at h3
  rw [h3, forLoop_single (f := fun i x => if p = i then op i x else x) p hp]
  · simp
  · intro i _ hne x
    have hpi : ¬ p = i := fun e => hne e.symm
    simp only [hpi, if_false]

/-- The nest `for i < M: for j < N: for k < K: A(i,j) += f i j k` keeps the shape of `A` and adds
the sum of `f i j` over `k` to entry `(i, j)`. -/
theorem accum3_spec [AddCommMonoid R] (M N K : Nat) (f : Nat → Nat → Nat → R) (A : Matrix R)
    (hN : N ≤ A.n) :
    (forLoop M (fun i A => forLoop N (fun j A =>
      forLoop K (fun k A => A.set i j (A.get i j + f i j k)) A) A) A).m = A.m ∧
    (forLoop M (fun i A => forLoop N (fun j A =>
      forLoop K (fun k A => A.set i j (A.get i j + f i j k)) A) A) A).n = A.n ∧
    ∀ i j, i < M → j < N →
      (forLoop M (fun i A => forLoop N (fun j A =>
        forLoop K (fun k A => A.set i j (A.get i j + f i j k)) A) A) A).get i j
        = A.get i j + ∑ k ∈ Finset.range K, f i j k := by
  obtain ⟨h1, h2, h3⟩ := pointwise_forLoop M
    (fun i (A : Matrix R) => forLoop N (fun j A =>
      forLoop K (fun k A => A.set i j (A.get i j + f i j k)) A) A) _
    (fun i => pointwise_forLoop N (fun j (A : Matrix R) =>
      forLoop K (fun k A => A.set i j (A.get i j + f i j k)) A) _
      (fun j => pointwise_forLoop K (fun k (A : Matrix R) => A.set i j (A.get i j + f i j k)) _
        (fun k => pointwise_set i j (fun x => x + f i j k)))) A
  refine ⟨h1, h2, fun i0 j0 hi0 hj0 => ?_⟩
  simp only at h1 h2 h3
  rw [Matrix.get, h2, h3]
  rw [forLoop_single2
    (f := fun i j x => forLoop K
      (fun k x => if i0 * A.n + j0 = i * A.n + j then x + f i j k else x) x)
    i0 j0 hi0 hj0]
  · simp only [if_true]
    rw [forLoop_add_sum]
    rfl
  · intro i j _ hj hne x
    have hne' : ¬ (i0 * A.n + j0 = i * A.n + j) := fun e =>
      hne (by
        obtain ⟨e1, e2⟩ := idx_inj (Nat.lt_of_lt_of_le hj0 hN) (Nat.lt_of_lt_of_le hj hN) e
        exact ⟨e1.symm, e2.symm⟩)
    simp only [hne', if_false]
    exact forLoop_frame (fun _ _ _ => rfl) x

/-- The nest `for i < M: for j < N: for k < K: A(i*N' + j, k) = val i j k` keeps the shape of `A`
and leaves `val i j k` in entry `(i*N' + j, k)`. -/
theorem assign3_spec (M N N' K : Nat) (val : Nat → Nat → Nat → R) (A : Matrix R)
    (hN : N ≤ N') (hK : K ≤ A.n) :
    (forLoop M (fun i A => forLoop N (fun j A =>
      forLoop K (fun k A => A.set (i * N' + j) k (val i j k)) A) A) A).m = A.m ∧
    (forLoop M (fun i A => forLoop N (fun j A =>
      forLoop K (fun k A => A.set (i * N' + j) k (val i j k)) A) A) A).n = A.n ∧
    ∀ i j k, i < M → j < N → k < K →
      (forLoop M (fun i A => forLoop N (fun j A =>
        forLoop K (fun k A => A.set (i * N' + j) k (val i j k)) A) A) A).get (i * N' + j) k
        = val i j k := by
  obtain ⟨h1, h2, h3⟩ := pointwise_forLoop M
    (fun i (A : Matrix R) => forLoop N (fun j A =>
      forLoop K (fun k A => A.set (i * N' + j) k (val i j k)) A) A) _
    (fun i => pointwise_forLoop N (fun j (A : Matrix R) =>
      forLoop K (fun k A => A.set (i * N' + j) k (val i j k)) A) _
      (fun j => pointwise_forLoop K (fun k (A : Matrix R) => A.set (i * N' + j) k (val i j k)) _
        (fun k => pointwise_set (i * N' + j) k (fun _ => val i j k)))) A
  refine ⟨h1, h2, fun i0 j0 k0 hi0 hj0 hk0 => ?_⟩
  simp only at h1 h2 h3
  rw [Matrix.get, h2, h3]
  rw [forLoop_single3
    (f := fun i j k x =>
      if (i0 * N' + j0) * A.n + k0 = (i * N' + j) * A.n + k then val i j k else x)
    i0 j0 k0 hi0 hj0 hk0]
  · simp
  · intro i j k _ hj hk hne x
    have hne' : ¬ ((i0 * N' + j0) * A.n + k0 = (i * N' + j) * A.n + k) := fun e =>
      hne (by
        obtain ⟨e1, e2⟩ := idx_inj (Nat.lt_of_lt_of_le hk0 hK) (Nat.lt_of_lt_of_le hk hK) e
        obtain ⟨e3, e4⟩ := idx_inj (Nat.lt_of_lt_of_le hj0 hN) (Nat.lt_of_lt_of_le hj hN) e1
        exact ⟨e3.symm, e4.symm, e2.symm⟩)
    simp [hne']

/-- The loop `for i < n: A(0,i) = val i` keeps the shape of `A` and leaves `val i` in entry
`(0, i)`. -/
theorem assign1_spec (n : Nat) (val : Nat → R) (A : Matrix R) :
    (forLoop n (fun i A => A.set 0 i (val i)) A).m = A.m ∧
    (forLoop n (fun i A => A.set 0 i (val i)) A).n = A.n ∧
    ∀ i, i < n → (forLoop n (fun i A => A.set 0 i (val i)) A).get 0 i = val i := by
  obtain ⟨h1, h2, h3⟩ := pointwise_forLoop n (fun i (A : Matrix R) => A.set 0 i (val i)) _
    (fun i => pointwise_set 0 i (fun _ => val i)) A
  refine ⟨h1, h2, fun i0 hi0 => ?_⟩
  simp only at h1 h2 h3
  rw [Matrix.get, h2, h3]
  rw [forLoop_single (f := fun i x => if 0 * A.n + i0 = 0 * A.n + i then val i else x) i0 hi0]
  · simp
  · intro i _ hne x
    have hne' : ¬ (0 * A.n + i0 = 0 * A.n + i) := fun e => hne (by omega)
    simp only [hne', if_false]

/-- The loop of `calc_gradient` over the one-element vectors `nabla_W`, `nabla_b` acts on their
elements. -/
theorem forLoop_vec_pair [Zero R] (n : Nat) (v1 v2 : Nat → R) (A B : Matrix R) :
    forLoop n (fun i (nabla : List (Matrix R) × List (Matrix R)) =>
        (nabla.1.set 0 ((vec0 nabla.1).set 0 i (v1 i)),
         nabla.2.set 0 ((vec0 nabla.2).set 0 i (v2 i)))) ([A], [B])
      = ([forLoop n (fun i A => A.set 0 i (v1 i)) A],
         [forLoop n (fun i B => B.set 0 i (v2 i)) B]) := by
  induction n with
  | zero => rfl
  | succ k ih =>
    rw [forLoop_succ, ih]
    rfl

theorem zeros_spec [Zero R] (g : Nat → R) (m n : Nat) :
    (Matrix.zeros g m n).m = m ∧ (Matrix.zeros g m n).n = n ∧
    ∀ i j, i < m → j < n → (Matrix.zeros g m n).get i j = 0 := by
  obtain ⟨h1, h2, h3⟩ := flat_loop_spec (m * n) (fun _ _ => (0 : R)) (Matrix.alloc g m n)
  refine ⟨h1, h2, fun i j hi hj => ?_⟩
  have h2' : (Matrix.zeros g m n).n = n := h2
  rw [Matrix.get, h2']
  exact h3 _ (idx_lt hi hj)

theorem operator_div_assign_spec [Div R] (A : Matrix R) (c : R) :
    (A.operator_div_assign c).m = A.m ∧ (A.operator_div_assign c).n = A.n ∧
    ∀ i j, i < A.m → j < A.n → (A.operator_div_assign c).get i j = A.get i j / c := by
  obtain ⟨h1, h2, h3⟩ := flat_loop_spec (A.m * A.n) (fun _ x => x / c) A
  refine ⟨h1, h2, fun i j hi hj => ?_⟩
  have h2' : (A.operator_div_assign c).n = A.n := h2
  rw [Matrix.get, h2']
  exact h3 _ (idx_lt hi hj)

theorem operator_add_assign_spec [Add R] (A B : Matrix R) (hn : B.n = A.n) :
    (A.operator_add_assign B).m = A.m ∧ (A.operator_add_assign B).n = A.n ∧
    ∀ i j, i < B.m → j < B.n →
      (A.operator_add_assign B).get i j = A.get i j + B.get i j := by
  obtain ⟨h1, h2, h3⟩ := flat_loop_spec (B.m * B.n) (fun i x => x + B.v i) A
  refine ⟨h1, h2, fun i j hi hj => ?_⟩
  have h2' : (A.operator_add_assign B).n = A.n := h2
  rw [Matrix.get, h2', Matrix.get, Matrix.get, ← hn]
  exact h3 (i * B.n + j) (idx_lt hi hj)

end MatrixLoops

/-! ## Matrix product -/

section Product

variable {R : Type} [Field R]

/-- C1: for `A` of shape `m × l` and `B` of shape `l × n`, the naive triple loop of `operator *`
(`Matrix.hpp`, and the same loop of `matrix.hpp`) returns a matrix of shape `(m, n) =
(A.rows, B.cols)` whose entry `(i, j)` is the sum over `k < l` of `A(i,k) * B(k,j)`, whatever
the freshly allocated result buffer contained. -/
theorem operator_mul_spec (g : Nat → R) (A B : Matrix R) (m l n : Nat)
    (hA : A.m = m ∧ A.n = l) (hB : B.m = l ∧ B.n = n) :
    ((Matrix.operator_mul g A B).m = m ∧ (Matrix.operator_mul g A B).n = n ∧
      ∀ i j, i < m → j < n →
        (Matrix.operator_mul g A B).get i j = ∑ k ∈ Finset.range l, A.get i k * B.get k j) ∧
    ((Matrix.operator_mul_vec A B).m = m ∧ (Matrix.operator_mul_vec A B).n = n ∧
      ∀ i j, i < m → j < n →
        (Matrix.operator_mul_vec A B).get i j
          = ∑ k ∈ Finset.range l, A.get i k * B.get k j) := by
  obtain ⟨hAm, hAn⟩ := hA
  obtain ⟨_, hBn⟩ := hB
  subst hAm hAn hBn
  constructor
  · obtain ⟨h1, h2, h3⟩ := assign2_spec A.m B.n
      (fun i j => forLoop A.n (fun k sum => sum + A.get i k * B.get k j) 0)
      (Matrix.alloc g A.m B.n) (Nat.le_refl _)
    refine ⟨h1, h2, fun i j hi hj => ?_⟩
    have h := h3 i j hi hj
    rw [forLoop_add_sum, zero_add] at h
    exact h
  · obtain ⟨h1, h2, h3⟩ := assign2_spec A.m B.n
      (fun i j => forLoop A.n (fun k sum => sum + A.get i k * B.get k j) 0)
      (⟨A.m, B.n, fun _ => 0⟩ : Matrix R) (Nat.le_refl _)
    refine ⟨h1, h2, fun i j hi hj => ?_⟩
    have h := h3 i j hi hj
    rw [forLoop_add_sum, zero_add] at h
    exact h

/-- On conforming shapes the naive loop of `Matrix<float>::mult` returns, and stores the plain
product in `C`, whatever `alpha`, `beta` and the previous `C` are. -/
theorem mult_float_spec (A B C : Matrix R) (alpha beta : R)
    (hAB : A.n = B.m) (hm : A.m = C.m) (hn : B.n = C.n) :
    ∃ C', Matrix.mult_float A alpha B beta C = some C' ∧ C'.m = C.m ∧ C'.n = C.n ∧
      ∀ i j, i < A.m → j < B.n →
        C'.get i j = ∑ k ∈ Finset.range A.n, A.get i k * B.get k j := by
  obtain ⟨h1, h2, h3⟩ := assign2_spec A.m B.n
    (fun i j => forLoop A.n (fun k sum => sum + A.get i k * B.get k j) 0) C (Nat.le_of_eq hn)
  refine ⟨_, if_pos ⟨hAB, hm, hn⟩, h1, h2, fun i j hi hj => ?_⟩
  have h := h3 i j hi hj
  rw [forLoop_add_sum, zero_add] at h
  exact h

/-- On conforming shapes the naive loop of `Matrix<double>::mult` returns, and stores in every
row of `C` the product of row `0` of `A` with `B`. -/
theorem mult_double_spec (A B C : Matrix R) (alpha beta : R)
    (hAB : A.n = B.m) (hm : A.m = C.m) (hn : B.n = C.n) :
    ∃ C', Matrix.mult_double A alpha B beta C = some C' ∧ C'.m = C.m ∧ C'.n = C.n ∧
      ∀ i j, i < A.m → j < B.n →
        C'.get i j = ∑ k ∈ Finset.range A.n, A.get 0 k * B.get k j := by
  obtain ⟨h1, h2, h3⟩ := assign2_spec A.m B.n
    (fun _ j => forLoop A.n (fun k sum => sum + A.get 0 k * B.get k j) 0) C (Nat.le_of_eq hn)
  refine ⟨_, if_pos ⟨hAB, hm, hn⟩, h1, h2, fun i j hi hj => ?_⟩
  have h := h3 i j hi hj
  rw [forLoop_add_sum, zero_add] at h
  exact h

/-- C2 (evaluation at the failing input): with `A = B = C = [[1]]`, `alpha = 2`, `beta = 3` both
specialisations of `mult` on the naive path leave `C(0,0) = 1`, while
`alpha * (sum over k of A(0,k) * B(k,0)) + beta * C(0,0)` is `5`. -/
theorem mult_drops_alpha_beta :
    (Matrix.mult_float (Matrix.ofList 1 1 [(1 : ℚ)]) 2 (Matrix.ofList 1 1 [1]) 3
        (Matrix.ofList 1 1 [1])).map (fun C => C.get 0 0) = some 1 ∧
    (Matrix.mult_double (Matrix.ofList 1 1 [(1 : ℚ)]) 2 (Matrix.ofList 1 1 [1]) 3
        (Matrix.ofList 1 1 [1])).map (fun C => C.get 0 0) = some 1 ∧
    (2 : ℚ) * (∑ k ∈ Finset.range 1,
        (Matrix.ofList 1 1 [(1 : ℚ)]).get 0 k * (Matrix.ofList 1 1 [(1 : ℚ)]).get k 0)
      + 3 * (Matrix.ofList 1 1 [(1 : ℚ)]).get 0 0 = 5 := by
  refine ⟨?_, ?_, ?_⟩
  · simp [Matrix.mult_float, Matrix.ofList, forLoop, Matrix.set, Matrix.get]
  · simp [Matrix.mult_double, Matrix.ofList, forLoop, Matrix.set, Matrix.get]
  · simp [Matrix.ofList, Matrix.get]
    norm_num

/-- C3 (evaluation at the failing input): for the `2 × 1` matrix `A = [[0],[1]]` and `B = [[1]]`
the call `A.mult(1, B, 0, C)` of the `Matrix<double>` specialisation leaves `C(1,0) = 0`, while
`operator *` gives `(A*B)(1,0) = 1`. -/
theorem mult_double_differs_from_operator_mul :
    (Matrix.mult_double (Matrix.ofList 2 1 [(0 : ℚ), 1]) 1 (Matrix.ofList 1 1 [1]) 0
        (Matrix.ofList 2 1 [7, 7])).map (fun C => C.get 1 0) = some 0 ∧
    (Matrix.operator_mul (fun _ => 7) (Matrix.ofList 2 1 [(0 : ℚ), 1])
        (Matrix.ofList 1 1 [1])).get 1 0 = 1 := by
  constructor
  · simp [Matrix.mult_double, Matrix.ofList, forLoop, Matrix.set, Matrix.get]
  · simp [Matrix.operator_mul, Matrix.alloc, Matrix.ofList, forLoop, Matrix.set, Matrix.get]

/-- The `Matrix<float>` specialisation does agree with `operator *`: on conforming shapes
`A.mult(1, B, 0, C)` leaves in `C` the entries of the naive product. -/
theorem mult_float_eq_operator_mul (g : Nat → R) (A B C : Matrix R)
    (hAB : A.n = B.m) (hm : A.m = C.m) (hn : B.n = C.n) :
    ∃ C', Matrix.mult_float A 1 B 0 C = some C' ∧ C'.m = (Matrix.operator_mul g A B).m ∧
      C'.n = (Matrix.operator_mul g A B).n ∧
      ∀ i j, i < A.m → j < B.n → C'.get i j = (Matrix.operator_mul g A B).get i j := by
  obtain ⟨C', h0, h1, h2, h3⟩ := mult_float_spec A B C 1 0 hAB hm hn
  obtain ⟨p1, p2, p3⟩ := assign2_spec A.m B.n
    (fun i j => forLoop A.n (fun k sum => sum + A.get i k * B.get k j) 0)
    (Matrix.alloc g A.m B.n) (Nat.le_refl _)
  refine ⟨C', h0, h1.trans (hm.symm.trans p1.symm), h2.trans (hn.symm.trans p2.symm),
    fun i j hi hj => ?_⟩
  have h := p3 i j hi hj
  rw [forLoop_add_sum, zero_add] at h
  rw [h3 i j hi hj]
  exact h.symm

end Product

/-! ## BatchNormalize: forward pass -/

section Forward

variable {R : Type} [Field R]

open BatchNormalize

/-- The constant `EPS` is one hundred-millionth. -/
theorem EPS_eq : (EPS : R) = 1 / 100000000 := by
  unfold EPS
  rw [show (1.0E-8 : R) = ((1.0E-8 : ℚ) : R) from (Rat.cast_ofScientific _ _ _).symm,
    Rat.cast_def]
  have h1 : (1.0E-8 : ℚ).num = 1 := by norm_num
  have h2 : (1.0E-8 : ℚ).den = 100000000 := by norm_num
  rw [h1, h2]
  simp

theorem apply_mean_spec (L : BatchNormalize R) (U mean0 : Matrix R)
    (hm : mean0.m = L.num_map) (hn : mean0.n = L.num_unit)
    (h0 : ∀ i j, i < L.num_map → j < L.num_unit → mean0.get i j = 0) :
    (apply_mean L 0 L.num_unit U mean0).m = L.num_map ∧
    (apply_mean L 0 L.num_unit U mean0).n = L.num_unit ∧
    ∀ i j, i < L.num_map → j < L.num_unit →
      (apply_mean L 0 L.num_unit U mean0).get i j
        = (∑ k ∈ Finset.range U.n, U.get (i * L.prev_num_unit + j) k) / (U.n : R) := by
  obtain ⟨a1, a2, a3⟩ := accum3_spec L.num_map L.num_unit U.n
    (fun i j k => U.get (i * L.prev_num_unit + 0 + j) k) mean0 (Nat.le_of_eq hn.symm)
  obtain ⟨d1, d2, d3⟩ := operator_div_assign_spec
    (forLoop L.num_map (fun i A => forLoop L.num_unit (fun j A =>
      forLoop U.n (fun k A =>
        A.set i j (A.get i j + U.get (i * L.prev_num_unit + 0 + j) k)) A) A) mean0) (U.n : R)
  refine ⟨d1.trans (a1.trans hm), d2.trans (a2.trans hn), fun i j hi hj => ?_⟩
  have e := d3 i j (by rw [a1, hm]; exact hi) (by rw [a2, hn]; exact hj)
  rw [a3 i j hi hj, h0 i j hi hj, zero_add] at e
  exact e

theorem apply_var_spec (L : BatchNormalize R) (U mean var0 : Matrix R)
    (hm : var0.m = L.num_map) (hn : var0.n = L.num_unit)
    (h0 : ∀ i j, i < L.num_map → j < L.num_unit → var0.get i j = 0) :
    (apply_var L 0 L.num_unit U mean var0).m = L.num_map ∧
    (apply_var L 0 L.num_unit U mean var0).n = L.num_unit ∧
    ∀ i j, i < L.num_map → j < L.num_unit →
      (apply_var L 0 L.num_unit U mean var0).get i j
        = (∑ k ∈ Finset.range U.n,
            (U.get (i * L.prev_num_unit + j) k - mean.get i j)
              * (U.get (i * L.prev_num_unit + j) k - mean.get i j)) / (U.n : R) := by
  obtain ⟨a1, a2, a3⟩ := accum3_spec L.num_map L.num_unit U.n
    (fun i j k => (U.get (i * L.prev_num_unit + 0 + j) k - mean.get i j)
      * (U.get (i * L.prev_num_unit + 0 + j) k - mean.get i j)) var0 (Nat.le_of_eq hn.symm)
  obtain ⟨d1, d2, d3⟩ := operator_div_assign_spec
    (forLoop L.num_map (fun i A => forLoop L.num_unit (fun j A =>
      forLoop U.n (fun k A =>
        A.set i j (A.get i j + (U.get (i * L.prev_num_unit + 0 + j) k - mean.get i j)
          * (U.get (i * L.prev_num_unit + 0 + j) k - mean.get i j))) A) A) var0) (U.n : R)
  refine ⟨d1.trans (a1.trans hm), d2.trans (a2.trans hn), fun i j hi hj => ?_⟩
  have e := d3 i j (by rw [a1, hm]; exact hi) (by rw [a2, hn]; exact hj)
  rw [a3 i j hi hj, h0 i j hi hj, zero_add] at e
  exact e

theorem apply_ret_spec (ops : RealOps R) (L : BatchNormalize R) (U mean var ret0 : Matrix R)
    (hK : U.n ≤ ret0.n) :
    (apply_ret ops L L.num_unit U mean var ret0).m = ret0.m ∧
    (apply_ret ops L L.num_unit U mean var ret0).n = ret0.n ∧
    ∀ i j k, i < L.num_map → j < L.num_unit → k < U.n →
      (apply_ret ops L L.num_unit U mean var ret0).get (i * L.num_unit + j) k
        = (vec0 L.W).get 0 i * (U.get (i * L.prev_num_unit + j) k - mean.get i j)
            / ops.sqrt (var.get i j + EPS) + (vec0 L.b).get 0 i :=
  assign3_spec L.num_map L.num_unit L.num_unit U.n
    (fun i j k => (vec0 L.W).get 0 i * (U.get (i * L.prev_num_unit + j) k - mean.get i j)
            / ops.sqrt (var.get i j + EPS) + (vec0 L.b).get 0 i) ret0 (Nat.le_refl _) hK

theorem apply_mean_eq (ops : RealOps R) (L : BatchNormalize R) (gs gr : Nat → R) (U : Matrix R)
    (uf : Bool) :
    (L.apply ops gs gr U uf).2.mean
      = apply_mean L 0 L.num_unit U (Matrix.zeros gs L.num_map L.num_unit) := rfl

theorem apply_var_eq (ops : RealOps R) (L : BatchNormalize R) (gs gr : Nat → R) (U : Matrix R)
    (uf : Bool) :
    (L.apply ops gs gr U uf).2.var
      = apply_var L 0 L.num_unit U (L.apply ops gs gr U uf).2.mean
          (Matrix.zeros gs L.num_map L.num_unit) := rfl

theorem apply_ret_eq (ops : RealOps R) (L : BatchNormalize R) (gs gr : Nat → R) (U : Matrix R) :
    (L.apply ops gs gr U false).1
      = apply_ret ops L L.num_unit U (L.apply ops gs gr U false).2.mean
          (L.apply ops gs gr U false).2.var
          (Matrix.alloc gr (L.num_map * L.num_unit) U.n) := rfl

/-- The statistics stored by `apply`, entry by entry, in the form the code computes them. -/
theorem apply_stats (ops : RealOps R) (L : BatchNormalize R) (gs gr : Nat → R) (U : Matrix R)
    (uf : Bool) (i j : Nat) (hi : i < L.num_map) (hj : j < L.num_unit) :
    (L.apply ops gs gr U uf).2.mean.get i j
        = (∑ k ∈ Finset.range U.n, U.get (i * L.prev_num_unit + j) k) / (U.n : R) ∧
    (L.apply ops gs gr U uf).2.var.get i j
        = (∑ k ∈ Finset.range U.n,
            (U.get (i * L.prev_num_unit + j) k - (L.apply ops gs gr U uf).2.mean.get i j)
              * (U.get (i * L.prev_num_unit + j) k - (L.apply ops gs gr U uf).2.mean.get i j))
          / (U.n : R) := by
  obtain ⟨z1, z2, z3⟩ := zeros_spec gs L.num_map L.num_unit
  constructor
  · rw [apply_mean_eq]
    exact (apply_mean_spec L U _ z1 z2 z3).2.2 i j hi hj
  · rw [apply_var_eq]
    exact (apply_var_spec L U _ _ z1 z2 z3).2.2 i j hi hj

/-- The shapes of the statistics stored by `apply`. -/
theorem apply_stats_shape (ops : RealOps R) (L : BatchNormalize R) (gs gr : Nat → R)
    (U : Matrix R) (uf : Bool) :
    (L.apply ops gs gr U uf).2.mean.m = L.num_map ∧
    (L.apply ops gs gr U uf).2.mean.n = L.num_unit ∧
    (L.apply ops gs gr U uf).2.var.m = L.num_map ∧
    (L.apply ops gs gr U uf).2.var.n = L.num_unit := by
  obtain ⟨z1, z2, z3⟩ := zeros_spec gs L.num_map L.num_unit
  refine ⟨?_, ?_, ?_, ?_⟩
  · rw [apply_mean_eq]; exact (apply_mean_spec L U _ z1 z2 z3).1
  · rw [apply_mean_eq]; exact (apply_mean_spec L U _ z1 z2 z3).2.1
  · rw [apply_var_eq]; exact (apply_var_spec L U _ _ z1 z2 z3).1
  · rw [apply_var_eq]; exact (apply_var_spec L U _ _ z1 z2 z3).2.1

/-- Entry of the output of `apply` without activation, in terms of the stored statistics. -/
theorem apply_entry (ops : RealOps R) (L : BatchNormalize R) (gs gr : Nat → R) (U : Matrix R)
    (hL : L.WF) (i j k : Nat) (hi : i < L.num_map) (hj : j < L.num_unit) (hk : k < U.n) :
    (L.apply ops gs gr U false).1.get (i * L.num_unit + j) k
      = (vec0 L.W).get 0 i
          * (U.get (i * L.num_unit + j) k - (L.apply ops gs gr U false).2.mean.get i j)
          / ops.sqrt ((L.apply ops gs gr U false).2.var.get i j + EPS)
        + (vec0 L.b).get 0 i := by
  have h := (apply_ret_spec ops L U (L.apply ops gs gr U false).2.mean
    (L.apply ops gs gr U false).2.var (Matrix.alloc gr (L.num_map * L.num_unit) U.n)
    (Nat.le_refl _)).2.2 i j k hi hj hk
  rw [← apply_ret_eq, hL.2.1] at h
  exact h

/-- C4: after the CPU `apply(U)` of the build without `USE_MPI`, with batch size `N = U.n > 0`,
for every channel `i < num_map` and unit `j < num_unit` the stored `mean(i,j)` is
`(1/N) * Σ_k U(i*num_unit + j, k)` and the stored `var(i,j)` is
`(1/N) * Σ_k (U(i*num_unit + j, k) - mean(i,j))^2`, whatever `mean` and `var` (and the
freshly allocated buffers) held before the call. -/
theorem apply_mean_var (ops : RealOps R) (L : BatchNormalize R) (gs gr : Nat → R) (U : Matrix R)
    (uf : Bool) (hL : L.WF) (hN : 0 < U.n) (i j : Nat) (hi : i < L.num_map)
    (hj : j < L.num_unit) :
    (L.apply ops gs gr U uf).2.mean.get i j
        = 1 / (U.n : R) * ∑ k ∈ Finset.range U.n, U.get (i * L.num_unit + j) k ∧
    (L.apply ops gs gr U uf).2.var.get i j
        = 1 / (U.n : R) * ∑ k ∈ Finset.range U.n,
            (U.get (i * L.num_unit + j) k - (L.apply ops gs gr U uf).2.mean.get i j) ^ 2 := by
  obtain ⟨h1, h2⟩ := apply_stats ops L gs gr U uf i j hi hj
  rw [hL.2.1] at h1 h2
  constructor
  · rw [h1, div_eq_mul_inv, one_div, mul_comm]
  · rw [h2, div_eq_mul_inv, one_div, mul_comm]
    congr 1
    exact Finset.sum_congr rfl (fun k _ => (sq _).symm)

/-- C5: the CPU `apply(U, false)` of the build without `USE_MPI` returns a matrix of shape
`(num_map * num_unit) × U.n` whose entry at row `i*num_unit + j`, column `k` is
`W[0](0,i) * (U(i*num_unit + j, k) - mean(i,j)) / sqrt(var(i,j) + EPS) + b[0](0,i)` with
`EPS = 1e-8`, and `apply(U, true)` is the activation `func` in value mode applied to
`apply(U, false)`. -/
theorem apply_output (ops : RealOps R) (L : BatchNormalize R) (gs gr : Nat → R) (U : Matrix R)
    (hL : L.WF) :
    (L.apply ops gs gr U false).1.m = L.num_map * L.num_unit ∧
    (L.apply ops gs gr U false).1.n = U.n ∧
    (∀ i j k, i < L.num_map → j < L.num_unit → k < U.n →
      (L.apply ops gs gr U false).1.get (i * L.num_unit + j) k
        = (vec0 L.W).get 0 i
            * (U.get (i * L.num_unit + j) k - (L.apply ops gs gr U false).2.mean.get i j)
            / ops.sqrt ((L.apply ops gs gr U false).2.var.get i j + EPS)
          + (vec0 L.b).get 0 i) ∧
    (EPS : R) = 1 / 100000000 ∧
    (L.apply ops gs gr U true).1 = L.func (L.apply ops gs gr U false).1 false := by
  obtain ⟨r1, r2, r3⟩ := apply_ret_spec ops L U (L.apply ops gs gr U false).2.mean
    (L.apply ops gs gr U false).2.var (Matrix.alloc gr (L.num_map * L.num_unit) U.n)
    (Nat.le_refl _)
  rw [← apply_ret_eq] at r1 r2 r3
  refine ⟨r1, r2, fun i j k hi hj hk => ?_, ?_, rfl⟩
  · have h := r3 i j k hi hj hk
    rw [hL.2.1] at h
    exact h
  · exact EPS_eq

/-- In exact arithmetic (a field of characteristic zero), if all `N > 0` samples of row
`i*num_unit + j` of `U` hold the same value `c`, then `apply` stores `var(i,j) = 0` and the
output without activation of that row is the shift `b[0](0,i)` in every sample, for every scale
`W[0](0,i)`. -/
theorem apply_constant_row_exact [CharZero R] (ops : RealOps R) (L : BatchNormalize R)
    (gs gr : Nat → R) (U : Matrix R) (hL : L.WF) (hN : 0 < U.n) (i j : Nat)
    (hi : i < L.num_map) (hj : j < L.num_unit) (c : R)
    (hc : ∀ k, k < U.n → U.get (i * L.num_unit + j) k = c) :
    (L.apply ops gs gr U false).2.var.get i j = 0 ∧
    ∀ k, k < U.n → (L.apply ops gs gr U false).1.get (i * L.num_unit + j) k
      = (vec0 L.b).get 0 i := by
  have hN' : (U.n : R) ≠ 0 := Nat.cast_ne_zero.mpr (Nat.pos_iff_ne_zero.mp hN)
  obtain ⟨h1, h2⟩ := apply_stats ops L gs gr U false i j hi hj
  rw [hL.2.1] at h1 h2
  have hmean : (L.apply ops gs gr U false).2.mean.get i j = c := by
    rw [h1, Finset.sum_congr rfl (fun k hk => hc k (Finset.mem_range.mp hk)),
      Finset.sum_const, Finset.card_range, nsmul_eq_mul]
    field_simp
  have hvar : (L.apply ops gs gr U false).2.var.get i j = 0 := by
    rw [h2, Finset.sum_eq_zero, zero_div]
    intro k hk
    rw [hc k (Finset.mem_range.mp hk), hmean, sub_self, mul_zero]
  refine ⟨hvar, fun k hk => ?_⟩
  rw [apply_entry ops L gs gr U hL i j k hi hj hk, hc k hk, hmean, sub_self, mul_zero,
    zero_div, zero_add]

/-- The method `apply` changes no member of the layer other than `mean` and `var`. -/
theorem apply_frame (ops : RealOps R) (L : BatchNormalize R) (gs gr : Nat → R) (U : Matrix R)
    (uf : Bool) :
    (L.apply ops gs gr U uf).2.prev_num_map = L.prev_num_map ∧
    (L.apply ops gs gr U uf).2.num_map = L.num_map ∧
    (L.apply ops gs gr U uf).2.prev_num_unit = L.prev_num_unit ∧
    (L.apply ops gs gr U uf).2.num_unit = L.num_unit ∧
    (L.apply ops gs gr U uf).2.func = L.func ∧
    (L.apply ops gs gr U uf).2.prev_func = L.prev_func ∧
    (L.apply ops gs gr U uf).2.W = L.W ∧
    (L.apply ops gs gr U uf).2.b = L.b :=
  ⟨rfl, rfl, rfl, rfl, rfl, rfl, rfl, rfl⟩

theorem apply_WF (ops : RealOps R) (L : BatchNormalize R) (gs gr : Nat → R) (U : Matrix R)
    (uf : Bool) (hL : L.WF) : (L.apply ops gs gr U uf).2.WF := hL

/-- The output of `apply` without activation, row by row, as a function of the row of `U`. -/
theorem apply_out_row (ops : RealOps R) (L : BatchNormalize R) (gs gr : Nat → R) (U : Matrix R)
    (hL : L.WF) (i j k : Nat) (hi : i < L.num_map) (hj : j < L.num_unit) (hk : k < U.n) :
    (L.apply ops gs gr U false).1.get (i * L.num_unit + j) k
      = rowOut ops ((vec0 L.W).get 0 i) ((vec0 L.b).get 0 i) U.n
          (fun l => U.get (i * L.num_unit + j) l) k := by
  obtain ⟨h1, h2⟩ := apply_stats ops L gs gr U false i j hi hj
  rw [hL.2.1] at h1 h2
  have hmean : (L.apply ops gs gr U false).2.mean.get i j
      = rowMean U.n (fun l => U.get (i * L.num_unit + j) l) := h1
  have hvar : (L.apply ops gs gr U false).2.var.get i j
      = rowVar U.n (fun l => U.get (i * L.num_unit + j) l) := by
    rw [h2, hmean]; rfl
  rw [apply_entry ops L gs gr U hL i j k hi hj hk, hmean, hvar]
  rfl

/-- The stored statistics are the row statistics of `U`. -/
theorem apply_stats_row (ops : RealOps R) (L : BatchNormalize R) (gs gr : Nat → R)
    (U : Matrix R) (hL : L.WF) (i j : Nat) (hi : i < L.num_map) (hj : j < L.num_unit) :
    (L.apply ops gs gr U false).2.mean.get i j
        = rowMean U.n (fun l => U.get (i * L.num_unit + j) l) ∧
    (L.apply ops gs gr U false).2.var.get i j
        = rowVar U.n (fun l => U.get (i * L.num_unit + j) l) := by
  obtain ⟨h1, h2⟩ := apply_stats ops L gs gr U false i j hi hj
  rw [hL.2.1] at h1 h2
  have hmean : (L.apply ops gs gr U false).2.mean.get i j
      = rowMean U.n (fun l => U.get (i * L.num_unit + j) l) := h1
  refine ⟨hmean, ?_⟩
  rw [h2, hmean]; rfl

theorem rowMean_congr (N : Nat) (a a' : Nat → R) (h : ∀ l, l < N → a l = a' l) :
    rowMean N a = rowMean N a' := by
  unfold rowMean
  rw [Finset.sum_congr rfl (fun l hl => h l (Finset.mem_range.mp hl))]

theorem rowVar_congr (N : Nat) (a a' : Nat → R) (h : ∀ l, l < N → a l = a' l) :
    rowVar N a = rowVar N a' := by
  unfold rowVar
  rw [rowMean_congr N a a' h,
    Finset.sum_congr rfl (fun l hl => by rw [h l (Finset.mem_range.mp hl)])]

theorem rowOut_congr (ops : RealOps R) (W b : R) (N : Nat) (a a' : Nat → R)
    (h : ∀ l, l < N → a l = a' l) (k : Nat) (hk : k < N) :
    rowOut ops W b N a k = rowOut ops W b N a' k := by
  unfold rowOut
  rw [rowMean_congr N a a' h, rowVar_congr N a a' h, h k hk]

/-- The loss of the output of `apply`, as a sum over channels, units and samples of the row
formula. -/
theorem loss_apply (ops : RealOps R) (L : BatchNormalize R) (gs gr : Nat → R)
    (U delta : Matrix R) (hL : L.WF) :
    loss (L.num_map * L.num_unit) U.n delta (L.apply ops gs gr U false).1
      = ∑ i ∈ Finset.range L.num_map, ∑ j ∈ Finset.range L.num_unit,
          ∑ k ∈ Finset.range U.n, delta.get (i * L.num_unit + j) k
            * rowOut ops ((vec0 L.W).get 0 i) ((vec0 L.b).get 0 i) U.n
                (fun l => U.get (i * L.num_unit + j) l) k := by
  unfold loss
  rw [sum_range_mul]
  refine Finset.sum_congr rfl (fun i hi => Finset.sum_congr rfl (fun j hj =>
    Finset.sum_congr rfl (fun k hk => ?_)))
  rw [apply_out_row ops L gs gr U hL i j k (Finset.mem_range.mp hi) (Finset.mem_range.mp hj)
    (Finset.mem_range.mp hk)]

end Forward

/-! ## BatchNormalize: backward pass and update -/

section Backward

variable {R : Type} [Field R]

open BatchNormalize

/-- Entry of the matrix returned by `calc_delta`, the two batch means written as sums. -/
theorem calc_delta_entry (ops : RealOps R) (L : BatchNormalize R) (g : Nat → R)
    (U delta : Matrix R) (hL : L.WF) (hd : delta.n = U.n) (i j k : Nat) (hi : i < L.num_map)
    (hj : j < L.num_unit) (hk : k < U.n) :
    (L.calc_delta ops g U delta).get (i * L.num_unit + j) k
      = (vec0 L.W).get 0 i / ops.sqrt (L.var.get i j + EPS)
            * delta.get (i * L.num_unit + j) k * (L.prev_func U true).get (i * L.num_unit + j) k
        - (vec0 L.W).get 0 i / ops.sqrt (L.var.get i j + EPS)
            * (L.prev_func U true).get (i * L.num_unit + j) k
            * (1 / (U.n : R) * ∑ l ∈ Finset.range U.n, delta.get (i * L.num_unit + j) l)
        - (vec0 L.W).get 0 i / ops.pow (L.var.get i j + EPS) 1.5
            * (L.prev_func U true).get (i * L.num_unit + j) k
            * ((L.prev_func U false).get (i * L.num_unit + j) k - L.mean.get i j)
            * (1 / (U.n : R) * ∑ l ∈ Finset.range U.n,
                delta.get (i * L.num_unit + j) l
                  * ((L.prev_func U false).get (i * L.num_unit + j) l - L.mean.get i j)) := by
  have hK : U.n ≤ (Matrix.alloc g (L.prev_num_map * L.num_unit) delta.n).n :=
    Nat.le_of_eq hd.symm
  simp only [calc_delta, hL.2.1]
  rw [(assign3_spec L.num_map L.num_unit L.num_unit U.n _
    (Matrix.alloc g (L.prev_num_map * L.num_unit) delta.n) (Nat.le_refl _)
    hK).2.2 i j k hi hj hk]
  rw [forLoop_add_sum_pair]
  simp only [Nat.add_zero]
  ring

/-- C7: the CPU `calc_delta(U, delta)` of the build without `USE_MPI`, with `N = U.n > 0` and a
`delta` of `N` columns, returns a matrix of shape `(prev_num_map * prev_num_unit) × N` whose
entry at row `r = i*num_unit + j`, sample `k` is
`a*delta(r,k)*d(r,k) - a*d(r,k)*m1 - c*d(r,k)*(x(r,k) - mean(i,j))*m2`, with `x`, `d` the
previous activation of `U` in value and in derivative mode, `a = W[0](0,i)/sqrt(var(i,j)+EPS)`,
`c = W[0](0,i)/(var(i,j)+EPS)^1.5`, `m1 = (1/N) Σ_l delta(r,l)` and
`m2 = (1/N) Σ_l delta(r,l)*(x(r,l) - mean(i,j))`. -/
theorem calc_delta_spec (ops : RealOps R) (L : BatchNormalize R) (g : Nat → R)
    (U delta : Matrix R) (hL : L.WF) (hN : 0 < U.n) (hd : delta.n = U.n) :
    (L.calc_delta ops g U delta).m = L.prev_num_map * L.prev_num_unit ∧
    (L.calc_delta ops g U delta).n = U.n ∧
    ∀ i j k, i < L.num_map → j < L.num_unit → k < U.n →
      (L.calc_delta ops g U delta).get (i * L.num_unit + j) k
        = (vec0 L.W).get 0 i / ops.sqrt (L.var.get i j + EPS)
              * delta.get (i * L.num_unit + j) k * (L.prev_func U true).get (i * L.num_unit + j) k
          - (vec0 L.W).get 0 i / ops.sqrt (L.var.get i j + EPS)
              * (L.prev_func U true).get (i * L.num_unit + j) k
              * (1 / (U.n : R) * ∑ l ∈ Finset.range U.n, delta.get (i * L.num_unit + j) l)
          - (vec0 L.W).get 0 i / ops.pow (L.var.get i j + EPS) 1.5
              * (L.prev_func U true).get (i * L.num_unit + j) k
              * ((L.prev_func U false).get (i * L.num_unit + j) k - L.mean.get i j)
              * (1 / (U.n : R) * ∑ l ∈ Finset.range U.n,
                  delta.get (i * L.num_unit + j) l
                    * ((L.prev_func U false).get (i * L.num_unit + j) l - L.mean.get i j)) := by
  have hK : U.n ≤ (Matrix.alloc g (L.prev_num_map * L.prev_num_unit) delta.n).n :=
    Nat.le_of_eq hd.symm
  refine ⟨?_, ?_, fun i j k hi hj hk => calc_delta_entry ops L g U delta hL hd i j k hi hj hk⟩
  · exact (assign3_spec L.num_map L.prev_num_unit L.prev_num_unit U.n _
      (Matrix.alloc g (L.prev_num_map * L.prev_num_unit) delta.n) (Nat.le_refl _) hK).1
  · exact ((assign3_spec L.num_map L.prev_num_unit L.prev_num_unit U.n _
      (Matrix.alloc g (L.prev_num_map * L.prev_num_unit) delta.n) (Nat.le_refl _) hK).2.1).trans hd

/-- The pair returned by `calc_gradient`: two one-element vectors of `1 × num_map` matrices and
their entries. -/
theorem calc_gradient_entries (ops : RealOps R) (L : BatchNormalize R) (gW gb : Nat → R)
    (U delta : Matrix R) (hL : L.WF) :
    ∃ dW0 db0, L.calc_gradient ops gW gb U delta = ([dW0], [db0]) ∧
      (dW0.m = 1 ∧ dW0.n = L.num_map) ∧ (db0.m = 1 ∧ db0.n = L.num_map) ∧
      ∀ i, i < L.num_map →
        dW0.get 0 i = ∑ j ∈ Finset.range L.num_unit, ∑ k ∈ Finset.range U.n,
            delta.get (i * L.num_unit + j) k
              * ((L.prev_func U false).get (i * L.num_unit + j) k - L.mean.get i j)
              / ops.sqrt (L.var.get i j + EPS) ∧
        db0.get 0 i = ∑ j ∈ Finset.range L.num_unit, ∑ k ∈ Finset.range U.n,
            delta.get (i * L.num_unit + j) k := by
  simp only [calc_gradient, hL.2.1, forLoop_add_sum2, zero_add, Nat.add_zero]
  rw [forLoop_vec_pair]
  obtain ⟨a1, a2, a3⟩ := assign1_spec L.num_map
    (fun i => ∑ j ∈ Finset.range L.num_unit, ∑ k ∈ Finset.range U.n,
      delta.get (i * L.num_unit + j) k
        * ((L.prev_func U false).get (i * L.num_unit + j) k - L.mean.get i j)
        / ops.sqrt (L.var.get i j + EPS)) (Matrix.alloc gW 1 L.num_map)
  obtain ⟨c1, c2, c3⟩ := assign1_spec L.num_map
    (fun i => ∑ j ∈ Finset.range L.num_unit, ∑ k ∈ Finset.range U.n,
      delta.get (i * L.num_unit + j) k) (Matrix.alloc gb 1 L.num_map)
  exact ⟨_, _, rfl, ⟨a1, a2⟩, ⟨c1, c2⟩, fun i hi => ⟨a3 i hi, c3 i hi⟩⟩

/-- C8: the CPU `calc_gradient(U, delta)` of the build without `USE_MPI` returns `(dW, db)`,
each a single matrix of shape `1 × num_map` (the shapes of `W[0]` and `b[0]`), with
`dW[0](0,i) = Σ_{j<num_unit} Σ_{k<U.n} delta(i*num_unit+j, k) * (x(i*num_unit+j, k) - mean(i,j))
/ sqrt(var(i,j)+EPS)` and `db[0](0,i) = Σ_{j<num_unit} Σ_{k<U.n} delta(i*num_unit+j, k)`, `x`
being the previous activation of `U` in value mode. -/
theorem calc_gradient_spec (ops : RealOps R) (L : BatchNormalize R) (gW gb : Nat → R)
    (U delta : Matrix R) (hL : L.WF) :
    ∃ dW0 db0, L.calc_gradient ops gW gb U delta = ([dW0], [db0]) ∧
      (dW0.m = 1 ∧ dW0.n = L.num_map) ∧ (db0.m = 1 ∧ db0.n = L.num_map) ∧
      (dW0.m = (vec0 L.W).m ∧ dW0.n = (vec0 L.W).n) ∧
      (db0.m = (vec0 L.b).m ∧ db0.n = (vec0 L.b).n) ∧
      ∀ i, i < L.num_map →
        dW0.get 0 i = ∑ j ∈ Finset.range L.num_unit, ∑ k ∈ Finset.range U.n,
            delta.get (i * L.num_unit + j) k
              * ((L.prev_func U false).get (i * L.num_unit + j) k - L.mean.get i j)
              / ops.sqrt (L.var.get i j + EPS) ∧
        db0.get 0 i = ∑ j ∈ Finset.range L.num_unit, ∑ k ∈ Finset.range U.n,
            delta.get (i * L.num_unit + j) k := by
  obtain ⟨dW0, db0, hcg, hW, hb, hent⟩ := calc_gradient_entries ops L gW gb U delta hL
  obtain ⟨_, _, ⟨W0, hW0, hWm, hWn⟩, ⟨b0, hb0, hbm, hbn⟩⟩ := hL
  have hWv : vec0 L.W = W0 := by rw [hW0]; rfl
  have hbv : vec0 L.b = b0 := by rw [hb0]; rfl
  refine ⟨dW0, db0, hcg, hW, hb, ⟨?_, ?_⟩, ⟨?_, ?_⟩, hent⟩
  · rw [hWv, hWm]; exact hW.1
  · rw [hWv, hWn]; exact hW.2
  · rw [hbv, hbm]; exact hb.1
  · rw [hbv, hbn]; exact hb.2

/-- C10: `update_W(dW, db)` with `dW[0]`, `db[0]` of shape `1 × num_map` sets `W[0](0,i)` to
`W[0](0,i) + dW[0](0,i)` and `b[0](0,i)` to `b[0](0,i) + db[0](0,i)` for every `i < num_map`,
and leaves the shapes of `W[0]` and `b[0]` and the stored `mean` and `var` unchanged. -/
theorem update_W_spec (L : BatchNormalize R) (dW db : List (Matrix R)) (hL : L.WF)
    (hdW : (vec0 dW).m = 1 ∧ (vec0 dW).n = L.num_map)
    (hdb : (vec0 db).m = 1 ∧ (vec0 db).n = L.num_map) :
    (∀ i, i < L.num_map →
      (vec0 (L.update_W dW db).W).get 0 i = (vec0 L.W).get 0 i + (vec0 dW).get 0 i ∧
      (vec0 (L.update_W dW db).b).get 0 i = (vec0 L.b).get 0 i + (vec0 db).get 0 i) ∧
    ((vec0 (L.update_W dW db).W).m = (vec0 L.W).m ∧
      (vec0 (L.update_W dW db).W).n = (vec0 L.W).n) ∧
    ((vec0 (L.update_W dW db).b).m = (vec0 L.b).m ∧
      (vec0 (L.update_W dW db).b).n = (vec0 L.b).n) ∧
    (L.update_W dW db).mean = L.mean ∧ (L.update_W dW db).var = L.var := by
  obtain ⟨_, _, ⟨W0, hW, hWm, hWn⟩, ⟨b0, hb, hbm, hbn⟩⟩ := hL
  have hWv : vec0 L.W = W0 := by rw [hW]; rfl
  have hbv : vec0 L.b = b0 := by rw [hb]; rfl
  have hW' : vec0 (L.update_W dW db).W = W0.operator_add_assign (vec0 dW) := by
    show vec0 (L.W.set 0 ((vec0 L.W).operator_add_assign (vec0 dW))) = _
    rw [hWv, hW]; rfl
  have hb' : vec0 (L.update_W dW db).b = b0.operator_add_assign (vec0 db) := by
    show vec0 (L.b.set 0 ((vec0 L.b).operator_add_assign (vec0 db))) = _
    rw [hbv, hb]; rfl
  obtain ⟨w1, w2, w3⟩ := operator_add_assign_spec W0 (vec0 dW) (hdW.2.trans hWn.symm)
  obtain ⟨v1, v2, v3⟩ := operator_add_assign_spec b0 (vec0 db) (hdb.2.trans hbn.symm)
  rw [hW', hb', hWv, hbv]
  refine ⟨fun i hi => ⟨w3 0 i ?_ ?_, v3 0 i ?_ ?_⟩, ⟨w1, w2⟩, ⟨v1, v2⟩, rfl, rfl⟩
  · rw [hdW.1]; exact Nat.one_pos
  · rw [hdW.2]; exact hi
  · rw [hdb.1]; exact Nat.one_pos
  · rw [hdb.2]; exact hi

end Backward

/-! ## BatchNormalize: the backward pass is the gradient of the forward pass -/

section Gradient

open BatchNormalize

theorem EPS_pos : (0 : ℝ) < EPS := by unfold EPS; norm_num

theorem rowVar_nonneg (N : Nat) (a : Nat → ℝ) : 0 ≤ rowVar N a := by
  unfold rowVar
  exact div_nonneg (Finset.sum_nonneg (fun l _ => mul_self_nonneg _)) (Nat.cast_nonneg N)

theorem sum_sub_rowMean (N : Nat) (hN : 0 < N) (a : Nat → ℝ) :
    ∑ l ∈ Finset.range N, (a l - rowMean N a) = 0 := by
  have hN' : (N : ℝ) ≠ 0 := Nat.cast_ne_zero.mpr (Nat.pos_iff_ne_zero.mp hN)
  rw [Finset.sum_sub_distrib, Finset.sum_const, Finset.card_range, nsmul_eq_mul, rowMean]
  field_simp

theorem update_hasDerivAt (a : Nat → ℝ) (k0 k : Nat) (t0 : ℝ) :
    HasDerivAt (fun t => Function.update a k0 t k) (if k = k0 then 1 else 0) t0 := by
  by_cases h : k = k0
  · subst h
    simp only [Function.update_same, if_true]
    exact hasDerivAt_id t0
  · simp only [Function.update_noteq h, if_neg h]
    exact hasDerivAt_const t0 (a k)

theorem rowMean_hasDerivAt (N : Nat) (a : Nat → ℝ) (k0 : Nat) (hk0 : k0 < N) (t0 : ℝ) :
    HasDerivAt (fun t => rowMean N (Function.update a k0 t)) (1 / (N : ℝ)) t0 := by
  unfold rowMean
  have h := (HasDerivAt.sum (u := Finset.range N)
    (fun k _ => update_hasDerivAt a k0 k t0)).div_const (N : ℝ)
  rw [Finset.sum_ite_eq' (Finset.range N) k0 (fun _ => (1 : ℝ)), 
    if_pos (Finset.mem_range.mpr hk0)] at h
  exact h

theorem rowVar_hasDerivAt (N : Nat) (hN : 0 < N) (a : Nat → ℝ) (k0 : Nat) (hk0 : k0 < N) :
    HasDerivAt (fun t => rowVar N (Function.update a k0 t))
      (2 / (N : ℝ) * (a k0 - rowMean N a)) (a k0) := by
  unfold rowVar
  have hterm : ∀ l ∈ Finset.range N, HasDerivAt
      (fun t => (Function.update a k0 t l - rowMean N (Function.update a k0 t))
        * (Function.update a k0 t l - rowMean N (Function.update a k0 t)))
      (2 * (a l - rowMean N a) * ((if l = k0 then 1 else 0) - 1 / (N : ℝ))) (a k0) := by
    intro l _
    have h1 := (update_hasDerivAt a k0 l (a k0)).sub (rowMean_hasDerivAt N a k0 hk0 (a k0))
    have h2 := h1.mul h1
    simp only [Function.update_eq_self] at h2
    exact h2.congr_deriv (by ring)
  have h := (HasDerivAt.sum hterm).div_const (N : ℝ)
  refine h.congr_deriv ?_
  have e : ∑ l ∈ Finset.range N, 2 * (a l - rowMean N a) * ((if l = k0 then 1 else 0) - 1 / (N : ℝ))
      = 2 * (a k0 - rowMean N a) := by
    have : ∀ l ∈ Finset.range N, 2 * (a l - rowMean N a) * ((if l = k0 then 1 else 0) - 1 / (N : ℝ))
        = (if l = k0 then 2 * (a l - rowMean N a) else 0) - 2 / (N : ℝ) * (a l - rowMean N a) := by
      intro l _
      split_ifs <;> ring
    rw [Finset.sum_congr rfl this, Finset.sum_sub_distrib, ← Finset.mul_sum,
      sum_sub_rowMean N hN a, Finset.sum_ite_eq' (Finset.range N) k0,
      if_pos (Finset.mem_range.mpr hk0)]
    ring
  rw [e]
  ring

theorem rpow_three_halves (y : ℝ) (hy : 0 ≤ y) : y ^ (1.5 : ℝ) = Real.sqrt y ^ 3 := by
  rw [Real.sqrt_eq_rpow, ← Real.rpow_natCast, ← Real.rpow_mul hy]
  norm_num

theorem rowLoss_hasDerivAt (W b : ℝ) (N : Nat) (hN : 0 < N) (a δ : Nat → ℝ) (k0 : Nat)
    (hk0 : k0 < N) :
    HasDerivAt
      (fun t => ∑ k ∈ Finset.range N,
        δ k * rowOut ⟨Real.sqrt, fun u v => u ^ v⟩ W b N (Function.update a k0 t) k)
      (W / Real.sqrt (rowVar N a + EPS) * δ k0 * 1
        - W / Real.sqrt (rowVar N a + EPS) * 1 * (1 / (N : ℝ) * ∑ l ∈ Finset.range N, δ l)
        - W / (rowVar N a + EPS) ^ (1.5 : ℝ) * 1 * (a k0 - rowMean N a)
            * (1 / (N : ℝ) * ∑ l ∈ Finset.range N, δ l * (a l - rowMean N a)))
      (a k0) := by
  have hN' : (N : ℝ) ≠ 0 := Nat.cast_ne_zero.mpr (Nat.pos_iff_ne_zero.mp hN)
  have hpos : 0 < rowVar N a + EPS := add_pos_of_nonneg_of_pos (rowVar_nonneg N a) EPS_pos
  have hs : 0 < Real.sqrt (rowVar N a + EPS) := Real.sqrt_pos.mpr hpos
  have hs' : Real.sqrt (rowVar N a + EPS) ≠ 0 := ne_of_gt hs
  have hsq : Real.sqrt (rowVar N a + EPS) ^ 2 = rowVar N a + EPS := Real.sq_sqrt (le_of_lt hpos)
  have hsqrt : HasDerivAt (fun t => Real.sqrt (rowVar N (Function.update a k0 t) + EPS))
      ((a k0 - rowMean N a) / ((N : ℝ) * Real.sqrt (rowVar N a + EPS))) (a k0) := by
    have h := ((rowVar_hasDerivAt N hN a k0 hk0).add_const EPS).sqrt
      (by simp only [Function.update_eq_self]; exact ne_of_gt hpos)
    simp only [Function.update_eq_self] at h
    refine h.congr_deriv ?_
    field_simp
    ring
  have hterm : ∀ k ∈ Finset.range N, HasDerivAt
      (fun t => δ k * rowOut ⟨Real.sqrt, fun u v => u ^ v⟩ W b N (Function.update a k0 t) k)
      (W / Real.sqrt (rowVar N a + EPS) * (if k = k0 then δ k else 0)
        - W / Real.sqrt (rowVar N a + EPS) / (N : ℝ) * δ k
        - W / Real.sqrt (rowVar N a + EPS) ^ 3 * (a k0 - rowMean N a) / (N : ℝ)
            * (δ k * (a k - rowMean N a))) (a k0) := by
    intro k _
    unfold rowOut
    have h1 := (update_hasDerivAt a k0 k (a k0)).sub (rowMean_hasDerivAt N a k0 hk0 (a k0))
    have h2 := (((h1.const_mul W).div hsqrt
      (by simp only [Function.update_eq_self]; exact hs')).add_const b).const_mul (δ k)
    simp only [Function.update_eq_self] at h2
    refine h2.congr_deriv ?_
    generalize Real.sqrt (rowVar N a + EPS) = s at hs' ⊢
    split_ifs
    · field_simp
      ring
    · field_simp
      ring
  refine (HasDerivAt.sum hterm).congr_deriv ?_
  rw [Finset.sum_sub_distrib, Finset.sum_sub_distrib, ← Finset.mul_sum, ← Finset.mul_sum,
    ← Finset.mul_sum, Finset.sum_ite_eq' (Finset.range N) k0,
    if_pos (Finset.mem_range.mpr hk0), rpow_three_halves _ (le_of_lt hpos)]
  ring

theorem set_get {R : Type} (x : Matrix R) (r0 k0 : Nat) (t : R) (r k : Nat) (hk : k < x.n)
    (hk0 : k0 < x.n) :
    (x.set r0 k0 t).get r k = if r = r0 ∧ k = k0 then t else x.get r k := by
  simp only [Matrix.set, Matrix.get, Function.update_apply]
  by_cases h : r = r0 ∧ k = k0
  · rw [if_pos h, if_pos (by rw [h.1, h.2])]
  · rw [if_neg h, if_neg (fun e => h (idx_inj hk hk0 e))]

theorem perturb_W_get {R : Type} [Zero R] (L : BatchNormalize R) (hL : L.WF) (i0 : Nat) (t : R)
    (i : Nat) :
    (vec0 (L.perturb_W i0 t).W).get 0 i = if i = i0 then t else (vec0 L.W).get 0 i := by
  obtain ⟨_, _, ⟨W0, hW, _, _⟩, _⟩ := hL
  have e : vec0 (L.perturb_W i0 t).W = (vec0 L.W).set 0 i0 t := by
    show vec0 (L.W.set 0 ((vec0 L.W).set 0 i0 t)) = _
    rw [hW]; rfl
  rw [e]
  simp only [Matrix.set, Matrix.get, Function.update_apply]
  by_cases h : i = i0
  · rw [if_pos h, if_pos (by rw [h])]
  · rw [if_neg h, if_neg (fun e => h (by omega))]

theorem perturb_b_get {R : Type} [Zero R] (L : BatchNormalize R) (hL : L.WF) (i0 : Nat) (t : R)
    (i : Nat) :
    (vec0 (L.perturb_b i0 t).b).get 0 i = if i = i0 then t else (vec0 L.b).get 0 i := by
  obtain ⟨_, _, _, ⟨b0, hb, _, _⟩⟩ := hL
  have e : vec0 (L.perturb_b i0 t).b = (vec0 L.b).set 0 i0 t := by
    show vec0 (L.b.set 0 ((vec0 L.b).set 0 i0 t)) = _
    rw [hb]; rfl
  rw [e]
  simp only [Matrix.set, Matrix.get, Function.update_apply]
  by_cases h : i = i0
  · rw [if_pos h, if_pos (by rw [h])]
  · rw [if_neg h, if_neg (fun e => h (by omega))]

theorem perturb_W_WF {R : Type} [Zero R] (L : BatchNormalize R) (hL : L.WF) (i0 : Nat) (t : R) :
    (L.perturb_W i0 t).WF := by
  obtain ⟨h1, h2, ⟨W0, hW, hWm, hWn⟩, hb⟩ := hL
  refine ⟨h1, h2, ⟨W0.set 0 i0 t, ?_, hWm, hWn⟩, hb⟩
  show L.W.set 0 ((vec0 L.W).set 0 i0 t) = _
  rw [hW]; rfl

theorem perturb_b_WF {R : Type} [Zero R] (L : BatchNormalize R) (hL : L.WF) (i0 : Nat) (t : R) :
    (L.perturb_b i0 t).WF := by
  obtain ⟨h1, h2, hW, ⟨b0, hb, hbm, hbn⟩⟩ := hL
  refine ⟨h1, h2, hW, ⟨b0.set 0 i0 t, ?_, hbm, hbn⟩⟩
  show L.b.set 0 ((vec0 L.b).set 0 i0 t) = _
  rw [hb]; rfl

/-- A double sum of functions all but one of which are constant has the derivative of that
one. -/
theorem hasDerivAt_sum_single2 (M N i0 j0 : Nat) (hi0 : i0 < M) (hj0 : j0 < N)
    (G : Nat → Nat → ℝ → ℝ) (D t0 : ℝ) (h0 : HasDerivAt (G i0 j0) D t0)
    (hconst : ∀ i j, ¬ (i = i0 ∧ j = j0) → ∃ c, G i j = fun _ => c) :
    HasDerivAt (fun t => ∑ i ∈ Finset.range M, ∑ j ∈ Finset.range N, G i j t) D t0 := by
  have hterm : ∀ i j, HasDerivAt (G i j) (if i = i0 ∧ j = j0 then D else 0) t0 := by
    intro i j
    by_cases h : i = i0 ∧ j = j0
    · rw [if_pos h, h.1, h.2]
      exact h0
    · rw [if_neg h]
      obtain ⟨c, hc⟩ := hconst i j h
      rw [hc]
      exact hasDerivAt_const t0 c
  have hrow : ∀ i ∈ Finset.range M, HasDerivAt (fun t => ∑ j ∈ Finset.range N, G i j t)
      (∑ j ∈ Finset.range N, if i = i0 ∧ j = j0 then D else 0) t0 :=
    fun i _ => HasDerivAt.sum (fun j _ => hterm i j)
  refine (HasDerivAt.sum hrow).congr_deriv ?_
  rw [Finset.sum_eq_single i0, Finset.sum_eq_single j0, if_pos ⟨rfl, rfl⟩]
  · intro j _ hne
    rw [if_neg (fun e => hne e.2)]
  · intro hmem
    exact absurd (Finset.mem_range.mpr hj0) hmem
  · intro i _ hne
    exact Finset.sum_eq_zero (fun j _ => if_neg (fun e => hne e.1))
  · intro hmem
    exact absurd (Finset.mem_range.mpr hi0) hmem

/-- A sum of functions all but one of which are constant has the derivative of that one. -/
theorem hasDerivAt_sum_single (M i0 : Nat) (hi0 : i0 < M) (G : Nat → ℝ → ℝ) (D t0 : ℝ)
    (h0 : HasDerivAt (G i0) D t0) (hconst : ∀ i, i ≠ i0 → ∃ c, G i = fun _ => c) :
    HasDerivAt (fun t => ∑ i ∈ Finset.range M, G i t) D t0 := by
  have hterm : ∀ i ∈ Finset.range M, HasDerivAt (G i) (if i = i0 then D else 0) t0 := by
    intro i _
    by_cases h : i = i0
    · rw [if_pos h, h]
      exact h0
    · rw [if_neg h]
      obtain ⟨c, hc⟩ := hconst i h
      rw [hc]
      exact hasDerivAt_const t0 c
  refine (HasDerivAt.sum hterm).congr_deriv ?_
  rw [Finset.sum_ite_eq' (Finset.range M) i0, if_pos (Finset.mem_range.mpr hi0)]

/-- The loss of the forward pass, as a function of one entry of the input, has the derivative
given by the three-term formula. -/
theorem loss_hasDerivAt_x (L : BatchNormalize ℝ) (gs gr : Nat → ℝ) (x delta : Matrix ℝ)
    (hL : L.WF) (hN : 0 < x.n) (i0 j0 k0 : Nat) (hi0 : i0 < L.num_map)
    (hj0 : j0 < L.num_unit) (hk0 : k0 < x.n) :
    HasDerivAt
      (fun t => loss (L.num_map * L.num_unit) x.n delta
        (L.apply ⟨Real.sqrt, fun u v => u ^ v⟩ gs gr (x.set (i0 * L.num_unit + j0) k0 t)
          false).1)
      ((vec0 L.W).get 0 i0
            / Real.sqrt (rowVar x.n (fun l => x.get (i0 * L.num_unit + j0) l) + EPS)
            * delta.get (i0 * L.num_unit + j0) k0 * 1
        - (vec0 L.W).get 0 i0
            / Real.sqrt (rowVar x.n (fun l => x.get (i0 * L.num_unit + j0) l) + EPS) * 1
            * (1 / (x.n : ℝ) * ∑ l ∈ Finset.range x.n, delta.get (i0 * L.num_unit + j0) l)
        - (vec0 L.W).get 0 i0
            / (rowVar x.n (fun l => x.get (i0 * L.num_unit + j0) l) + EPS) ^ (1.5 : ℝ) * 1
            * (x.get (i0 * L.num_unit + j0) k0
                - rowMean x.n (fun l => x.get (i0 * L.num_unit + j0) l))
            * (1 / (x.n : ℝ) * ∑ l ∈ Finset.range x.n, delta.get (i0 * L.num_unit + j0) l
                * (x.get (i0 * L.num_unit + j0) l
                    - rowMean x.n (fun l => x.get (i0 * L.num_unit + j0) l))))
      (x.get (i0 * L.num_unit + j0) k0) := by
  have hfun : (fun t => loss (L.num_map * L.num_unit) x.n delta
        (L.apply ⟨Real.sqrt, fun u v => u ^ v⟩ gs gr (x.set (i0 * L.num_unit + j0) k0 t)
          false).1)
      = fun t => ∑ i ∈ Finset.range L.num_map, ∑ j ∈ Finset.range L.num_unit,
          if i = i0 ∧ j = j0 then
            ∑ k ∈ Finset.range x.n, delta.get (i0 * L.num_unit + j0) k
              * rowOut ⟨Real.sqrt, fun u v => u ^ v⟩ ((vec0 L.W).get 0 i0) ((vec0 L.b).get 0 i0)
                  x.n (Function.update (fun l => x.get (i0 * L.num_unit + j0) l) k0 t) k
          else
            ∑ k ∈ Finset.range x.n, delta.get (i * L.num_unit + j) k
              * rowOut ⟨Real.sqrt, fun u v => u ^ v⟩ ((vec0 L.W).get 0 i) ((vec0 L.b).get 0 i)
                  x.n (fun l => x.get (i * L.num_unit + j) l) k := by
    funext t
    refine (loss_apply ⟨Real.sqrt, fun u v => u ^ v⟩ L gs gr
      (x.set (i0 * L.num_unit + j0) k0 t) delta hL).trans ?_
    refine Finset.sum_congr rfl (fun i _ => Finset.sum_congr rfl (fun j hj => ?_))
    have hj' : j < L.num_unit := Finset.mem_range.mp hj
    by_cases h : i = i0 ∧ j = j0
    · rw [if_pos h, h.1, h.2]
      refine Finset.sum_congr rfl (fun k hk => ?_)
      congr 1
      refine rowOut_congr _ _ _ _ _ _ (fun l hl => ?_) k (Finset.mem_range.mp hk)
      rw [set_get x _ _ t _ l hl hk0, Function.update_apply]
      by_cases hl0 : l = k0
      · rw [if_pos ⟨rfl, hl0⟩, if_pos hl0]
      · rw [if_neg (fun e => hl0 e.2), if_neg hl0]
    · rw [if_neg h]
      refine Finset.sum_congr rfl (fun k hk => ?_)
      congr 1
      refine rowOut_congr _ _ _ _ _ _ (fun l hl => ?_) k (Finset.mem_range.mp hk)
      rw [set_get x _ _ t _ l hl hk0, if_neg (fun e => h (idx_inj hj' hj0 e.1))]
  rw [hfun]
  refine hasDerivAt_sum_single2 L.num_map L.num_unit i0 j0 hi0 hj0
    (fun i j t => if i = i0 ∧ j = j0 then
            ∑ k ∈ Finset.range x.n, delta.get (i0 * L.num_unit + j0) k
              * rowOut ⟨Real.sqrt, fun u v => u ^ v⟩ ((vec0 L.W).get 0 i0) ((vec0 L.b).get 0 i0)
                  x.n (Function.update (fun l => x.get (i0 * L.num_unit + j0) l) k0 t) k
          else
            ∑ k ∈ Finset.range x.n, delta.get (i * L.num_unit + j) k
              * rowOut ⟨Real.sqrt, fun u v => u ^ v⟩ ((vec0 L.W).get 0 i) ((vec0 L.b).get 0 i)
                  x.n (fun l => x.get (i * L.num_unit + j) l) k) _ _ ?_ ?_
  · simp only [if_pos (And.intro rfl rfl)]
    exact rowLoss_hasDerivAt ((vec0 L.W).get 0 i0) ((vec0 L.b).get 0 i0) x.n hN
      (fun l => x.get (i0 * L.num_unit + j0) l) (fun l => delta.get (i0 * L.num_unit + j0) l)
      k0 hk0
  · intro i j h
    simp only [if_neg h]
    exact ⟨_, rfl⟩

/-- The loss of the forward pass, as a function of one scale `W[0](0,i0)`, has the derivative
accumulated by `calc_gradient`. -/
theorem loss_hasDerivAt_W (L : BatchNormalize ℝ) (gs gr : Nat → ℝ) (x delta : Matrix ℝ)
    (hL : L.WF) (i0 : Nat) (hi0 : i0 < L.num_map) :
    HasDerivAt
      (fun t => loss (L.num_map * L.num_unit) x.n delta
        ((L.perturb_W i0 t).apply ⟨Real.sqrt, fun u v => u ^ v⟩ gs gr x false).1)
      (∑ j ∈ Finset.range L.num_unit, ∑ k ∈ Finset.range x.n,
        delta.get (i0 * L.num_unit + j) k
          * (x.get (i0 * L.num_unit + j) k
              - rowMean x.n (fun l => x.get (i0 * L.num_unit + j) l))
          / Real.sqrt (rowVar x.n (fun l => x.get (i0 * L.num_unit + j) l) + EPS))
      ((vec0 L.W).get 0 i0) := by
  have hfun : (fun t => loss (L.num_map * L.num_unit) x.n delta
        ((L.perturb_W i0 t).apply ⟨Real.sqrt, fun u v => u ^ v⟩ gs gr x false).1)
      = fun t => ∑ i ∈ Finset.range L.num_map, ∑ j ∈ Finset.range L.num_unit,
          ∑ k ∈ Finset.range x.n, delta.get (i * L.num_unit + j) k
            * rowOut ⟨Real.sqrt, fun u v => u ^ v⟩
                (if i = i0 then t else (vec0 L.W).get 0 i) ((vec0 L.b).get 0 i)
                x.n (fun l => x.get (i * L.num_unit + j) l) k := by
    funext t
    refine (loss_apply ⟨Real.sqrt, fun u v => u ^ v⟩ (L.perturb_W i0 t) gs gr x delta
      (perturb_W_WF L hL i0 t)).trans ?_
    refine Finset.sum_congr rfl (fun i _ => Finset.sum_congr rfl (fun j _ =>
      Finset.sum_congr rfl (fun k _ => ?_)))
    rw [perturb_W_get L hL i0 t i]
    rfl
  rw [hfun]
  refine hasDerivAt_sum_single L.num_map i0 hi0
    (fun i t => ∑ j ∈ Finset.range L.num_unit,
          ∑ k ∈ Finset.range x.n, delta.get (i * L.num_unit + j) k
            * rowOut ⟨Real.sqrt, fun u v => u ^ v⟩
                (if i = i0 then t else (vec0 L.W).get 0 i) ((vec0 L.b).get 0 i)
                x.n (fun l => x.get (i * L.num_unit + j) l) k) _ _ ?_ ?_
  · simp only [if_pos rfl, rowOut]
    refine HasDerivAt.sum (fun j _ => HasDerivAt.sum (fun k _ => ?_))
    have h := ((((hasDerivAt_id ((vec0 L.W).get 0 i0)).mul_const
      (x.get (i0 * L.num_unit + j) k
        - rowMean x.n (fun l => x.get (i0 * L.num_unit + j) l))).div_const
      (Real.sqrt (rowVar x.n (fun l => x.get (i0 * L.num_unit + j) l) + EPS))).add_const
      ((vec0 L.b).get 0 i0)).const_mul (delta.get (i0 * L.num_unit + j) k)
    refine h.congr_deriv ?_
    ring
  · intro i h
    simp only [if_neg h]
    exact ⟨_, rfl⟩

/-- The loss of the forward pass, as a function of one shift `b[0](0,i0)`, has the derivative
accumulated by `calc_gradient`. -/
theorem loss_hasDerivAt_b (L : BatchNormalize ℝ) (gs gr : Nat → ℝ) (x delta : Matrix ℝ)
    (hL : L.WF) (i0 : Nat) (hi0 : i0 < L.num_map) :
    HasDerivAt
      (fun t => loss (L.num_map * L.num_unit) x.n delta
        ((L.perturb_b i0 t).apply ⟨Real.sqrt, fun u v => u ^ v⟩ gs gr x false).1)
      (∑ j ∈ Finset.range L.num_unit, ∑ k ∈ Finset.range x.n,
        delta.get (i0 * L.num_unit + j) k)
      ((vec0 L.b).get 0 i0) := by
  have hfun : (fun t => loss (L.num_map * L.num_unit) x.n delta
        ((L.perturb_b i0 t).apply ⟨Real.sqrt, fun u v => u ^ v⟩ gs gr x false).1)
      = fun t => ∑ i ∈ Finset.range L.num_map, ∑ j ∈ Finset.range L.num_unit,
          ∑ k ∈ Finset.range x.n, delta.get (i * L.num_unit + j) k
            * rowOut ⟨Real.sqrt, fun u v => u ^ v⟩
                ((vec0 L.W).get 0 i) (if i = i0 then t else (vec0 L.b).get 0 i)
                x.n (fun l => x.get (i * L.num_unit + j) l) k := by
    funext t
    refine (loss_apply ⟨Real.sqrt, fun u v => u ^ v⟩ (L.perturb_b i0 t) gs gr x delta
      (perturb_b_WF L hL i0 t)).trans ?_
    refine Finset.sum_congr rfl (fun i _ => Finset.sum_congr rfl (fun j _ =>
      Finset.sum_congr rfl (fun k _ => ?_)))
    rw [perturb_b_get L hL i0 t i]
    rfl
  rw [hfun]
  refine hasDerivAt_sum_single L.num_map i0 hi0
    (fun i t => ∑ j ∈ Finset.range L.num_unit,
          ∑ k ∈ Finset.range x.n, delta.get (i * L.num_unit + j) k
            * rowOut ⟨Real.sqrt, fun u v => u ^ v⟩
                ((vec0 L.W).get 0 i) (if i = i0 then t else (vec0 L.b).get 0 i)
                x.n (fun l => x.get (i * L.num_unit + j) l) k) _ _ ?_ ?_
  · simp only [if_pos rfl, rowOut]
    refine HasDerivAt.sum (fun j _ => HasDerivAt.sum (fun k _ => ?_))
    have h := ((hasDerivAt_id ((vec0 L.b).get 0 i0)).const_add
      ((vec0 L.W).get 0 i0 * (x.get (i0 * L.num_unit + j) k
        - rowMean x.n (fun l => x.get (i0 * L.num_unit + j) l))
        / Real.sqrt (rowVar x.n (fun l => x.get (i0 * L.num_unit + j) l) + EPS))).const_mul
      (delta.get (i0 * L.num_unit + j) k)
    refine h.congr_deriv ?_
    ring
  · intro i h
    simp only [if_neg h]
    exact ⟨_, rfl⟩

/-- C9: with the identity as previous activation and over the reals, for an input `x` of shape
`(num_map * num_unit) × N`, `N > 0`, and a downstream `delta` of `N` columns, let
`y = apply(x, false)` and `loss = Σ_{r,k} delta(r,k) * y(r,k)`.  Then every entry of
`calc_delta(x, delta)` is the partial derivative of the loss with respect to that entry of `x`,
and the entries of the `(dW, db)` returned by `calc_gradient(x, delta)` are the partial
derivatives of the loss with respect to the entries of `W[0]` and `b[0]` (both methods called
on the layer as `apply(x)` left it). -/
theorem backward_is_gradient (ops : RealOps ℝ) (hsqrt : ops.sqrt = Real.sqrt)
    (hpow : ops.pow = fun u v => u ^ v) (L : BatchNormalize ℝ) (gs gr g gW gb : Nat → ℝ)
    (x delta : Matrix ℝ) (hL : L.WF) (hN : 0 < x.n) (hx : x.m = L.num_map * L.num_unit)
    (hd : delta.n = x.n) (hval : ∀ U, L.prev_func U false = U)
    (hdiff : ∀ U r k, r < U.m → k < U.n → (L.prev_func U true).get r k = 1) :
    (∀ i j k, i < L.num_map → j < L.num_unit → k < x.n →
      HasDerivAt
        (fun t => loss (L.num_map * L.num_unit) x.n delta
          (L.apply ops gs gr (x.set (i * L.num_unit + j) k t) false).1)
        (((L.apply ops gs gr x false).2.calc_delta ops g x delta).get (i * L.num_unit + j) k)
        (x.get (i * L.num_unit + j) k)) ∧
    (∀ i, i < L.num_map →
      HasDerivAt
        (fun t => loss (L.num_map * L.num_unit) x.n delta
          ((L.perturb_W i t).apply ops gs gr x false).1)
        ((vec0 ((L.apply ops gs gr x false).2.calc_gradient ops gW gb x delta).1).get 0 i)
        ((vec0 L.W).get 0 i) ∧
      HasDerivAt
        (fun t => loss (L.num_map * L.num_unit) x.n delta
          ((L.perturb_b i t).apply ops gs gr x false).1)
        ((vec0 ((L.apply ops gs gr x false).2.calc_gradient ops gW gb x delta).2).get 0 i)
        ((vec0 L.b).get 0 i)) := by
  obtain ⟨s, p⟩ := ops
  simp only at hsqrt hpow
  subst hsqrt
  subst hpow
  have hL' := apply_WF ⟨Real.sqrt, fun u v => u ^ v⟩ L gs gr x false hL
  obtain ⟨_, f2, _, f4, _, f6, f7, f8⟩ :=
    apply_frame ⟨Real.sqrt, fun u v => u ^ v⟩ L gs gr x false
  constructor
  · intro i j k hi hj hk
    refine (loss_hasDerivAt_x L gs gr x delta hL hN i j k hi hj hk).congr_deriv ?_
    have e := calc_delta_entry ⟨Real.sqrt, fun u v => u ^ v⟩ _ g x delta hL' hd i j k
      hi hj hk
    obtain ⟨m1, m2⟩ := apply_stats_row ⟨Real.sqrt, fun u v => u ^ v⟩ L gs gr x hL i j hi hj
    have hr : i * L.num_unit + j < x.m := by rw [hx]; exact idx_lt hi hj
    rw [f4, f6, f7, m1, m2, hval, hdiff x _ k hr hk] at e
    exact e.symm
  · intro i hi
    obtain ⟨dW0, db0, hcg, _, _, hent⟩ :=
      calc_gradient_entries ⟨Real.sqrt, fun u v => u ^ v⟩ _ gW gb x delta hL'
    obtain ⟨e1, e2⟩ := hent i hi
    rw [f4, f6, hval] at e1
    rw [f4] at e2
    rw [hcg]
    constructor
    · refine (loss_hasDerivAt_W L gs gr x delta hL i hi).congr_deriv ?_
      refine Eq.trans ?_ e1.symm
      refine Finset.sum_congr rfl (fun j hj => Finset.sum_congr rfl (fun k _ => ?_))
      obtain ⟨m1, m2⟩ := apply_stats_row ⟨Real.sqrt, fun u v => u ^ v⟩ L gs gr x hL i j hi
        (Finset.mem_range.mp hj)
      rw [m1, m2]
    · refine (loss_hasDerivAt_b L gs gr x delta hL i hi).congr_deriv ?_
      exact e2.symm

end Gradient

/-! ## Worker partition -/

section Partition

theorem partition_offset_zero (U P : Nat) : partition_offset 0 U P = 0 := by
  simp [partition_offset]

theorem partition_offset_mono (r U P : Nat) :
    partition_offset r U P ≤ partition_offset (r + 1) U P :=
  Nat.div_le_div_right (Nat.mul_le_mul_right U (Nat.le_succ r))

theorem partition_offset_mono' (U P : Nat) {r s : Nat} (h : r ≤ s) :
    partition_offset r U P ≤ partition_offset s U P :=
  Nat.div_le_div_right (Nat.mul_le_mul_right U h)

theorem partition_offset_add_size (r U P : Nat) :
    partition_offset r U P + partition_size r U P = partition_offset (r + 1) U P :=
  Nat.add_sub_cancel' (partition_offset_mono r U P)

theorem partition_offset_last (U P : Nat) (hP : 1 ≤ P) : partition_offset P U P = U :=
  Nat.mul_div_cancel_left U hP

/-- The sum of the first `n` slice sizes is the offset of rank `n`. -/
theorem sum_partition_size (U P n : Nat) :
    ∑ r ∈ Finset.range n, partition_size r U P = partition_offset n U P := by
  induction n with
  | zero => simp [partition_offset]
  | succ k ih => rw [Finset.sum_range_succ, ih, partition_offset_add_size]

/-- Every unit below the offset of rank `n` lies in the slice of a rank below `n`. -/
theorem partition_cover (U P n u : Nat) (hu : u < partition_offset n U P) :
    ∃ r, r < n ∧ partition_offset r U P ≤ u ∧ u < partition_offset (r + 1) U P := by
  induction n with
  | zero => simp [partition_offset] at hu
  | succ k ih =>
    by_cases h : u < partition_offset k U P
    · obtain ⟨r, hr, h1, h2⟩ := ih h
      exact ⟨r, Nat.lt_succ_of_lt hr, h1, h2⟩
    · exact ⟨k, Nat.lt_succ_self k, Nat.le_of_not_lt h, hu⟩

/-- C11: for every unit count `U` and worker count `P ≥ 1` the slices `offset(r) = r*U/P`,
`size(r) = (r+1)*U/P - r*U/P` of the ranks `r < P` satisfy `offset(0) = 0`, `size(r) ≥ 0` (the
subtraction does not go below zero), `offset(r) + size(r) = offset(r+1)` and
`offset(P-1) + size(P-1) = U`; the slices of two different ranks are disjoint, every unit below
`U` lies in the slice of exactly one rank, and the sizes sum to `U`.  These are the values `init`
computes. -/
theorem partition_exact (U P : Nat) (hP : 1 ≤ P) :
    partition_offset 0 U P = 0 ∧
    (∀ r, r * U / P ≤ (r + 1) * U / P) ∧
    (∀ r, partition_offset r U P + partition_size r U P = partition_offset (r + 1) U P) ∧
    partition_offset (P - 1) U P + partition_size (P - 1) U P = U ∧
    (∀ r s, r < s →
      partition_offset r U P + partition_size r U P ≤ partition_offset s U P) ∧
    (∀ u, u < U → ∃ r, r < P ∧
      (partition_offset r U P ≤ u ∧ u < partition_offset r U P + partition_size r U P) ∧
      ∀ s, partition_offset s U P ≤ u ∧ u < partition_offset s U P + partition_size s U P →
        s = r) ∧
    ∑ r ∈ Finset.range P, partition_size r U P = U ∧
    (∀ (R : Type) (L : BatchNormalize R) (r : Nat), L.num_unit = U →
      L.init_slice r P = (partition_offset r U P, partition_size r U P)) := by
  refine ⟨partition_offset_zero U P, fun r => partition_offset_mono r U P,
    fun r => partition_offset_add_size r U P, ?_, ?_, ?_, ?_, ?_⟩
  · rw [partition_offset_add_size, Nat.sub_add_cancel hP]
    exact partition_offset_last U P hP
  · intro r s hrs
    rw [partition_offset_add_size]
    exact partition_offset_mono' U P hrs
  · intro u hu
    rw [← partition_offset_last U P hP] at hu
    obtain ⟨r, hr, h1, h2⟩ := partition_cover U P P u hu
    refine ⟨r, hr, ⟨h1, by rw [partition_offset_add_size]; exact h2⟩, ?_⟩
    intro s hs
    rw [partition_offset_add_size] at hs
    by_contra hne
    rcases Nat.lt_or_gt_of_ne hne with h | h
    · have hm : partition_offset (s + 1) U P ≤ partition_offset r U P :=
        partition_offset_mono' U P h
      omega
    · have hm : partition_offset (r + 1) U P ≤ partition_offset s U P :=
        partition_offset_mono' U P h
      omega
  · rw [sum_partition_size]
    exact partition_offset_last U P hP
  · intro R L r hU
    subst hU
    rfl

theorem mul_div_split (r U P : Nat) (hP : 1 ≤ P) :
    r * U / P = r * (U / P) + r * (U % P) / P := by
  have h : r * U = P * (r * (U / P)) + r * (U % P) := by
    conv_lhs => rw [← Nat.div_add_mod U P]
    rw [Nat.mul_add, Nat.mul_left_comm]
  rw [h, Nat.mul_add_div hP]

theorem partition_size_split (r U P : Nat) (hP : 1 ≤ P) :
    partition_size r U P = U / P + partition_size r (U % P) P := by
  have h1 := mul_div_split r U P hP
  have h2 := mul_div_split (r + 1) U P hP
  have h3 : r * (U % P) / P ≤ (r + 1) * (U % P) / P := partition_offset_mono r (U % P) P
  have h4 : (r + 1) * (U / P) = r * (U / P) + U / P := Nat.succ_mul r (U / P)
  unfold partition_size
  rw [h2, h1, h4]
  generalize r * (U / P) = a
  generalize U / P = q
  generalize (r + 1) * (U % P) / P = e' at h3 ⊢
  generalize r * (U % P) / P = e at h3 ⊢
  omega

theorem partition_size_rem_le_one (r U P : Nat) (hP : 1 ≤ P) :
    partition_size r (U % P) P ≤ 1 := by
  have hm : U % P < P := Nat.mod_lt U hP
  have h1 : (r + 1) * (U % P) ≤ r * (U % P) + P := by
    rw [Nat.succ_mul]; omega
  have h2 := Nat.div_le_div_right (c := P) h1
  rw [Nat.add_div_right _ hP] at h2
  unfold partition_size
  omega

/-- C12 (counterexample): for `U = 6` units and `P = 4` workers the slices hold `1, 2, 1, 2`
units; rank `1`, which is not one of the last `U mod P = 2` ranks, holds `⌊U/P⌋ + 1 = 2`
units, and rank `2`, which is one of them, holds `⌊U/P⌋ = 1`. -/
theorem partition_remainder_not_trailing :
    ¬ (∀ r, r < 4 →
        ((4 - 6 % 4 ≤ r → partition_size r 6 4 = 6 / 4 + 1) ∧
         (r < 4 - 6 % 4 → partition_size r 6 4 = 6 / 4))) := by
  intro h
  have h1 := (h 1 (by decide)).2 (by decide)
  revert h1
  decide

/-- C12 (amended): for every `U` and `P ≥ 1` the slice of rank `r` holds `⌊U/P⌋` units plus the
size of the slice of rank `r` in the partition of the remainder `U mod P`, which is `0` or `1`;
so every rank holds `⌊U/P⌋` or `⌊U/P⌋ + 1` units, and exactly `U mod P` of the `P` ranks hold
`⌊U/P⌋ + 1`. -/
theorem partition_remainder (U P : Nat) (hP : 1 ≤ P) :
    (∀ r, partition_size r U P = U / P + partition_size r (U % P) P) ∧
    (∀ r, partition_size r U P = U / P ∨ partition_size r U P = U / P + 1) ∧
    (Finset.filter (fun r => partition_size r U P = U / P + 1) (Finset.range P)).card
      = U % P := by
  refine ⟨fun r => partition_size_split r U P hP, fun r => ?_, ?_⟩
  · have h1 := partition_size_split r U P hP
    have h2 := partition_size_rem_le_one r U P hP
    omega
  · rw [Finset.card_filter]
    have h : ∀ r ∈ Finset.range P,
        (if partition_size r U P = U / P + 1 then 1 else 0) = partition_size r (U % P) P := by
      intro r _
      have h1 := partition_size_split r U P hP
      have h2 := partition_size_rem_le_one r U P hP
      split_ifs with hc <;> omega
    rw [Finset.sum_congr rfl h, sum_partition_size]
    exact partition_offset_last (U % P) P hP

/-- The loop filling the vectors `size` and `offset` leaves the values of index `i` at index
`i`. -/
theorem forLoop_update_pair {α β : Type} (n : Nat) (f : Nat → α) (g : Nat → β) (a : Nat → α)
    (b : Nat → β) (i : Nat) (hi : i < n) :
    (forLoop n (fun i (vecs : (Nat → α) × (Nat → β)) =>
        (Function.update vecs.1 i (f i), Function.update vecs.2 i (g i))) (a, b)).1 i = f i ∧
    (forLoop n (fun i (vecs : (Nat → α) × (Nat → β)) =>
        (Function.update vecs.1 i (f i), Function.update vecs.2 i (g i))) (a, b)).2 i = g i := by
  induction n with
  | zero => exact absurd hi (Nat.not_lt_zero i)
  | succ k ih =>
    rw [forLoop_succ]
    by_cases h : i = k
    · subst h
      exact ⟨Function.update_same _ _ _, Function.update_same _ _ _⟩
    · have hik : i < k := by omega
      obtain ⟨h1, h2⟩ := ih hik
      exact ⟨(Function.update_noteq h _ _).trans h1, (Function.update_noteq h _ _).trans h2⟩

theorem apply_slice_eq {R : Type} (L : BatchNormalize R) (U : Matrix R) (rank nprocs : Nat)
    (hr : rank < nprocs) (hN : 0 < U.n) :
    (L.apply_slice rank nprocs U).1 = partition_offset rank L.num_unit nprocs ∧
    (L.apply_slice rank nprocs U).2.1 = partition_size rank L.num_unit nprocs := by
  obtain ⟨h1, h2⟩ := forLoop_update_pair nprocs
    (fun i => ((i + 1) * L.num_unit / nprocs - i * L.num_unit / nprocs) * U.n)
    (fun i => i * L.num_unit / nprocs * U.n) (fun _ => 0) (fun _ => 0) rank hr
  simp only [BatchNormalize.apply_slice]
  rw [h1, h2]
  exact ⟨Nat.mul_div_cancel _ hN, Nat.mul_div_cancel _ hN⟩

theorem apply_slice_vectors {R : Type} (L : BatchNormalize R) (U : Matrix R)
    (rank nprocs r : Nat) (hr : r < nprocs) :
    (L.apply_slice rank nprocs U).2.2.1 r = partition_size r L.num_unit nprocs * U.n ∧
    (L.apply_slice rank nprocs U).2.2.2 r = partition_offset r L.num_unit nprocs * U.n :=
  forLoop_update_pair nprocs
    (fun i => ((i + 1) * L.num_unit / nprocs - i * L.num_unit / nprocs) * U.n)
    (fun i => i * L.num_unit / nprocs * U.n) (fun _ => 0) (fun _ => 0) r hr

theorem calc_delta_slice_eq {R : Type} (L : BatchNormalize R) (U : Matrix R)
    (rank nprocs : Nat) (hr : rank < nprocs) (hN : 0 < U.n) :
    (L.calc_delta_slice rank nprocs U).1 = partition_offset rank L.prev_num_unit nprocs ∧
    (L.calc_delta_slice rank nprocs U).2.1 = partition_size rank L.prev_num_unit nprocs := by
  obtain ⟨h1, h2⟩ := forLoop_update_pair nprocs
    (fun i => ((i + 1) * L.prev_num_unit / nprocs - i * L.prev_num_unit / nprocs) * U.n)
    (fun i => i * L.prev_num_unit / nprocs * U.n) (fun _ => 0) (fun _ => 0) rank hr
  simp only [BatchNormalize.calc_delta_slice]
  rw [h1, h2]
  exact ⟨Nat.mul_div_cancel _ hN, Nat.mul_div_cancel _ hN⟩

/-- C13: for every rank `r < P` and batch size `U.n > 0` the `my_offset` and `my_size` that
`apply` and `calc_delta` derive as `offset[r]/U.n` and `size[r]/U.n` are the slice offset
`r*units/P` and size `(r+1)*units/P - r*units/P` that `init` and `calc_gradient` compute
directly; the constructor sets `prev_num_unit = num_unit`, and for a layer with
`prev_num_unit = num_unit` the four methods use the same slice. -/
theorem slices_agree {R : Type} (L : BatchNormalize R) (U : Matrix R) (rank nprocs : Nat)
    (hL : L.WF) (hr : rank < nprocs) (hN : 0 < U.n) :
    ((L.apply_slice rank nprocs U).1 = rank * L.num_unit / nprocs ∧
      (L.apply_slice rank nprocs U).2.1
        = (rank + 1) * L.num_unit / nprocs - rank * L.num_unit / nprocs) ∧
    ((L.calc_delta_slice rank nprocs U).1 = rank * L.prev_num_unit / nprocs ∧
      (L.calc_delta_slice rank nprocs U).2.1
        = (rank + 1) * L.prev_num_unit / nprocs - rank * L.prev_num_unit / nprocs) ∧
    (∀ [Zero R] (gW gb : Nat → R) (pf f : Matrix R → Bool → Matrix R) (pm pu : Nat),
      (BatchNormalize.ctor gW gb pf pm pu f).prev_num_unit
        = (BatchNormalize.ctor gW gb pf pm pu f).num_unit) ∧
    ((L.apply_slice rank nprocs U).1, (L.apply_slice rank nprocs U).2.1)
      = L.init_slice rank nprocs ∧
    ((L.calc_delta_slice rank nprocs U).1, (L.calc_delta_slice rank nprocs U).2.1)
      = L.init_slice rank nprocs ∧
    L.calc_gradient_slice rank nprocs = L.init_slice rank nprocs := by
  obtain ⟨a1, a2⟩ := apply_slice_eq L U rank nprocs hr hN
  obtain ⟨d1, d2⟩ := calc_delta_slice_eq L U rank nprocs hr hN
  have hpu : L.prev_num_unit = L.num_unit := hL.2.1
  refine ⟨⟨a1, a2⟩, ⟨d1, d2⟩, fun _ _ _ _ _ _ => rfl, ?_, ?_, ?_⟩
  · rw [a1, a2]; rfl
  · rw [d1, d2, hpu]; rfl
  · unfold BatchNormalize.calc_gradient_slice
    rw [hpu]; rfl

end Partition

/-! ## Sub-blocks, tensors and transpose -/

section Blocks

variable {R : Type}

/-- The nest `for i < W: for j < H: A(y+j, x+i) = val j i` keeps the shape of `A`, leaves
`val j i` in entry `(y+j, x+i)` and changes no entry outside the block. -/
theorem block_assign_spec (W H y x : Nat) (val : Nat → Nat → R) (A : Matrix R)
    (hx : x + W ≤ A.n) :
    (forLoop W (fun i A => forLoop H (fun j A => A.set (y + j) (x + i) (val j i)) A) A).m
      = A.m ∧
    (forLoop W (fun i A => forLoop H (fun j A => A.set (y + j) (x + i) (val j i)) A) A).n
      = A.n ∧
    (∀ j i, j < H → i < W →
      (forLoop W (fun i A => forLoop H (fun j A => A.set (y + j) (x + i) (val j i)) A) A).get
        (y + j) (x + i) = val j i) ∧
    (∀ r c, c < A.n → ¬ (y ≤ r ∧ r < y + H ∧ x ≤ c ∧ c < x + W) →
      (forLoop W (fun i A => forLoop H (fun j A => A.set (y + j) (x + i) (val j i)) A) A).get
        r c = A.get r c) := by
  obtain ⟨h1, h2, h3⟩ := pointwise_forLoop W
    (fun i (A : Matrix R) => forLoop H (fun j A => A.set (y + j) (x + i) (val j i)) A) _
    (fun i => pointwise_forLoop H (fun j (A : Matrix R) => A.set (y + j) (x + i) (val j i)) _
      (fun j => pointwise_set (y + j) (x + i) (fun _ => val j i))) A
  simp only at h1 h2 h3
  refine ⟨h1, h2, fun j0 i0 hj0 hi0 => ?_, fun r c hc hout => ?_⟩
  · rw [Matrix.get, h2, h3]
    rw [forLoop_single2
      (f := fun i j z => if (y + j0) * A.n + (x + i0) = (y + j) * A.n + (x + i) then val j i
        else z) i0 j0 hi0 hj0]
    · simp
    · intro i j hi _ hne z
      have hne' : ¬ ((y + j0) * A.n + (x + i0) = (y + j) * A.n + (x + i)) := fun e =>
        hne (by
          obtain ⟨e1, e2⟩ := idx_inj (n := A.n) (by omega) (by omega) e
          exact ⟨by omega, by omega⟩)
      simp only [hne', if_false]
  · rw [Matrix.get, h2, h3]
    refine forLoop_frame (fun i hi z => forLoop_frame (fun j hj z' => ?_) z) _
    have hne' : ¬ (r * A.n + c = (y + j) * A.n + (x + i)) := fun e =>
      hout (by
        obtain ⟨e1, e2⟩ := idx_inj (n := A.n) hc (by omega) e
        exact ⟨by omega, by omega, by omega, by omega⟩)
    simp only [hne', if_false]

theorem sub_get (g : Nat → R) (A : Matrix R) (y x h w : Nat) :
    (A.sub g y x h w).m = h ∧ (A.sub g y x h w).n = w ∧
    ∀ j i, j < h → i < w → (A.sub g y x h w).get j i = A.get (y + j) (x + i) := by
  obtain ⟨h1, h2, h3, _⟩ := block_assign_spec w h 0 0 (fun j i => A.get (y + j) (x + i))
    (Matrix.alloc g h w) (Nat.le_of_eq (Nat.zero_add w))
  simp only [Nat.zero_add] at h1 h2 h3
  exact ⟨h1, h2, h3⟩

theorem sub_insert_get (A B : Matrix R) (y x h w : Nat) (hx : x + w ≤ A.n) :
    (A.sub_insert y x h w B).m = A.m ∧ (A.sub_insert y x h w B).n = A.n ∧
    (∀ j i, j < h → i < w → (A.sub_insert y x h w B).get (y + j) (x + i) = B.get j i) ∧
    (∀ r c, c < A.n → ¬ (y ≤ r ∧ r < y + h ∧ x ≤ c ∧ c < x + w) →
      (A.sub_insert y x h w B).get r c = A.get r c) :=
  block_assign_spec w h y x (fun j i => B.get j i) A hx

/-- C20: for a block `(y, x, h, w)` with `y + h ≤ A.m` and `x + w ≤ A.n`, `A.sub(y, x, h, w)`
returns an `h × w` matrix with entry `(j, i) = A(y+j, x+i)` (it is a function of `A`, which it
does not modify); `A.sub(y, x, h, w, B)` with `B` of shape `h × w` sets `A(y+j, x+i) = B(j, i)`
for `j < h`, `i < w`, keeps the shape of `A` and every entry outside the block, and a following
`A.sub(y, x, h, w)` returns `B` entry for entry. -/
theorem sub_block_spec (g : Nat → R) (A B : Matrix R) (y x h w : Nat) (hy : y + h ≤ A.m)
    (hx : x + w ≤ A.n) (hB : B.m = h ∧ B.n = w) :
    ((A.sub g y x h w).m = h ∧ (A.sub g y x h w).n = w ∧
      ∀ j i, j < h → i < w → (A.sub g y x h w).get j i = A.get (y + j) (x + i)) ∧
    ((A.sub_insert y x h w B).m = A.m ∧ (A.sub_insert y x h w B).n = A.n ∧
      (∀ j i, j < h → i < w → (A.sub_insert y x h w B).get (y + j) (x + i) = B.get j i) ∧
      (∀ r c, r < A.m → c < A.n → ¬ (y ≤ r ∧ r < y + h ∧ x ≤ c ∧ c < x + w) →
        (A.sub_insert y x h w B).get r c = A.get r c)) ∧
    (((A.sub_insert y x h w B).sub g y x h w).m = B.m ∧
      ((A.sub_insert y x h w B).sub g y x h w).n = B.n ∧
      ∀ j i, j < h → i < w → ((A.sub_insert y x h w B).sub g y x h w).get j i = B.get j i) := by
  obtain ⟨s1, s2, s3, s4⟩ := sub_insert_get A B y x h w hx
  obtain ⟨t1, t2, t3⟩ := sub_get g (A.sub_insert y x h w B) y x h w
  refine ⟨sub_get g A y x h w, ⟨s1, s2, s3, fun r c _ hc hout => s4 r c hc hout⟩,
    t1.trans hB.1.symm, t2.trans hB.2.symm, fun j i hj hi => ?_⟩
  rw [t3 j i hj hi, s3 j i hj hi]

/-- C19: for `A` of shape `m × n` the materialising `transpose(A)` of `matrix.hpp` has shape
`n × m` with `transpose(A)(i,j) = A(j,i)`, and `transpose(transpose(A))` has the shape of `A`
and equals `A` entry for entry. -/
theorem transpose_involutive [Zero R] (A : Matrix R) (m n : Nat) (hA : A.m = m ∧ A.n = n) :
    ((Matrix.transpose_vec A).m = n ∧ (Matrix.transpose_vec A).n = m ∧
      ∀ i j, i < n → j < m → (Matrix.transpose_vec A).get i j = A.get j i) ∧
    ((Matrix.transpose_vec (Matrix.transpose_vec A)).m = A.m ∧
      (Matrix.transpose_vec (Matrix.transpose_vec A)).n = A.n ∧
      ∀ i j, i < m → j < n →
        (Matrix.transpose_vec (Matrix.transpose_vec A)).get i j = A.get i j) := by
  obtain ⟨hm, hn⟩ := hA
  subst hm hn
  have key : ∀ B : Matrix R, (Matrix.transpose_vec B).m = B.n ∧
      (Matrix.transpose_vec B).n = B.m ∧
      ∀ i j, i < B.n → j < B.m → (Matrix.transpose_vec B).get i j = B.get j i := fun B =>
    assign2_spec B.n B.m (fun i j => B.get j i) (⟨B.n, B.m, fun _ => 0⟩ : Matrix R)
      (Nat.le_refl _)
  obtain ⟨a1, a2, a3⟩ := key A
  obtain ⟨b1, b2, b3⟩ := key (Matrix.transpose_vec A)
  refine ⟨⟨a1, a2, a3⟩, b1.trans a2, b2.trans a1, fun i j hi hj => ?_⟩
  rw [b3 i j (by rw [a2]; exact hi) (by rw [a1]; exact hj), a3 j i hj hi]

/-- The loop `for i < n: l[i] = f i` over a vector keeps its length and leaves `f i` in element
`i`. -/
theorem forLoop_list_set {α : Type} (n : Nat) (f : Nat → α) (l : List α) (d : α) :
    (forLoop n (fun i l => l.set i (f i)) l).length = l.length ∧
    ∀ i, i < n → i < l.length → (forLoop n (fun i l => l.set i (f i)) l).getD i d = f i := by
  induction n with
  | zero => exact ⟨rfl, fun i hi => absurd hi (Nat.not_lt_zero i)⟩
  | succ k ih =>
    obtain ⟨h1, h2⟩ := ih
    rw [forLoop_succ]
    refine ⟨by rw [List.length_set, h1], fun i hi hl => ?_⟩
    by_cases hik : i = k
    · subst hik
      simp [List.getD_eq_getElem?_getD, List.getElem?_set, h1, hl]
    · have h := h2 i (by omega) hl
      simp only [List.getD_eq_getElem?_getD] at h ⊢
      rw [List.getElem?_set_ne (fun e => hik e.symm)]
      exact h

theorem to_tensor_spec [Zero R] (g : Nat → Nat → R) (M : Matrix R) (k : Nat) :
    (Matrix.to_tensor g M k).length = k ∧
    ∀ i, i < k → (Matrix.to_tensor g M k).getD i Matrix.empty
      = M.sub (g i) (i * (M.m / k)) 0 (M.m / k) M.n := by
  obtain ⟨h1, h2⟩ := forLoop_list_set k
    (fun i => M.sub (g i) (i * (M.m / k)) 0 (M.m / k) M.n)
    (List.replicate k (Matrix.empty : Matrix R)) Matrix.empty
  rw [List.length_replicate] at h1 h2
  exact ⟨h1, fun i hi => h2 i hi hi⟩

theorem to_matrix_spec [Zero R] (g : Nat → R) (T : List (Matrix R)) (leng n : Nat)
    (hlen : 0 < T.length)
    (hs : ∀ i, i < T.length →
      (T.getD i Matrix.empty).m = leng ∧ (T.getD i Matrix.empty).n = n) :
    (Matrix.to_matrix g T).m = T.length * leng ∧ (Matrix.to_matrix g T).n = n ∧
    ∀ i j c, i < T.length → j < leng → c < n →
      (Matrix.to_matrix g T).get (i * leng + j) c = (T.getD i Matrix.empty).get j c := by
  have h0 := hs 0 hlen
  have e : Matrix.to_matrix g T
      = forLoop T.length (fun i ret => forLoop leng (fun j ret =>
          forLoop n (fun k ret =>
            ret.set (i * leng + j) k ((T.getD i Matrix.empty).get j k)) ret) ret)
          (Matrix.alloc g (T.length * leng) n) := by
    unfold Matrix.to_matrix
    simp only [h0.1, h0.2]
    exact forLoop_congr (fun i hi x => by rw [(hs i hi).2]) _
  rw [e]
  exact assign3_spec T.length leng leng n
    (fun i j k => (T.getD i Matrix.empty).get j k) (Matrix.alloc g (T.length * leng) n)
    (Nat.le_refl _) (Nat.le_refl _)

/-- C17: for every matrix `M` and channel count `k ≥ 1` dividing `M.m`,
`to_matrix(to_tensor(M, k))` has the shape of `M` and equals `M` entry for entry. -/
theorem to_matrix_to_tensor [Zero R] (g : Nat → R) (g' : Nat → Nat → R) (M : Matrix R)
    (k : Nat) (hk : 1 ≤ k) (hd : k ∣ M.m) :
    (Matrix.to_matrix g (Matrix.to_tensor g' M k)).m = M.m ∧
    (Matrix.to_matrix g (Matrix.to_tensor g' M k)).n = M.n ∧
    ∀ r c, r < M.m → c < M.n →
      (Matrix.to_matrix g (Matrix.to_tensor g' M k)).get r c = M.get r c := by
  obtain ⟨t1, t2⟩ := to_tensor_spec g' M k
  have hs : ∀ i, i < (Matrix.to_tensor g' M k).length →
      ((Matrix.to_tensor g' M k).getD i Matrix.empty).m = M.m / k ∧
      ((Matrix.to_tensor g' M k).getD i Matrix.empty).n = M.n := by
    intro i hi
    rw [t1] at hi
    rw [t2 i hi]
    exact ⟨(sub_get _ _ _ _ _ _).1, (sub_get _ _ _ _ _ _).2.1⟩
  obtain ⟨m1, m2, m3⟩ := to_matrix_spec g (Matrix.to_tensor g' M k) (M.m / k) M.n
    (by rw [t1]; exact hk) hs
  have hmul : k * (M.m / k) = M.m := Nat.mul_div_cancel' hd
  refine ⟨by rw [m1, t1, hmul], m2, fun r c hr hc => ?_⟩
  have hpos : 0 < M.m / k := by
    rcases Nat.eq_zero_or_pos (M.m / k) with h | h
    · rw [h, Nat.mul_zero] at hmul
      omega
    · exact h
  have hi : r / (M.m / k) < k := by
    apply Nat.div_lt_of_lt_mul
    rw [Nat.mul_comm, hmul]
    exact hr
  have hj : r % (M.m / k) < M.m / k := Nat.mod_lt r hpos
  have hr' : r / (M.m / k) * (M.m / k) + r % (M.m / k) = r := Nat.div_add_mod' r (M.m / k)
  have h := m3 (r / (M.m / k)) (r % (M.m / k)) c (by rw [t1]; exact hi) hj hc
  rw [hr', t2 _ hi, (sub_get _ _ _ _ _ _).2.2 _ c hj hc, hr', Nat.zero_add] at h
  exact h

/-- C18: for every non-empty sequence `T` of `k` matrices that all have the shape
`leng × n`, `to_tensor(to_matrix(T), k)` is a sequence of `k` matrices of that shape, equal to
`T` entry for entry. -/
theorem to_tensor_to_matrix [Zero R] (g : Nat → R) (g' : Nat → Nat → R) (T : List (Matrix R))
    (k leng n : Nat) (hk : T.length = k) (hne : 0 < k)
    (hs : ∀ i, i < k → (T.getD i Matrix.empty).m = leng ∧ (T.getD i Matrix.empty).n = n) :
    (Matrix.to_tensor g' (Matrix.to_matrix g T) k).length = k ∧
    ∀ i, i < k →
      ((Matrix.to_tensor g' (Matrix.to_matrix g T) k).getD i Matrix.empty).m = leng ∧
      ((Matrix.to_tensor g' (Matrix.to_matrix g T) k).getD i Matrix.empty).n = n ∧
      ∀ j c, j < leng → c < n →
        ((Matrix.to_tensor g' (Matrix.to_matrix g T) k).getD i Matrix.empty).get j c
          = (T.getD i Matrix.empty).get j c := by
  subst hk
  obtain ⟨m1, m2, m3⟩ := to_matrix_spec g T leng n hne hs
  obtain ⟨t1, t2⟩ := to_tensor_spec g' (Matrix.to_matrix g T) T.length
  have hl : (Matrix.to_matrix g T).m / T.length = leng := by
    rw [m1]
    exact Nat.mul_div_cancel_left leng hne
  refine ⟨t1, fun i hi => ?_⟩
  rw [t2 i hi, hl, m2]
  obtain ⟨s1, s2, s3⟩ := sub_get (g' i) (Matrix.to_matrix g T) (i * leng) 0 leng n
  refine ⟨s1, s2, fun j c hj hc => ?_⟩
  rw [s3 j c hj hc, Nat.zero_add, m3 i j c hi hj hc]

end Blocks

/-! ## The build with `USE_MPI`: forward pass -/

section Distributed

variable {R : Type} [Field R]

open BatchNormalize

theorem apply_mean_gen (L : BatchNormalize R) (off size : Nat) (U mean0 : Matrix R)
    (hm : mean0.m = L.num_map) (hn : mean0.n = size)
    (h0 : ∀ i j, i < L.num_map → j < size → mean0.get i j = 0) :
    (apply_mean L off size U mean0).m = L.num_map ∧
    (apply_mean L off size U mean0).n = size ∧
    ∀ i j, i < L.num_map → j < size →
      (apply_mean L off size U mean0).get i j
        = (∑ k ∈ Finset.range U.n, U.get (i * L.prev_num_unit + off + j) k) / (U.n : R) := by
  obtain ⟨a1, a2, a3⟩ := accum3_spec L.num_map size U.n
    (fun i j k => U.get (i * L.prev_num_unit + off + j) k) mean0 (Nat.le_of_eq hn.symm)
  obtain ⟨d1, d2, d3⟩ := operator_div_assign_spec
    (forLoop L.num_map (fun i A => forLoop size (fun j A =>
      forLoop U.n (fun k A =>
        A.set i j (A.get i j + U.get (i * L.prev_num_unit + off + j) k)) A) A) mean0) (U.n : R)
  refine ⟨d1.trans (a1.trans hm), d2.trans (a2.trans hn), fun i j hi hj => ?_⟩
  have e := d3 i j (by rw [a1, hm]; exact hi) (by rw [a2, hn]; exact hj)
  rw [a3 i j hi hj, h0 i j hi hj, zero_add] at e
  exact e

theorem apply_var_gen (L : BatchNormalize R) (off size : Nat) (U mean var0 : Matrix R)
    (hm : var0.m = L.num_map) (hn : var0.n = size)
    (h0 : ∀ i j, i < L.num_map → j < size → var0.get i j = 0) :
    (apply_var L off size U mean var0).m = L.num_map ∧
    (apply_var L off size U mean var0).n = size ∧
    ∀ i j, i < L.num_map → j < size →
      (apply_var L off size U mean var0).get i j
        = (∑ k ∈ Finset.range U.n,
            (U.get (i * L.prev_num_unit + off + j) k - mean.get i j)
              * (U.get (i * L.prev_num_unit + off + j) k - mean.get i j)) / (U.n : R) := by
  obtain ⟨a1, a2, a3⟩ := accum3_spec L.num_map size U.n
    (fun i j k => (U.get (i * L.prev_num_unit + off + j) k - mean.get i j)
      * (U.get (i * L.prev_num_unit + off + j) k - mean.get i j)) var0 (Nat.le_of_eq hn.symm)
  obtain ⟨d1, d2, d3⟩ := operator_div_assign_spec
    (forLoop L.num_map (fun i A => forLoop size (fun j A =>
      forLoop U.n (fun k A =>
        A.set i j (A.get i j + (U.get (i * L.prev_num_unit + off + j) k - mean.get i j)
          * (U.get (i * L.prev_num_unit + off + j) k - mean.get i j))) A) A) var0) (U.n : R)
  refine ⟨d1.trans (a1.trans hm), d2.trans (a2.trans hn), fun i j hi hj => ?_⟩
  have e := d3 i j (by rw [a1, hm]; exact hi) (by rw [a2, hn]; exact hj)
  rw [a3 i j hi hj, h0 i j hi hj, zero_add] at e
  exact e

/-- The statistics rank `rank` stores for unit `j` of its slice are the row statistics of unit
`my_offset + j` of `U`. -/
theorem apply_local_stats (ops : RealOps R) (L : BatchNormalize R) (rank nprocs : Nat)
    (gs gt : Nat → R) (U : Matrix R) (hL : L.WF) (hr : rank < nprocs) (hN : 0 < U.n)
    (i j : Nat) (hi : i < L.num_map) (hj : j < partition_size rank L.num_unit nprocs) :
    (apply_local ops L rank nprocs gs gt U).2.mean.get i j
        = rowMean U.n (fun l =>
            U.get (i * L.num_unit + (partition_offset rank L.num_unit nprocs + j)) l) ∧
    (apply_local ops L rank nprocs gs gt U).2.var.get i j
        = rowVar U.n (fun l =>
            U.get (i * L.num_unit + (partition_offset rank L.num_unit nprocs + j)) l) := by
  obtain ⟨s1, s2⟩ := apply_slice_eq L U rank nprocs hr hN
  obtain ⟨z1, z2, z3⟩ := zeros_spec gs L.num_map (partition_size rank L.num_unit nprocs)
  have hmean : (apply_local ops L rank nprocs gs gt U).2.mean.get i j
      = rowMean U.n (fun l =>
          U.get (i * L.num_unit + (partition_offset rank L.num_unit nprocs + j)) l) := by
    show (apply_mean L (L.apply_slice rank nprocs U).1 (L.apply_slice rank nprocs U).2.1 U
      (Matrix.zeros gs L.num_map (L.apply_slice rank nprocs U).2.1)).get i j = _
    rw [s1, s2, (apply_mean_gen L _ _ U _ z1 z2 z3).2.2 i j hi hj, hL.2.1]
    unfold rowMean
    simp only [Nat.add_assoc]
  refine ⟨hmean, ?_⟩
  have hvar : (apply_local ops L rank nprocs gs gt U).2.var
      = apply_var L (L.apply_slice rank nprocs U).1 (L.apply_slice rank nprocs U).2.1 U
          (apply_local ops L rank nprocs gs gt U).2.mean
          (Matrix.zeros gs L.num_map (L.apply_slice rank nprocs U).2.1) := rfl
  rw [hvar, s1, s2, (apply_var_gen L _ _ U _ _ z1 z2 z3).2.2 i j hi hj, hL.2.1, hmean]
  unfold rowVar
  simp only [Nat.add_assoc]

/-- The matrix `tmp_ret` of rank `rank`: its shape, and row `i*my_size + j` as the row formula
of unit `my_offset + j` of `U`. -/
theorem apply_local_tmp_ret (ops : RealOps R) (L : BatchNormalize R) (rank nprocs : Nat)
    (gs gt : Nat → R) (U : Matrix R) (hL : L.WF) (hr : rank < nprocs) (hN : 0 < U.n) :
    (apply_local ops L rank nprocs gs gt U).1.m
      = L.num_map * partition_size rank L.num_unit nprocs ∧
    (apply_local ops L rank nprocs gs gt U).1.n = U.n ∧
    ∀ i j k, i < L.num_map → j < partition_size rank L.num_unit nprocs → k < U.n →
      (apply_local ops L rank nprocs gs gt U).1.get
          (i * partition_size rank L.num_unit nprocs + j) k
        = rowOut ops ((vec0 L.W).get 0 i) ((vec0 L.b).get 0 i) U.n
            (fun l => U.get (i * L.num_unit + (partition_offset rank L.num_unit nprocs + j)) l)
            k := by
  obtain ⟨s1, s2⟩ := apply_slice_eq L U rank nprocs hr hN
  have e : (apply_local ops L rank nprocs gs gt U).1
      = apply_tmp_ret ops L (L.apply_slice rank nprocs U).1 (L.apply_slice rank nprocs U).2.1 U
          (apply_local ops L rank nprocs gs gt U).2.mean
          (apply_local ops L rank nprocs gs gt U).2.var
          (Matrix.alloc gt (L.num_map * (L.apply_slice rank nprocs U).2.1) U.n) := rfl
  rw [e, s1, s2]
  obtain ⟨a1, a2, a3⟩ := assign3_spec L.num_map (partition_size rank L.num_unit nprocs)
    (partition_size rank L.num_unit nprocs) U.n
    (fun i j k => (vec0 L.W).get 0 i
      * (U.get (i * L.prev_num_unit + partition_offset rank L.num_unit nprocs + j) k
          - (apply_local ops L rank nprocs gs gt U).2.mean.get i j)
      / ops.sqrt ((apply_local ops L rank nprocs gs gt U).2.var.get i j + EPS)
      + (vec0 L.b).get 0 i)
    (Matrix.alloc gt (L.num_map * partition_size rank L.num_unit nprocs) U.n)
    (Nat.le_refl _) (Nat.le_refl _)
  refine ⟨a1, a2, fun i j k hi hj hk => ?_⟩
  obtain ⟨m1, m2⟩ := apply_local_stats ops L rank nprocs gs gt U hL hr hN i j hi hj
  refine (a3 i j k hi hj hk).trans ?_
  rw [m1, m2, hL.2.1, Nat.add_assoc]
  rfl

/-- A loop of buffer transformers each acting on every offset on its own acts on every offset
on its own. -/
theorem forLoop_pointwise_fun {α : Type} (n : Nat) (body : Nat → (Nat → α) → (Nat → α))
    (Φ : Nat → Nat → α → α) (h : ∀ i b p, body i b p = Φ i p (b p)) (b : Nat → α) (p : Nat) :
    forLoop n body b p = forLoop n (fun i x => Φ i p x) (b p) := by
  induction n with
  | zero => rfl
  | succ k ih => rw [forLoop_succ, forLoop_succ, h, ih]

theorem allgatherv_apply {α : Type} (P : Nat) (send : Nat → Nat → α) (recv : Nat → α)
    (base : Nat) (counts displs : Nat → Nat) (p : Nat) :
    MPI_Allgatherv P send recv base counts displs p
      = forLoop P (fun r x => forLoop (counts r)
          (fun e x => if p = base + displs r + e then send r e else x) x) (recv p) := by
  unfold MPI_Allgatherv
  refine forLoop_pointwise_fun P _
    (fun r p x => forLoop (counts r)
      (fun e x => if p = base + displs r + e then send r e else x) x) (fun r b q => ?_) recv p
  refine forLoop_pointwise_fun (counts r) _
    (fun e p x => if p = base + displs r + e then send r e else x) (fun e b' q' => ?_) b q
  rw [Function.update_apply]

/-- The all-gather with counts `size(r)*N` and displacements `offset(r)*N` puts element
`j*N + k` of the send buffer of rank `r` at unit `offset(r) + j`, sample `k`. -/
theorem gather_get {α : Type} (units P N : Nat) (send : Nat → Nat → α) (recv : Nat → α)
    (base : Nat) (counts displs : Nat → Nat)
    (hc : ∀ r, r < P → counts r = partition_size r units P * N)
    (hd : ∀ r, r < P → displs r = partition_offset r units P * N)
    (r0 j0 k0 : Nat) (hr0 : r0 < P) (hj0 : j0 < partition_size r0 units P) (hk0 : k0 < N) :
    MPI_Allgatherv P send recv base counts displs
        (base + (partition_offset r0 units P + j0) * N + k0) = send r0 (j0 * N + k0) := by
  have hj0N : j0 * N + k0 < partition_size r0 units P * N := idx_lt hj0 hk0
  have hsplit : (partition_offset r0 units P + j0) * N
      = partition_offset r0 units P * N + j0 * N := Nat.add_mul _ _ _
  have hnext : ∀ r, partition_offset (r + 1) units P * N
      = partition_offset r units P * N + partition_size r units P * N := by
    intro r
    rw [← partition_offset_add_size, Nat.add_mul]
  rw [allgatherv_apply, forLoop_single r0 hr0]
  · rw [forLoop_single (j0 * N + k0) (by rw [hc r0 hr0]; exact hj0N)]
    · rw [if_pos (by rw [hd r0 hr0]; omega)]
    · intro e _ hne x
      rw [if_neg (by rw [hd r0 hr0]; omega)]
  · intro r hr hne x
    refine forLoop_frame (fun e he y => ?_) x
    rw [hc r hr] at he
    rw [hd r hr, if_neg]
    rcases Nat.lt_or_gt_of_ne hne with h | h
    · have hm : partition_offset (r + 1) units P * N ≤ partition_offset r0 units P * N :=
        Nat.mul_le_mul_right N (partition_offset_mono' units P h)
      have := hnext r
      omega
    · have hm : partition_offset (r0 + 1) units P * N ≤ partition_offset r units P * N :=
        Nat.mul_le_mul_right N (partition_offset_mono' units P h)
      have := hnext r0
      omega

/-- The same all-gather changes no element outside the `units * N` elements from `base`. -/
theorem gather_frame {α : Type} (units P N : Nat) (hP : 1 ≤ P) (send : Nat → Nat → α)
    (recv : Nat → α) (base : Nat) (counts displs : Nat → Nat)
    (hc : ∀ r, r < P → counts r = partition_size r units P * N)
    (hd : ∀ r, r < P → displs r = partition_offset r units P * N)
    (p : Nat) (hp : p < base ∨ base + units * N ≤ p) :
    MPI_Allgatherv P send recv base counts displs p = recv p := by
  rw [allgatherv_apply]
  refine forLoop_frame (fun r hr x => forLoop_frame (fun e he y => ?_) x) _
  rw [hc r hr] at he
  beta_reduce
  rw [hd r hr, if_neg]
  have hnext : partition_offset (r + 1) units P * N
      = partition_offset r units P * N + partition_size r units P * N := by
    rw [← partition_offset_add_size, Nat.add_mul]
  have hm : partition_offset (r + 1) units P * N ≤ partition_offset P units P * N :=
    Nat.mul_le_mul_right N (partition_offset_mono' units P hr)
  rw [partition_offset_last units P hP] at hm
  omega

/-- The loop over the channels running one all-gather per channel `i` into the rows from
`i*units` keeps the shape of `ret` and fills row `i*units + offset(r) + j` with the elements
`j*N …` of what rank `r` sends for channel `i`. -/
theorem gather_loop_spec {α : Type} (M units P N : Nat) (hP : 1 ≤ P)
    (send : Nat → Nat → Nat → α) (A : Matrix α) (hA : A.n = N) (counts displs : Nat → Nat)
    (hc : ∀ r, r < P → counts r = partition_size r units P * N)
    (hd : ∀ r, r < P → displs r = partition_offset r units P * N) :
    (forLoop M (fun i (ret : Matrix α) =>
      ⟨ret.m, ret.n, MPI_Allgatherv P (send i) ret.v (i * units * ret.n) counts displs⟩) A).m
        = A.m ∧
    (forLoop M (fun i (ret : Matrix α) =>
      ⟨ret.m, ret.n, MPI_Allgatherv P (send i) ret.v (i * units * ret.n) counts displs⟩) A).n
        = A.n ∧
    ∀ i0 r0 j0 k0, i0 < M → r0 < P → j0 < partition_size r0 units P → k0 < N →
      (forLoop M (fun i (ret : Matrix α) =>
        ⟨ret.m, ret.n, MPI_Allgatherv P (send i) ret.v (i * units * ret.n) counts displs⟩)
        A).get (i0 * units + (partition_offset r0 units P + j0)) k0
          = send i0 r0 (j0 * N + k0) := by
  have hbody : ∀ i, Pointwise (fun (ret : Matrix α) =>
      (⟨ret.m, ret.n, MPI_Allgatherv P (send i) ret.v (i * units * ret.n) counts displs⟩ :
        Matrix α))
      (fun n p x => MPI_Allgatherv P (send i) (fun _ => x) (i * units * n) counts displs p) := by
    intro i ret
    refine ⟨rfl, rfl, fun p => ?_⟩
    show MPI_Allgatherv P (send i) ret.v (i * units * ret.n) counts displs p
      = MPI_Allgatherv P (send i) (fun _ => ret.v p) (i * units * ret.n) counts displs p
    rw [allgatherv_apply, allgatherv_apply]
  obtain ⟨h1, h2, h3⟩ := pointwise_forLoop M _ _ hbody A
  simp only at h1 h2 h3
  refine ⟨h1, h2, fun i0 r0 j0 k0 hi0 hr0 hj0 hk0 => ?_⟩
  have hu : partition_offset r0 units P + j0 < units := by
    have h : partition_offset (r0 + 1) units P ≤ partition_offset P units P :=
      partition_offset_mono' units P hr0
    rw [partition_offset_last units P hP] at h
    have h' := partition_offset_add_size r0 units P
    omega
  have hq : (partition_offset r0 units P + j0) * N + k0 < units * N := idx_lt hu hk0
  have hidx : (i0 * units + (partition_offset r0 units P + j0)) * N + k0
      = i0 * units * N + (partition_offset r0 units P + j0) * N + k0 := by
    rw [Nat.add_mul]
  rw [Matrix.get, h2, h3, hA, hidx, forLoop_single i0 hi0]
  · exact gather_get units P N (send i0) _ _ counts displs hc hd r0 j0 k0 hr0 hj0 hk0
  · intro i hi hne x
    refine gather_frame units P N hP (send i) _ _ counts displs hc hd _ ?_
    have hs : ∀ a, (a + 1) * units * N = a * units * N + units * N := by
      intro a
      rw [Nat.succ_mul, Nat.add_mul]
    rcases Nat.lt_or_gt_of_ne hne with h | h
    · right
      have hm : (i + 1) * units * N ≤ i0 * units * N :=
        Nat.mul_le_mul_right N (Nat.mul_le_mul_right units h)
      have := hs i
      omega
    · left
      have hm : (i0 + 1) * units * N ≤ i * units * N :=
        Nat.mul_le_mul_right N (Nat.mul_le_mul_right units h)
      have := hs i0
      omega

/-- Row `i*num_unit + my_offset(r) + j` of the result of `apply` in the build with `USE_MPI` is
row `i*my_size(r) + j` of the `tmp_ret` of rank `r`. -/
theorem apply_mpi_rows (ops : RealOps R) (L : BatchNormalize R) (rank P : Nat)
    (gs gt : Nat → Nat → R) (gr : Nat → R) (U : Matrix R) (hL : L.WF) (hP : 1 ≤ P)
    (hN : 0 < U.n) :
    (apply_mpi ops L rank P gs gt gr U false).1.m = L.num_map * L.num_unit ∧
    (apply_mpi ops L rank P gs gt gr U false).1.n = U.n ∧
    ∀ i r j k, i < L.num_map → r < P → j < partition_size r L.num_unit P → k < U.n →
      (apply_mpi ops L rank P gs gt gr U false).1.get
          (i * L.num_unit + (partition_offset r L.num_unit P + j)) k
        = (apply_local ops L r P (gs r) (gt r) U).1.get
            (i * partition_size r L.num_unit P + j) k := by
  obtain ⟨h1, h2, h3⟩ := gather_loop_spec L.num_map L.num_unit P U.n hP
    (fun i r e => (apply_local ops L r P (gs r) (gt r) U).1.v
      (i * (L.apply_slice r P U).2.1 * (apply_local ops L r P (gs r) (gt r) U).1.n + e))
    (Matrix.alloc gr (L.num_map * L.num_unit) U.n) rfl
    (L.apply_slice rank P U).2.2.1 (L.apply_slice rank P U).2.2.2
    (fun r hr => (apply_slice_vectors L U rank P r hr).1)
    (fun r hr => (apply_slice_vectors L U rank P r hr).2)
  refine ⟨h1, h2, fun i r j k hi hr hj hk => ?_⟩
  refine (h3 i r j k hi hr hj hk).trans ?_
  obtain ⟨t1, t2, _⟩ := apply_local_tmp_ret ops L r P (gs r) (gt r) U hL hr hN
  rw [(apply_slice_eq L U r P hr hN).2, t2, Matrix.get, t2, Nat.add_mul, Nat.add_assoc]

/-- Without assertions and for a batch size `U.n > 0`, the `apply` of the build with `USE_MPI`
places, for each rank `r` and channel `i`, row `i*my_size(r) + j` of that rank's `tmp_ret` at
row `i*num_unit + my_offset(r) + j` of `ret`, and the matrix so assembled has the shape and the
entries of the matrix the `apply` without partitioning returns; for `P = 1` the slice is the
whole range (`my_offset = 0`, `my_size = num_unit`). -/
theorem apply_mpi_entries (ops : RealOps R) (L : BatchNormalize R) (rank P : Nat)
    (gs gt : Nat → Nat → R) (gr gs' gr' : Nat → R) (U : Matrix R) (hL : L.WF) (hP : 1 ≤ P)
    (hN : 0 < U.n) :
    (∀ i r j k, i < L.num_map → r < P → j < partition_size r L.num_unit P → k < U.n →
      (apply_mpi ops L rank P gs gt gr U false).1.get
          (i * L.num_unit + (partition_offset r L.num_unit P + j)) k
        = (apply_local ops L r P (gs r) (gt r) U).1.get
            (i * partition_size r L.num_unit P + j) k) ∧
    (apply_mpi ops L rank P gs gt gr U false).1.m = (L.apply ops gs' gr' U false).1.m ∧
    (apply_mpi ops L rank P gs gt gr U false).1.n = (L.apply ops gs' gr' U false).1.n ∧
    (∀ i u k, i < L.num_map → u < L.num_unit → k < U.n →
      (apply_mpi ops L rank P gs gt gr U false).1.get (i * L.num_unit + u) k
        = (L.apply ops gs' gr' U false).1.get (i * L.num_unit + u) k) ∧
    (apply_mpi ops L rank P gs gt gr U true).1
      = L.func (apply_mpi ops L rank P gs gt gr U false).1 false ∧
    ((L.apply_slice 0 1 U).1 = 0 ∧ (L.apply_slice 0 1 U).2.1 = L.num_unit) := by
  obtain ⟨m1, m2, m3⟩ := apply_mpi_rows ops L rank P gs gt gr U hL hP hN
  obtain ⟨r1, r2, _⟩ := apply_ret_spec ops L U (L.apply ops gs' gr' U false).2.mean
    (L.apply ops gs' gr' U false).2.var (Matrix.alloc gr' (L.num_map * L.num_unit) U.n)
    (Nat.le_refl _)
  rw [← apply_ret_eq] at r1 r2
  refine ⟨m3, m1.trans r1.symm, m2.trans r2.symm, fun i u k hi hu hk => ?_, rfl, ?_⟩
  · have hu' : u < partition_offset P L.num_unit P := by
      rw [partition_offset_last L.num_unit P hP]; exact hu
    obtain ⟨r, hr, h1, h2⟩ := partition_cover L.num_unit P P u hu'
    have hsz := partition_offset_add_size r L.num_unit P
    have hj : u - partition_offset r L.num_unit P < partition_size r L.num_unit P := by omega
    have hu2 : partition_offset r L.num_unit P + (u - partition_offset r L.num_unit P) = u := by
      omega
    have e1 := m3 i r (u - partition_offset r L.num_unit P) k hi hr hj hk
    have e2 := (apply_local_tmp_ret ops L r P (gs r) (gt r) U hL hr hN).2.2 i
      (u - partition_offset r L.num_unit P) k hi hj hk
    rw [hu2] at e1 e2
    rw [e1, e2, apply_out_row ops L gs' gr' U hL i u k hi hu hk]
  · obtain ⟨s1, s2⟩ := apply_slice_eq L U 0 1 (Nat.lt_succ_self 0) hN
    rw [s1, s2]
    simp [partition_offset, partition_size]

end Distributed

/-! ## The build with `USE_MPI`: gradient and parameter mixing -/

section DistributedGradient

variable {R : Type} [Field R]

open BatchNormalize

theorem allreduce_sum_eq (P : Nat) (c : Nat → R) :
    MPI_Allreduce_sum P c = ∑ r ∈ Finset.range P, c r := by
  unfold MPI_Allreduce_sum
  rw [forLoop_add_sum, zero_add]

/-- Summing over the slices of the first `n` ranks is summing over the units below the offset of
rank `n`. -/
theorem sum_over_partition (units P n : Nat) (F : Nat → R) :
    ∑ r ∈ Finset.range n, ∑ j ∈ Finset.range (partition_size r units P),
        F (partition_offset r units P + j)
      = ∑ u ∈ Finset.range (partition_offset n units P), F u := by
  induction n with
  | zero => simp [partition_offset]
  | succ k ih =>
    rw [Finset.sum_range_succ, ih, ← partition_offset_add_size k units P, Finset.sum_range_add]

/-- The partial sums of rank `rank`, as sums over its slice, for a layer holding the statistics
of the local forward pass on `X`. -/
theorem calc_gradient_local_eq (ops : RealOps R) (L : BatchNormalize R) (rank P : Nat)
    (gs gt : Nat → R) (X U delta : Matrix R) (hL : L.WF) (hr : rank < P) (hN : 0 < X.n)
    (i : Nat) (hi : i < L.num_map) :
    (calc_gradient_local ops (apply_local ops L rank P gs gt X).2 rank P U delta i).1
      = ∑ j ∈ Finset.range (partition_size rank L.num_unit P), ∑ k ∈ Finset.range U.n,
          delta.get (i * L.num_unit + (partition_offset rank L.num_unit P + j)) k
            * ((L.prev_func U false).get
                  (i * L.num_unit + (partition_offset rank L.num_unit P + j)) k
                - rowMean X.n (fun l =>
                    X.get (i * L.num_unit + (partition_offset rank L.num_unit P + j)) l))
            / ops.sqrt (rowVar X.n (fun l =>
                X.get (i * L.num_unit + (partition_offset rank L.num_unit P + j)) l) + EPS) ∧
    (calc_gradient_local ops (apply_local ops L rank P gs gt X).2 rank P U delta i).2
      = ∑ j ∈ Finset.range (partition_size rank L.num_unit P), ∑ k ∈ Finset.range U.n,
          delta.get (i * L.num_unit + (partition_offset rank L.num_unit P + j)) k := by
  have hpu : L.prev_num_unit = L.num_unit := hL.2.1
  have e1 : (calc_gradient_local ops (apply_local ops L rank P gs gt X).2 rank P U delta i).1
      = ∑ j ∈ Finset.range (partition_size rank L.prev_num_unit P), ∑ k ∈ Finset.range U.n,
          delta.get (i * L.num_unit + partition_offset rank L.prev_num_unit P + j) k
            * ((L.prev_func U false).get
                  (i * L.prev_num_unit + partition_offset rank L.prev_num_unit P + j) k
                - (apply_local ops L rank P gs gt X).2.mean.get i j)
            / ops.sqrt ((apply_local ops L rank P gs gt X).2.var.get i j + EPS) := by
    show forLoop _ _ 0 = _
    rw [forLoop_add_sum2, zero_add]
    rfl
  have e2 : (calc_gradient_local ops (apply_local ops L rank P gs gt X).2 rank P U delta i).2
      = ∑ j ∈ Finset.range (partition_size rank L.prev_num_unit P), ∑ k ∈ Finset.range U.n,
          delta.get (i * L.num_unit + partition_offset rank L.prev_num_unit P + j) k := by
    show forLoop _ _ 0 = _
    rw [forLoop_add_sum2, zero_add]
    rfl
  rw [e1, e2, hpu]
  constructor
  · refine Finset.sum_congr rfl (fun j hj => Finset.sum_congr rfl (fun k _ => ?_))
    obtain ⟨m1, m2⟩ := apply_local_stats ops L rank P gs gt X hL hr hN i j hi
      (Finset.mem_range.mp hj)
    rw [m1, m2, Nat.add_assoc]
  · refine Finset.sum_congr rfl (fun j _ => Finset.sum_congr rfl (fun k _ => ?_))
    rw [Nat.add_assoc]

/-- The pair returned by `calc_gradient` in the build with `USE_MPI`: two one-element vectors
whose entries are the all-reduced partial sums. -/
theorem calc_gradient_mpi_entries (ops : RealOps R) (selfs : Nat → BatchNormalize R)
    (rank P : Nat) (gW gb : Nat → R) (U delta : Matrix R) :
    ∃ dW db, calc_gradient_mpi ops selfs rank P gW gb U delta = ([dW], [db]) ∧
      ∀ i, i < (selfs rank).num_map →
        dW.get 0 i
          = ∑ r ∈ Finset.range P, (calc_gradient_local ops (selfs r) r P U delta i).1 ∧
        db.get 0 i
          = ∑ r ∈ Finset.range P, (calc_gradient_local ops (selfs r) r P U delta i).2 := by
  simp only [calc_gradient_mpi, allreduce_sum_eq]
  rw [forLoop_vec_pair]
  obtain ⟨_, _, a3⟩ := assign1_spec (selfs rank).num_map
    (fun i => ∑ r ∈ Finset.range P, (calc_gradient_local ops (selfs r) r P U delta i).1)
    (Matrix.alloc gW 1 (selfs rank).num_map)
  obtain ⟨_, _, c3⟩ := assign1_spec (selfs rank).num_map
    (fun i => ∑ r ∈ Finset.range P, (calc_gradient_local ops (selfs r) r P U delta i).2)
    (Matrix.alloc gb 1 (selfs rank).num_map)
  exact ⟨_, _, rfl, fun i hi => ⟨a3 i hi, c3 i hi⟩⟩

/-- C15: for every worker count `P ≥ 1`, with every rank holding the statistics of its own
forward pass on `X` (batch size `X.n > 0`), in exact arithmetic the sum over the ranks `r` of
the partial sums `tmp_nabla1`, `tmp_nabla2` accumulated over the slices equals the `dW[0](0,i)`
and `db[0](0,i)` that `calc_gradient` without partitioning accumulates over all units (after the
forward pass without partitioning on `X`), for every channel `i`; and on every rank the method
returns these combined values. -/
theorem calc_gradient_mpi_eq (ops : RealOps R) (L : BatchNormalize R) (P : Nat)
    (gs gt : Nat → Nat → R) (gs' gr' gW gb gW' gb' : Nat → R) (X U delta : Matrix R)
    (hL : L.WF) (hP : 1 ≤ P) (hN : 0 < X.n) :
    ∃ dW0 db0,
      (L.apply ops gs' gr' X false).2.calc_gradient ops gW gb U delta = ([dW0], [db0]) ∧
      ∀ i, i < L.num_map →
        (∑ r ∈ Finset.range P,
            (calc_gradient_local ops (apply_local ops L r P (gs r) (gt r) X).2 r P U delta i).1
          = dW0.get 0 i) ∧
        (∑ r ∈ Finset.range P,
            (calc_gradient_local ops (apply_local ops L r P (gs r) (gt r) X).2 r P U delta i).2
          = db0.get 0 i) ∧
        ∀ rank,
          (vec0 (calc_gradient_mpi ops (fun r => (apply_local ops L r P (gs r) (gt r) X).2)
              rank P gW' gb' U delta).1).get 0 i = dW0.get 0 i ∧
          (vec0 (calc_gradient_mpi ops (fun r => (apply_local ops L r P (gs r) (gt r) X).2)
              rank P gW' gb' U delta).2).get 0 i = db0.get 0 i := by
  have hL' := apply_WF ops L gs' gr' X false hL
  obtain ⟨dW0, db0, hcg, _, _, hent⟩ :=
    calc_gradient_entries ops (L.apply ops gs' gr' X false).2 gW gb U delta hL'
  refine ⟨dW0, db0, hcg, fun i hi => ?_⟩
  obtain ⟨f1, f2⟩ := hent i hi
  have hnu : (L.apply ops gs' gr' X false).2.num_unit = L.num_unit := rfl
  have hpf : (L.apply ops gs' gr' X false).2.prev_func = L.prev_func := rfl
  rw [hnu, hpf] at f1
  rw [hnu] at f2
  have hlast := partition_offset_last L.num_unit P hP
  have s1 : ∑ r ∈ Finset.range P,
      (calc_gradient_local ops (apply_local ops L r P (gs r) (gt r) X).2 r P U delta i).1
        = dW0.get 0 i := by
    rw [f1, Finset.sum_congr rfl (fun r hr =>
      (calc_gradient_local_eq ops L r P (gs r) (gt r) X U delta hL (Finset.mem_range.mp hr) hN
        i hi).1)]
    rw [sum_over_partition L.num_unit P P (fun u => ∑ k ∈ Finset.range U.n,
      delta.get (i * L.num_unit + u) k
        * ((L.prev_func U false).get (i * L.num_unit + u) k
            - rowMean X.n (fun l => X.get (i * L.num_unit + u) l))
        / ops.sqrt (rowVar X.n (fun l => X.get (i * L.num_unit + u) l) + EPS)), hlast]
    refine Finset.sum_congr rfl (fun u hu => Finset.sum_congr rfl (fun k _ => ?_))
    obtain ⟨m1, m2⟩ := apply_stats_row ops L gs' gr' X hL i u hi (Finset.mem_range.mp hu)
    rw [m1, m2]
  have s2 : ∑ r ∈ Finset.range P,
      (calc_gradient_local ops (apply_local ops L r P (gs r) (gt r) X).2 r P U delta i).2
        = db0.get 0 i := by
    rw [f2, Finset.sum_congr rfl (fun r hr =>
      (calc_gradient_local_eq ops L r P (gs r) (gt r) X U delta hL (Finset.mem_range.mp hr) hN
        i hi).2)]
    rw [sum_over_partition L.num_unit P P (fun u => ∑ k ∈ Finset.range U.n,
      delta.get (i * L.num_unit + u) k), hlast]
  refine ⟨s1, s2, fun rank => ?_⟩
  obtain ⟨dW, db, hm, hme⟩ := calc_gradient_mpi_entries ops
    (fun r => (apply_local ops L r P (gs r) (gt r) X).2) rank P gW' gb' U delta
  obtain ⟨g1, g2⟩ := hme i hi
  rw [hm]
  exact ⟨g1.trans s1, g2.trans s2⟩

end DistributedGradient

section ParamMix

variable {R : Type} [Field R]

open BatchNormalize

theorem forLoop_update_get {α : Type} (n : Nat) (idx : Nat → Nat) (val : Nat → α)
    (w : Nat → α) (p : Nat) :
    forLoop n (fun i w => Function.update w (idx i) (val i)) w p
      = forLoop n (fun i x => if p = idx i then val i else x) (w p) :=
  forLoop_pointwise_fun n _ (fun i p x => if p = idx i then val i else x)
    (fun i b p => Function.update_apply b (idx i) (val i) p) w p

theorem forLoop_update_hit {α : Type} (n : Nat) (idx : Nat → Nat) (val : Nat → α)
    (w : Nat → α) (hinj : ∀ i j, idx i = idx j → i = j) (i0 : Nat) (hi0 : i0 < n) :
    forLoop n (fun i w => Function.update w (idx i) (val i)) w (idx i0) = val i0 := by
  rw [forLoop_update_get, forLoop_single i0 hi0]
  · simp
  · intro i _ hne x
    rw [if_neg (fun e => hne (hinj _ _ e).symm)]

theorem forLoop_update_miss {α : Type} (n : Nat) (idx : Nat → Nat) (val : Nat → α)
    (w : Nat → α) (p : Nat) (hp : ∀ i, i < n → p ≠ idx i) :
    forLoop n (fun i w => Function.update w (idx i) (val i)) w p = w p := by
  rw [forLoop_update_get, forLoop_frame]
  intro i hi x
  rw [if_neg (hp i hi)]

/-- The send buffer `w` of `param_mix`: the row of `W[0]` followed by the row of `b[0]`. -/
theorem param_mix_w_spec (self : BatchNormalize R) :
    (∀ i, i < (vec0 self.W).n → param_mix_w self i = (vec0 self.W).get 0 i) ∧
    (∀ i, i < (vec0 self.b).n →
      param_mix_w self ((vec0 self.W).n + i) = (vec0 self.b).get 0 i) := by
  constructor
  · intro i hi
    unfold param_mix_w
    rw [forLoop_update_miss _ (fun i => (vec0 self.W).n + i) _ _ i (fun k _ => by
      show i ≠ (vec0 self.W).n + k
      omega)]
    exact forLoop_update_hit _ (fun i => i) _ _ (fun _ _ e => e) i hi
  · intro i hi
    unfold param_mix_w
    exact forLoop_update_hit _ (fun i => (vec0 self.W).n + i) _ _ (fun a c e => by
      have e' : (vec0 self.W).n + a = (vec0 self.W).n + c := e
      omega) i hi

theorem vec0_set (l : List (Matrix R)) (x : Matrix R) (h : 0 < l.length) :
    vec0 (l.set 0 x) = x := by
  cases l with
  | nil => exact absurd h (Nat.lt_irrefl 0)
  | cons a t => rfl

/-- C16: with the all-reduce a sum over the group, `param_mix` on any rank of an outer group
of `N ≥ 1` workers, all holding a `W[0]` with `nW` columns and a `b[0]` with `nb` columns,
leaves `W[0](0,i) = (Σ_w W_w[0](0,i)) / N` and `b[0](0,i) = (Σ_w b_w[0](0,i)) / N`, and the
shapes of `W[0]` and `b[0]` are unchanged. -/
theorem param_mix_mean (selfs : Nat → BatchNormalize R) (rank N nW nb : Nat) (hN : 1 ≤ N)
    (hr : rank < N)
    (hs : ∀ w, w < N → 0 < (selfs w).W.length ∧ 0 < (selfs w).b.length ∧
      (vec0 (selfs w).W).n = nW ∧ (vec0 (selfs w).b).n = nb) :
    ((vec0 (param_mix selfs rank N).W).m = (vec0 (selfs rank).W).m ∧
      (vec0 (param_mix selfs rank N).W).n = (vec0 (selfs rank).W).n) ∧
    ((vec0 (param_mix selfs rank N).b).m = (vec0 (selfs rank).b).m ∧
      (vec0 (param_mix selfs rank N).b).n = (vec0 (selfs rank).b).n) ∧
    (∀ i, i < nW → (vec0 (param_mix selfs rank N).W).get 0 i
      = (∑ w ∈ Finset.range N, (vec0 (selfs w).W).get 0 i) / (N : R)) ∧
    (∀ i, i < nb → (vec0 (param_mix selfs rank N).b).get 0 i
      = (∑ w ∈ Finset.range N, (vec0 (selfs w).b).get 0 i) / (N : R)) := by
  obtain ⟨hW, hb, hnW, hnb⟩ := hs rank hr
  have hne : ¬ (selfs rank).W.length = 0 := by omega
  have eW : (param_mix selfs rank N).W = (selfs rank).W.set 0
      (forLoop (vec0 (selfs rank).W).n (fun i tmp_W => tmp_W.set 0 i
        ((fun e => if e < (vec0 (selfs rank).W).n + (vec0 (selfs rank).b).n
            then MPI_Allreduce_sum N (fun r => param_mix_w (selfs r) e)
            else param_mix_w (selfs rank) e) i / (N : R))) (vec0 (selfs rank).W)) := by
    unfold param_mix
    simp only [if_neg hne]
  have eb : (param_mix selfs rank N).b = (selfs rank).b.set 0
      (forLoop (vec0 (selfs rank).b).n (fun i tmp_b => tmp_b.set 0 i
        ((fun e => if e < (vec0 (selfs rank).W).n + (vec0 (selfs rank).b).n
            then MPI_Allreduce_sum N (fun r => param_mix_w (selfs r) e)
            else param_mix_w (selfs rank) e) ((vec0 (selfs rank).W).n + i) / (N : R)))
        (vec0 (selfs rank).b)) := by
    unfold param_mix
    simp only [if_neg hne]
  rw [eW, eb, vec0_set _ _ hW, vec0_set _ _ hb]
  obtain ⟨a1, a2, a3⟩ := assign1_spec (vec0 (selfs rank).W).n
    (fun i => (fun e => if e < (vec0 (selfs rank).W).n + (vec0 (selfs rank).b).n
            then MPI_Allreduce_sum N (fun r => param_mix_w (selfs r) e)
            else param_mix_w (selfs rank) e) i / (N : R)) (vec0 (selfs rank).W)
  obtain ⟨c1, c2, c3⟩ := assign1_spec (vec0 (selfs rank).b).n
    (fun i => (fun e => if e < (vec0 (selfs rank).W).n + (vec0 (selfs rank).b).n
            then MPI_Allreduce_sum N (fun r => param_mix_w (selfs r) e)
            else param_mix_w (selfs rank) e) ((vec0 (selfs rank).W).n + i) / (N : R))
    (vec0 (selfs rank).b)
  refine ⟨⟨a1, a2⟩, ⟨c1, c2⟩, fun i hi => ?_, fun i hi => ?_⟩
  · refine (a3 i (by omega)).trans ?_
    simp only
    rw [if_pos (by omega), allreduce_sum_eq]
    congr 1
    refine Finset.sum_congr rfl (fun w hw => ?_)
    obtain ⟨_, _, e1, _⟩ := hs w (Finset.mem_range.mp hw)
    exact (param_mix_w_spec (selfs w)).1 i (by omega)
  · refine (c3 i (by omega)).trans ?_
    simp only
    rw [if_pos (by omega), allreduce_sum_eq]
    congr 1
    refine Finset.sum_congr rfl (fun w hw => ?_)
    obtain ⟨_, _, e1, e2⟩ := hs w (Finset.mem_range.mp hw)
    have := (param_mix_w_spec (selfs w)).2 i (by omega)
    rw [e1] at this
    rw [hnW]
    exact this

end ParamMix

/-! ## Assertions of the debug build and the counter `cnt_flop` -/

section Assertions

variable {R : Type}

theorem operator_call_in_range (A : Matrix R) (i j : Int) (hi0 : 0 ≤ i) (hi : i < (A.m : Int))
    (hj0 : 0 ≤ j) (hj : j < (A.n : Int)) :
    A.operator_call i j = some (i * (A.n : Int) + j) := by
  unfold Matrix.operator_call
  rw [if_pos ⟨hi0, hi⟩, if_pos ⟨hj0, hj⟩]

theorem flat_position_lt (m n i j : Int) (hi0 : 0 ≤ i) (hi : i < m) (hj0 : 0 ≤ j) (hj : j < n) :
    0 ≤ i * n + j ∧ i * n + j < m * n := by
  have hn : 0 ≤ n := le_trans hj0 (le_of_lt hj)
  have h1 : 0 ≤ i * n := mul_nonneg hi0 hn
  have h2 : (i + 1) * n ≤ m * n := mul_le_mul_of_nonneg_right (by omega) hn
  constructor
  · omega
  · have h3 : (i + 1) * n = i * n + n := by ring
    omega

theorem flat_position_inj (n i j i' j' : Int) (hi0 : 0 ≤ i) (hi0' : 0 ≤ i') (hj0 : 0 ≤ j)
    (hj : j < n) (hj0' : 0 ≤ j') (hj' : j' < n) (h : i * n + j = i' * n + j') :
    i = i' ∧ j = j' := by
  have hn : 0 ≤ n := le_trans hj0 (le_of_lt hj)
  have key : i = i' := by
    rcases lt_trichotomy i i' with hlt | heq | hgt
    · have h2 : (i + 1) * n ≤ i' * n := mul_le_mul_of_nonneg_right (by omega) hn
      have h3 : (i + 1) * n = i * n + n := by ring
      omega
    · exact heq
    · have h2 : (i' + 1) * n ≤ i * n := mul_le_mul_of_nonneg_right (by omega) hn
      have h3 : (i' + 1) * n = i' * n + n := by ring
      omega
  subst key
  exact ⟨rfl, by omega⟩

theorem read_in_range (A : Matrix R) (i j : Nat) (hi : i < A.m) (hj : j < A.n) :
    A.read (i : Int) (j : Int) = some (A.get i j) := by
  unfold Matrix.read
  rw [operator_call_in_range A (i : Int) (j : Int) (Int.natCast_nonneg i) (by exact_mod_cast hi)
    (Int.natCast_nonneg j) (by exact_mod_cast hj)]
  simp only [Option.map_some']
  congr 1

theorem write_in_range (A : Matrix R) (i j : Nat) (x : R) (hi : i < A.m) (hj : j < A.n) :
    A.write (i : Int) (j : Int) x = some (A.set i j x) := by
  unfold Matrix.write
  rw [operator_call_in_range A (i : Int) (j : Int) (Int.natCast_nonneg i) (by exact_mod_cast hi)
    (Int.natCast_nonneg j) (by exact_mod_cast hj)]
  simp only [Option.map_some']
  congr 1

/-- C22: for a matrix of shape `m × n` and integers `i`, `j`, `operator () ( i, j )` of a build
with assertions aborts if and only if not (`0 ≤ i < m` and `0 ≤ j < n`); otherwise it refers to
position `i*n + j` of the buffer, which lies in `[0, m*n)`, and two pairs in range that refer to
the same position are equal.  On indices in range the position is the one `get` reads. -/
theorem operator_call_spec (A : Matrix R) :
    (∀ i j : Int, A.operator_call i j = none ↔
      ¬ ((0 ≤ i ∧ i < (A.m : Int)) ∧ (0 ≤ j ∧ j < (A.n : Int)))) ∧
    (∀ i j : Int, 0 ≤ i → i < (A.m : Int) → 0 ≤ j → j < (A.n : Int) →
      A.operator_call i j = some (i * (A.n : Int) + j) ∧
      0 ≤ i * (A.n : Int) + j ∧ i * (A.n : Int) + j < (A.m : Int) * (A.n : Int)) ∧
    (∀ i j i' j' : Int, 0 ≤ i → i < (A.m : Int) → 0 ≤ j → j < (A.n : Int) →
      0 ≤ i' → i' < (A.m : Int) → 0 ≤ j' → j' < (A.n : Int) →
      A.operator_call i j = A.operator_call i' j' → i = i' ∧ j = j') ∧
    (∀ i j : Nat, i < A.m → j < A.n → A.read (i : Int) (j : Int) = some (A.get i j)) := by
  refine ⟨fun i j => ?_, fun i j hi0 hi hj0 hj => ?_, ?_, fun i j hi hj => ?_⟩
  · unfold Matrix.operator_call
    by_cases h1 : 0 ≤ i ∧ i < (A.m : Int)
    · by_cases h2 : 0 ≤ j ∧ j < (A.n : Int)
      · rw [if_pos h1, if_pos h2]
        simp [h1, h2]
      · rw [if_pos h1, if_neg h2]
        simp [h2]
    · rw [if_neg h1]
      simp [h1]
  · exact ⟨operator_call_in_range A i j hi0 hi hj0 hj,
      flat_position_lt (A.m : Int) (A.n : Int) i j hi0 hi hj0 hj⟩
  · intro i j i' j' hi0 hi hj0 hj hi0' hi' hj0' hj' h
    rw [operator_call_in_range A i j hi0 hi hj0 hj,
      operator_call_in_range A i' j' hi0' hi' hj0' hj'] at h
    exact flat_position_inj (A.n : Int) i j i' j' hi0 hi0' hj0 hj hj0' hj' (Option.some.inj h)
  · exact read_in_range A i j hi hj

theorem forLoopM_eq_forLoop {σ : Type} (inv : σ → Prop) (n : Nat) (body : Nat → σ → Option σ)
    (f : Nat → σ → σ) (s : σ) (h0 : inv s)
    (hstep : ∀ i, i < n → ∀ x, inv x → body i x = some (f i x) ∧ inv (f i x)) :
    forLoopM n body s = some (forLoop n f s) ∧ inv (forLoop n f s) := by
  induction n with
  | zero => exact ⟨rfl, h0⟩
  | succ k ih =>
    obtain ⟨e, hinv⟩ := ih (fun i hi x hx => hstep i (Nat.lt_succ_of_lt hi) x hx)
    obtain ⟨e2, hinv2⟩ := hstep k (Nat.lt_succ_self k) _ hinv
    refine ⟨?_, hinv2⟩
    show (forLoopM k body s).bind (body k) = _
    rw [e, Option.some_bind, e2]
    rfl

/-- In a build with assertions `operator *` has a result, the naive product, whenever the left
operand has at most as many columns as the right operand has rows: no `assert` compares the two
inner dimensions. -/
theorem operator_mul_debug_eq [Zero R] [Add R] [Mul R] (g : Nat → R) (m1 m2 : Matrix R)
    (h : m1.n ≤ m2.m) :
    Matrix.operator_mul_debug g m1 m2 = some (Matrix.operator_mul g m1 m2) := by
  show forLoopM m1.m _ (Matrix.alloc g m1.m m2.n)
    = some (forLoop m1.m _ (Matrix.alloc g m1.m m2.n))
  refine (forLoopM_eq_forLoop (fun ret : Matrix R => ret.m = m1.m ∧ ret.n = m2.n) m1.m _ _
    (Matrix.alloc g m1.m m2.n) ⟨rfl, rfl⟩ (fun i hi ret hret => ?_)).1
  refine forLoopM_eq_forLoop (fun ret : Matrix R => ret.m = m1.m ∧ ret.n = m2.n) m2.n _ _ _
    hret (fun j hj ret hret => ?_)
  have hsum := (forLoopM_eq_forLoop (fun _ : R => True) m1.n
    (fun k sum => (m1.read i k).bind (fun a => (m2.read k j).bind (fun b => some (sum + a * b))))
    (fun k sum => sum + m1.get i k * m2.get k j) 0 trivial (fun k hk x _ => by
      beta_reduce
      rw [read_in_range m1 i k hi hk, read_in_range m2 k j (Nat.lt_of_lt_of_le hk h) hj]
      exact ⟨rfl, trivial⟩)).1
  rw [hsum, Option.some_bind,
    write_in_range ret i j _ (hret.1.symm ▸ hi) (hret.2.symm ▸ hj)]
  exact ⟨rfl, hret⟩

/-- C23 (evaluation at the failing input): for the `1 × 1` matrix `A = [[2]]` and the `2 × 1`
matrix `B = [[3],[4]]` the inner dimensions differ (`A.n = 1`, `B.m = 2`); in a build with
assertions `A.mult(1, B, 0, C)` aborts, while `A * B` aborts nowhere and returns the `1 × 1`
matrix `[[6]]`. -/
theorem operator_mul_debug_accepts_mismatch :
    (Matrix.ofList 1 1 [(2 : ℚ)]).n ≠ (Matrix.ofList 2 1 [(3 : ℚ), 4]).m ∧
    Matrix.mult_float (Matrix.ofList 1 1 [(2 : ℚ)]) 1 (Matrix.ofList 2 1 [3, 4]) 0
      (Matrix.ofList 1 1 [7]) = none ∧
    Matrix.mult_double (Matrix.ofList 1 1 [(2 : ℚ)]) 1 (Matrix.ofList 2 1 [3, 4]) 0
      (Matrix.ofList 1 1 [7]) = none ∧
    (Matrix.operator_mul_debug (fun _ => 7) (Matrix.ofList 1 1 [(2 : ℚ)])
      (Matrix.ofList 2 1 [3, 4])).map (fun ret => (ret.m, ret.n, ret.get 0 0))
      = some (1, 1, 6) := by
  refine ⟨by decide, ?_, ?_, ?_⟩
  · simp [Matrix.mult_float, Matrix.ofList]
  · simp [Matrix.mult_double, Matrix.ofList]
  · rw [operator_mul_debug_eq _ _ _ (by decide)]
    simp [Matrix.operator_mul, Matrix.alloc, Matrix.ofList, forLoop, Matrix.set, Matrix.get]
    norm_num

/-- C24 (evaluation at the failing input): for the `1 × 2` matrix `[[1, 2]]` and the `2 × 1`
matrix `[[3],[4]]`, whose shapes differ, `operator +`, binary `operator -`, `operator +=`,
`operator -=` and the static `hadamard` contain no `assert` and produce a result (the flat buffers
combined position by position); only the member `hadamard` aborts. -/
theorem elementwise_accepts_mismatch :
    ((Matrix.ofList 1 2 [(1 : ℚ), 2]).m ≠ (Matrix.ofList 2 1 [(3 : ℚ), 4]).m) ∧
    ((Matrix.operator_add (fun _ => 7) (Matrix.ofList 1 2 [(1 : ℚ), 2])
        (Matrix.ofList 2 1 [3, 4])).get 0 0 = 4 ∧
      (Matrix.operator_add (fun _ => 7) (Matrix.ofList 1 2 [(1 : ℚ), 2])
        (Matrix.ofList 2 1 [3, 4])).get 0 1 = 6) ∧
    ((Matrix.operator_sub (fun _ => 7) (Matrix.ofList 1 2 [(1 : ℚ), 2])
        (Matrix.ofList 2 1 [3, 4])).get 0 0 = -2 ∧
      (Matrix.operator_sub (fun _ => 7) (Matrix.ofList 1 2 [(1 : ℚ), 2])
        (Matrix.ofList 2 1 [3, 4])).get 0 1 = -2) ∧
    ((Matrix.operator_add_assign (Matrix.ofList 1 2 [(1 : ℚ), 2])
        (Matrix.ofList 2 1 [3, 4])).get 0 0 = 4 ∧
      (Matrix.operator_add_assign (Matrix.ofList 1 2 [(1 : ℚ), 2])
        (Matrix.ofList 2 1 [3, 4])).get 0 1 = 6) ∧
    ((Matrix.operator_sub_assign (Matrix.ofList 1 2 [(1 : ℚ), 2])
        (Matrix.ofList 2 1 [3, 4])).get 0 0 = -2 ∧
      (Matrix.operator_sub_assign (Matrix.ofList 1 2 [(1 : ℚ), 2])
        (Matrix.ofList 2 1 [3, 4])).get 0 1 = -2) ∧
    ((Matrix.hadamard (fun _ => 7) (Matrix.ofList 1 2 [(1 : ℚ), 2])
        (Matrix.ofList 2 1 [3, 4])).get 0 0 = 3 ∧
      (Matrix.hadamard (fun _ => 7) (Matrix.ofList 1 2 [(1 : ℚ), 2])
        (Matrix.ofList 2 1 [3, 4])).get 0 1 = 8) ∧
    Matrix.hadamard_member (Matrix.ofList 1 2 [(1 : ℚ), 2]) (Matrix.ofList 2 1 [3, 4])
      = none := by
  refine ⟨by decide, ⟨?_, ?_⟩, ⟨?_, ?_⟩, ⟨?_, ?_⟩, ⟨?_, ?_⟩, ⟨?_, ?_⟩, ?_⟩
  all_goals
    simp [Matrix.operator_add, Matrix.operator_sub, Matrix.operator_add_assign,
      Matrix.operator_sub_assign, Matrix.hadamard, Matrix.hadamard_member, Matrix.alloc,
      Matrix.ofList, forLoop, Matrix.get, Function.update]
  all_goals norm_num

theorem int_wrap_eq (z : Int) (h1 : -(2 ^ 31) ≤ z) (h2 : z < 2 ^ 31) :
    Matrix.int_wrap z = z := by
  unfold Matrix.int_wrap
  omega

/-- The counter does not decrease over an elementwise operation, and over a multiply it does not
decrease when the inner dimension is at least `1` and at most `2^30` (the factor `2*l-1` fits
`int`) or the result is empty. -/
theorem cnt_flop_monotone (m1 : Matrix R) (m n l : Nat) (cnt_flop : Int) :
    cnt_flop ≤ Matrix.elementwise_cnt_flop m1 cnt_flop ∧
    (1 ≤ l ∧ l ≤ 2 ^ 30 ∨ m * n = 0 → cnt_flop ≤ Matrix.cnt_flop_gemm m n l cnt_flop) ∧
    (l = 0 → 0 < m * n → Matrix.cnt_flop_gemm m n l cnt_flop < cnt_flop) := by
  unfold Matrix.elementwise_cnt_flop Matrix.cnt_flop_gemm
  refine ⟨?_, fun h => ?_, fun h0 hmn => ?_⟩
  · have : (0 : Int) ≤ (m1.m : Int) * (m1.n : Int) := by positivity
    omega
  · rcases h with h | h
    · have h1 : (0 : Int) ≤ (m : Int) * (n : Int) := by positivity
      have h2 : (0 : Int) ≤ 2 * (l : Int) - 1 := by omega
      have h3 : 2 * (l : Int) - 1 < 2 ^ 31 := by omega
      rw [int_wrap_eq _ (by omega) h3]
      have := mul_nonneg h1 h2
      omega
    · have h1 : (m : Int) * (n : Int) = 0 := by exact_mod_cast h
      rw [h1, zero_mul]
      omega
  · subst h0
    have h1 : (0 : Int) < (m : Int) * (n : Int) := by exact_mod_cast hmn
    have h2 : (m : Int) * (n : Int) * Matrix.int_wrap (2 * ((0 : Nat) : Int) - 1)
        = - ((m : Int) * (n : Int)) := by
      rw [int_wrap_eq _ (by norm_num) (by norm_num)]
      push_cast
      ring
    rw [h2]
    omega

/-- C28 (evaluation at the failing input): with `cnt_flop = 0`, `A` of shape `1 × 0` and `B` of
shape `0 × 1`, the product `A * B` is the `1 × 1` matrix `[[0]]` and the counter after the call is
`0 + 1*1*(2*0 - 1) = -1`, less than before; the same for `A.mult(alpha, B, beta, C)` with `C` of
shape `1 × 1`.  An elementwise operation on the same operand leaves the counter at `0`. -/
theorem cnt_flop_decreases :
    ((Matrix.operator_mul (fun _ => 7) (Matrix.alloc (fun _ => (1 : ℚ)) 1 0)
        (Matrix.alloc (fun _ => 1) 0 1)).m = 1 ∧
      (Matrix.operator_mul (fun _ => 7) (Matrix.alloc (fun _ => (1 : ℚ)) 1 0)
        (Matrix.alloc (fun _ => 1) 0 1)).n = 1 ∧
      (Matrix.operator_mul (fun _ => 7) (Matrix.alloc (fun _ => (1 : ℚ)) 1 0)
        (Matrix.alloc (fun _ => 1) 0 1)).get 0 0 = 0) ∧
    Matrix.operator_mul_cnt_flop (Matrix.alloc (fun _ => (1 : ℚ)) 1 0)
      (Matrix.alloc (fun _ => 1) 0 1) 0 = -1 ∧
    Matrix.mult_cnt_flop (Matrix.alloc (fun _ => (1 : ℚ)) 1 0) (Matrix.alloc (fun _ => 1) 0 1)
      (Matrix.alloc (fun _ => 1) 1 1) 0 = some (-1) ∧
    Matrix.elementwise_cnt_flop (Matrix.alloc (fun _ => (1 : ℚ)) 1 0) 0 = 0 := by
  refine ⟨⟨rfl, rfl, ?_⟩, ?_, ?_, ?_⟩
  · simp [Matrix.operator_mul, Matrix.alloc, forLoop, Matrix.set, Matrix.get]
  · simp [Matrix.operator_mul_cnt_flop, Matrix.cnt_flop_gemm, Matrix.int_wrap, Matrix.alloc]
  · simp [Matrix.mult_cnt_flop, Matrix.cnt_flop_gemm, Matrix.int_wrap, Matrix.alloc]
  · simp [Matrix.elementwise_cnt_flop, Matrix.alloc]

end Assertions

/-! ## BatchNormalize: the divisors are not zero -/

section Divisors

open BatchNormalize

/-- C27: over the reals, for every input `U` with batch size `U.n > 0`, the variance stored by
`apply` satisfies `var(i,j) ≥ 0` for every channel `i` and unit `j`; hence `var(i,j) + EPS > 0`,
and the divisors `std::sqrt(var(i,j) + EPS)` (of `apply`, `calc_delta`, `calc_gradient`) and
`std::pow(var(i,j) + EPS, 1.5)` (of `calc_delta`), evaluated on the state `apply` leaves, are not
zero. -/
theorem apply_var_nonneg (ops : RealOps ℝ) (hsqrt : ops.sqrt = Real.sqrt)
    (hpow : ops.pow = fun u v => u ^ v) (L : BatchNormalize ℝ) (gs gr : Nat → ℝ)
    (U : Matrix ℝ) (uf : Bool) (hN : 0 < U.n) (i j : Nat) (hi : i < L.num_map)
    (hj : j < L.num_unit) :
    0 ≤ (L.apply ops gs gr U uf).2.var.get i j ∧
    0 < (L.apply ops gs gr U uf).2.var.get i j + EPS ∧
    ops.sqrt ((L.apply ops gs gr U uf).2.var.get i j + EPS) ≠ 0 ∧
    ops.pow ((L.apply ops gs gr U uf).2.var.get i j + EPS) 1.5 ≠ 0 := by
  have h0 : 0 ≤ (L.apply ops gs gr U uf).2.var.get i j := by
    rw [(apply_stats ops L gs gr U uf i j hi hj).2]
    exact div_nonneg (Finset.sum_nonneg (fun k _ => mul_self_nonneg _)) (Nat.cast_nonneg _)
  have h1 : 0 < (L.apply ops gs gr U uf).2.var.get i j + EPS := add_pos_of_nonneg_of_pos h0 EPS_pos
  refine ⟨h0, h1, ?_, ?_⟩
  · rw [hsqrt]
    exact ne_of_gt (Real.sqrt_pos.mpr h1)
  · rw [hpow]
    exact ne_of_gt (Real.rpow_pos_of_pos h1 _)

end Divisors

/-! ## Length of the buffer -/

section Buffers

variable {R : Type}

open Heap

theorem forLoop_keeps {σ : Type} (P : σ → Prop) (n : Nat) (body : Nat → σ → σ) (s : σ)
    (h0 : P s) (h : ∀ i x, P x → P (body i x)) : P (forLoop n body s) := by
  induction n with
  | zero => exact h0
  | succ k ih => exact h k _ ih

theorem length_new (g : Nat → R) (k : Nat) : Heap.length (Heap.new g k) = k := by
  simp [Heap.length, Heap.new]

theorem length_wr (v : Option (List R)) (i : Nat) (x : R) :
    Heap.length (Heap.wr v i x) = Heap.length v := by
  cases v with
  | none => rfl
  | some xs => simp [Heap.length, Heap.wr]

theorem same_refl (A : Heap.Matrix R) : A.Same A := ⟨rfl, rfl, rfl, rfl⟩

theorem same_setv (A B : Heap.Matrix R) (i : Nat) (x : R) (h : A.Same B) :
    A.Same (B.setv i x) :=
  ⟨h.1, h.2.1, h.2.2.1, (length_wr B.v i x).trans h.2.2.2⟩

theorem same_set (A B : Heap.Matrix R) (i j : Nat) (x : R) (h : A.Same B) :
    A.Same (B.set i j x) :=
  ⟨h.1, h.2.1, h.2.2.1, (length_wr B.v _ x).trans h.2.2.2⟩

theorem same_flat_loop (A : Heap.Matrix R) (k : Nat) (val : Nat → Heap.Matrix R → R) :
    A.Same (forLoop k (fun i B => B.setv i (val i B)) A) :=
  forLoop_keeps (fun B => A.Same B) k _ A (same_refl A) (fun i B hB => same_setv A B i _ hB)

theorem same_block_loop (A : Heap.Matrix R) (w h : Nat) (row col : Nat → Nat → Nat)
    (val : Nat → Nat → Heap.Matrix R → R) :
    A.Same (forLoop w (fun i B =>
      forLoop h (fun j B => B.set (row i j) (col i j) (val i j B)) B) A) :=
  forLoop_keeps (fun B => A.Same B) w _ A (same_refl A) (fun i B hB =>
    forLoop_keeps (fun B => A.Same B) h _ B hB (fun j B hB => same_set A B _ _ _ hB))

theorem exact_of_same (A B : Heap.Matrix R) (h : A.Same B) (hA : A.Exact) : B.Exact := by
  unfold Heap.Matrix.Exact
  rw [h.2.2.2, h.1, h.2.1]
  exact hA

theorem fits_of_same (A B : Heap.Matrix R) (h : A.Same B) (hA : A.Fits) : B.Fits := by
  unfold Heap.Matrix.Fits
  rw [h.2.2.2, h.1, h.2.1, h.2.2.1]
  exact hA

theorem int_mul_eq (a b : Nat) (h : a * b < 2 ^ 31) :
    Heap.int_mul a b = ((a * b : Nat) : Int) := by
  unfold Heap.int_mul
  omega

theorem fresh_exact (g : Nat → R) (m n : Nat) :
    (⟨m, n, m * n, Heap.new g (m * n)⟩ : Heap.Matrix R).Exact ∧
    (⟨m, n, m * n, Heap.new g (m * n)⟩ : Heap.Matrix R).Fits :=
  ⟨length_new g (m * n), length_new g (m * n), le_refl _⟩

theorem new_int_some (g : Nat → R) (m n : Nat) (h : m * n < 2 ^ 31) :
    Heap.new_int g (Heap.int_mul m n) = some (Heap.new g (m * n)) := by
  unfold Heap.new_int
  rw [int_mul_eq m n h, if_neg (by omega)]
  rfl

theorem ctor_some (g : Nat → R) (m n : Nat) (h : m * n < 2 ^ 31) :
    Heap.Matrix.ctor g m n = some ⟨m, n, m * n, Heap.new g (m * n)⟩ := by
  unfold Heap.Matrix.ctor
  rw [new_int_some g m n h]
  rfl

theorem ctor_copy_exact [Zero R] (g : Nat → R) (mat : Heap.Matrix R)
    (h : mat.m * mat.n < 2 ^ 31) :
    Heap.Matrix.Returns (Heap.Matrix.ctor_copy g mat)
      (fun M => M.Exact ∧ M.Fits ∧ M.m = mat.m ∧ M.n = mat.n) := by
  by_cases h0 : mat.m = 0 ∨ mat.n = 0
  · have e : Heap.Matrix.ctor_copy g mat = some ⟨mat.m, mat.n, mat.m * mat.n, none⟩ :=
      if_pos h0
    have hz : mat.m * mat.n = 0 := Nat.mul_eq_zero.mpr h0
    exact ⟨_, e, hz.symm, ⟨hz.symm, le_refl _⟩, rfl, rfl⟩
  · have e : Heap.Matrix.ctor_copy g mat
        = some (forLoop (mat.m * mat.n) (fun i self => self.setv i (Heap.rd mat.v i))
            ⟨mat.m, mat.n, mat.m * mat.n, Heap.new g (mat.m * mat.n)⟩) := by
      unfold Heap.Matrix.ctor_copy
      simp only [if_neg h0]
      rw [new_int_some g _ _ h, int_mul_eq _ _ h]
      rfl
    have hs := same_flat_loop (⟨mat.m, mat.n, mat.m * mat.n, Heap.new g (mat.m * mat.n)⟩ :
      Heap.Matrix R) (mat.m * mat.n) (fun i _ => Heap.rd mat.v i)
    exact ⟨_, e, exact_of_same _ _ hs (fresh_exact g _ _).1,
      fits_of_same _ _ hs (fresh_exact g _ _).2, hs.1, hs.2.1⟩

theorem operator_assign_exact [Zero R] (g : Nat → R) (self mat : Heap.Matrix R)
    (h : mat.m * mat.n < 2 ^ 31) :
    Heap.Matrix.Returns (Heap.Matrix.operator_assign g self mat)
      (fun M => M.Exact ∧ M.Fits ∧ M.m = mat.m ∧ M.n = mat.n) :=
  ctor_copy_exact g mat h

theorem elementwise_exact (g : Nat → R) (m n : Nat) (h : m * n < 2 ^ 31)
    (val : Nat → Heap.Matrix R → R) :
    Heap.Matrix.Returns ((Heap.Matrix.ctor g m n).map (fun ret =>
      forLoop (Heap.int_mul m n).toNat (fun i ret => ret.setv i (val i ret)) ret))
      (fun M => M.Exact ∧ M.Fits ∧ M.m = m ∧ M.n = n) := by
  have hs := same_flat_loop (⟨m, n, m * n, Heap.new g (m * n)⟩ : Heap.Matrix R)
    (Heap.int_mul m n).toNat val
  refine ⟨_, by rw [ctor_some g m n h]; rfl, exact_of_same _ _ hs (fresh_exact g m n).1,
    fits_of_same _ _ hs (fresh_exact g m n).2, hs.1, hs.2.1⟩

theorem block_exact (g : Nat → R) (m n w h : Nat) (hmn : m * n < 2 ^ 31)
    (row col : Nat → Nat → Nat) (val : Nat → Nat → Heap.Matrix R → R) :
    Heap.Matrix.Returns ((Heap.Matrix.ctor g m n).map (fun ret =>
      forLoop w (fun i B => forLoop h (fun j B => B.set (row i j) (col i j) (val i j B)) B)
        ret)) (fun M => M.Exact ∧ M.Fits ∧ M.m = m ∧ M.n = n) := by
  have hs := same_block_loop (⟨m, n, m * n, Heap.new g (m * n)⟩ : Heap.Matrix R) w h row col
    val
  refine ⟨_, by rw [ctor_some g m n hmn]; rfl, exact_of_same _ _ hs (fresh_exact g m n).1,
    fits_of_same _ _ hs (fresh_exact g m n).2, hs.1, hs.2.1⟩

/-- C21 (counterexample): `reshape(1, 2)` on a freshly constructed `2 × 3` matrix passes its
assertion (`1*2 ≤ mem_size = 6`) and leaves a matrix of shape `1 × 2` whose buffer still has `6`
elements: the length of the buffer is not `m × n`.  Two more ways to leave the invariant:
`Matrix(65536, 65536)` has `mem_size = 2^32` from the product in `long long` and an array of `0`
elements from the product in `int`; and in a build with `NDEBUG`, `reshape(3, 3)` on a `2 × 3`
matrix leaves the shape `3 × 3` on an array of `6` elements. -/
theorem reshape_breaks_exact :
    (∃ A0 A, Heap.Matrix.ctor (fun _ => (0 : ℚ)) 2 3 = some A0 ∧ A0.Exact ∧
      A0.reshape false 1 2 = some A ∧
      Heap.length A.v = 6 ∧ A.m * A.n = 2 ∧ ¬ A.Exact) ∧
    (∃ A, Heap.Matrix.ctor (fun _ => (0 : ℚ)) 65536 65536 = some A ∧
      Heap.length A.v = 0 ∧ A.mem_size = 2 ^ 32 ∧ A.m * A.n = 2 ^ 32 ∧ ¬ A.Exact ∧ ¬ A.Fits) ∧
    (∃ A0 A, Heap.Matrix.ctor (fun _ => (0 : ℚ)) 2 3 = some A0 ∧ A0.Fits ∧
      A0.reshape true 3 3 = some A ∧
      Heap.length A.v = 6 ∧ A.m * A.n = 9 ∧ ¬ A.Exact ∧ ¬ A.Fits) := by
  have e23 := ctor_some (fun _ => (0 : ℚ)) 2 3 (by decide)
  refine ⟨⟨_, ⟨1, 2, 6, Heap.new (fun _ => (0 : ℚ)) 6⟩, e23, (fresh_exact _ 2 3).1, rfl, rfl,
    rfl, ?_⟩, ⟨⟨65536, 65536, 65536 * 65536, Heap.new (fun _ => (0 : ℚ)) 0⟩, ?_, rfl, rfl, rfl,
    ?_, ?_⟩, ⟨_, ⟨3, 3, 6, Heap.new (fun _ => (0 : ℚ)) 6⟩, e23, (fresh_exact _ 2 3).2, rfl, rfl,
    rfl, ?_, ?_⟩⟩
  · unfold Heap.Matrix.Exact
    rw [length_new]
    decide
  · unfold Heap.Matrix.ctor Heap.new_int
    have e : Heap.int_mul 65536 65536 = 0 := by
      unfold Heap.int_mul
      norm_num
    rw [e]
    rfl
  · unfold Heap.Matrix.Exact
    rw [length_new]
    decide
  · unfold Heap.Matrix.Fits
    rw [length_new]
    decide
  · unfold Heap.Matrix.Exact
    rw [length_new]
    decide
  · unfold Heap.Matrix.Fits
    rw [length_new]
    decide

/-- C21 (amended): in a build with assertions and for shapes whose products `m × n` stay below
`2^31` (the `int` product in `new T[m*n]` does not overflow), the constructors, copy
construction, assignment, `sub` (extraction) and the arithmetic operators that return a matrix
(`+`, `-`, unary `-`, `c*`, `*c`, `/c`, `*`, and `*=` with a matrix, which assigns a product)
return a matrix whose buffer has exactly `m × n` elements; `sub` (insertion) and the operators
`+=`, `-=`, `*= c`, `/= c` keep the shape, `mem_size` and the buffer length of the matrix they
modify, so they keep that equality; `reshape(m, n)` aborts exactly when `m × n > mem_size` and
otherwise keeps `v` and `mem_size` and sets the shape.  What every operation keeps is: the
buffer has `mem_size` elements and `m × n ≤ mem_size`. -/
theorem buffer_length_spec [Field R] (g g' : Nat → R) (A B : Heap.Matrix R) (c : R)
    (xs : List R) (m n y x h w : Nat) (hmn : m * n < 2 ^ 31) (hxs : xs.length < 2 ^ 31)
    (hA : A.m * A.n < 2 ^ 31) (hhw : h * w < 2 ^ 31) (hAB : A.m * B.n < 2 ^ 31) :
    (((Heap.Matrix.ctor_default : Heap.Matrix R).Exact ∧
        (Heap.Matrix.ctor_default : Heap.Matrix R).Fits) ∧
      Heap.Matrix.Returns (Heap.Matrix.ctor g m n) (fun M => M.Exact ∧ M.Fits) ∧
      Heap.Matrix.Returns (Heap.Matrix.ctor_vector g xs) (fun M => M.Exact ∧ M.Fits) ∧
      Heap.Matrix.Returns (Heap.Matrix.ctor_copy g A) (fun M => M.Exact ∧ M.Fits) ∧
      Heap.Matrix.Returns (Heap.Matrix.operator_assign g B A) (fun M => M.Exact ∧ M.Fits)) ∧
    (Heap.Matrix.Returns (A.sub g y x h w) (fun M => M.Exact ∧ M.Fits) ∧
      Heap.Matrix.Returns (Heap.Matrix.operator_add g A B) (fun M => M.Exact ∧ M.Fits) ∧
      Heap.Matrix.Returns (Heap.Matrix.operator_sub g A B) (fun M => M.Exact ∧ M.Fits) ∧
      Heap.Matrix.Returns (Heap.Matrix.operator_neg g A) (fun M => M.Exact ∧ M.Fits) ∧
      Heap.Matrix.Returns (Heap.Matrix.operator_smul g c A) (fun M => M.Exact ∧ M.Fits) ∧
      Heap.Matrix.Returns (Heap.Matrix.operator_mul_scalar g A c) (fun M => M.Exact ∧ M.Fits) ∧
      Heap.Matrix.Returns (Heap.Matrix.operator_div_scalar g A c) (fun M => M.Exact ∧ M.Fits) ∧
      Heap.Matrix.Returns (Heap.Matrix.operator_mul g A B) (fun M => M.Exact ∧ M.Fits) ∧
      Heap.Matrix.Returns (Heap.Matrix.operator_mul_assign g g' A B) (fun M => M.Exact ∧ M.Fits)) ∧
    ((Heap.Matrix.Returns (A.sub_insert g y x h w B) (fun M => A.Same M) ∧
        A.Same (A.operator_add_assign B) ∧ A.Same (A.operator_sub_assign B) ∧
        A.Same (A.operator_mul_assign_scalar c) ∧ A.Same (A.operator_div_assign c)) ∧
      ∀ A', A.Same A' → (A.Exact → A'.Exact) ∧ (A.Fits → A'.Fits)) ∧
    ((A.reshape false m n = none ↔ A.mem_size < m * n) ∧
      ∀ A', A.reshape false m n = some A' →
        A'.m = m ∧ A'.n = n ∧ A'.mem_size = A.mem_size ∧ A'.v = A.v ∧
        (A.Fits → A'.Fits ∧ A'.m * A'.n ≤ Heap.length A'.v) ∧
        (A.Fits → (A'.Exact ↔ m * n = A.mem_size))) := by
  have weaken : ∀ (r : Option (Heap.Matrix R)) (a b : Nat),
      Heap.Matrix.Returns r (fun M => M.Exact ∧ M.Fits ∧ M.m = a ∧ M.n = b) →
      Heap.Matrix.Returns r (fun M => M.Exact ∧ M.Fits) :=
    fun r a b ⟨M, e, h1, h2, _⟩ => ⟨M, e, h1, h2⟩
  have hv : Heap.Matrix.Returns (Heap.Matrix.ctor_vector g xs) (fun M => M.Exact ∧ M.Fits) := by
    have hx1 : xs.length * 1 < 2 ^ 31 := by omega
    have hs := same_flat_loop (⟨xs.length, 1, xs.length * 1, Heap.new g (xs.length * 1)⟩ :
      Heap.Matrix R) xs.length (fun i _ => xs.getD i 0)
    refine ⟨_, ?_, exact_of_same _ _ hs (fresh_exact g _ _).1,
      fits_of_same _ _ hs (fresh_exact g _ _).2⟩
    unfold Heap.Matrix.ctor_vector
    simp only []
    rw [new_int_some g _ _ hx1]
    rfl
  have hd : (Heap.Matrix.ctor_default : Heap.Matrix R).Exact ∧
      (Heap.Matrix.ctor_default : Heap.Matrix R).Fits := ⟨rfl, rfl, le_refl _⟩
  have hsub := block_exact g h w w h hhw (fun _ j => j) (fun i _ => i)
    (fun i j _ => A.get (y + j) (x + i))
  have hadd := elementwise_exact g A.m A.n hA (fun i _ => Heap.rd A.v i + Heap.rd B.v i)
  have hsb := elementwise_exact g A.m A.n hA (fun i _ => Heap.rd A.v i - Heap.rd B.v i)
  have hneg := elementwise_exact g A.m A.n hA (fun i _ => - Heap.rd A.v i)
  have hsm := fun c : R => elementwise_exact g A.m A.n hA (fun i _ => c * Heap.rd A.v i)
  have hdv : Heap.Matrix.Returns (Heap.Matrix.operator_div_scalar g A c)
      (fun M => M.Exact ∧ M.Fits) := by
    unfold Heap.Matrix.operator_div_scalar
    have h1 := hsm (1 / c)
    exact weaken _ _ _ h1
  have hmul := block_exact g A.m B.n A.m B.n hAB (fun i _ => i) (fun _ j => j)
    (fun i j _ => forLoop A.n (fun k sum => sum + A.get i k * B.get k j) 0)
  have hma : Heap.Matrix.Returns (Heap.Matrix.operator_mul_assign g g' A B)
      (fun M => M.Exact ∧ M.Fits) := by
    obtain ⟨P, eP, _, _, pm, pn⟩ := hmul
    have hP : P.m * P.n < 2 ^ 31 := by rw [pm, pn]; exact hAB
    obtain ⟨M, eM, m1, m2, _⟩ := operator_assign_exact g' A P hP
    refine ⟨M, ?_, m1, m2⟩
    show (Heap.Matrix.operator_mul g A B).bind _ = _
    rw [show Heap.Matrix.operator_mul g A B = some P from eP, Option.some_bind]
    exact eM
  have hins : Heap.Matrix.Returns (A.sub_insert g y x h w B) (fun M => A.Same M) := by
    refine ⟨_, ?_, same_block_loop A w h (fun _ j => y + j) (fun i _ => x + i)
      (fun i j _ => B.get j i)⟩
    unfold Heap.Matrix.sub_insert
    rw [ctor_some g h w hhw]
    rfl
  refine ⟨⟨hd, ⟨_, ctor_some g m n hmn, fresh_exact g m n⟩, hv,
      weaken _ _ _ (ctor_copy_exact g A hA), weaken _ _ _ (operator_assign_exact g B A hA)⟩,
    ⟨weaken _ _ _ hsub, weaken _ _ _ hadd, weaken _ _ _ hsb, weaken _ _ _ hneg,
      weaken _ _ _ (hsm c), weaken _ _ _ (hsm c), hdv,
      weaken _ _ _ hmul, hma⟩,
    ⟨⟨hins,
      same_flat_loop A (Heap.int_mul B.m B.n).toNat (fun i S => Heap.rd S.v i + Heap.rd B.v i),
      same_flat_loop A (Heap.int_mul B.m B.n).toNat (fun i S => Heap.rd S.v i - Heap.rd B.v i),
      same_flat_loop A (Heap.int_mul A.m A.n).toNat (fun i S => Heap.rd S.v i * c),
      same_flat_loop A (Heap.int_mul A.m A.n).toNat (fun i S => Heap.rd S.v i / c)⟩,
      fun A' hs => ⟨exact_of_same A A' hs, fits_of_same A A' hs⟩⟩, ?_, ?_⟩
  · unfold Heap.Matrix.reshape
    by_cases hle : m * n ≤ A.mem_size
    · rw [if_pos (Or.inr hle)]
      simp [hle]
    · rw [if_neg (by simp [hle])]
      simp only [true_iff]
      omega
  · intro A' hA'
    unfold Heap.Matrix.reshape at hA'
    by_cases hle : m * n ≤ A.mem_size
    · rw [if_pos (Or.inr hle)] at hA'
      have e := Option.some.inj hA'
      subst e
      refine ⟨rfl, rfl, rfl, rfl, fun hF => ⟨⟨hF.1, hle⟩, ?_⟩, fun hF => ?_⟩
      · show m * n ≤ Heap.length A.v
        rw [hF.1]
        exact hle
      · show Heap.length A.v = m * n ↔ m * n = A.mem_size
        rw [hF.1]
        exact eq_comm
    · rw [if_neg (by simp [hle])] at hA'
      exact absurd hA' (by simp)

end Buffers

/-! ## The build with `USE_BLAS` -/

section Blas

variable {R : Type}

theorem shortCircuits_guard (m n l : Nat) (ret X : Matrix R) (a b c d : Effect)
    (hd : d.isGemm = true) :
    ShortCircuits m n l ret (if m ≠ 0 ∧ n ≠ 0 ∧ l ≠ 0 then (X, [a, b, c, d]) else (ret, [])) := by
  by_cases h : m ≠ 0 ∧ n ≠ 0 ∧ l ≠ 0
  · rw [if_pos h]
    refine ⟨⟨fun _ => h, fun _ => ?_⟩, fun h0 => ?_⟩
    · simp [invoked, hd]
    · rcases h0 with h0 | h0 | h0
      · exact absurd h0 h.1
      · exact absurd h0 h.2.1
      · exact absurd h0 h.2.2
  · rw [if_neg h]
    exact ⟨⟨fun hi => absurd hi (by simp [invoked]), fun h' => absurd h' h⟩, fun _ => rfl⟩

theorem shortCircuits_guard_some (m n l : Nat) (shape : Prop) [Decidable shape] (C X : Matrix R)
    (a b c d : Effect) (hd : d.isGemm = true) (hs : shape) :
    ∃ r, (if shape then
        (if m ≠ 0 ∧ n ≠ 0 ∧ l ≠ 0 then some (X, [a, b, c, d]) else some (C, []))
        else none) = some r ∧ ShortCircuits m n l C r := by
  rw [if_pos hs]
  by_cases h : m ≠ 0 ∧ n ≠ 0 ∧ l ≠ 0
  · refine ⟨_, if_pos h, ?_⟩
    have := shortCircuits_guard m n l C X a b c d hd
    rw [if_pos h] at this
    exact this
  · refine ⟨_, if_neg h, ?_⟩
    have := shortCircuits_guard m n l C X a b c d hd
    rw [if_neg h] at this
    exact this

/-- C25: in the build with `USE_BLAS`, for each of the four `operator *` overloads and each of the
four `mult` overloads (for `mult`: in a build without assertions, and in a build with assertions
when its three `assert`s on the shapes pass; the call then has a result), with `m` the rows of
the left operand, `n` the columns of the right operand and `l` the columns of the left operand:
the vendor routine is invoked if and only if `m ≠ 0`, `n ≠ 0` and `l ≠ 0`; when one of them is
zero the call completes with no effect, neither a vendor call nor an address of an operand
element taken, and the result is the freshly allocated matrix (for `mult`: `C` unchanged). -/
theorem blas_guard_spec [Field R] (g : Nat → R) (m1 m2 C : Matrix R) (t1 t2 : tMatrix R)
    (alpha beta : R) (ndebug : Bool) :
    (ShortCircuits m1.m m2.n m1.n (Matrix.alloc g m1.m m2.n) (Matrix.operator_mul_blas g m1 m2) ∧
      ShortCircuits m1.m t2.n m1.n (Matrix.alloc g m1.m t2.n)
        (Matrix.operator_mul_t_blas g m1 t2) ∧
      ShortCircuits t1.m m2.n t1.n (Matrix.alloc g t1.m m2.n)
        (tMatrix.operator_mul_blas g t1 m2) ∧
      ShortCircuits t1.m t2.n t1.n (Matrix.alloc g t1.m t2.n)
        (tMatrix.operator_mul_t_blas g t1 t2)) ∧
    ((ndebug = true ∨ (m1.n = m2.m ∧ m1.m = C.m ∧ m2.n = C.n) →
        ∃ r, m1.mult_blas ndebug alpha m2 beta C = some r ∧
          ShortCircuits m1.m m2.n m1.n C r) ∧
      (ndebug = true ∨ (m1.n = t2.m ∧ m1.m = C.m ∧ t2.n = C.n) →
        ∃ r, m1.mult_t_blas ndebug alpha t2 beta C = some r ∧
          ShortCircuits m1.m t2.n m1.n C r) ∧
      (ndebug = true ∨ (t1.n = m2.m ∧ t1.m = C.m ∧ m2.n = C.n) →
        ∃ r, t1.mult_blas ndebug alpha m2 beta C = some r ∧
          ShortCircuits t1.m m2.n t1.n C r) ∧
      (ndebug = true ∨ (t1.n = t2.m ∧ t1.m = C.m ∧ t2.n = C.n) →
        ∃ r, t1.mult_t_blas ndebug alpha t2 beta C = some r ∧
          ShortCircuits t1.m t2.n t1.n C r)) := by
  refine ⟨⟨?_, ?_, ?_, ?_⟩, ⟨fun hs => ?_, fun hs => ?_, fun hs => ?_, fun hs => ?_⟩⟩
  · exact shortCircuits_guard _ _ _ _ _ _ _ _ _ rfl
  · exact shortCircuits_guard _ _ _ _ _ _ _ _ _ rfl
  · exact shortCircuits_guard _ _ _ _ _ _ _ _ _ rfl
  · exact shortCircuits_guard _ _ _ _ _ _ _ _ _ rfl
  · exact shortCircuits_guard_some _ _ _ _ _ _ _ _ _ _ rfl hs
  · exact shortCircuits_guard_some _ _ _ _ _ _ _ _ _ _ rfl hs
  · exact shortCircuits_guard_some _ _ _ _ _ _ _ _ _ _ rfl hs
  · exact shortCircuits_guard_some _ _ _ _ _ _ _ _ _ _ rfl hs

theorem naive_entry [Field R] (g : Nat → R) (m n l : Nat) (a b : Nat → Nat → R) (i j : Nat)
    (hi : i < m) (hj : j < n) :
    (forLoop m (fun i ret =>
      forLoop n (fun j ret =>
        ret.set i j (forLoop l (fun k sum => sum + a i k * b k j) 0)) ret)
      (Matrix.alloc g m n)).get i j = ∑ k ∈ Finset.range l, a i k * b k j := by
  obtain ⟨_, _, h3⟩ := assign2_spec m n
    (fun i j => forLoop l (fun k sum => sum + a i k * b k j) 0) (Matrix.alloc g m n)
    (Nat.le_refl _)
  rw [h3 i j hi hj, forLoop_add_sum, zero_add]

theorem colmajor_inj {ld i j i' j' : Nat} (hi : i < ld) (hi' : i' < ld)
    (h : i + j * ld = i' + j' * ld) : i = i' ∧ j = j' := by
  have h' : j * ld + i = j' * ld + i' := by omega
  obtain ⟨h1, h2⟩ := idx_inj hi hi' h'
  exact ⟨h2, h1⟩

/-- The entry of the result of `gemm`: position `i + j*ldc` holds
`alpha * (op(A) op(B))(i,j) + beta * C(i,j)`. -/
theorem gemm_entry [Field R] (transa transb : Char) (m n k : Nat) (alpha : R) (A : Nat → R)
    (lda : Nat) (B : Nat → R) (ldb : Nat) (beta : R) (C : Nat → R) (ldc : Nat) (hld : m ≤ ldc)
    (i j : Nat) (hi : i < m) (hj : j < n) :
    gemm transa transb m n k alpha A lda B ldb beta C ldc (i + j * ldc)
      = alpha * (∑ l ∈ Finset.range k,
          (if transa = 'N' then A (i + l * lda) else A (l + i * lda))
            * (if transb = 'N' then B (l + j * ldb) else B (j + l * ldb)))
        + beta * C (i + j * ldc) := by
  unfold gemm
  rw [forLoop_pointwise_fun n _ (fun j p x => forLoop m (fun i x =>
    if p = i + j * ldc then
      alpha * forLoop k (fun l temp =>
        temp + (if transa = 'N' then A (i + l * lda) else A (l + i * lda))
          * (if transb = 'N' then B (l + j * ldb) else B (j + l * ldb))) 0 + beta * x
    else x) x)]
  · rw [forLoop_single2 j i hj hi]
    · rw [if_pos rfl, forLoop_add_sum, zero_add]
    · intro j' i' _ hi' hne x
      rw [if_neg]
      intro e
      obtain ⟨e1, e2⟩ := colmajor_inj (Nat.lt_of_lt_of_le hi hld) (Nat.lt_of_lt_of_le hi' hld) e
      exact hne ⟨e2.symm, e1.symm⟩
  · intro j' b p
    refine forLoop_pointwise_fun m _ (fun i p x =>
      if p = i + j' * ldc then
        alpha * forLoop k (fun l temp =>
          temp + (if transa = 'N' then A (i + l * lda) else A (l + i * lda))
            * (if transb = 'N' then B (l + j' * ldb) else B (j' + l * ldb))) 0 + beta * x
      else x) (fun i b p => ?_) b p
    by_cases hp : p = i + j' * ldc
    · subst hp
      simp
    · simp [Function.update_noteq hp, hp]

/-- In the build with `USE_BLAS`, for a non-zero inner dimension, `operator *` on two plain
matrices returns the entries of the naive product of the same overload. -/
theorem operator_mul_blas_eq [Field R] (g g' : Nat → R) (m1 m2 : Matrix R) (hl : m1.n ≠ 0)
    (i j : Nat) (hi : i < m1.m) (hj : j < m2.n) :
    (Matrix.operator_mul_blas g m1 m2).1.get i j = (Matrix.operator_mul g' m1 m2).get i j := by
  have hg : m1.m ≠ 0 ∧ m2.n ≠ 0 ∧ m1.n ≠ 0 := ⟨by omega, by omega, hl⟩
  have e : (Matrix.operator_mul_blas g m1 m2).1
      = ⟨m1.m, m2.n, gemm 'N' 'N' m2.n m1.m m1.n 1 m2.v m2.n m1.v m1.n 0 g m2.n⟩ := by
    unfold Matrix.operator_mul_blas
    simp only [if_pos hg]
    rfl
  rw [e]
  show gemm 'N' 'N' m2.n m1.m m1.n 1 m2.v m2.n m1.v m1.n 0 g m2.n (i * m2.n + j) = _
  rw [Nat.add_comm, gemm_entry _ _ _ _ _ _ _ _ _ _ _ _ _ (Nat.le_refl _) j i hj hi]
  unfold Matrix.operator_mul
  rw [naive_entry g' m1.m m2.n m1.n (fun i k => m1.get i k) (fun k j => m2.get k j) i j hi hj]
  simp only [if_true, one_mul, zero_mul, add_zero, Matrix.get]
  refine Finset.sum_congr rfl (fun k _ => ?_)
  rw [mul_comm, Nat.add_comm k, Nat.add_comm j]

/-- The same for a plain matrix times the transposed view of a matrix. -/
theorem operator_mul_t_blas_eq [Field R] (g g' : Nat → R) (m1 U : Matrix R) (hl : m1.n ≠ 0)
    (i j : Nat) (hi : i < m1.m) (hj : j < U.transpose.n) :
    (Matrix.operator_mul_t_blas g m1 U.transpose).1.get i j
      = (Matrix.operator_mul_t g' m1 U.transpose).get i j := by
  have hj' : j < U.m := hj
  have hg : m1.m ≠ 0 ∧ U.m ≠ 0 ∧ m1.n ≠ 0 := ⟨by omega, by omega, hl⟩
  have e : (Matrix.operator_mul_t_blas g m1 U.transpose).1
      = ⟨m1.m, U.m, gemm 'T' 'N' U.m m1.m m1.n 1 U.v U.n m1.v m1.n 0 g U.m⟩ := by
    unfold Matrix.operator_mul_t_blas
    have hg' : m1.m ≠ 0 ∧ U.transpose.n ≠ 0 ∧ m1.n ≠ 0 := hg
    simp only [if_pos hg']
    rfl
  rw [e]
  show gemm 'T' 'N' U.m m1.m m1.n 1 U.v U.n m1.v m1.n 0 g U.m (i * U.m + j) = _
  rw [Nat.add_comm, gemm_entry _ _ _ _ _ _ _ _ _ _ _ _ _ (Nat.le_refl _) j i hj' hi]
  unfold Matrix.operator_mul_t
  rw [naive_entry g' m1.m U.transpose.n m1.n (fun i k => m1.get i k)
    (fun k j => U.transpose.get k j) i j hi hj]
  have hT : ¬ ('T' = 'N') := by decide
  simp only [if_true, if_neg hT, one_mul, zero_mul, add_zero, Matrix.get, tMatrix.get,
    Matrix.transpose]
  refine Finset.sum_congr rfl (fun k _ => ?_)
  rw [mul_comm, Nat.add_comm k (j * U.n), Nat.add_comm k (i * m1.n)]

/-- The same for the transposed view of a matrix times a plain matrix. -/
theorem tMatrix_operator_mul_blas_eq [Field R] (g g' : Nat → R) (U m2 : Matrix R)
    (hl : U.transpose.n ≠ 0) (i j : Nat) (hi : i < U.transpose.m) (hj : j < m2.n) :
    (tMatrix.operator_mul_blas g U.transpose m2).1.get i j
      = (tMatrix.operator_mul g' U.transpose m2).get i j := by
  have hi' : i < U.n := hi
  have hl' : U.m ≠ 0 := hl
  have hg : U.transpose.m ≠ 0 ∧ m2.n ≠ 0 ∧ U.transpose.n ≠ 0 :=
    ⟨Nat.not_eq_zero_of_lt hi, by omega, hl⟩
  have e : (tMatrix.operator_mul_blas g U.transpose m2).1
      = ⟨U.n, m2.n, gemm 'N' 'T' m2.n U.n U.m 1 m2.v m2.n U.v U.n 0 g m2.n⟩ := by
    unfold tMatrix.operator_mul_blas
    simp only [if_pos hg]
    rfl
  rw [e]
  show gemm 'N' 'T' m2.n U.n U.m 1 m2.v m2.n U.v U.n 0 g m2.n (i * m2.n + j) = _
  rw [Nat.add_comm, gemm_entry _ _ _ _ _ _ _ _ _ _ _ _ _ (Nat.le_refl _) j i hj hi']
  unfold tMatrix.operator_mul
  rw [naive_entry g' U.transpose.m m2.n U.transpose.n (fun i k => U.transpose.get i k)
    (fun k j => m2.get k j) i j hi hj]
  have hT : ¬ ('T' = 'N') := by decide
  simp only [if_true, if_neg hT, one_mul, zero_mul, add_zero, Matrix.get, tMatrix.get,
    Matrix.transpose]
  refine Finset.sum_congr rfl (fun k _ => ?_)
  rw [mul_comm, Nat.add_comm j (k * m2.n), Nat.add_comm i (k * U.n)]

/-- C26 (evaluation at the failing input): for the transposed views of `A = [[1,2],[3,4]]` and of
`B = [[1,0]]` (logical shapes `2 × 2` and `2 × 1`), the naive loop of
`operator * ( tMatrix, tMatrix )` gives the column `(1, 2)`, the vendor call of the same overload
in the build with `USE_BLAS` leaves the column `(1, 3)` in the result, and the sibling
`tMatrix::mult ( 1, B, 0, C )` of the same build leaves `(1, 2)`. -/
theorem operator_mul_tt_blas_differs :
    ((tMatrix.operator_mul_t (fun _ => 7) (Matrix.ofList 2 2 [(1 : ℚ), 2, 3, 4]).transpose
        (Matrix.ofList 1 2 [(1 : ℚ), 0]).transpose).get 0 0 = 1 ∧
      (tMatrix.operator_mul_t (fun _ => 7) (Matrix.ofList 2 2 [(1 : ℚ), 2, 3, 4]).transpose
        (Matrix.ofList 1 2 [(1 : ℚ), 0]).transpose).get 1 0 = 2) ∧
    ((tMatrix.operator_mul_t_blas (fun _ => 7) (Matrix.ofList 2 2 [(1 : ℚ), 2, 3, 4]).transpose
        (Matrix.ofList 1 2 [(1 : ℚ), 0]).transpose).1.get 0 0 = 1 ∧
      (tMatrix.operator_mul_t_blas (fun _ => 7) (Matrix.ofList 2 2 [(1 : ℚ), 2, 3, 4]).transpose
        (Matrix.ofList 1 2 [(1 : ℚ), 0]).transpose).1.get 1 0 = 3) ∧
    (tMatrix.mult_t_blas false (Matrix.ofList 2 2 [(1 : ℚ), 2, 3, 4]).transpose 1
        (Matrix.ofList 1 2 [(1 : ℚ), 0]).transpose 0 (Matrix.ofList 2 1 [7, 7])).map
      (fun r => (r.1.get 0 0, r.1.get 1 0)) = some (1, 2) := by
  refine ⟨⟨?_, ?_⟩, ⟨?_, ?_⟩, ?_⟩
  all_goals
    simp [tMatrix.operator_mul_t, tMatrix.operator_mul_t_blas, tMatrix.mult_t_blas, gemm,
      Matrix.transpose, tMatrix.get, Matrix.alloc, Matrix.ofList, forLoop, Matrix.set,
      Matrix.get, Function.update]

end Blas

/-! ## Pooling -/

section PoolingLoops

variable {σ : Type}

theorem forLoop_peel (n : Nat) (f : Nat → σ → σ) (s : σ) :
    forLoop (n + 1) f s = forLoop n (fun i => f (i + 1)) (f 0 s) := by
  induction n with
  | zero => rfl
  | succ k ih =>
    rw [forLoop_succ, ih, forLoop_succ]

/-- Number of iterations of `for( y = 0; y < bound; y += step )` for `step ≥ 1`. -/
theorem stride_count (bound step t : Nat) (hs : 1 ≤ step) :
    t < (bound + step - 1) / step ↔ t * step < bound := by
  have h : t + 1 ≤ (bound + step - 1) / step ↔ (t + 1) * step ≤ bound + step - 1 :=
    Nat.le_div_iff_mul_le hs
  have e : (t + 1) * step = t * step + step := Nat.succ_mul t step
  constructor
  · intro ht
    have := h.mp ht
    omega
  · intro ht
    exact h.mpr (by omega)

theorem forStep_from (bound step : Nat) (hs : 1 ≤ step) (body : Nat → σ → σ) (fuel t0 : Nat)
    (s : σ) (ht0 : t0 ≤ (bound + step - 1) / step)
    (hf : (bound + step - 1) / step - t0 ≤ fuel) :
    forStep fuel (t0 * step) bound step body s
      = forLoop ((bound + step - 1) / step - t0) (fun t => body ((t0 + t) * step)) s := by
  induction fuel generalizing t0 s with
  | zero =>
    have h0 : (bound + step - 1) / step - t0 = 0 := by omega
    rw [h0]
    rfl
  | succ k ih =>
    by_cases hlt : t0 < (bound + step - 1) / step
    · have hb : t0 * step < bound := (stride_count bound step t0 hs).mp hlt
      have e : (bound + step - 1) / step - t0 = ((bound + step - 1) / step - (t0 + 1)) + 1 := by
        omega
      rw [e, forLoop_peel]
      show (if t0 * step < bound then
        forStep k (t0 * step + step) bound step body (body (t0 * step) s) else s) = _
      rw [if_pos hb, ← Nat.succ_mul, ih (t0 + 1) _ hlt (by omega)]
      simp only [Nat.add_zero]
      refine forLoop_congr (fun t _ x => ?_) _
      rw [Nat.add_right_comm t0 1 t, Nat.add_assoc t0 t 1]
    · have h0 : (bound + step - 1) / step - t0 = 0 := by omega
      have hb : ¬ t0 * step < bound := fun hb => hlt ((stride_count bound step t0 hs).mpr hb)
      rw [h0]
      show (if t0 * step < bound then
        forStep k (t0 * step + step) bound step body (body (t0 * step) s) else s) = _
      rw [if_neg hb]
      rfl

/-- For `step ≥ 1` the loop `for( y = 0; y < bound; y += step )` runs the body at
`y = 0, step, 2*step, …` below `bound`, and `bound` iterations of fuel are enough. -/
theorem forStep_eq_forLoop (bound step : Nat) (hs : 1 ≤ step) (body : Nat → σ → σ) (s : σ) :
    forStep bound 0 bound step body s
      = forLoop ((bound + step - 1) / step) (fun t => body (t * step)) s := by
  have hle : (bound + step - 1) / step ≤ bound := by
    rw [Nat.div_le_iff_le_mul_add_pred hs]
    have : bound ≤ step * bound := Nat.le_mul_of_pos_left bound hs
    omega
  have h := forStep_from bound step hs body bound 0 s (Nat.zero_le _) (by omega)
  rw [Nat.zero_mul] at h
  rw [h, Nat.sub_zero]
  refine forLoop_congr (fun t _ x => ?_) _
  rw [Nat.zero_add]

theorem forLoop_prod {α β : Type} (n : Nat) (body : Nat → α × β → α × β) (f : Nat → α → α)
    (g : Nat → β → β) (h : ∀ i s, body i s = (f i s.1, g i s.2)) (s : α × β) :
    forLoop n body s = (forLoop n f s.1, forLoop n g s.2) := by
  induction n with
  | zero => rfl
  | succ k ih => rw [forLoop_succ, ih, h, forLoop_succ, forLoop_succ]

theorem forLoop_fst {α β : Type} (n : Nat) (body : Nat → α × β → α × β) (f : Nat → α → α)
    (h : ∀ i s, (body i s).1 = f i s.1) (s : α × β) :
    (forLoop n body s).1 = forLoop n f s.1 := by
  induction n with
  | zero => rfl
  | succ k ih => rw [forLoop_succ, h, ih, forLoop_succ]

theorem forLoop_list_update {α : Type} (n : Nat) (F : Nat → α → α) (l : List α) (d : α) :
    (forLoop n (fun i l => l.set i (F i (l.getD i d))) l).length = l.length ∧
    (∀ i, n ≤ i → (forLoop n (fun i l => l.set i (F i (l.getD i d))) l).getD i d = l.getD i d) ∧
    ∀ i, i < n → i < l.length →
      (forLoop n (fun i l => l.set i (F i (l.getD i d))) l).getD i d = F i (l.getD i d) := by
  induction n with
  | zero => exact ⟨rfl, fun _ _ => rfl, fun i hi => absurd hi (Nat.not_lt_zero i)⟩
  | succ k ih =>
    obtain ⟨h1, h2, h3⟩ := ih
    rw [forLoop_succ]
    refine ⟨by rw [List.length_set, h1], fun i hi => ?_, fun i hi hl => ?_⟩
    · have h := h2 i (by omega)
      simp only [List.getD_eq_getElem?_getD] at h ⊢
      rw [List.getElem?_set_ne (by omega)]
      exact h
    · by_cases hik : i = k
      · subst hik
        have h := h2 i (Nat.le_refl i)
        have hlen : i < (forLoop i (fun i l => l.set i (F i (l.getD i d))) l).length := by
          rw [h1]
          exact hl
        rw [h, List.getD_eq_getElem?_getD, List.getElem?_set_self hlen]
        rfl
      · have h := h3 i (by omega) hl
        simp only [List.getD_eq_getElem?_getD] at h ⊢
        rw [List.getElem?_set_ne (fun e => hik e.symm)]
        exact h

end PoolingLoops

section PoolingSpec

variable {R : Type}

/-- Three nested loops writing `A(row a b, j) = val j a b`, the rows of different `(a, b)` being
different: the shape is kept and every entry written holds its value. -/
theorem scatter3_spec (N1 N2 N3 : Nat) (row : Nat → Nat → Nat) (val : Nat → Nat → Nat → R)
    (A : Matrix R) (hN1 : N1 ≤ A.n)
    (hinj : ∀ a b a' b', a < N2 → b < N3 → a' < N2 → b' < N3 → row a b = row a' b' →
      a = a' ∧ b = b') :
    (forLoop N1 (fun j A => forLoop N2 (fun a A =>
      forLoop N3 (fun b A => A.set (row a b) j (val j a b)) A) A) A).m = A.m ∧
    (forLoop N1 (fun j A => forLoop N2 (fun a A =>
      forLoop N3 (fun b A => A.set (row a b) j (val j a b)) A) A) A).n = A.n ∧
    ∀ j a b, j < N1 → a < N2 → b < N3 →
      (forLoop N1 (fun j A => forLoop N2 (fun a A =>
        forLoop N3 (fun b A => A.set (row a b) j (val j a b)) A) A) A).get (row a b) j
        = val j a b := by
  obtain ⟨h1, h2, h3⟩ := pointwise_forLoop N1
    (fun j (A : Matrix R) => forLoop N2 (fun a A =>
      forLoop N3 (fun b A => A.set (row a b) j (val j a b)) A) A) _
    (fun j => pointwise_forLoop N2 (fun a (A : Matrix R) =>
      forLoop N3 (fun b A => A.set (row a b) j (val j a b)) A) _
      (fun a => pointwise_forLoop N3 (fun b (A : Matrix R) => A.set (row a b) j (val j a b)) _
        (fun b => pointwise_set (row a b) j (fun _ => val j a b)))) A
  refine ⟨h1, h2, fun j0 a0 b0 hj0 ha0 hb0 => ?_⟩
  simp only at h1 h2 h3
  rw [Matrix.get, h2, h3]
  rw [forLoop_single3
    (f := fun j a b x => if row a0 b0 * A.n + j0 = row a b * A.n + j then val j a b else x)
    j0 a0 b0 hj0 ha0 hb0]
  · simp
  · intro j a b hj ha hb hne x
    have hne' : ¬ (row a0 b0 * A.n + j0 = row a b * A.n + j) := fun e =>
      hne (by
        obtain ⟨e1, e2⟩ := idx_inj (Nat.lt_of_lt_of_le hj0 hN1) (Nat.lt_of_lt_of_le hj hN1) e
        obtain ⟨e3, e4⟩ := hinj a0 b0 a b ha0 hb0 ha hb e1
        exact ⟨e2.symm, e3.symm, e4.symm⟩)
    simp only [if_neg hne']

/-- The activation loop of `Pooling::apply` on one matrix. -/
theorem apply_func_spec (L : Pooling R) (uf : Bool) (A : Matrix R) :
    (L.apply_func uf A).m = A.m ∧ (L.apply_func uf A).n = A.n ∧
    ∀ r c, r < A.m → c < A.n →
      (L.apply_func uf A).get r c
        = (if uf then L.activate_func (A.get r c) else A.get r c) := by
  have hP : ∀ j, Pointwise (fun A' : Matrix R => forLoop A'.n (fun k A'' =>
      A''.set j k (if uf then L.activate_func (A''.get j k) else A''.get j k)) A')
      (fun n p x => forLoop n (fun k x =>
        if p = j * n + k then (if uf then L.activate_func x else x) else x) x) := by
    intro j A'
    exact pointwise_forLoop A'.n (fun k (A'' : Matrix R) =>
      A''.set j k (if uf then L.activate_func (A''.get j k) else A''.get j k)) _
      (fun k => pointwise_set j k (fun x => if uf then L.activate_func x else x)) A'
  obtain ⟨h1, h2, h3⟩ := pointwise_forLoop A.m _ _ hP A
  refine ⟨h1, h2, fun r c hr hc => ?_⟩
  simp only at h1 h2 h3
  unfold Pooling.apply_func
  rw [Matrix.get, h2, h3]
  rw [forLoop_single2 (f := fun j k x =>
    if r * A.n + c = j * A.n + k then (if uf then L.activate_func x else x) else x) r c hr hc]
  · simp [Matrix.get]
  · intro j k _ hk hne x
    have hne' : ¬ (r * A.n + c = j * A.n + k) := fun e =>
      hne (by
        obtain ⟨e1, e2⟩ := idx_inj hc hk e
        exact ⟨e1.symm, e2.symm⟩)
    simp only [if_neg hne']

theorem max_loop [LinearOrder R] (n : Nat) (skip : Nat → Prop) [DecidablePred skip]
    (e : Nat → R) (v0 : R) :
    v0 ≤ forLoop n (fun k v => if skip k then v else if v < e k then e k else v) v0 ∧
    (∀ k, k < n → ¬ skip k →
      e k ≤ forLoop n (fun k v => if skip k then v else if v < e k then e k else v) v0) ∧
    (forLoop n (fun k v => if skip k then v else if v < e k then e k else v) v0 = v0 ∨
      ∃ k, k < n ∧ ¬ skip k ∧
        forLoop n (fun k v => if skip k then v else if v < e k then e k else v) v0 = e k) := by
  induction n with
  | zero => exact ⟨le_refl _, fun k hk => absurd hk (Nat.not_lt_zero k), Or.inl rfl⟩
  | succ k ih =>
    obtain ⟨h1, h2, h3⟩ := ih
    rw [forLoop_succ]
    generalize forLoop k (fun k v => if skip k then v else if v < e k then e k else v) v0 = v
      at h1 h2 h3 ⊢
    by_cases hsk : skip k
    · rw [if_pos hsk]
      refine ⟨h1, fun k' hk' hs' => ?_, ?_⟩
      · have : k' ≠ k := fun e' => hs' (e' ▸ hsk)
        exact h2 k' (by omega) hs'
      · rcases h3 with h3 | ⟨k', hk', hs', h3⟩
        · exact Or.inl h3
        · exact Or.inr ⟨k', by omega, hs', h3⟩
    · rw [if_neg hsk]
      by_cases hlt : v < e k
      · rw [if_pos hlt]
        refine ⟨le_trans h1 (le_of_lt hlt), fun k' hk' hs' => ?_,
          Or.inr ⟨k, Nat.lt_succ_self k, hsk, rfl⟩⟩
        by_cases hk : k' = k
        · rw [hk]
        · exact le_trans (h2 k' (by omega) hs') (le_of_lt hlt)
      · rw [if_neg hlt]
        refine ⟨h1, fun k' hk' hs' => ?_, ?_⟩
        · by_cases hk : k' = k
          · rw [hk]
            exact not_lt.mp hlt
          · exact h2 k' (by omega) hs'
        · rcases h3 with h3 | ⟨k', hk', hs', h3⟩
          · exact Or.inl h3
          · exact Or.inr ⟨k', by omega, hs', h3⟩

theorem max_nest [LinearOrder R] (m n : Nat) (skip : Nat → Nat → Prop)
    [∀ s t, Decidable (skip s t)] (e : Nat → Nat → R) (v0 : R) :
    v0 ≤ forLoop m (fun s v => forLoop n (fun t v =>
        if skip s t then v else if v < e s t then e s t else v) v) v0 ∧
    (∀ s t, s < m → t < n → ¬ skip s t →
      e s t ≤ forLoop m (fun s v => forLoop n (fun t v =>
        if skip s t then v else if v < e s t then e s t else v) v) v0) ∧
    (forLoop m (fun s v => forLoop n (fun t v =>
        if skip s t then v else if v < e s t then e s t else v) v) v0 = v0 ∨
      ∃ s t, s < m ∧ t < n ∧ ¬ skip s t ∧
        forLoop m (fun s v => forLoop n (fun t v =>
          if skip s t then v else if v < e s t then e s t else v) v) v0 = e s t) := by
  induction m with
  | zero => exact ⟨le_refl _, fun s t hs => absurd hs (Nat.not_lt_zero s), Or.inl rfl⟩
  | succ k ih =>
    obtain ⟨h1, h2, h3⟩ := ih
    rw [forLoop_succ]
    generalize forLoop k (fun s v => forLoop n (fun t v =>
        if skip s t then v else if v < e s t then e s t else v) v) v0 = v at h1 h2 h3 ⊢
    obtain ⟨g1, g2, g3⟩ := max_loop n (fun t => skip k t) (fun t => e k t) v
    refine ⟨le_trans h1 g1, fun s t hs ht hsk => ?_, ?_⟩
    · by_cases hk : s = k
      · subst hk
        exact g2 t ht hsk
      · exact le_trans (h2 s t (by omega) ht hsk) g1
    · rcases g3 with g3 | ⟨t, ht, hsk, g3⟩
      · rw [g3]
        rcases h3 with h3 | ⟨s, t, hs, ht, hsk, h3⟩
        · exact Or.inl h3
        · exact Or.inr ⟨s, t, by omega, ht, hsk, h3⟩
      · exact Or.inr ⟨k, t, Nat.lt_succ_self k, ht, hsk, g3⟩

/-- The value `val` the window loops of `Pooling::apply` leave: the maximum of the input over the
part of the window inside the map. -/
theorem window_val [LinearOrderedField R] (L : Pooling R) (Ui : Matrix R) (j y x : Nat)
    (hm : 1 ≤ L.m) (hn : 1 ≤ L.n) (hx : x < L.prev_ldu)
    (hy : y < L.prev_num_unit / L.prev_ldu) :
    (∀ x' y', x ≤ x' → x' < min (x + L.m) L.prev_ldu → y ≤ y' →
      y' < min (y + L.n) (L.prev_num_unit / L.prev_ldu) →
      Ui.get (x' + L.prev_ldu * y') j ≤ (L.window Ui j y x).1) ∧
    ∃ x' y', (x ≤ x' ∧ x' < min (x + L.m) L.prev_ldu) ∧
      (y ≤ y' ∧ y' < min (y + L.n) (L.prev_num_unit / L.prev_ldu)) ∧
      (L.window Ui j y x).1 = Ui.get (x' + L.prev_ldu * y') j := by
  have e : (L.window Ui j y x).1
      = forLoop L.m (fun s v => forLoop L.n (fun t v =>
          if x + s ≥ L.prev_ldu ∨ y + t ≥ L.prev_num_unit / L.prev_ldu then v
          else if v < Ui.get (x + s + (y + t) * L.prev_ldu) j then
            Ui.get (x + s + (y + t) * L.prev_ldu) j
          else v) v) (Ui.get (x + L.prev_ldu * y) j) := by
    unfold Pooling.window
    refine forLoop_fst L.m _ _ (fun s w => ?_) _
    refine forLoop_fst L.n _ _ (fun t w => ?_) _
    simp only
    split_ifs <;> rfl
  obtain ⟨h1, h2, h3⟩ := max_nest L.m L.n
    (fun s t => x + s ≥ L.prev_ldu ∨ y + t ≥ L.prev_num_unit / L.prev_ldu)
    (fun s t => Ui.get (x + s + (y + t) * L.prev_ldu) j) (Ui.get (x + L.prev_ldu * y) j)
  rw [e]
  constructor
  · intro x' y' hx1 hx2 hy1 hy2
    have hx3 := lt_min_iff.mp hx2
    have hy3 := lt_min_iff.mp hy2
    have h := h2 (x' - x) (y' - y) (by omega) (by omega) (by
      intro hsk
      rcases hsk with hsk | hsk <;> omega)
    have e1 : x + (x' - x) = x' := by omega
    have e2 : y + (y' - y) = y' := by omega
    rw [e1, e2, Nat.mul_comm y'] at h
    exact h
  · rcases h3 with h3 | ⟨s, t, hs, ht, hsk, h3⟩
    · refine ⟨x, y, ⟨le_refl _, lt_min_iff.mpr ⟨by omega, hx⟩⟩,
        ⟨le_refl _, lt_min_iff.mpr ⟨by omega, hy⟩⟩, h3⟩
    · have hsk' := not_or.mp hsk
      refine ⟨x + s, y + t, ⟨by omega, lt_min_iff.mpr ⟨by omega, by omega⟩⟩,
        ⟨by omega, lt_min_iff.mpr ⟨by omega, by omega⟩⟩, ?_⟩
      rw [h3, Nat.mul_comm]

/-- The two matrices `Pooling::apply` writes for one map are written independently: the loops as
counted loops over the window origins, for `stlide ≥ 1`. -/
theorem apply_map_eq [LinearOrderedField R] (L : Pooling R) (Ui : Matrix R) (U0n : Nat)
    (st : Matrix R × Matrix R) (hs : 1 ≤ L.stlide) :
    L.apply_map Ui U0n st
      = (forLoop U0n (fun j A =>
            forLoop ((L.prev_num_unit / L.prev_ldu + L.stlide - 1) / L.stlide) (fun ty A =>
              forLoop ((L.prev_ldu + L.stlide - 1) / L.stlide) (fun tx A =>
                A.set (tx * L.stlide / L.stlide + (ty * L.stlide / L.stlide) * L.ldu) j
                  (L.window Ui j (ty * L.stlide) (tx * L.stlide)).1) A) A) st.1,
         forLoop U0n (fun j A =>
            forLoop ((L.prev_num_unit / L.prev_ldu + L.stlide - 1) / L.stlide) (fun ty A =>
              forLoop ((L.prev_ldu + L.stlide - 1) / L.stlide) (fun tx A =>
                A.set (tx * L.stlide / L.stlide + (ty * L.stlide / L.stlide) * L.ldu) j
                  ((L.window Ui j (ty * L.stlide) (tx * L.stlide)).2 : R)) A) A) st.2) := by
  unfold Pooling.apply_map
  simp only [forStep_eq_forLoop _ _ hs]
  refine forLoop_prod U0n _ _ _ (fun j s => ?_) st
  refine forLoop_prod _ _ _ _ (fun ty s => ?_) s
  refine forLoop_prod _ _ _ _ (fun tx s => ?_) s
  rfl

/-- The matrix `ret[i]` after the loops of `Pooling::apply` over one map: for every sample and
every window origin its cell holds the `val` of the window, provided the cells of different
origins are different (`x / stlide < ldu` for every `x < prev_ldu`). -/
theorem apply_map_ret [LinearOrderedField R] (L : Pooling R) (Ui : Matrix R) (U0n : Nat)
    (st : Matrix R × Matrix R) (hs : 1 ≤ L.stlide) (hU : U0n ≤ st.1.n)
    (hldu : ∀ x', x' < L.prev_ldu → x' / L.stlide < L.ldu) :
    (L.apply_map Ui U0n st).1.m = st.1.m ∧ (L.apply_map Ui U0n st).1.n = st.1.n ∧
    ∀ j x y, j < U0n → x < L.prev_ldu → y < L.prev_num_unit / L.prev_ldu →
      L.stlide ∣ x → L.stlide ∣ y →
      (L.apply_map Ui U0n st).1.get (x / L.stlide + (y / L.stlide) * L.ldu) j
        = (L.window Ui j y x).1 := by
  rw [apply_map_eq L Ui U0n st hs]
  have hpos : 0 < L.stlide := hs
  obtain ⟨h1, h2, h3⟩ := scatter3_spec U0n
    ((L.prev_num_unit / L.prev_ldu + L.stlide - 1) / L.stlide)
    ((L.prev_ldu + L.stlide - 1) / L.stlide)
    (fun ty tx => tx * L.stlide / L.stlide + (ty * L.stlide / L.stlide) * L.ldu)
    (fun j ty tx => (L.window Ui j (ty * L.stlide) (tx * L.stlide)).1) st.1 hU
    (fun a b a' b' _ hb _ hb' e => by
      simp only [Nat.mul_div_cancel _ hpos] at e
      have hb1 : b < L.ldu := by
        have := hldu (b * L.stlide) ((stride_count _ _ b hs).mp hb)
        rwa [Nat.mul_div_cancel _ hpos] at this
      have hb2 : b' < L.ldu := by
        have := hldu (b' * L.stlide) ((stride_count _ _ b' hs).mp hb')
        rwa [Nat.mul_div_cancel _ hpos] at this
      obtain ⟨e1, e2⟩ := colmajor_inj hb1 hb2 e
      exact ⟨e2, e1⟩)
  refine ⟨h1, h2, fun j x y hj hx hy hdx hdy => ?_⟩
  have ex : x / L.stlide * L.stlide = x := Nat.div_mul_cancel hdx
  have ey : y / L.stlide * L.stlide = y := Nat.div_mul_cancel hdy
  have h := h3 j (y / L.stlide) (x / L.stlide) hj
    ((stride_count _ _ _ hs).mpr (by rw [ey]; exact hy))
    ((stride_count _ _ _ hs).mpr (by rw [ex]; exact hx))
  simp only [ex, ey] at h
  exact h

/-- Element `i` of the vector `Pooling::apply` returns: the activation loop applied to the
matrix the loops over map `i` write into a fresh `Mat(num_unit, U[0].n)`. -/
theorem apply_getD [LinearOrderedField R] (L : Pooling R) (gS : Nat → R) (g : Nat → Nat → R)
    (U : List (Matrix R)) (uf : Bool) (hs : 1 ≤ L.stlide) (i : Nat) (hi : i < L.num_map) :
    (L.apply gS g U uf).1.getD i Matrix.empty
      = L.apply_func uf (L.apply_map (U.getD i Matrix.empty) (U.getD 0 Matrix.empty).n
          (Matrix.alloc (g i) L.num_unit (U.getD 0 Matrix.empty).n, Matrix.empty)).1 := by
  have hst : (forLoop L.num_map (fun i (st : List (Matrix R) × List (Matrix R)) =>
      ((st.1.set i (L.apply_map (U.getD i Matrix.empty) (U.getD 0 Matrix.empty).n
          (Matrix.alloc (g i) L.num_unit (U.getD 0 Matrix.empty).n,
            st.2.getD i Matrix.empty)).1,
        st.2.set i (L.apply_map (U.getD i Matrix.empty) (U.getD 0 Matrix.empty).n
          (Matrix.alloc (g i) L.num_unit (U.getD 0 Matrix.empty).n,
            st.2.getD i Matrix.empty)).2) : List (Matrix R) × List (Matrix R)))
      (List.replicate L.num_map Matrix.empty,
        List.replicate L.num_map
          (Matrix.alloc gS L.num_unit (U.getD 0 Matrix.empty).n))).1
      = forLoop L.num_map (fun i l => l.set i
          (L.apply_map (U.getD i Matrix.empty) (U.getD 0 Matrix.empty).n
            (Matrix.alloc (g i) L.num_unit (U.getD 0 Matrix.empty).n, Matrix.empty)).1)
          (List.replicate L.num_map Matrix.empty) := by
    refine forLoop_fst L.num_map _ _ (fun k s => ?_) _
    show s.1.set k _ = s.1.set k _
    rw [apply_map_eq L _ _ _ hs, apply_map_eq L _ _ _ hs]
  obtain ⟨l1, l2⟩ := forLoop_list_set L.num_map (fun i =>
    (L.apply_map (U.getD i Matrix.empty) (U.getD 0 Matrix.empty).n
      (Matrix.alloc (g i) L.num_unit (U.getD 0 Matrix.empty).n, Matrix.empty)).1)
    (List.replicate L.num_map Matrix.empty) Matrix.empty
  rw [List.length_replicate] at l1
  obtain ⟨_, _, u3⟩ := forLoop_list_update L.num_map (fun _ a => L.apply_func uf a)
    (forLoop L.num_map (fun i l => l.set i
      (L.apply_map (U.getD i Matrix.empty) (U.getD 0 Matrix.empty).n
        (Matrix.alloc (g i) L.num_unit (U.getD 0 Matrix.empty).n, Matrix.empty)).1)
      (List.replicate L.num_map Matrix.empty)) Matrix.empty
  have h := u3 i hi (by rw [l1]; exact hi)
  rw [l2 i hi (by rw [List.length_replicate]; exact hi)] at h
  unfold Pooling.apply
  simp only
  rw [hst]
  exact h

/-- C29 (counterexample): for the layer `exPoolNarrow` (`2 × 2` units, window `1 × 1`, stride
`1`, `ldu = 1`) and the input units `10, 20, 30, 40`, the window at origin `(x, y) = (1, 0)` is
the single unit `x' = 1, y' = 0` with value `20`, and the cell `x/stlide + (y/stlide)*ldu = 1` of
the result holds `30`, the value written later for the origin `(0, 1)`.  For the layer
`exPoolShort` (`4 × 1` units, window `1 × 1`, stride `2`, `ldu = 2`, `num_unit = 1`) the cell of
the origin `(2, 0)` is row `1` of the one-row `ret[0]`: the run with assertions aborts.  For the
layer `exPoolTwo` and an input whose second matrix has one column where the first has two, the
run with assertions aborts at the read `U[1](0, 1)`. -/
theorem pooling_cell_collision :
    ((1 ≤ exPoolNarrow.m ∧ 1 ≤ exPoolNarrow.n ∧ 1 ≤ exPoolNarrow.stlide) ∧
      (1 < exPoolNarrow.prev_ldu ∧ 0 < exPoolNarrow.prev_num_unit / exPoolNarrow.prev_ldu) ∧
      ((exPoolNarrow.apply (fun _ => 7) (fun _ _ => 8) exPoolNarrowU false).1.getD 0
          Matrix.empty).get
          (1 / exPoolNarrow.stlide + (0 / exPoolNarrow.stlide) * exPoolNarrow.ldu) 0 = 30 ∧
      ∀ x' y', 1 ≤ x' → x' < min (1 + exPoolNarrow.m) exPoolNarrow.prev_ldu → 0 ≤ y' →
        y' < min (0 + exPoolNarrow.n) (exPoolNarrow.prev_num_unit / exPoolNarrow.prev_ldu) →
        (exPoolNarrowU.getD 0 Matrix.empty).get (x' + exPoolNarrow.prev_ldu * y') 0 = 20) ∧
    ((1 ≤ exPoolShort.m ∧ 1 ≤ exPoolShort.n ∧ 1 ≤ exPoolShort.stlide) ∧
      (2 < exPoolShort.prev_ldu ∧ 0 < exPoolShort.prev_num_unit / exPoolShort.prev_ldu ∧
        exPoolShort.stlide ∣ 2) ∧
      exPoolShort.num_unit ≤ 2 / exPoolShort.stlide + (0 / exPoolShort.stlide) * exPoolShort.ldu ∧
      (exPoolShort.apply_debug (fun _ => 7) (fun _ _ => 8) exPoolShortU false).isSome = false) ∧
    ((1 ≤ exPoolTwo.m ∧ 1 ≤ exPoolTwo.n ∧ 1 ≤ exPoolTwo.stlide) ∧
      (exRaggedU.getD 1 Matrix.empty).n ≤ 1 ∧ 1 < (exRaggedU.getD 0 Matrix.empty).n ∧
      (exPoolTwo.apply_debug (fun _ => 7) (fun _ _ => 8) exRaggedU false).isSome = false) := by
  refine ⟨⟨by decide, by decide, ?_, ?_⟩, by decide!, by decide!⟩
  · simp [Pooling.apply, Pooling.apply_map, Pooling.apply_func, Pooling.window, exPoolNarrow,
      exPoolNarrowU, forStep, forLoop, Matrix.alloc, Matrix.ofList, Matrix.set, Matrix.get,
      Matrix.empty, Function.update]
  · intro x' y' hx1 hx2 _ hy2
    have hx3 : x' < 2 := (lt_min_iff.mp hx2).1
    have hy3 : y' < 1 := (lt_min_iff.mp hy2).1
    have ex : x' = 1 := by omega
    have ey : y' = 0 := by omega
    subst ex ey
    simp [exPoolNarrowU, exPoolNarrow, Matrix.ofList, Matrix.get]

/-- The value `apply` of the embedding without assertions leaves in the cell of a window origin:
when `x / stlide < ldu` for every `x < prev_ldu` and the cell is one of the `num_unit` rows, it
is the maximum of the window (a value of the window that no value of the window exceeds), and
with `use_func` the activation function applied to it. -/
theorem apply_max_unchecked [LinearOrderedField R] (L : Pooling R) (gS : Nat → R)
    (g : Nat → Nat → R) (U : List (Matrix R)) (i j x y : Nat) (hm : 1 ≤ L.m) (hn : 1 ≤ L.n)
    (hs : 1 ≤ L.stlide) (hldu : ∀ x', x' < L.prev_ldu → x' / L.stlide < L.ldu)
    (hi : i < L.num_map) (hj : j < (U.getD 0 Matrix.empty).n) (hx : x < L.prev_ldu)
    (hy : y < L.prev_num_unit / L.prev_ldu) (hdx : L.stlide ∣ x) (hdy : L.stlide ∣ y)
    (hcell : x / L.stlide + (y / L.stlide) * L.ldu < L.num_unit) :
    (∀ x' y', x ≤ x' → x' < min (x + L.m) L.prev_ldu → y ≤ y' →
      y' < min (y + L.n) (L.prev_num_unit / L.prev_ldu) →
      (U.getD i Matrix.empty).get (x' + L.prev_ldu * y') j
        ≤ ((L.apply gS g U false).1.getD i Matrix.empty).get
            (x / L.stlide + (y / L.stlide) * L.ldu) j) ∧
    (∃ x' y', (x ≤ x' ∧ x' < min (x + L.m) L.prev_ldu) ∧
      (y ≤ y' ∧ y' < min (y + L.n) (L.prev_num_unit / L.prev_ldu)) ∧
      ((L.apply gS g U false).1.getD i Matrix.empty).get
          (x / L.stlide + (y / L.stlide) * L.ldu) j
        = (U.getD i Matrix.empty).get (x' + L.prev_ldu * y') j) ∧
    ((L.apply gS g U true).1.getD i Matrix.empty).get
        (x / L.stlide + (y / L.stlide) * L.ldu) j
      = L.activate_func (((L.apply gS g U false).1.getD i Matrix.empty).get
          (x / L.stlide + (y / L.stlide) * L.ldu) j) := by
  obtain ⟨a1, a2, a3⟩ := apply_map_ret L (U.getD i Matrix.empty) (U.getD 0 Matrix.empty).n
    (Matrix.alloc (g i) L.num_unit (U.getD 0 Matrix.empty).n, Matrix.empty) hs (Nat.le_refl _)
    hldu
  have hval := a3 j x y hj hx hy hdx hdy
  have hcell' : x / L.stlide + (y / L.stlide) * L.ldu
      < (L.apply_map (U.getD i Matrix.empty) (U.getD 0 Matrix.empty).n
          (Matrix.alloc (g i) L.num_unit (U.getD 0 Matrix.empty).n, Matrix.empty)).1.m := by
    rw [a1]
    exact hcell
  have hj' : j < (L.apply_map (U.getD i Matrix.empty) (U.getD 0 Matrix.empty).n
      (Matrix.alloc (g i) L.num_unit (U.getD 0 Matrix.empty).n, Matrix.empty)).1.n := by
    rw [a2]
    exact hj
  have hf : ((L.apply gS g U false).1.getD i Matrix.empty).get
      (x / L.stlide + (y / L.stlide) * L.ldu) j = (L.window (U.getD i Matrix.empty) j y x).1 := by
    rw [apply_getD L gS g U false hs i hi,
      (apply_func_spec L false _).2.2 _ _ hcell' hj', hval]
    rfl
  have ht : ((L.apply gS g U true).1.getD i Matrix.empty).get
      (x / L.stlide + (y / L.stlide) * L.ldu) j
      = L.activate_func (L.window (U.getD i Matrix.empty) j y x).1 := by
    rw [apply_getD L gS g U true hs i hi,
      (apply_func_spec L true _).2.2 _ _ hcell' hj', hval]
    rfl
  obtain ⟨w1, w2⟩ := window_val L (U.getD i Matrix.empty) j y x hm hn hx hy
  rw [ht, hf]
  exact ⟨w1, w2, rfl⟩

/-- C30 (evaluation at the failing input): for the layer `exPoolRow` (`2 × 1` units, window
`1 × 1`, stride `1`, `ldu = 2`) and the input units `3, 5`, the window at origin `(x, y) = (1, 0)`
is the single unit at flat position `1`, `apply` returns its value `5` for the cell, and the
index recorded in `S` for the cell is `0`, the initial value of `idx`: a position outside the
window, where the input is `3`. -/
theorem pooling_index_zero :
    ((exPoolRow.apply (fun _ => 7) (fun _ _ => 8) exPoolRowU false).2.S.getD 0
        Matrix.empty).get (1 / exPoolRow.stlide + (0 / exPoolRow.stlide) * exPoolRow.ldu) 0
      = 0 ∧
    ((exPoolRow.apply (fun _ => 7) (fun _ _ => 8) exPoolRowU false).1.getD 0
        Matrix.empty).get (1 / exPoolRow.stlide + (0 / exPoolRow.stlide) * exPoolRow.ldu) 0
      = 5 ∧
    (exPoolRowU.getD 0 Matrix.empty).get 0 0 = 3 ∧
    ∀ x' y', 1 ≤ x' → x' < min (1 + exPoolRow.m) exPoolRow.prev_ldu → 0 ≤ y' →
      y' < min (0 + exPoolRow.n) (exPoolRow.prev_num_unit / exPoolRow.prev_ldu) →
      x' + exPoolRow.prev_ldu * y' = 1 ∧
      (exPoolRowU.getD 0 Matrix.empty).get (x' + exPoolRow.prev_ldu * y') 0 = 5 := by
  refine ⟨?_, ?_, ?_, ?_⟩
  · simp [Pooling.apply, Pooling.apply_map, Pooling.apply_func, Pooling.window, exPoolRow,
      exPoolRowU, forStep, forLoop, Matrix.alloc, Matrix.ofList, Matrix.set, Matrix.get,
      Matrix.empty, Function.update]
  · simp [Pooling.apply, Pooling.apply_map, Pooling.apply_func, Pooling.window, exPoolRow,
      exPoolRowU, forStep, forLoop, Matrix.alloc, Matrix.ofList, Matrix.set, Matrix.get,
      Matrix.empty, Function.update]
  · simp [exPoolRowU, Matrix.ofList, Matrix.get]
  · intro x' y' hx1 hx2 _ hy2
    have hx3 : x' < 2 := (lt_min_iff.mp hx2).2
    have hy3 : y' < 1 := (lt_min_iff.mp hy2).1
    have ex : x' = 1 := by omega
    have ey : y' = 0 := by omega
    subst ex ey
    refine ⟨rfl, ?_⟩
    simp [exPoolRowU, exPoolRow, Matrix.ofList, Matrix.get]

end PoolingSpec

/-! ## Balance of the worker partition; tensors of a matrix whose rows do not divide -/

section Balance

variable {R : Type}

/-- C35: for every unit count `U` and worker count `P ≥ 1`, every slice size
`(r+1)*U/P - r*U/P` is `U/P` or `U/P + 1`, two slice sizes differ by at most one, and exactly
`U mod P` of the ranks `r < P` hold `U/P + 1` units (the other `P - U mod P` hold `U/P`).  These
are the sizes `init` and `calc_delta` compute. -/
theorem partition_balanced (U P : Nat) (hP : 1 ≤ P) :
    (∀ r, partition_size r U P = U / P ∨ partition_size r U P = U / P + 1) ∧
    (∀ r s, partition_size r U P ≤ partition_size s U P + 1) ∧
    (Finset.filter (fun r => partition_size r U P = U / P + 1) (Finset.range P)).card
      = U % P ∧
    (Finset.filter (fun r => partition_size r U P = U / P) (Finset.range P)).card
      = P - U % P ∧
    (∀ (L : BatchNormalize R) (r : Nat), L.num_unit = U →
      (L.init_slice r P).2 = partition_size r U P) ∧
    (∀ (L : BatchNormalize R) (X : Matrix R) (r : Nat), L.prev_num_unit = U → r < P → 0 < X.n →
      (L.calc_delta_slice r P X).2.1 = partition_size r U P) := by
  have hsz : ∀ r, partition_size r U P = U / P ∨ partition_size r U P = U / P + 1 := by
    intro r
    have h1 := partition_size_split r U P hP
    have h2 := partition_size_rem_le_one r U P hP
    omega
  have hbig : (Finset.filter (fun r => partition_size r U P = U / P + 1)
      (Finset.range P)).card = U % P := by
    rw [Finset.card_filter]
    have h : ∀ r ∈ Finset.range P,
        (if partition_size r U P = U / P + 1 then 1 else 0) = partition_size r (U % P) P := by
      intro r _
      have h1 := partition_size_split r U P hP
      have h2 := partition_size_rem_le_one r U P hP
      split_ifs with hc <;> omega
    rw [Finset.sum_congr rfl h, sum_partition_size]
    exact partition_offset_last (U % P) P hP
  refine ⟨hsz, fun r s => ?_, hbig, ?_, fun L r hL => ?_, fun L X r hL hr hX => ?_⟩
  · rcases hsz r with h1 | h1 <;> rcases hsz s with h2 | h2 <;> omega
  · have hsplit := Finset.filter_card_add_filter_neg_card_eq_card
      (s := Finset.range P) (fun r => partition_size r U P = U / P + 1)
    rw [hbig, Finset.card_range] at hsplit
    have hcongr : Finset.filter (fun r => ¬ partition_size r U P = U / P + 1) (Finset.range P)
        = Finset.filter (fun r => partition_size r U P = U / P) (Finset.range P) := by
      refine Finset.filter_congr (fun r _ => ?_)
      rcases hsz r with h1 | h1 <;> omega
    rw [hcongr] at hsplit
    have := Nat.mod_lt U hP
    omega
  · subst hL
    rfl
  · subst hL
    exact (calc_delta_slice_eq L X r P hr hX).2

/-- The stacked tensors of a matrix: `k * (M.m / k)` rows, which are the first rows of `M`. -/
theorem to_matrix_to_tensor_rows [Zero R] (g : Nat → R) (g' : Nat → Nat → R) (M : Matrix R)
    (k : Nat) (hk : 1 ≤ k) :
    (Matrix.to_matrix g (Matrix.to_tensor g' M k)).m = k * (M.m / k) ∧
    (Matrix.to_matrix g (Matrix.to_tensor g' M k)).n = M.n ∧
    ∀ r c, r < k * (M.m / k) → c < M.n →
      (Matrix.to_matrix g (Matrix.to_tensor g' M k)).get r c = M.get r c := by
  obtain ⟨t1, t2⟩ := to_tensor_spec g' M k
  have hs : ∀ i, i < (Matrix.to_tensor g' M k).length →
      ((Matrix.to_tensor g' M k).getD i Matrix.empty).m = M.m / k ∧
      ((Matrix.to_tensor g' M k).getD i Matrix.empty).n = M.n := by
    intro i hi
    rw [t1] at hi
    rw [t2 i hi]
    exact ⟨(sub_get _ _ _ _ _ _).1, (sub_get _ _ _ _ _ _).2.1⟩
  obtain ⟨m1, m2, m3⟩ := to_matrix_spec g (Matrix.to_tensor g' M k) (M.m / k) M.n
    (by rw [t1]; exact hk) hs
  refine ⟨by rw [m1, t1], m2, fun r c hr hc => ?_⟩
  have hpos : 0 < M.m / k := by
    rcases Nat.eq_zero_or_pos (M.m / k) with h | h
    · rw [h, Nat.mul_zero] at hr
      exact absurd hr (Nat.not_lt_zero r)
    · exact h
  have hi : r / (M.m / k) < k := by
    apply Nat.div_lt_of_lt_mul
    rw [Nat.mul_comm]
    exact hr
  have hj : r % (M.m / k) < M.m / k := Nat.mod_lt r hpos
  have hr' : r / (M.m / k) * (M.m / k) + r % (M.m / k) = r := Nat.div_add_mod' r (M.m / k)
  have h := m3 (r / (M.m / k)) (r % (M.m / k)) c (by rw [t1]; exact hi) hj hc
  rw [hr', t2 _ hi, (sub_get _ _ _ _ _ _).2.2 _ c hj hc, hr', Nat.zero_add] at h
  exact h

/-- C36: for every matrix `M` and every `k ≥ 1`, `to_tensor(M, k)` is a vector of exactly `k`
matrices, each of shape `(M.m/k, M.n)`, the `i`-th holding the rows `i*(M.m/k)`, …,
`(i+1)*(M.m/k) - 1` of `M`; these rows all lie below `k*(M.m/k) = M.m - M.m mod k`, so the last
`M.m mod k` rows of `M` are in no element, and `to_matrix(to_tensor(M, k))` has
`k*(M.m/k)` rows and `M.n` columns and equals the first `k*(M.m/k)` rows of `M`. -/
theorem to_tensor_rows [Zero R] (g : Nat → R) (g' : Nat → Nat → R) (M : Matrix R) (k : Nat)
    (hk : 1 ≤ k) :
    (Matrix.to_tensor g' M k).length = k ∧
    (∀ i, i < k →
      ((Matrix.to_tensor g' M k).getD i Matrix.empty).m = M.m / k ∧
      ((Matrix.to_tensor g' M k).getD i Matrix.empty).n = M.n ∧
      ∀ j c, j < M.m / k → c < M.n →
        ((Matrix.to_tensor g' M k).getD i Matrix.empty).get j c
            = M.get (i * (M.m / k) + j) c ∧
        i * (M.m / k) + j < (i + 1) * (M.m / k) ∧
        i * (M.m / k) + j < M.m - M.m % k) ∧
    k * (M.m / k) = M.m - M.m % k ∧
    ((Matrix.to_matrix g (Matrix.to_tensor g' M k)).m = k * (M.m / k) ∧
      (Matrix.to_matrix g (Matrix.to_tensor g' M k)).n = M.n ∧
      ∀ r c, r < k * (M.m / k) → c < M.n →
        (Matrix.to_matrix g (Matrix.to_tensor g' M k)).get r c = M.get r c) := by
  obtain ⟨t1, t2⟩ := to_tensor_spec g' M k
  have hrows : k * (M.m / k) = M.m - M.m % k := by
    have := Nat.div_add_mod M.m k
    omega
  refine ⟨t1, fun i hi => ?_, hrows, to_matrix_to_tensor_rows g g' M k hk⟩
  rw [t2 i hi]
  obtain ⟨s1, s2, s3⟩ := sub_get (g' i) M (i * (M.m / k)) 0 (M.m / k) M.n
  refine ⟨s1, s2, fun j c hj hc => ⟨?_, ?_, ?_⟩⟩
  · rw [s3 j c hj hc, Nat.zero_add]
  · rw [Nat.succ_mul]
    omega
  · rw [← hrows]
    calc i * (M.m / k) + j < i * (M.m / k) + M.m / k := by omega
      _ = (i + 1) * (M.m / k) := (Nat.succ_mul i (M.m / k)).symm
      _ ≤ k * (M.m / k) := Nat.mul_le_mul_right _ hi

end Balance

/-! ## BatchNormalize: batch sums of the output and of the backward pass -/

section BatchSums

variable {R : Type} [Field R] [CharZero R]

open BatchNormalize

theorem sum_sub_rowMean_zero (N : Nat) (hN : 0 < N) (a : Nat → R) :
    ∑ l ∈ Finset.range N, (a l - rowMean N a) = 0 := by
  have hN' : (N : R) ≠ 0 := Nat.cast_ne_zero.mpr (Nat.pos_iff_ne_zero.mp hN)
  rw [Finset.sum_sub_distrib, Finset.sum_const, Finset.card_range, nsmul_eq_mul]
  unfold rowMean
  field_simp

/-- C33: in exact arithmetic (a field of characteristic zero), for every input `U` with batch
size `U.n > 0`, every `W` and every channel `i` and unit `j`, the batch mean of the output of
`apply` without activation is the shift:
`(1/N) * Σ_k apply(U, false)(i*num_unit + j, k) = b[0](0,i)`, whatever `std::sqrt` returns. -/
theorem apply_output_mean (ops : RealOps R) (L : BatchNormalize R) (gs gr : Nat → R)
    (U : Matrix R) (hL : L.WF) (hN : 0 < U.n) (i j : Nat) (hi : i < L.num_map)
    (hj : j < L.num_unit) :
    1 / (U.n : R) * ∑ k ∈ Finset.range U.n,
        (L.apply ops gs gr U false).1.get (i * L.num_unit + j) k
      = (vec0 L.b).get 0 i := by
  have hN' : (U.n : R) ≠ 0 := Nat.cast_ne_zero.mpr (Nat.pos_iff_ne_zero.mp hN)
  rw [Finset.sum_congr rfl (fun k hk =>
    apply_out_row ops L gs gr U hL i j k hi hj (Finset.mem_range.mp hk))]
  unfold rowOut
  rw [Finset.sum_add_distrib, Finset.sum_const, Finset.card_range, nsmul_eq_mul,
    ← Finset.sum_div, ← Finset.mul_sum,
    sum_sub_rowMean_zero U.n hN (fun l => U.get (i * L.num_unit + j) l), mul_zero, zero_div,
    zero_add]
  field_simp

/-- C34: in exact arithmetic (a field of characteristic zero), when the activation of the
previous layer is the identity (derivative `1`) and `calc_delta` runs on the state `apply` left
for the same input `x` with batch size `x.n > 0`, the result sums to zero over the batch in every
row: `Σ_k nx_delta(i*num_unit + j, k) = 0` for every channel `i`, unit `j` and every `delta`. -/
theorem calc_delta_batch_sum_zero (ops : RealOps R) (L : BatchNormalize R) (gs gr g : Nat → R)
    (x delta : Matrix R) (hL : L.WF) (hN : 0 < x.n) (hx : x.m = L.num_map * L.num_unit)
    (hd : delta.n = x.n) (hval : ∀ U, L.prev_func U false = U)
    (hdiff : ∀ U r k, r < U.m → k < U.n → (L.prev_func U true).get r k = 1) (i j : Nat)
    (hi : i < L.num_map) (hj : j < L.num_unit) :
    ∑ k ∈ Finset.range x.n,
      ((L.apply ops gs gr x false).2.calc_delta ops g x delta).get (i * L.num_unit + j) k
      = 0 := by
  have hN' : (x.n : R) ≠ 0 := Nat.cast_ne_zero.mpr (Nat.pos_iff_ne_zero.mp hN)
  have hrow : i * L.num_unit + j < x.m := by
    rw [hx]
    exact idx_lt hi hj
  have hmean := (apply_stats_row ops L gs gr x hL i j hi hj).1
  have hent : ∀ k, k < x.n →
      ((L.apply ops gs gr x false).2.calc_delta ops g x delta).get (i * L.num_unit + j) k
        = (vec0 L.W).get 0 i
              / ops.sqrt ((L.apply ops gs gr x false).2.var.get i j + EPS)
              * delta.get (i * L.num_unit + j) k
          - (vec0 L.W).get 0 i
              / ops.sqrt ((L.apply ops gs gr x false).2.var.get i j + EPS)
              * (1 / (x.n : R) * ∑ l ∈ Finset.range x.n, delta.get (i * L.num_unit + j) l)
          - (vec0 L.W).get 0 i
              / ops.pow ((L.apply ops gs gr x false).2.var.get i j + EPS) 1.5
              * (x.get (i * L.num_unit + j) k
                  - rowMean x.n (fun l => x.get (i * L.num_unit + j) l))
              * (1 / (x.n : R) * ∑ l ∈ Finset.range x.n,
                  delta.get (i * L.num_unit + j) l
                    * (x.get (i * L.num_unit + j) l
                        - rowMean x.n (fun l => x.get (i * L.num_unit + j) l))) := by
    intro k hk
    have h := calc_delta_entry ops (L.apply ops gs gr x false).2 g x delta
      (apply_WF ops L gs gr x false hL) hd i j k hi hj hk
    have e1 : (L.apply ops gs gr x false).2.prev_func = L.prev_func := rfl
    have e2 : (L.apply ops gs gr x false).2.num_unit = L.num_unit := rfl
    have e3 : (L.apply ops gs gr x false).2.W = L.W := rfl
    rw [e1, e2, e3, hval, hdiff x _ k hrow hk, hmean] at h
    rw [h]
    simp only [mul_one]
  rw [Finset.sum_congr rfl (fun k hk => hent k (Finset.mem_range.mp hk))]
  rw [Finset.sum_sub_distrib, Finset.sum_sub_distrib, Finset.sum_const, Finset.card_range,
    nsmul_eq_mul, ← Finset.mul_sum, ← Finset.sum_mul, ← Finset.mul_sum,
    sum_sub_rowMean_zero x.n hN (fun l => x.get (i * L.num_unit + j) l)]
  have hc : (x.n : R) * (1 / (x.n : R)) = 1 := by field_simp
  linear_combination
    (-((vec0 L.W).get 0 i / ops.sqrt ((L.apply ops gs gr x false).2.var.get i j + EPS)
      * ∑ l ∈ Finset.range x.n, delta.get (i * L.num_unit + j) l)) * hc

end BatchSums

/-! ## The reduction loop of the GPU `calc_gradient` -/

section Reduction

theorem reduction_loop_zero (fuel w : Nat) : reduction_loop fuel w 0 = some [] := by
  cases fuel <;> simp [reduction_loop]

theorem reduction_loop_fuel (w : Nat) (hw : 2 ≤ w) :
    ∀ fuel i, i ≤ fuel → ∃ l, reduction_loop fuel w i = some l ∧
      l.length = (if i = 0 then 0 else Nat.log w i + 1) ∧
      (∀ t, t < l.length → l.getD t 0 = i / w ^ t) := by
  intro fuel
  induction fuel with
  | zero =>
    intro i hi
    have h0 : i = 0 := by omega
    subst h0
    exact ⟨[], by simp [reduction_loop], by simp, by simp⟩
  | succ f ih =>
    intro i hi
    by_cases h0 : i = 0
    · subst h0
      exact ⟨[], by simp [reduction_loop], by simp, by simp⟩
    · have hpos : 0 < i := Nat.pos_of_ne_zero h0
      have hdiv : i / w < i := Nat.div_lt_self hpos (by omega)
      obtain ⟨l, hl, hlen, hval⟩ := ih (i / w) (by omega)
      refine ⟨i :: l, by simp [reduction_loop, hpos, hl], ?_, ?_⟩
      · rw [if_neg h0, List.length_cons, hlen]
        by_cases hlt : i < w
        · rw [Nat.div_eq_of_lt hlt, if_pos rfl, Nat.log_of_lt hlt]
        · have hle : w ≤ i := by omega
          have hq : i / w ≠ 0 := by
            have := Nat.div_pos hle (by omega : 0 < w)
            omega
          rw [if_neg hq, Nat.log_of_one_lt_of_le (by omega) hle]
      · intro t ht
        cases t with
        | zero => simp
        | succ t =>
          rw [List.length_cons] at ht
          have := hval t (by omega)
          rw [List.getD_cons_succ, this, Nat.div_div_eq_div_mul, pow_succ, Nat.mul_comm]

theorem reduction_loop_stuck (fuel i : Nat) (hi : 0 < i) : reduction_loop fuel 1 i = none := by
  induction fuel with
  | zero => simp [reduction_loop, hi]
  | succ f ih => simp [reduction_loop, hi, ih]

/-- C39: the reduction loop of the GPU `calc_gradient`, started at `start` (the method starts
it at `my_size*U.n`) and dividing `i` by `w` while `i > 0`, ends by its condition for every
`w ≥ 2` and every `start`: any fuel of at least `start` iterations is enough and the result does
not depend on it.  It launches no kernel for `start = 0` and `⌊log_w start⌋ + 1` kernels for
`start ≥ 1`, the `t`-th one with the positive work size `start / w^t`. -/
theorem reduction_loop_terminates (w start : Nat) (hw : 2 ≤ w) :
    ∃ l, (∀ fuel, start ≤ fuel → reduction_loop fuel w start = some l) ∧
      (start = 0 → l.length = 0) ∧
      (1 ≤ start → l.length = Nat.log w start + 1) ∧
      (∀ t, t < l.length → l.getD t 0 = start / w ^ t ∧ 0 < l.getD t 0) ∧
      (∀ {R : Type} (L : BatchNormalize R) (n : Nat),
        L.reduction_start n = L.prev_num_unit * n) := by
  obtain ⟨l, hl, hlen, hval⟩ := reduction_loop_fuel w hw _ _ (le_refl start)
  refine ⟨l, ?_, ?_, ?_, ?_, fun _ _ => rfl⟩
  · intro fuel hf
    obtain ⟨l2, hl2, hlen2, hval2⟩ := reduction_loop_fuel w hw fuel _ hf
    rw [hl2]
    congr 1
    apply List.ext_getElem (by rw [hlen, hlen2])
    intro t h1 h2
    have a := hval t h2
    have b := hval2 t h1
    rw [List.getD_eq_getElem _ _ h2] at a
    rw [List.getD_eq_getElem _ _ h1] at b
    rw [a, b]
  · intro h; rw [hlen, if_pos h]
  · intro h; rw [hlen, if_neg (by omega)]
  · intro t ht
    have hv := hval t ht
    refine ⟨hv, ?_⟩
    rw [hv]
    by_cases h0 : start = 0
    · rw [hlen, if_pos h0] at ht; omega
    · rw [hlen, if_neg h0] at ht
      apply Nat.div_pos _ (by positivity)
      apply Nat.pow_le_of_le_log h0
      omega

end Reduction

/-! ## LU decomposition -/

section Decomposition

/-- C37: at the 3×3 matrix `exLU` with rows `(0,2,0)`, `(0,0,1)`, `(2,0,0)`, `LU_decomp` divides
only by `U(0,0) = 2` and `U(1,1) = 2`, leaves `L` the identity and `U = diag(2,2,1)`, but the
matrix left in `P` has the rows `(0,0,1)`, `(0,0,1)`, `(1,1,0)`: row 2 and column 2 hold two
ones, and `(Pᵀ·A)(1,0) = 2` while `(L·U)(1,0) = 0`. -/
theorem LU_decomp_two_swaps :
    (∀ i < 3, ∀ j < 3, (Matrix.LU_decomp (fun _ => 7) (fun _ => 7) (fun _ => 7) exLU).1.get i j
      = if i = j then 1 else 0) ∧
    (∀ i < 3, ∀ j < 3, (Matrix.LU_decomp (fun _ => 7) (fun _ => 7) (fun _ => 7) exLU).2.1.get i j
      = if i = j then (if i = 2 then 1 else 2) else 0) ∧
    (∀ i < 3, ∀ j < 3, (Matrix.LU_decomp (fun _ => 7) (fun _ => 7) (fun _ => 7) exLU).2.2.get i j
      = (Matrix.ofList 3 3 [0, 0, 1, 0, 0, 1, 1, 1, 0]).get i j) ∧
    ∑ k ∈ Finset.range 3,
      (Matrix.LU_decomp (fun _ => 7) (fun _ => 7) (fun _ => 7) exLU).2.2.get k 1
        * exLU.get k 0 = 2 ∧
    ∑ k ∈ Finset.range 3,
      (Matrix.LU_decomp (fun _ => 7) (fun _ => 7) (fun _ => 7) exLU).1.get 1 k
        * (Matrix.LU_decomp (fun _ => 7) (fun _ => 7) (fun _ => 7) exLU).2.1.get k 0 = 0 := by
  decide!

end Decomposition

/-! ## Pooling: backward pass -/

section PoolingBackward

/-- C31: for the layer `exPoolOverlap` (3×1 grid, window 2×1, stride 1) and the input column
`(1, 5, 2)`, the windows at the origins 0 and 1 both have their maximum at position 1, and no
window has its maximum at position 0.  With `delta = (10, 20, 30)` and derivative 1,
`calc_delta` leaves `20 = delta(1)` at position 1, not `delta(0) + delta(1) = 30`, and leaves
at position 0 whatever the allocation of `nx_delta[0]` found (here 7, or 8), not 0. -/
theorem calc_delta_overlapping_windows :
    (exPoolOverlap.window (exPoolOverlapU.getD 0 Matrix.empty) 0 0 0).1
      = (exPoolOverlapU.getD 0 Matrix.empty).get 1 0 ∧
    (exPoolOverlap.window (exPoolOverlapU.getD 0 Matrix.empty) 0 0 1).1
      = (exPoolOverlapU.getD 0 Matrix.empty).get 1 0 ∧
    (exPoolOverlap.window (exPoolOverlapU.getD 0 Matrix.empty) 0 0 2).1
      = (exPoolOverlapU.getD 0 Matrix.empty).get 2 0 ∧
    (∀ x < 3, (exPoolOverlapU.getD 0 Matrix.empty).get 0 0
      < (exPoolOverlap.window (exPoolOverlapU.getD 0 Matrix.empty) 0 0 x).1) ∧
    ((exPoolOverlap.calc_delta (fun _ => 1) (fun _ _ => 7) exPoolOverlapU
      exPoolOverlapDelta).getD 0 Matrix.empty).get 1 0 = 20 ∧
    (exPoolOverlapDelta.getD 0 Matrix.empty).get 0 0
      + (exPoolOverlapDelta.getD 0 Matrix.empty).get 1 0 = 30 ∧
    ((exPoolOverlap.calc_delta (fun _ => 1) (fun _ _ => 7) exPoolOverlapU
      exPoolOverlapDelta).getD 0 Matrix.empty).get 0 0 = 7 ∧
    ((exPoolOverlap.calc_delta (fun _ => 1) (fun _ _ => 8) exPoolOverlapU
      exPoolOverlapDelta).getD 0 Matrix.empty).get 0 0 = 8 := by
  decide!

end PoolingBackward

/-! ## Forward and back substitution -/

section Substitution

variable {R : Type}

theorem forDown_inv {σ : Type} (Inv : Nat → σ → Prop) (body : Nat → σ → σ) :
    ∀ (n : Nat) (s : σ), Inv n s →
      (∀ k, k < n → ∀ x, Inv (k + 1) x → Inv k (body k x)) → Inv 0 (forDown n body s) := by
  intro n
  induction n with
  | zero =>
    intro s h _
    exact h
  | succ k ih =>
    intro s h hstep
    exact ih (body k s) (hstep k (Nat.lt_succ_self k) s h)
      (fun k' hk' x hx => hstep k' (Nat.lt_succ_of_lt hk') x hx)

theorem update_accum [AddCommMonoid R] (K j : Nat) (f : Nat → R) (sum : Nat → R) :
    forLoop K (fun k sum => Function.update sum j (sum j + f k)) sum
      = Function.update sum j (sum j + ∑ k ∈ Finset.range K, f k) := by
  induction K with
  | zero => simp [forLoop]
  | succ k ih =>
    rw [forLoop_succ, ih, Finset.sum_range_succ]
    simp [add_assoc]

theorem vec_accum [AddCommMonoid R] (c K : Nat) (f : Nat → Nat → R) (j0 : Nat) (hj0 : j0 < c) :
    forLoop c (fun j sum =>
      forLoop K (fun k sum => Function.update sum j (sum j + f j k)) sum) (fun _ => 0) j0
      = ∑ k ∈ Finset.range K, f j0 k := by
  have e : forLoop c (fun j sum =>
      forLoop K (fun k sum => Function.update sum j (sum j + f j k)) sum) (fun _ => (0 : R))
      = forLoop c (fun j sum =>
          Function.update sum j (sum j + ∑ k ∈ Finset.range K, f j k)) (fun _ => (0 : R)) :=
    forLoop_congr (fun j _ sum => update_accum K j (f j) sum) _
  rw [e]
  have key : ∀ c, forLoop c (fun j sum =>
      Function.update sum j (sum j + ∑ k ∈ Finset.range K, f j k)) (fun _ => (0 : R)) j0
      = if j0 < c then ∑ k ∈ Finset.range K, f j0 k else 0 := by
    intro c
    induction c with
    | zero => simp [forLoop]
    | succ c ih =>
      rw [forLoop_succ]
      by_cases h : j0 = c
      · subst h
        rw [Function.update_same, ih]
        simp
      · rw [Function.update_noteq h, ih]
        have : j0 < c + 1 ↔ j0 < c := by omega
        simp only [this]
  rw [key c, if_pos hj0]

theorem row_assign_spec (c i : Nat) (val : Nat → R) (A : Matrix R) (hc : c ≤ A.n) :
    (forLoop c (fun j A => A.set i j (val j)) A).m = A.m ∧
    (forLoop c (fun j A => A.set i j (val j)) A).n = A.n ∧
    (∀ j, j < c → (forLoop c (fun j A => A.set i j (val j)) A).get i j = val j) ∧
    (∀ r j, r ≠ i → j < A.n →
      (forLoop c (fun j A => A.set i j (val j)) A).get r j = A.get r j) := by
  induction c with
  | zero => exact ⟨rfl, rfl, fun j hj => absurd hj (Nat.not_lt_zero j), fun _ _ _ _ => rfl⟩
  | succ c ih =>
    obtain ⟨h1, h2, h3, h4⟩ := ih (by omega)
    rw [forLoop_succ]
    refine ⟨h1, h2, ?_, ?_⟩
    · intro j hj
      rw [set_get _ _ _ _ _ _ (by omega) (by omega)]
      by_cases h : j = c
      · rw [if_pos ⟨rfl, h⟩, h]
      · rw [if_neg (fun hh => h hh.2)]
        exact h3 j (by omega)
    · intro r j hr hj
      rw [set_get _ _ _ _ _ _ (by omega) (by omega), if_neg (fun hh => hr hh.1)]
      exact h4 r j hr hj

theorem FBS_forward_spec [Field R] (L B Y0 : Matrix R) (c : Nat) (hY : Y0.n = c)
    (hB : B.n = c) (t : Nat) :
    (Matrix.FBS_forward t L B Y0).m = Y0.m ∧ (Matrix.FBS_forward t L B Y0).n = c ∧
    ∀ r j, r < t → j < c →
      (Matrix.FBS_forward t L B Y0).get r j
        = (B.get r j - ∑ k ∈ Finset.range r, L.get r k * (Matrix.FBS_forward t L B Y0).get k j)
            / L.get r r := by
  induction t with
  | zero => exact ⟨rfl, hY, fun r j hr _ => absurd hr (Nat.not_lt_zero r)⟩
  | succ t ih =>
    obtain ⟨h1, h2, h3⟩ := ih
    obtain ⟨val, hval⟩ : ∃ val : Nat → R, val = fun j =>
        (B.get t j - forLoop B.n (fun j sum =>
          forLoop t (fun k sum => Function.update sum j
            (sum j + L.get t k * (Matrix.FBS_forward t L B Y0).get k j)) sum)
          (fun _ => 0) j) / L.get t t := ⟨_, rfl⟩
    have hv : ∀ j, j < c → val j
        = (B.get t j - ∑ k ∈ Finset.range t, L.get t k * (Matrix.FBS_forward t L B Y0).get k j)
            / L.get t t := by
      intro j hj
      rw [hval]
      show (B.get t j - _) / _ = _
      rw [vec_accum B.n t (fun j k => L.get t k * (Matrix.FBS_forward t L B Y0).get k j) j
        (hB.symm ▸ hj)]
    have e : Matrix.FBS_forward (t + 1) L B Y0
        = forLoop B.n (fun j Y => Y.set t j (val j)) (Matrix.FBS_forward t L B Y0) := by
      rw [hval]
      rfl
    clear hval
    obtain ⟨a1, a2, a3, a4⟩ := row_assign_spec B.n t val (Matrix.FBS_forward t L B Y0)
      (by omega)
    rw [e]
    refine ⟨a1.trans h1, a2.trans h2, ?_⟩
    intro r j hr hj
    have hsum : ∑ k ∈ Finset.range r, L.get r k *
        (forLoop B.n (fun j Y => Y.set t j (val j)) (Matrix.FBS_forward t L B Y0)).get k j
        = ∑ k ∈ Finset.range r, L.get r k * (Matrix.FBS_forward t L B Y0).get k j := by
      refine Finset.sum_congr rfl (fun k hk => ?_)
      rw [a4 k j (by have := Finset.mem_range.mp hk; omega) (by omega)]
    rw [hsum]
    by_cases h : r = t
    · subst h
      rw [a3 j (by omega)]
      exact hv j hj
    · rw [a4 r j h (by omega)]
      exact h3 r j (by omega) hj

theorem FBS_forward_solves [Field R] (L B Y0 : Matrix R) (n c : Nat) (hY : Y0.n = c)
    (hB : B.n = c) (hL : ∀ i k, i < n → k < n → i < k → L.get i k = 0)
    (hLd : ∀ i, i < n → L.get i i ≠ 0) (i j : Nat) (hi : i < n) (hj : j < c) :
    ∑ k ∈ Finset.range n, L.get i k * (Matrix.FBS_forward n L B Y0).get k j = B.get i j := by
  obtain ⟨_, _, h3⟩ := FBS_forward_spec L B Y0 c hY hB n
  have en : n = (i + 1) + (n - (i + 1)) := by omega
  rw [en, Finset.sum_range_add, Finset.sum_range_succ, ← en]
  have hz : ∑ x ∈ Finset.range (n - (i + 1)),
      L.get i (i + 1 + x) * (Matrix.FBS_forward n L B Y0).get (i + 1 + x) j = 0 := by
    refine Finset.sum_eq_zero (fun x hx => ?_)
    have := Finset.mem_range.mp hx
    rw [hL i (i + 1 + x) hi (by omega) (by omega), zero_mul]
  rw [hz, add_zero]
  rw [h3 i j hi hj]
  rw [mul_div_cancel₀ _ (hLd i hi)]
  ring

theorem FBS_backward_step [Field R] (U B Y X : Matrix R) (n c k : Nat) (hk : k < n)
    (hB : B.n = c) (hUd : U.get k k ≠ 0) (x1 : X.m = n) (x2 : X.n = c)
    (x3 : ∀ r j, r < k + 1 → j < c → X.get r j = 0)
    (x4 : ∀ r j, k + 1 ≤ r → r < n → j < c →
      ∑ s ∈ Finset.range (n - r), U.get r (r + s) * X.get (r + s) j = Y.get r j)
    (X' : Matrix R)
    (hX' : X' = forLoop B.n (fun j X' => X'.set k j ((Y.get k j - forLoop B.n (fun j sum =>
        forFrom k n (fun k' sum => Function.update sum j (sum j + U.get k k' * X.get k' j)) sum)
        (fun _ => 0) j) / U.get k k)) X) :
    X'.m = n ∧ X'.n = c ∧ (∀ r j, r < k → j < c → X'.get r j = 0) ∧
    (∀ r j, k ≤ r → r < n → j < c →
      ∑ s ∈ Finset.range (n - r), U.get r (r + s) * X'.get (r + s) j = Y.get r j) := by
  obtain ⟨val, hval⟩ : ∃ val : Nat → R, val = fun j =>
      (Y.get k j - forLoop B.n (fun j sum =>
        forFrom k n (fun k' sum => Function.update sum j (sum j + U.get k k' * X.get k' j)) sum)
        (fun _ => 0) j) / U.get k k := ⟨_, rfl⟩
  have hv : ∀ j, j < c → val j
      = (Y.get k j - ∑ s ∈ Finset.range (n - k - 1),
          U.get k (k + (s + 1)) * X.get (k + (s + 1)) j) / U.get k k := by
    intro j hj
    rw [hval]
    show (Y.get k j - _) / _ = _
    have hacc : forLoop B.n (fun j sum =>
        forFrom k n (fun k' sum => Function.update sum j (sum j + U.get k k' * X.get k' j)) sum)
        (fun _ => (0 : R)) j
        = ∑ s ∈ Finset.range (n - k), U.get k (k + s) * X.get (k + s) j :=
      vec_accum B.n (n - k) (fun j s => U.get k (k + s) * X.get (k + s) j) j (hB.symm ▸ hj)
    have en : n - k = (n - k - 1) + 1 := by omega
    rw [hacc, en, Finset.sum_range_succ', Nat.add_zero, x3 k j (Nat.lt_succ_self k) hj,
      mul_zero, add_zero]
    rfl
  have e : X' = forLoop B.n (fun j X' => X'.set k j (val j)) X := by
    rw [hX', hval]
  clear hval hX'
  obtain ⟨a1, a2, a3, a4⟩ := row_assign_spec B.n k val X (by omega)
  rw [e]
  refine ⟨a1.trans x1, a2.trans x2, ?_, ?_⟩
  · intro r j hr hj
    rw [a4 r j (by omega) (by omega)]
    exact x3 r j (by omega) hj
  · intro r j h1 h2 hj
    by_cases h : r = k
    · subst h
      have en : n - r = (n - r - 1) + 1 := by omega
      have htail : ∀ x, x ∈ Finset.range (n - r - 1) →
          U.get r (r + (x + 1))
            * (forLoop B.n (fun j X' => X'.set r j (val j)) X).get (r + (x + 1)) j
          = U.get r (r + (x + 1)) * X.get (r + (x + 1)) j := by
        intro x _
        rw [a4 (r + (x + 1)) j (by omega) (by omega)]
      rw [en, Finset.sum_range_succ', Nat.add_zero, a3 j (by omega),
        Finset.sum_congr rfl htail, hv j hj, mul_div_cancel₀ _ hUd]
      ring
    · have hsum : ∀ x, x ∈ Finset.range (n - r) →
          U.get r (r + x) * (forLoop B.n (fun j X' => X'.set k j (val j)) X).get (r + x) j
          = U.get r (r + x) * X.get (r + x) j := by
        intro x _
        rw [a4 (r + x) j (by omega) (by omega)]
      rw [Finset.sum_congr rfl hsum]
      exact x4 r j (by omega) h2 hj

theorem FBS_backward_solves [Field R] (U B Y X0 : Matrix R) (n c : Nat) (hXm : X0.m = n)
    (hXn : X0.n = c) (hB : B.n = c) (hX0 : ∀ i j, i < n → j < c → X0.get i j = 0)
    (hU : ∀ i k, i < n → k < n → k < i → U.get i k = 0)
    (hUd : ∀ i, i < n → U.get i i ≠ 0) :
    (Matrix.FBS_backward n n U B Y X0).m = n ∧ (Matrix.FBS_backward n n U B Y X0).n = c ∧
    ∀ i j, i < n → j < c →
      ∑ k ∈ Finset.range n, U.get i k * (Matrix.FBS_backward n n U B Y X0).get k j
        = Y.get i j := by
  have key : (Matrix.FBS_backward n n U B Y X0).m = n ∧
      (Matrix.FBS_backward n n U B Y X0).n = c ∧
      (∀ r j, r < 0 → j < c → (Matrix.FBS_backward n n U B Y X0).get r j = 0) ∧
      (∀ r j, 0 ≤ r → r < n → j < c →
        ∑ s ∈ Finset.range (n - r),
          U.get r (r + s) * (Matrix.FBS_backward n n U B Y X0).get (r + s) j = Y.get r j) :=
    forDown_inv (fun t (X : Matrix R) => X.m = n ∧ X.n = c ∧
      (∀ r j, r < t → j < c → X.get r j = 0) ∧
      (∀ r j, t ≤ r → r < n → j < c →
        ∑ s ∈ Finset.range (n - r), U.get r (r + s) * X.get (r + s) j = Y.get r j))
    (fun i X =>
      forLoop B.n (fun j X' => X'.set i j ((Y.get i j - forLoop B.n (fun j sum =>
        forFrom i n (fun k sum => Function.update sum j (sum j + U.get i k * X.get k j)) sum)
        (fun _ => 0) j) / U.get i i)) X) n X0
    ⟨hXm, hXn, fun r j hr hj => hX0 r j hr hj,
      fun r j h1 h2 _ => absurd h2 (Nat.not_lt_of_le h1)⟩
    (fun k hk X hx => FBS_backward_step U B Y X n c k hk hB (hUd k hk) hx.1 hx.2.1 hx.2.2.1
      hx.2.2.2 _ rfl)
  obtain ⟨k1, k2, _, k4⟩ := key
  refine ⟨k1, k2, ?_⟩
  intro i j hi hj
  have k4' := k4 i j (Nat.zero_le i) hi hj
  clear k4
  have en : n = i + (n - i) := by omega
  have hz : ∑ x ∈ Finset.range i,
      U.get i x * (Matrix.FBS_backward n n U B Y X0).get x j = 0 := by
    refine Finset.sum_eq_zero (fun x hx => ?_)
    have := Finset.mem_range.mp hx
    rw [hU i x hi (by omega) (by omega), zero_mul]
  nth_rewrite 1 [en]
  rw [Finset.sum_range_add, hz, zero_add]
  exact k4'

theorem transposed_product [Field R] (gB : Nat → R) (P B : Matrix R) :
    (tMatrix.operator_mul gB (Matrix.transpose P) B).m = P.n ∧
    (tMatrix.operator_mul gB (Matrix.transpose P) B).n = B.n ∧
    ∀ i j, i < P.n → j < B.n →
      (tMatrix.operator_mul gB (Matrix.transpose P) B).get i j
        = ∑ k ∈ Finset.range P.m, P.get k i * B.get k j := by
  obtain ⟨h1, h2, h3⟩ := assign2_spec P.n B.n
    (fun i j => forLoop P.m (fun k sum => sum + P.get k i * B.get k j) 0)
    (Matrix.alloc gB P.n B.n) (Nat.le_refl _)
  refine ⟨h1, h2, fun i j hi hj => ?_⟩
  have e := h3 i j hi hj
  rw [forLoop_add_sum, zero_add] at e
  exact e

theorem FBS_substitution_solves [Field R] (L U B Y0 X0 : Matrix R) (n c : Nat) (hY : Y0.n = c)
    (hXm : X0.m = n) (hXn : X0.n = c) (hB : B.n = c)
    (hX0 : ∀ i j, i < n → j < c → X0.get i j = 0)
    (hL : ∀ i k, i < n → k < n → i < k → L.get i k = 0)
    (hU : ∀ i k, i < n → k < n → k < i → U.get i k = 0)
    (hLd : ∀ i, i < n → L.get i i ≠ 0) (hUd : ∀ i, i < n → U.get i i ≠ 0) :
    (Matrix.FBS_backward n n U B (Matrix.FBS_forward n L B Y0) X0).m = n ∧
    (Matrix.FBS_backward n n U B (Matrix.FBS_forward n L B Y0) X0).n = c ∧
    ∀ i j, i < n → j < c →
      ∑ k ∈ Finset.range n, L.get i k * ∑ l ∈ Finset.range n, U.get k l *
          (Matrix.FBS_backward n n U B (Matrix.FBS_forward n L B Y0) X0).get l j
        = B.get i j := by
  obtain ⟨b1, b2, b3⟩ := FBS_backward_solves U B (Matrix.FBS_forward n L B Y0) X0 n c hXm hXn
    hB hX0 hU hUd
  refine ⟨b1, b2, fun i j hi hj => ?_⟩
  rw [Finset.sum_congr rfl (fun k hk => by rw [b3 k j (Finset.mem_range.mp hk) hj])]
  exact FBS_forward_solves L B Y0 n c hY hB hL hLd i j hi hj

/-- C38: for `n × n` matrices `L` (lower-triangular), `U` (upper-triangular) with nonzero
diagonals, every `n × n` matrix `P` and every `n × c` right-hand side `B`, in exact arithmetic
(a field), `X = FBS(L, U, P, B)` has the shape of `B` and `L·(U·X) = Pᵀ·B` entry by entry:
`Σ_k L(i,k) * Σ_l U(k,l) * X(l,j) = Σ_k P(k,i) * B(k,j)`.  This holds for the function of
`Matrix.hpp` (whatever the allocations find) and for the one of `matrix.hpp`. -/
theorem FBS_solves [Field R] (gY gX gB : Nat → R) (L U P B : Matrix R) (n c : Nat)
    (hLs : L.m = n ∧ L.n = n) (hUs : U.m = n ∧ U.n = n) (hPs : P.m = n ∧ P.n = n)
    (hBs : B.m = n ∧ B.n = c)
    (hL : ∀ i k, i < n → k < n → i < k → L.get i k = 0)
    (hU : ∀ i k, i < n → k < n → k < i → U.get i k = 0)
    (hLd : ∀ i, i < n → L.get i i ≠ 0) (hUd : ∀ i, i < n → U.get i i ≠ 0) :
    ((Matrix.FBS gY gX gB L U P B).m = B.m ∧ (Matrix.FBS gY gX gB L U P B).n = B.n ∧
      ∀ i j, i < n → j < c →
        ∑ k ∈ Finset.range n, L.get i k * ∑ l ∈ Finset.range n, U.get k l *
            (Matrix.FBS gY gX gB L U P B).get l j
          = ∑ k ∈ Finset.range n, P.get k i * B.get k j) ∧
    ((Matrix.FBS_vec L U P B).m = B.m ∧ (Matrix.FBS_vec L U P B).n = B.n ∧
      ∀ i j, i < n → j < c →
        ∑ k ∈ Finset.range n, L.get i k * ∑ l ∈ Finset.range n, U.get k l *
            (Matrix.FBS_vec L U P B).get l j
          = ∑ k ∈ Finset.range n, P.get k i * B.get k j) := by
  obtain ⟨hLm, hLn⟩ := hLs
  obtain ⟨hPm, hPn⟩ := hPs
  obtain ⟨hBm, hBn⟩ := hBs
  constructor
  · obtain ⟨p1, p2, p3⟩ := transposed_product gB P B
    obtain ⟨z1, z2, z3⟩ := zeros_spec gX B.m B.n
    obtain ⟨y1, y2, _⟩ := zeros_spec gY B.m B.n
    have e : Matrix.FBS gY gX gB L U P B
        = Matrix.FBS_backward n n U (tMatrix.operator_mul gB (Matrix.transpose P) B)
            (Matrix.FBS_forward n L (tMatrix.operator_mul gB (Matrix.transpose P) B)
              (Matrix.zeros gY B.m B.n)) (Matrix.zeros gX B.m B.n) := by
      unfold Matrix.FBS
      simp only [hLm, hLn]
    obtain ⟨s1, s2, s3⟩ := FBS_substitution_solves L U (tMatrix.operator_mul gB (Matrix.transpose P) B)
      (Matrix.zeros gY B.m B.n) (Matrix.zeros gX B.m B.n) n c (y2.trans hBn)
      (z1.trans hBm) (z2.trans hBn) (p2.trans hBn)
      (fun i j hi hj => z3 i j (hBm.symm ▸ hi) (hBn.symm ▸ hj)) hL hU hLd hUd
    rw [e]
    refine ⟨s1.trans hBm.symm, s2.trans hBn.symm, fun i j hi hj => ?_⟩
    rw [s3 i j hi hj, p3 i j (hPn.symm ▸ hi) (hBn.symm ▸ hj), hPm]
  · obtain ⟨⟨t1, t2, t3⟩, _⟩ := transpose_involutive P n n ⟨hPm, hPn⟩
    obtain ⟨_, p1, p2, p3⟩ := operator_mul_spec (fun _ => 0) (Matrix.transpose_vec P) B n n c
      ⟨t1, t2⟩ ⟨hBm, hBn⟩
    have e : Matrix.FBS_vec L U P B
        = Matrix.FBS_backward n n U (Matrix.operator_mul_vec (Matrix.transpose_vec P) B)
            (Matrix.FBS_forward n L (Matrix.operator_mul_vec (Matrix.transpose_vec P) B)
              ⟨B.m, B.n, fun _ => 0⟩) ⟨B.m, B.n, fun _ => 0⟩ := by
      unfold Matrix.FBS_vec
      simp only [hLm, hLn]
    obtain ⟨s1, s2, s3⟩ := FBS_substitution_solves L U
      (Matrix.operator_mul_vec (Matrix.transpose_vec P) B)
      ⟨B.m, B.n, fun _ => 0⟩ ⟨B.m, B.n, fun _ => 0⟩ n c hBn hBm hBn p2
      (fun i j _ _ => rfl) hL hU hLd hUd
    rw [e]
    refine ⟨s1.trans hBm.symm, s2.trans hBn.symm, fun i j hi hj => ?_⟩
    rw [s3 i j hi hj, p3 i j hi hj]
    exact Finset.sum_congr rfl (fun k hk => by rw [t3 i k hi (Finset.mem_range.mp hk)])

end Substitution

/-! ## Pooling: `apply` stays inside its matrices -/

section PoolingSafety

variable {R : Type}

theorem forStepM_eq_forStep {σ : Type} (inv : σ → Prop) (bound step : Nat)
    (body : Nat → σ → Option σ) (f : Nat → σ → σ)
    (hstep : ∀ y, y < bound → ∀ x, inv x → body y x = some (f y x) ∧ inv (f y x)) :
    ∀ fuel y0 s, bound ≤ y0 + fuel * step → inv s →
      forStepM fuel y0 bound step body s = some (forStep fuel y0 bound step f s) ∧
      inv (forStep fuel y0 bound step f s) := by
  intro fuel
  induction fuel with
  | zero =>
    intro y0 s hb hs
    have hn : ¬ y0 < bound := by omega
    refine ⟨?_, hs⟩
    show (if y0 < bound then none else some s) = some s
    rw [if_neg hn]
  | succ k ih =>
    intro y0 s hb hs
    by_cases hlt : y0 < bound
    · obtain ⟨e, hinv⟩ := hstep y0 hlt s hs
      have hb' : bound ≤ (y0 + step) + k * step := by
        have : (k + 1) * step = k * step + step := Nat.succ_mul k step
        omega
      obtain ⟨e2, hinv2⟩ := ih (y0 + step) (f y0 s) hb' hinv
      have u1 : forStepM (k + 1) y0 bound step body s
          = (body y0 s).bind (forStepM k (y0 + step) bound step body) := by
        show (if y0 < bound then _ else _) = _
        rw [if_pos hlt]
      have u2 : forStep (k + 1) y0 bound step f s
          = forStep k (y0 + step) bound step f (f y0 s) := by
        show (if y0 < bound then _ else _) = _
        rw [if_pos hlt]
      rw [u1, u2, e, Option.some_bind]
      exact ⟨e2, hinv2⟩
    · have u1 : forStepM (k + 1) y0 bound step body s = some s := by
        show (if y0 < bound then _ else _) = _
        rw [if_neg hlt]
      have u2 : forStep (k + 1) y0 bound step f s = s := by
        show (if y0 < bound then _ else _) = _
        rw [if_neg hlt]
      rw [u1, u2]
      exact ⟨rfl, hs⟩

/-- For `step ≥ 1` the loop over `y = 0, step, …` reaches its bound within `bound` iterations:
when no iteration aborts, the loop with fuel `bound` returns the state of the plain loop. -/
theorem forStepM_terminates {σ : Type} (inv : σ → Prop) (bound step : Nat) (hs : 1 ≤ step)
    (body : Nat → σ → Option σ) (f : Nat → σ → σ) (s : σ) (h0 : inv s)
    (hstep : ∀ y, y < bound → ∀ x, inv x → body y x = some (f y x) ∧ inv (f y x)) :
    forStepM bound 0 bound step body s = some (forStep bound 0 bound step f s) ∧
    inv (forStep bound 0 bound step f s) := by
  refine forStepM_eq_forStep inv bound step body f hstep bound 0 s ?_ h0
  have : bound * 1 ≤ bound * step := Nat.mul_le_mul_left bound hs
  omega

theorem forStep_prod {α β : Type} (bound step : Nat) (body : Nat → α × β → α × β)
    (f : Nat → α → α) (g : Nat → β → β) (h : ∀ i s, body i s = (f i s.1, g i s.2)) :
    ∀ fuel y0 (s : α × β), forStep fuel y0 bound step body s
      = (forStep fuel y0 bound step f s.1, forStep fuel y0 bound step g s.2) := by
  intro fuel
  induction fuel with
  | zero => intro y0 s; rfl
  | succ k ih =>
    intro y0 s
    show (if y0 < bound then forStep k (y0 + step) bound step body (body y0 s) else s)
      = ((if y0 < bound then forStep k (y0 + step) bound step f (f y0 s.1) else s.1),
         (if y0 < bound then forStep k (y0 + step) bound step g (g y0 s.2) else s.2))
    by_cases hlt : y0 < bound
    · simp only [if_pos hlt]
      rw [ih, h]
    · simp only [if_neg hlt]

theorem forLoop_append {α : Type} (n : Nat) (F : Nat → List α) (log : List α) :
    forLoop n (fun i log => log ++ F i) log = log ++ (List.range n).flatMap F := by
  induction n with
  | zero => simp [forLoop]
  | succ k ih =>
    rw [forLoop_succ, ih, List.range_succ, List.flatMap_append]
    simp

theorem flatMap_single {α β : Type} (l : List α) (f : α → β) :
    l.flatMap (fun a => [f a]) = l.map f := by
  induction l with
  | nil => rfl
  | cons a l ih => simp [List.flatMap_cons, ih]

theorem cells_range (A B j : Nat) :
    (List.range B).flatMap (fun b => (List.range A).flatMap (fun a => [(a + b * A, j)]))
      = (List.range (A * B)).map (fun c => (c, j)) := by
  induction B with
  | zero => simp
  | succ B ih =>
    rw [List.range_succ, List.flatMap_append, ih, Nat.mul_succ, List.range_add,
      List.map_append]
    congr 1
    rw [List.flatMap_singleton, flatMap_single, List.map_map]
    refine List.map_congr_left (fun a _ => ?_)
    show (a + B * A, j) = (A * B + a, j)
    rw [Nat.mul_comm B A, Nat.add_comm]

theorem row_in_grid {X Y x y : Nat} (hx : x < X) (hy : y < Y) : x + y * X < X * Y := by
  have h1 : (y + 1) * X ≤ Y * X := Nat.mul_le_mul_right X hy
  have h2 : (y + 1) * X = y * X + X := Nat.succ_mul y X
  have h3 : Y * X = X * Y := Nat.mul_comm Y X
  omega

theorem window_debug_eq [LinearOrder R] (L : Pooling R) (Ui : Matrix R) (j y x Y : Nat)
    (hX : 1 ≤ L.prev_ldu) (hpn : L.prev_num_unit = L.prev_ldu * Y)
    (hm : Ui.m = L.prev_num_unit) (hj : j < Ui.n) (hx : x < L.prev_ldu) (hy : y < Y) :
    L.window_debug Ui j y x = some (L.window Ui j y x) := by
  have hY : L.prev_num_unit / L.prev_ldu = Y := by
    rw [hpn]
    exact Nat.mul_div_cancel_left Y hX
  have hr0 : x + L.prev_ldu * y < Ui.m := by
    rw [hm, hpn, Nat.mul_comm L.prev_ldu y]
    exact row_in_grid hx hy
  unfold Pooling.window_debug Pooling.window
  simp only [hY]
  rw [read_in_range Ui _ j hr0 hj, Option.some_bind]
  refine (forLoopM_eq_forLoop (fun _ => True) L.m _ _ _ trivial (fun s _ w _ => ⟨?_, trivial⟩)).1
  refine (forLoopM_eq_forLoop (fun _ => True) L.n _ _ _ trivial (fun t _ w _ => ⟨?_, trivial⟩)).1
  by_cases hc : x + s ≥ L.prev_ldu ∨ y + t ≥ Y
  · simp only [if_pos hc]
  · simp only [if_neg hc]
    have hr : x + s + (y + t) * L.prev_ldu < Ui.m := by
      rw [hm, hpn]
      exact row_in_grid (by omega) (by omega)
    rw [read_in_range Ui _ j hr hj, Option.some_bind]
    by_cases hlt : w.1 < Ui.get (x + s + (y + t) * L.prev_ldu) j
    · simp only [if_pos hlt, Option.map_some']
    · simp only [if_neg hlt]

theorem cell_in_range {X Y s x y : Nat} (hs : 1 ≤ s) (hx : x < X) (hy : y < Y) :
    x / s + (y / s) * ((X + s - 1) / s) < (X + s - 1) / s * ((Y + s - 1) / s) := by
  have hx' : x / s < (X + s - 1) / s :=
    (stride_count X s (x / s) hs).mpr (Nat.lt_of_le_of_lt (Nat.div_mul_le_self x s) hx)
  have hy' : y / s < (Y + s - 1) / s :=
    (stride_count Y s (y / s) hs).mpr (Nat.lt_of_le_of_lt (Nat.div_mul_le_self y s) hy)
  have h := row_in_grid hx' hy'
  exact h

theorem log_loops (L : Pooling R) (Y U0n : Nat) (hs : 1 ≤ L.stlide)
    (hldu : L.ldu = (L.prev_ldu + L.stlide - 1) / L.stlide)
    (hnu : L.num_unit = L.ldu * ((Y + L.stlide - 1) / L.stlide)) (log : List (Nat × Nat)) :
    forLoop U0n (fun j log =>
      forStep Y 0 Y L.stlide (fun y log =>
        forStep L.prev_ldu 0 L.prev_ldu L.stlide (fun x (log : List (Nat × Nat)) =>
          log ++ [(x / L.stlide + (y / L.stlide) * L.ldu, j)]) log) log) log
      = log ++ (List.range U0n).flatMap (fun j =>
          (List.range L.num_unit).map (fun c => (c, j))) := by
  have hpos : 0 < L.stlide := hs
  have hj : ∀ j (log : List (Nat × Nat)),
      forStep Y 0 Y L.stlide (fun y log =>
        forStep L.prev_ldu 0 L.prev_ldu L.stlide (fun x (log : List (Nat × Nat)) =>
          log ++ [(x / L.stlide + (y / L.stlide) * L.ldu, j)]) log) log
      = log ++ (List.range L.num_unit).map (fun c => (c, j)) := by
    intro j log
    simp only [forStep_eq_forLoop _ _ hs, Nat.mul_div_cancel _ hpos]
    have hin : ∀ b (log : List (Nat × Nat)),
        forLoop ((L.prev_ldu + L.stlide - 1) / L.stlide)
          (fun a (log : List (Nat × Nat)) => log ++ [(a + b * L.ldu, j)]) log
        = log ++ (List.range L.ldu).flatMap (fun a => [(a + b * L.ldu, j)]) := by
      intro b log
      rw [forLoop_append, ← hldu]
    rw [forLoop_congr (fun b _ log => hin b log), forLoop_append, cells_range, hnu]
  rw [forLoop_congr (fun j _ log => hj j log), forLoop_append]

theorem apply_map_debug_eq [LinearOrderedField R] (L : Pooling R) (Ui : Matrix R)
    (U0n Y : Nat) (st : (Matrix R × Matrix R) × List (Nat × Nat)) (hs : 1 ≤ L.stlide)
    (hX : 1 ≤ L.prev_ldu) (hpn : L.prev_num_unit = L.prev_ldu * Y)
    (hldu : L.ldu = (L.prev_ldu + L.stlide - 1) / L.stlide)
    (hnu : L.num_unit = L.ldu * ((Y + L.stlide - 1) / L.stlide))
    (hm : Ui.m = L.prev_num_unit) (hn : Ui.n = U0n)
    (h1 : st.1.1.m = L.num_unit ∧ st.1.1.n = U0n)
    (h2 : st.1.2.m = L.num_unit ∧ st.1.2.n = U0n) :
    L.apply_map_debug Ui U0n st
      = some (L.apply_map Ui U0n st.1,
          st.2 ++ (List.range U0n).flatMap (fun j =>
            (List.range L.num_unit).map (fun c => (c, j)))) ∧
    ((L.apply_map Ui U0n st.1).1.m = L.num_unit ∧ (L.apply_map Ui U0n st.1).1.n = U0n) ∧
    ((L.apply_map Ui U0n st.1).2.m = L.num_unit ∧ (L.apply_map Ui U0n st.1).2.n = U0n) := by
  have hY : L.prev_num_unit / L.prev_ldu = Y := by
    rw [hpn]
    exact Nat.mul_div_cancel_left Y hX
  have hA : L.apply_map_debug Ui U0n st
      = some (forLoop U0n (fun j st =>
          forStep Y 0 Y L.stlide (fun y st =>
            forStep L.prev_ldu 0 L.prev_ldu L.stlide
              (fun x (st : (Matrix R × Matrix R) × List (Nat × Nat)) =>
                ((st.1.1.set (x / L.stlide + (y / L.stlide) * L.ldu) j (L.window Ui j y x).1,
                  st.1.2.set (x / L.stlide + (y / L.stlide) * L.ldu) j
                    ((L.window Ui j y x).2 : R)),
                 st.2 ++ [(x / L.stlide + (y / L.stlide) * L.ldu, j)])) st) st) st) ∧
      ((fun (st : (Matrix R × Matrix R) × List (Nat × Nat)) =>
          (st.1.1.m = L.num_unit ∧ st.1.1.n = U0n) ∧ (st.1.2.m = L.num_unit ∧ st.1.2.n = U0n))
        (forLoop U0n (fun j st =>
          forStep Y 0 Y L.stlide (fun y st =>
            forStep L.prev_ldu 0 L.prev_ldu L.stlide
              (fun x (st : (Matrix R × Matrix R) × List (Nat × Nat)) =>
                ((st.1.1.set (x / L.stlide + (y / L.stlide) * L.ldu) j (L.window Ui j y x).1,
                  st.1.2.set (x / L.stlide + (y / L.stlide) * L.ldu) j
                    ((L.window Ui j y x).2 : R)),
                 st.2 ++ [(x / L.stlide + (y / L.stlide) * L.ldu, j)])) st) st) st)) := by
    unfold Pooling.apply_map_debug
    simp only [hY]
    refine forLoopM_eq_forLoop
      (fun (st : (Matrix R × Matrix R) × List (Nat × Nat)) =>
        (st.1.1.m = L.num_unit ∧ st.1.1.n = U0n) ∧ (st.1.2.m = L.num_unit ∧ st.1.2.n = U0n))
      U0n _ _ st ⟨h1, h2⟩ (fun j hj st hst => ?_)
    refine forStepM_terminates
      (fun (st : (Matrix R × Matrix R) × List (Nat × Nat)) =>
        (st.1.1.m = L.num_unit ∧ st.1.1.n = U0n) ∧ (st.1.2.m = L.num_unit ∧ st.1.2.n = U0n))
      Y L.stlide hs _ _ st hst (fun y hy st hst => ?_)
    refine forStepM_terminates
      (fun (st : (Matrix R × Matrix R) × List (Nat × Nat)) =>
        (st.1.1.m = L.num_unit ∧ st.1.1.n = U0n) ∧ (st.1.2.m = L.num_unit ∧ st.1.2.n = U0n))
      L.prev_ldu L.stlide hs _ _ st hst (fun x hx st hst => ?_)
    obtain ⟨⟨a1, a2⟩, ⟨b1, b2⟩⟩ := hst
    have hc : x / L.stlide + (y / L.stlide) * L.ldu < L.num_unit := by
      rw [hnu, hldu]
      exact cell_in_range hs hx hy
    rw [window_debug_eq L Ui j y x Y hX hpn hm (hn.symm ▸ hj) hx hy, Option.some_bind,
      write_in_range _ _ j _ (a1.symm ▸ hc) (a2.symm ▸ hj), Option.some_bind,
      write_in_range _ _ j _ (b1.symm ▸ hc) (b2.symm ▸ hj), Option.map_some']
    exact ⟨rfl, ⟨a1, a2⟩, ⟨b1, b2⟩⟩
  have hB : forLoop U0n (fun j st =>
      forStep Y 0 Y L.stlide (fun y st =>
        forStep L.prev_ldu 0 L.prev_ldu L.stlide
          (fun x (st : (Matrix R × Matrix R) × List (Nat × Nat)) =>
            ((st.1.1.set (x / L.stlide + (y / L.stlide) * L.ldu) j (L.window Ui j y x).1,
              st.1.2.set (x / L.stlide + (y / L.stlide) * L.ldu) j
                ((L.window Ui j y x).2 : R)),
             st.2 ++ [(x / L.stlide + (y / L.stlide) * L.ldu, j)])) st) st) st
      = (L.apply_map Ui U0n st.1,
          st.2 ++ (List.range U0n).flatMap (fun j =>
            (List.range L.num_unit).map (fun c => (c, j)))) := by
    rw [← log_loops L Y U0n hs hldu hnu st.2]
    unfold Pooling.apply_map
    simp only [hY]
    refine forLoop_prod U0n _ _ _ (fun j s => ?_) st
    refine forStep_prod Y L.stlide _ _ _ (fun y s => ?_) Y 0 s
    refine forStep_prod L.prev_ldu L.stlide _ _ _ (fun x s => ?_) L.prev_ldu 0 s
    rfl
  obtain ⟨e, hinv⟩ := hA
  rw [hB] at e hinv
  exact ⟨e, hinv⟩

theorem apply_func_debug_eq (L : Pooling R) (use_func : Bool) (A : Matrix R) :
    L.apply_func_debug use_func A = some (L.apply_func use_func A) := by
  unfold Pooling.apply_func_debug Pooling.apply_func
  refine (forLoopM_eq_forLoop (fun (B : Matrix R) => B.m = A.m ∧ B.n = A.n) A.m _ _ A
    ⟨rfl, rfl⟩ (fun j hj B hB => ?_)).1
  have hBn : B.n = A.n := hB.2
  refine forLoopM_eq_forLoop (fun (B : Matrix R) => B.m = A.m ∧ B.n = A.n) B.n _ _ B
    hB (fun k hk B' hB' => ?_)
  rw [read_in_range B' j k (hB'.1.symm ▸ hj) (hB'.2.symm ▸ hBn ▸ hk), Option.some_bind,
    write_in_range B' j k _ (hB'.1.symm ▸ hj) (hB'.2.symm ▸ hBn ▸ hk)]
  exact ⟨rfl, hB'⟩

theorem forLoop_replicate {α : Type} (n : Nat) (a : α) :
    forLoop n (fun _ (l : List α) => l ++ [a]) [] = List.replicate n a := by
  induction n with
  | zero => rfl
  | succ k ih => rw [forLoop_succ, ih, List.replicate_succ']

theorem cells_once (N M : Nat) :
    ((List.range N).flatMap (fun j => (List.range M).map (fun c => (c, j)))).Nodup ∧
    ∀ c j, (c, j) ∈ (List.range N).flatMap (fun j => (List.range M).map (fun c => (c, j)))
      ↔ c < M ∧ j < N := by
  constructor
  · rw [List.nodup_flatMap]
    refine ⟨fun x _ => (List.nodup_range M).map (fun a b h => (Prod.mk.inj h).1), ?_⟩
    refine (List.nodup_range N).imp ?_
    intro a b hab p hp1 hp2
    obtain ⟨c1, _, e1⟩ := List.mem_map.mp hp1
    obtain ⟨c2, _, e2⟩ := List.mem_map.mp hp2
    rw [← e2] at e1
    exact hab (Prod.mk.inj e1).2
  · intro c j
    constructor
    · intro h
      obtain ⟨j', hj', hm⟩ := List.mem_flatMap.mp h
      obtain ⟨c', hc', e⟩ := List.mem_map.mp hm
      obtain ⟨e1, e2⟩ := Prod.mk.inj e
      exact ⟨e1 ▸ List.mem_range.mp hc', e2 ▸ List.mem_range.mp hj'⟩
    · intro h
      exact List.mem_flatMap.mpr ⟨j, List.mem_range.mpr h.2,
        List.mem_map.mpr ⟨c, List.mem_range.mpr h.1, rfl⟩⟩

theorem get?_getD {α : Type} (l : List α) (d : α) (i : Nat) (hi : i < l.length) :
    l.get? i = some (l.getD i d) := by
  rw [List.get?_eq_getElem?, List.getD_eq_getElem?_getD, List.getElem?_eq_getElem hi]
  rfl

theorem getD_set {α : Type} (l : List α) (d a : α) (i k : Nat) (hi : i < l.length) :
    (l.set i a).getD k d = if k = i then a else l.getD k d := by
  rw [List.getD_eq_getElem?_getD, List.getD_eq_getElem?_getD]
  by_cases h : k = i
  · subst h
    rw [if_pos rfl, List.getElem?_set_self hi]
    rfl
  · rw [if_neg h, List.getElem?_set_ne (fun e => h e.symm)]

theorem getD_replicate {α : Type} (n : Nat) (a d : α) (k : Nat) (hk : k < n) :
    (List.replicate n a).getD k d = a := by
  rw [List.getD_eq_getElem?_getD, List.getElem?_replicate, if_pos hk]
  rfl

theorem apply_debug_eq [LinearOrderedField R] (L : Pooling R) (gS : Nat → R)
    (g : Nat → Nat → R) (U : List (Matrix R)) (use_func : Bool) (Y : Nat)
    (hs : 1 ≤ L.stlide) (hX : 1 ≤ L.prev_ldu) (hpn : L.prev_num_unit = L.prev_ldu * Y)
    (hldu : L.ldu = (L.prev_ldu + L.stlide - 1) / L.stlide)
    (hnu : L.num_unit = L.ldu * ((Y + L.stlide - 1) / L.stlide))
    (hmap : 1 ≤ L.num_map) (hlen : U.length = L.num_map)
    (hU : ∀ i, i < L.num_map → (U.getD i Matrix.empty).m = L.prev_num_unit ∧
      (U.getD i Matrix.empty).n = (U.getD 0 Matrix.empty).n) :
    L.apply_debug gS g U use_func
      = some (L.apply gS g U use_func,
          List.replicate L.num_map
            ((List.range (U.getD 0 Matrix.empty).n).flatMap (fun j =>
              (List.range L.num_unit).map (fun c => (c, j))))) := by
  have hg : ∀ i, i < L.num_map → U.get? i = some (U.getD i Matrix.empty) :=
    fun i hi => get?_getD U Matrix.empty i (hlen.symm ▸ hi)
  obtain ⟨el, _⟩ := forLoopM_eq_forLoop
    (fun (st : (List (Matrix R) × List (Matrix R)) × List (List (Nat × Nat))) =>
      st.1.2.length = L.num_map ∧ ∀ k, k < L.num_map →
        (st.1.2.getD k Matrix.empty).m = L.num_unit ∧
        (st.1.2.getD k Matrix.empty).n = (U.getD 0 Matrix.empty).n)
    L.num_map
    (fun i (st : (List (Matrix R) × List (Matrix R)) × List (List (Nat × Nat))) =>
      (U.get? i).bind (fun Ui =>
        (L.apply_map_debug Ui (U.getD 0 Matrix.empty).n
          ((Matrix.alloc (g i) L.num_unit (U.getD 0 Matrix.empty).n,
            st.1.2.getD i Matrix.empty), [])).map
          (fun st_i => ((st.1.1.set i st_i.1.1, st.1.2.set i st_i.1.2), st.2 ++ [st_i.2]))))
    (fun i (st : (List (Matrix R) × List (Matrix R)) × List (List (Nat × Nat))) =>
      ((st.1.1.set i (L.apply_map (U.getD i Matrix.empty) (U.getD 0 Matrix.empty).n
          (Matrix.alloc (g i) L.num_unit (U.getD 0 Matrix.empty).n,
            st.1.2.getD i Matrix.empty)).1,
        st.1.2.set i (L.apply_map (U.getD i Matrix.empty) (U.getD 0 Matrix.empty).n
          (Matrix.alloc (g i) L.num_unit (U.getD 0 Matrix.empty).n,
            st.1.2.getD i Matrix.empty)).2),
       st.2 ++ [(List.range (U.getD 0 Matrix.empty).n).flatMap (fun j =>
          (List.range L.num_unit).map (fun c => (c, j)))]))
    ((List.replicate L.num_map Matrix.empty,
      List.replicate L.num_map (Matrix.alloc gS L.num_unit (U.getD 0 Matrix.empty).n)), [])
    ⟨List.length_replicate _ _, fun k hk => by
      show ((List.replicate L.num_map
        (Matrix.alloc gS L.num_unit (U.getD 0 Matrix.empty).n)).getD k Matrix.empty).m = _ ∧ _
      rw [getD_replicate _ _ _ k hk]
      exact ⟨rfl, rfl⟩⟩
    (fun i hi st hst => by
      obtain ⟨hl, hsh⟩ := hst
      obtain ⟨e, _, r2⟩ := apply_map_debug_eq L (U.getD i Matrix.empty)
        (U.getD 0 Matrix.empty).n Y
        ((Matrix.alloc (g i) L.num_unit (U.getD 0 Matrix.empty).n,
          st.1.2.getD i Matrix.empty), []) hs hX hpn hldu hnu (hU i hi).1 (hU i hi).2
        ⟨rfl, rfl⟩ (hsh i hi)
      refine ⟨?_, ?_, ?_⟩
      · show (U.get? i).bind _ = _
        rw [hg i hi, Option.some_bind, e, Option.map_some', List.nil_append]
      · show (st.1.2.set i _).length = _
        rw [List.length_set]
        exact hl
      · intro k hk
        show ((st.1.2.set i _).getD k Matrix.empty).m = _ ∧ _
        rw [getD_set _ _ _ i k (hl.symm ▸ hi)]
        by_cases h : k = i
        · rw [if_pos h]
          exact r2
        · rw [if_neg h]
          exact hsh k hk)
  have hsplit := forLoop_prod L.num_map
    (fun i (st : (List (Matrix R) × List (Matrix R)) × List (List (Nat × Nat))) =>
      ((st.1.1.set i (L.apply_map (U.getD i Matrix.empty) (U.getD 0 Matrix.empty).n
          (Matrix.alloc (g i) L.num_unit (U.getD 0 Matrix.empty).n,
            st.1.2.getD i Matrix.empty)).1,
        st.1.2.set i (L.apply_map (U.getD i Matrix.empty) (U.getD 0 Matrix.empty).n
          (Matrix.alloc (g i) L.num_unit (U.getD 0 Matrix.empty).n,
            st.1.2.getD i Matrix.empty)).2),
       st.2 ++ [(List.range (U.getD 0 Matrix.empty).n).flatMap (fun j =>
          (List.range L.num_unit).map (fun c => (c, j)))]))
    (fun i (st : List (Matrix R) × List (Matrix R)) =>
      (st.1.set i (L.apply_map (U.getD i Matrix.empty) (U.getD 0 Matrix.empty).n
          (Matrix.alloc (g i) L.num_unit (U.getD 0 Matrix.empty).n,
            st.2.getD i Matrix.empty)).1,
        st.2.set i (L.apply_map (U.getD i Matrix.empty) (U.getD 0 Matrix.empty).n
          (Matrix.alloc (g i) L.num_unit (U.getD 0 Matrix.empty).n,
            st.2.getD i Matrix.empty)).2))
    (fun _ (l : List (List (Nat × Nat))) =>
      l ++ [(List.range (U.getD 0 Matrix.empty).n).flatMap (fun j =>
          (List.range L.num_unit).map (fun c => (c, j)))])
    (fun _ _ => rfl)
    ((List.replicate L.num_map Matrix.empty,
      List.replicate L.num_map (Matrix.alloc gS L.num_unit (U.getD 0 Matrix.empty).n)), [])
  rw [hsplit, forLoop_replicate] at el
  have ea : ∀ ret0 : List (Matrix R),
      forLoopM L.num_map (fun i ret =>
        (L.apply_func_debug use_func (ret.getD i Matrix.empty)).map (fun r => ret.set i r)) ret0
      = some (forLoop L.num_map (fun i ret =>
          ret.set i (L.apply_func use_func (ret.getD i Matrix.empty))) ret0) := by
    intro ret0
    refine (forLoopM_eq_forLoop (fun _ => True) L.num_map _ _ ret0 trivial
      (fun i _ ret _ => ⟨?_, trivial⟩)).1
    rw [apply_func_debug_eq, Option.map_some']
  unfold Pooling.apply_debug
  rw [hg 0 hmap, Option.some_bind]
  simp only []
  rw [el, Option.some_bind, ea, Option.map_some']
  rfl

/-- C32, with the two conditions the cells of `U` need: for `stlide ≥ 1`, `X = prev_ldu ≥ 1`,
`prev_num_unit = X*Y`, `ldu = ⌈X/stlide⌉`, `num_unit = ldu*⌈Y/stlide⌉` and an input of
`num_map ≥ 1` matrices with `prev_num_unit` rows and the same number of columns each, `apply`
in a build with assertions ends, within the fuel `Y` and `X` of its strided loops, without
leaving `U`, `U[i]`, `ret[i]` or `new_S[i]`, and returns what `apply` returns; for every map the
cells written are, in this order, the cells `0, …, num_unit - 1` of column `0`, then of column
`1`, …: the list of written cells has no repetition and holds exactly the cells `(c, j)` with
`c < num_unit` and `j < U[0].n`, so every cell is written exactly once, and two window origins
with the same cell are the same origin. -/
theorem apply_debug_safe [LinearOrderedField R] (L : Pooling R) (gS : Nat → R)
    (g : Nat → Nat → R) (U : List (Matrix R)) (use_func : Bool) (Y : Nat)
    (hs : 1 ≤ L.stlide) (hX : 1 ≤ L.prev_ldu) (hpn : L.prev_num_unit = L.prev_ldu * Y)
    (hldu : L.ldu = (L.prev_ldu + L.stlide - 1) / L.stlide)
    (hnu : L.num_unit = L.ldu * ((Y + L.stlide - 1) / L.stlide))
    (hmap : 1 ≤ L.num_map) (hlen : U.length = L.num_map)
    (hU : ∀ i, i < L.num_map → (U.getD i Matrix.empty).m = L.prev_num_unit ∧
      (U.getD i Matrix.empty).n = (U.getD 0 Matrix.empty).n) :
    L.apply_debug gS g U use_func
      = some (L.apply gS g U use_func,
          List.replicate L.num_map
            ((List.range (U.getD 0 Matrix.empty).n).flatMap (fun j =>
              (List.range L.num_unit).map (fun c => (c, j))))) ∧
    (((List.range (U.getD 0 Matrix.empty).n).flatMap (fun j =>
        (List.range L.num_unit).map (fun c => (c, j)))).Nodup ∧
      ∀ c j, (c, j) ∈ (List.range (U.getD 0 Matrix.empty).n).flatMap (fun j =>
          (List.range L.num_unit).map (fun c => (c, j)))
        ↔ c < L.num_unit ∧ j < (U.getD 0 Matrix.empty).n) ∧
    (∀ x y x' y', x < L.prev_ldu → y < Y → x' < L.prev_ldu → y' < Y →
      L.stlide ∣ x → L.stlide ∣ y → L.stlide ∣ x' → L.stlide ∣ y' →
      x / L.stlide + (y / L.stlide) * L.ldu = x' / L.stlide + (y' / L.stlide) * L.ldu →
      x = x' ∧ y = y') := by
  refine ⟨apply_debug_eq L gS g U use_func Y hs hX hpn hldu hnu hmap hlen hU,
    cells_once _ _, ?_⟩
  intro x y x' y' hx _ hx' _ dx dy dx' dy' e
  have h1 : x / L.stlide < L.ldu := by
    rw [hldu]
    exact (stride_count _ _ _ hs).mpr (Nat.lt_of_le_of_lt (Nat.div_mul_le_self x _) hx)
  have h2 : x' / L.stlide < L.ldu := by
    rw [hldu]
    exact (stride_count _ _ _ hs).mpr (Nat.lt_of_le_of_lt (Nat.div_mul_le_self x' _) hx')
  obtain ⟨e1, e2⟩ := colmajor_inj h1 h2 e
  constructor
  · rw [← Nat.div_mul_cancel dx, ← Nat.div_mul_cancel dx', e1]
  · rw [← Nat.div_mul_cancel dy, ← Nat.div_mul_cancel dy', e2]

/-- C32 as stated fails on two inputs.  The layer `exPoolTwo` (two maps of a `2 × 1` grid,
window `1 × 1`, stride `1`, `ldu = 2`, `num_unit = 2`) receives two matrices of two rows each,
the first with two columns and the second with one: the loop over `j < U[0].n` reads
`U[1](0, 1)` outside `U[1]`.  A layer with `num_map = 0` receives the empty vector: `U[0].n`
is read outside `U`. -/
theorem apply_debug_ragged :
    (1 ≤ exPoolTwo.stlide ∧ 1 ≤ exPoolTwo.m ∧ 1 ≤ exPoolTwo.n ∧ 1 ≤ exPoolTwo.prev_ldu ∧
      exPoolTwo.prev_num_unit = exPoolTwo.prev_ldu * 1 ∧
      exPoolTwo.ldu = (exPoolTwo.prev_ldu + exPoolTwo.stlide - 1) / exPoolTwo.stlide ∧
      exPoolTwo.num_unit = exPoolTwo.ldu * ((1 + exPoolTwo.stlide - 1) / exPoolTwo.stlide) ∧
      exRaggedU.length = exPoolTwo.num_map ∧
      ∀ i, i < exPoolTwo.num_map →
        (exRaggedU.getD i Matrix.empty).m = exPoolTwo.prev_num_unit) ∧
    (exPoolTwo.apply_debug (fun _ => 7) (fun _ _ => 8) exRaggedU false).isSome = false ∧
    ((exRaggedU.getD 1 Matrix.empty).read 0 1).isSome = false ∧
    (exRaggedU.getD 0 Matrix.empty).n = 2 ∧
    (exPoolNone.num_map = 0 ∧ ([] : List (Matrix ℚ)).length = exPoolNone.num_map ∧
      (exPoolNone.apply_debug (fun _ => 7) (fun _ _ => 8) [] false).isSome = false) := by
  decide!

end PoolingSafety

/-! ## Pooling: the maximum of every window, in a build with assertions -/

section PoolingChecked

variable {R : Type}

/-- C29 (amended): for a layer with window `m, n ≥ 1`, stride `stlide ≥ 1`, `X = prev_ldu ≥ 1`,
`prev_num_unit = X*Y`, `ldu = ⌈X/stlide⌉`, `num_unit = ldu*⌈Y/stlide⌉`, `num_map ≥ 1` and an
input of `num_map` matrices with `prev_num_unit` rows and the same number of columns each, the
runs of `apply(U, false)` and `apply(U, true)` in a build with assertions return (no access
leaves its matrix), element `i` of either result has `num_unit` rows and `U[0].n` columns, and
for every map `i`, sample `j` and window origin `(x, y)` with `x < X`, `y < Y` both multiples of
`stlide`: `apply(U, false)[i]` holds in the cell `x/stlide + (y/stlide)*ldu` the maximum of
`U[i](x' + prev_ldu*y', j)` over `x ≤ x' < min(x + m, X)`, `y ≤ y' < min(y + n, Y)` (it is a value
of the window and no value of the window exceeds it), and `apply(U, true)[i]` holds the
activation function applied to that value. -/
theorem pooling_apply_max [LinearOrderedField R] (L : Pooling R) (gS : Nat → R)
    (g : Nat → Nat → R) (U : List (Matrix R)) (Y i j x y : Nat) (hm : 1 ≤ L.m) (hn : 1 ≤ L.n)
    (hs : 1 ≤ L.stlide) (hX : 1 ≤ L.prev_ldu) (hpn : L.prev_num_unit = L.prev_ldu * Y)
    (hldu : L.ldu = (L.prev_ldu + L.stlide - 1) / L.stlide)
    (hnu : L.num_unit = L.ldu * ((Y + L.stlide - 1) / L.stlide))
    (hmap : 1 ≤ L.num_map) (hlen : U.length = L.num_map)
    (hU : ∀ i, i < L.num_map → (U.getD i Matrix.empty).m = L.prev_num_unit ∧
      (U.getD i Matrix.empty).n = (U.getD 0 Matrix.empty).n)
    (hi : i < L.num_map) (hj : j < (U.getD 0 Matrix.empty).n) (hx : x < L.prev_ldu)
    (hy : y < Y) (hdx : L.stlide ∣ x) (hdy : L.stlide ∣ y) :
    ∃ retF retT : List (Matrix R),
      (L.apply_debug gS g U false).map (fun r => r.1.1) = some retF ∧
      (L.apply_debug gS g U true).map (fun r => r.1.1) = some retT ∧
      ((retF.getD i Matrix.empty).m = L.num_unit ∧
        (retF.getD i Matrix.empty).n = (U.getD 0 Matrix.empty).n ∧
        (retT.getD i Matrix.empty).m = L.num_unit ∧
        (retT.getD i Matrix.empty).n = (U.getD 0 Matrix.empty).n ∧
        x / L.stlide + (y / L.stlide) * L.ldu < L.num_unit) ∧
      (∀ x' y', x ≤ x' → x' < min (x + L.m) L.prev_ldu → y ≤ y' → y' < min (y + L.n) Y →
        (U.getD i Matrix.empty).get (x' + L.prev_ldu * y') j
          ≤ (retF.getD i Matrix.empty).get (x / L.stlide + (y / L.stlide) * L.ldu) j) ∧
      (∃ x' y', (x ≤ x' ∧ x' < min (x + L.m) L.prev_ldu) ∧ (y ≤ y' ∧ y' < min (y + L.n) Y) ∧
        (retF.getD i Matrix.empty).get (x / L.stlide + (y / L.stlide) * L.ldu) j
          = (U.getD i Matrix.empty).get (x' + L.prev_ldu * y') j) ∧
      (retT.getD i Matrix.empty).get (x / L.stlide + (y / L.stlide) * L.ldu) j
        = L.activate_func
            ((retF.getD i Matrix.empty).get (x / L.stlide + (y / L.stlide) * L.ldu) j) := by
  have hY : L.prev_num_unit / L.prev_ldu = Y := by
    rw [hpn]
    exact Nat.mul_div_cancel_left Y hX
  have hl : ∀ x', x' < L.prev_ldu → x' / L.stlide < L.ldu := by
    intro x' hx'
    rw [hldu]
    exact (stride_count _ _ _ hs).mpr (Nat.lt_of_le_of_lt (Nat.div_mul_le_self x' _) hx')
  have hcell : x / L.stlide + (y / L.stlide) * L.ldu < L.num_unit := by
    rw [hnu, hldu]
    exact cell_in_range hs hx hy
  have ef := apply_debug_eq L gS g U false Y hs hX hpn hldu hnu hmap hlen hU
  have et := apply_debug_eq L gS g U true Y hs hX hpn hldu hnu hmap hlen hU
  obtain ⟨a1, a2, _⟩ := apply_map_ret L (U.getD i Matrix.empty) (U.getD 0 Matrix.empty).n
    (Matrix.alloc (g i) L.num_unit (U.getD 0 Matrix.empty).n, Matrix.empty) hs (Nat.le_refl _)
    hl
  have shape : ∀ uf, ((L.apply gS g U uf).1.getD i Matrix.empty).m = L.num_unit ∧
      ((L.apply gS g U uf).1.getD i Matrix.empty).n = (U.getD 0 Matrix.empty).n := by
    intro uf
    rw [apply_getD L gS g U uf hs i hi]
    exact ⟨(apply_func_spec L uf _).1.trans a1, (apply_func_spec L uf _).2.1.trans a2⟩
  obtain ⟨m1, m2, m3⟩ := apply_max_unchecked L gS g U i j x y hm hn hs hl hi hj hx
    (hY.symm ▸ hy) hdx hdy hcell
  rw [hY] at m1 m2
  refine ⟨(L.apply gS g U false).1, (L.apply gS g U true).1, ?_, ?_,
    ⟨(shape false).1, (shape false).2, (shape true).1, (shape true).2, hcell⟩, m1, m2, m3⟩
  · rw [ef]
    rfl
  · rw [et]
    rfl

end PoolingChecked

/-! ## BatchNormalize: a constant row in the arithmetic of `double` -/

section Rounding

/-- C6 (counterexample): in the arithmetic of `double`, for the layer `exLayerD` (one channel of
one unit, scale `2`, shift `1`) and three samples that all hold the `double` nearest to `0.1`,
`apply` computes the mean `0.1 + 2^-56` (the sum of the three values is rounded before the
division), leaves `var(0,0) = 2^-112` (about `1.9e-34`), not `0`, and returns
`1 - 625 * 2^-51` (about `1 - 2.8e-13`) in every sample, not the shift `1`: the value and
its double are values of `double`, its triple is not.  On the three samples `5.0` the same code
leaves `var(0,0) = 0` and returns `1`. -/
theorem apply_constant_row_rounds :
    (0 < exConstU.n ∧ ∀ k, k < exConstU.n → exConstU.get 0 k = exConstU.get 0 0) ∧
    (representable (exConstU.get 0 0).val ∧ representable (2 * (exConstU.get 0 0).val) ∧
      ¬ representable (3 * (exConstU.get 0 0).val)) ∧
    (((vec0 exLayerD.W).get 0 0).val = 2 ∧ ((vec0 exLayerD.b).get 0 0).val = 1) ∧
    ((exLayerD.apply double_ops (fun _ => ⟨7⟩) (fun _ => ⟨8⟩) exConstU false).2.mean.get 0
        0).val = (exConstU.get 0 0).val + 1 / 2 ^ 56 ∧
    ((exLayerD.apply double_ops (fun _ => ⟨7⟩) (fun _ => ⟨8⟩) exConstU false).2.var.get 0
        0).val = 1 / 2 ^ 112 ∧
    (∀ k, k < exConstU.n →
      ((exLayerD.apply double_ops (fun _ => ⟨7⟩) (fun _ => ⟨8⟩) exConstU false).1.get 0
        k).val = 1 - 625 / 2 ^ 51) ∧
    ((exLayerD.apply double_ops (fun _ => ⟨7⟩) (fun _ => ⟨8⟩) exFiveU false).2.var.get 0
        0).val = 0 ∧
    (∀ k, k < exFiveU.n →
      ((exLayerD.apply double_ops (fun _ => ⟨7⟩) (fun _ => ⟨8⟩) exFiveU false).1.get 0
        k).val = 1) := by
  decide!

end Rounding

/-! ## BatchNormalize: a constant row whose running sum is exact in `double` -/

section RoundingExact

open BatchNormalize

/-- The nest `for i < M: for j < N: for k < K: A(i,j) += f i j k` for an addition without laws:
entry `(i, j)` ends as the running sum of its own row, in the order of `k`. -/
theorem accum3_fold {R : Type} [Add R] (M N K : Nat) (f : Nat → Nat → Nat → R) (A : Matrix R)
    (hN : N ≤ A.n) :
    (forLoop M (fun i A => forLoop N (fun j A =>
      forLoop K (fun k A => A.set i j (A.get i j + f i j k)) A) A) A).m = A.m ∧
    (forLoop M (fun i A => forLoop N (fun j A =>
      forLoop K (fun k A => A.set i j (A.get i j + f i j k)) A) A) A).n = A.n ∧
    ∀ i j, i < M → j < N →
      (forLoop M (fun i A => forLoop N (fun j A =>
        forLoop K (fun k A => A.set i j (A.get i j + f i j k)) A) A) A).get i j
        = forLoop K (fun k x => x + f i j k) (A.get i j) := by
  obtain ⟨h1, h2, h3⟩ := pointwise_forLoop M
    (fun i (A : Matrix R) => forLoop N (fun j A =>
      forLoop K (fun k A => A.set i j (A.get i j + f i j k)) A) A) _
    (fun i => pointwise_forLoop N (fun j (A : Matrix R) =>
      forLoop K (fun k A => A.set i j (A.get i j + f i j k)) A) _
      (fun j => pointwise_forLoop K (fun k (A : Matrix R) => A.set i j (A.get i j + f i j k)) _
        (fun k => pointwise_set i j (fun x => x + f i j k)))) A
  refine ⟨h1, h2, fun i0 j0 hi0 hj0 => ?_⟩
  simp only at h1 h2 h3
  rw [Matrix.get, h2, h3]
  rw [forLoop_single2
    (f := fun i j x => forLoop K
      (fun k x => if i0 * A.n + j0 = i * A.n + j then x + f i j k else x) x)
    i0 j0 hi0 hj0]
  · simp only [if_true]
    rfl
  · intro i j _ hj hne x
    have hne' : ¬ (i0 * A.n + j0 = i * A.n + j) := fun e =>
      hne (by
        obtain ⟨e1, e2⟩ := idx_inj (Nat.lt_of_lt_of_le hj0 hN) (Nat.lt_of_lt_of_le hj hN) e
        exact ⟨e1.symm, e2.symm⟩)
    simp only [hne', if_false]
    exact forLoop_frame (fun _ _ _ => rfl) x

theorem round_double_zero : round_double 0 = 0 := if_pos rfl

theorem representable_round (q : ℚ) (h : representable q) : round_double q = q := by
  rcases h with h | ⟨_, _, h⟩
  · rw [h]
    exact round_double_zero
  · exact h

theorem double_sub_self (c : Double) : c - c = 0 := by
  show (⟨round_double (c.val - c.val)⟩ : Double) = ⟨0⟩
  rw [sub_self, round_double_zero]

theorem double_mul_zero (w : Double) : w * 0 = 0 := by
  show (⟨round_double (w.val * 0)⟩ : Double) = ⟨0⟩
  rw [mul_zero, round_double_zero]

theorem double_zero_div (s : Double) : 0 / s = 0 := by
  show (⟨round_double (0 / s.val)⟩ : Double) = ⟨0⟩
  rw [zero_div, round_double_zero]

theorem double_zero_add (b : Double) (h : representable b.val) : 0 + b = b := by
  show (⟨round_double (0 + b.val)⟩ : Double) = b
  rw [zero_add, representable_round _ h]

/-- The running sum of `n` equal values `c` is `n·c` as long as every multiple on the way is a
value of `double`. -/
theorem double_sum_const (c : Double) (N : Nat)
    (h : ∀ k, 1 ≤ k → k ≤ N → representable ((k : ℚ) * c.val)) (n : Nat) (hn : n ≤ N) :
    forLoop n (fun _ (x : Double) => x + c) 0 = ⟨(n : ℚ) * c.val⟩ := by
  induction n with
  | zero =>
    show (⟨0⟩ : Double) = ⟨((0 : Nat) : ℚ) * c.val⟩
    rw [Nat.cast_zero, zero_mul]
  | succ k ih =>
    rw [forLoop_succ, ih (by omega)]
    show (⟨round_double ((k : ℚ) * c.val + c.val)⟩ : Double) = ⟨((k + 1 : Nat) : ℚ) * c.val⟩
    have e : (k : ℚ) * c.val + c.val = ((k + 1 : Nat) : ℚ) * c.val := by
      push_cast
      ring
    rw [e, representable_round _ (h (k + 1) (by omega) hn)]

theorem double_sum_zero (n : Nat) : forLoop n (fun _ (x : Double) => x + 0) 0 = 0 := by
  induction n with
  | zero => rfl
  | succ k ih =>
    rw [forLoop_succ, ih]
    show (⟨round_double (0 + 0)⟩ : Double) = ⟨0⟩
    rw [add_zero, round_double_zero]

/-- C6 (amended): in the arithmetic of `double`, if all `N > 0` samples of row `i*num_unit + j`
of `U` hold the same value `c`, the multiples `c, 2c, …, N·c` are values of `double` (the running
sum of the row does not round), `N` converts to `double` as it is and the shift `b[0](0,i)` is a
value of `double`, then `apply` stores `var(i,j) = 0` and the output without activation of that
row is the shift `b[0](0,i)` in every sample, for every scale `W[0](0,i)`. -/
theorem apply_constant_row (L : BatchNormalize Double) (gs gr : Nat → Double)
    (U : Matrix Double) (hL : L.WF) (hN : 0 < U.n) (i j : Nat) (hi : i < L.num_map)
    (hj : j < L.num_unit) (c : Double)
    (hc : ∀ k, k < U.n → U.get (i * L.num_unit + j) k = c)
    (hsum : ∀ k, 1 ≤ k → k ≤ U.n → representable ((k : ℚ) * c.val))
    (hcast : representable (U.n : ℚ)) (hb : representable ((vec0 L.b).get 0 i).val) :
    (L.apply double_ops gs gr U false).2.var.get i j = 0 ∧
    ∀ k, k < U.n → (L.apply double_ops gs gr U false).1.get (i * L.num_unit + j) k
      = (vec0 L.b).get 0 i := by
  obtain ⟨z1, z2, z3⟩ := zeros_spec gs L.num_map L.num_unit
  have hN' : (U.n : ℚ) ≠ 0 := Nat.cast_ne_zero.mpr (Nat.pos_iff_ne_zero.mp hN)
  have hrow : ∀ k, k < U.n → U.get (i * L.prev_num_unit + 0 + j) k = c := fun k hk => by
    rw [hL.2.1, Nat.add_zero]
    exact hc k hk
  have hrow' : ∀ k, k < U.n → U.get (i * L.prev_num_unit + j) k = c := fun k hk => by
    rw [hL.2.1]
    exact hc k hk
  have hc1 : representable c.val := by
    have h := hsum 1 (Nat.le_refl 1) hN
    rw [Nat.cast_one, one_mul] at h
    exact h
  -- the mean of the row is `c`
  obtain ⟨a1, a2, a3⟩ := accum3_fold L.num_map L.num_unit U.n
    (fun i j k => U.get (i * L.prev_num_unit + 0 + j) k)
    (Matrix.zeros gs L.num_map L.num_unit) (Nat.le_of_eq z2.symm)
  obtain ⟨d1, d2, d3⟩ := operator_div_assign_spec
    (forLoop L.num_map (fun i A => forLoop L.num_unit (fun j A =>
      forLoop U.n (fun k A =>
        A.set i j (A.get i j + U.get (i * L.prev_num_unit + 0 + j) k)) A) A)
      (Matrix.zeros gs L.num_map L.num_unit)) (U.n : Double)
  have hmean : (apply_mean L 0 L.num_unit U (Matrix.zeros gs L.num_map L.num_unit)).get i j
      = c := by
    have e := d3 i j (by rw [a1, z1]; exact hi) (by rw [a2, z2]; exact hj)
    rw [a3 i j hi hj, z3 i j hi hj,
      forLoop_congr (g := fun _ (x : Double) => x + c) (fun k hk x => by
        show x + U.get (i * L.prev_num_unit + 0 + j) k = x + c
        rw [hrow k hk]),
      double_sum_const c U.n hsum U.n (Nat.le_refl _)] at e
    refine e.trans ?_
    show (⟨round_double ((U.n : ℚ) * c.val / round_double (U.n : ℚ))⟩ : Double) = c
    rw [representable_round _ hcast, mul_div_cancel_left₀ _ hN', representable_round _ hc1]
  have hm1 : (apply_mean L 0 L.num_unit U (Matrix.zeros gs L.num_map L.num_unit)).m
      = L.num_map := d1.trans (a1.trans z1)
  have hm2 : (apply_mean L 0 L.num_unit U (Matrix.zeros gs L.num_map L.num_unit)).n
      = L.num_unit := d2.trans (a2.trans z2)
  -- the variance of the row is `0`
  obtain ⟨b1, b2, b3⟩ := accum3_fold L.num_map L.num_unit U.n
    (fun i j k =>
      (U.get (i * L.prev_num_unit + 0 + j) k
          - (apply_mean L 0 L.num_unit U (Matrix.zeros gs L.num_map L.num_unit)).get i j)
        * (U.get (i * L.prev_num_unit + 0 + j) k
          - (apply_mean L 0 L.num_unit U (Matrix.zeros gs L.num_map L.num_unit)).get i j))
    (Matrix.zeros gs L.num_map L.num_unit) (Nat.le_of_eq z2.symm)
  obtain ⟨v1, v2, v3⟩ := operator_div_assign_spec
    (forLoop L.num_map (fun i A => forLoop L.num_unit (fun j A =>
      forLoop U.n (fun k A =>
        A.set i j (A.get i j
          + (U.get (i * L.prev_num_unit + 0 + j) k
              - (apply_mean L 0 L.num_unit U (Matrix.zeros gs L.num_map L.num_unit)).get i j)
            * (U.get (i * L.prev_num_unit + 0 + j) k
              - (apply_mean L 0 L.num_unit U
                  (Matrix.zeros gs L.num_map L.num_unit)).get i j))) A) A)
      (Matrix.zeros gs L.num_map L.num_unit)) (U.n : Double)
  have hvar : (apply_var L 0 L.num_unit U
      (apply_mean L 0 L.num_unit U (Matrix.zeros gs L.num_map L.num_unit))
      (Matrix.zeros gs L.num_map L.num_unit)).get i j = 0 := by
    have e := v3 i j (by rw [b1, z1]; exact hi) (by rw [b2, z2]; exact hj)
    rw [b3 i j hi hj, z3 i j hi hj,
      forLoop_congr (g := fun _ (x : Double) => x + 0) (fun k hk x => by
        show x + (U.get (i * L.prev_num_unit + 0 + j) k - _)
          * (U.get (i * L.prev_num_unit + 0 + j) k - _) = x + 0
        rw [hrow k hk, hmean, double_sub_self, double_mul_zero]),
      double_sum_zero] at e
    refine e.trans ?_
    exact double_zero_div _
  refine ⟨hvar, fun k hk => ?_⟩
  -- the output of the row is the shift
  obtain ⟨_, _, r3⟩ := assign3_spec L.num_map L.num_unit L.num_unit U.n
    (fun i j k => (vec0 L.W).get 0 i
      * (U.get (i * L.prev_num_unit + j) k
          - (apply_mean L 0 L.num_unit U (Matrix.zeros gs L.num_map L.num_unit)).get i j)
      / double_ops.sqrt ((apply_var L 0 L.num_unit U
          (apply_mean L 0 L.num_unit U (Matrix.zeros gs L.num_map L.num_unit))
          (Matrix.zeros gs L.num_map L.num_unit)).get i j + EPS)
      + (vec0 L.b).get 0 i)
    (Matrix.alloc gr (L.num_map * L.num_unit) U.n) (Nat.le_refl _) (Nat.le_refl _)
  refine (r3 i j k hi hj hk).trans ?_
  show (vec0 L.W).get 0 i * (U.get (i * L.prev_num_unit + j) k - _) / _ + _ = _
  rw [hrow' k hk, hmean, double_sub_self, double_mul_zero, double_zero_div,
    double_zero_add _ hb]

end RoundingExact

/-! ## The build with `USE_MPI`: traps and assertions of `apply` -/

section DistributedChecked

variable {R : Type}

open BatchNormalize

theorem forLoopM_none {σ : Type} (n : Nat) (body : Nat → σ → Option σ) (s : σ) (i : Nat)
    (hi : i < n) (h : ∀ x, body i x = none) : forLoopM n body s = none := by
  induction n with
  | zero => exact absurd hi (Nat.not_lt_zero i)
  | succ k ih =>
    show (forLoopM k body s).bind (body k) = none
    rcases Nat.lt_succ_iff_lt_or_eq.mp hi with h1 | h1
    · rw [ih h1]
      rfl
    · subst h1
      cases forLoopM i body s with
      | none => rfl
      | some x => exact h x

theorem forLoopM3_eq {σ : Type} (inv : σ → Prop) (a b c : Nat)
    (body : Nat → Nat → Nat → σ → Option σ) (f : Nat → Nat → Nat → σ → σ) (s : σ) (h0 : inv s)
    (hstep : ∀ i j k, i < a → j < b → k < c → ∀ x, inv x →
      body i j k x = some (f i j k x) ∧ inv (f i j k x)) :
    forLoopM a (fun i s => forLoopM b (fun j s => forLoopM c (fun k s => body i j k s) s) s) s
      = some (forLoop a (fun i s => forLoop b (fun j s =>
          forLoop c (fun k s => f i j k s) s) s) s) ∧
    inv (forLoop a (fun i s => forLoop b (fun j s => forLoop c (fun k s => f i j k s) s) s) s) :=
  forLoopM_eq_forLoop inv a _ _ s h0 (fun i hi x hx =>
    forLoopM_eq_forLoop inv b _ _ x hx (fun j hj y hy =>
      forLoopM_eq_forLoop inv c _ _ y hy (fun k hk z hz => hstep i j k hi hj hk z hz)))

theorem forLoopM3_none {σ : Type} (a b c : Nat) (body : Nat → Nat → Nat → σ → Option σ) (s : σ)
    (i j k : Nat) (hi : i < a) (hj : j < b) (hk : k < c) (h : ∀ x, body i j k x = none) :
    forLoopM a (fun i s => forLoopM b (fun j s => forLoopM c (fun k s => body i j k s) s) s) s
      = none :=
  forLoopM_none a _ s i hi (fun x => forLoopM_none b _ x j hj (fun y =>
    forLoopM_none c _ y k hk h))

theorem read_out_of_range (A : Matrix R) (i j : Nat) (h : A.m ≤ i) :
    A.read (i : Int) (j : Int) = none := by
  unfold Matrix.read Matrix.operator_call
  rw [if_neg (by omega)]
  rfl

theorem read_row_zero (A : Matrix R) (j : Nat) (hm : 0 < A.m) (hj : j < A.n) :
    A.read 0 (j : Int) = some (A.get 0 j) :=
  read_in_range A 0 j hm hj

theorem operator_call_column_zero (A : Matrix R) (i : Nat) (hi : i < A.m) (hn : 0 < A.n) :
    A.operator_call (i : Int) 0 = some ((i * A.n : Nat) : Int) := by
  rw [operator_call_in_range A (i : Int) 0 (Int.natCast_nonneg i) (by exact_mod_cast hi)
    (le_refl 0) (by exact_mod_cast hn)]
  simp

theorem operator_call_no_row (A : Matrix R) (i : Nat) (hi : A.m ≤ i) :
    A.operator_call (i : Int) 0 = none := by
  unfold Matrix.operator_call
  rw [if_neg (by omega)]

theorem apply_slice_checked_eq (L : BatchNormalize R) (rank nprocs : Nat) (U : Matrix R)
    (hN : 0 < U.n) :
    L.apply_slice_checked rank nprocs U = some (L.apply_slice rank nprocs U) := by
  unfold BatchNormalize.apply_slice_checked BatchNormalize.apply_slice
  simp only []
  rw [if_neg (Nat.pos_iff_ne_zero.mp hN)]

theorem apply_slice_checked_none (L : BatchNormalize R) (rank nprocs : Nat) (U : Matrix R)
    (hN : U.n = 0) : L.apply_slice_checked rank nprocs U = none := by
  unfold BatchNormalize.apply_slice_checked
  simp only []
  rw [if_pos hN]

variable [Field R]

theorem apply_mean_debug_eq (L : BatchNormalize R) (off size : Nat) (U mean : Matrix R)
    (hm : mean.m = L.num_map) (hn : mean.n = size)
    (hrow : ∀ i j, i < L.num_map → j < size → i * L.prev_num_unit + off + j < U.m) :
    apply_mean_debug L off size U mean = some (apply_mean L off size U mean) := by
  have key := forLoopM3_eq (fun x : Matrix R => x.m = L.num_map ∧ x.n = size) L.num_map size U.n
    (fun i j k (mean : Matrix R) =>
      (U.read ((i * L.prev_num_unit + off + j : Nat) : Int) (k : Int)).bind (fun u =>
        (mean.read (i : Int) (j : Int)).bind (fun a => mean.write (i : Int) (j : Int) (a + u))))
    (fun i j k (mean : Matrix R) =>
      mean.set i j (mean.get i j + U.get (i * L.prev_num_unit + off + j) k)) mean ⟨hm, hn⟩
    (fun i j k hi hj hk x hx => by
      have h1 : i < x.m := by rw [hx.1]; exact hi
      have h2 : j < x.n := by rw [hx.2]; exact hj
      simp only []
      rw [read_in_range U _ k (hrow i j hi hj) hk, Option.some_bind, read_in_range x i j h1 h2,
        Option.some_bind, write_in_range x i j _ h1 h2]
      exact ⟨rfl, hx⟩)
  exact congrArg (Option.map (fun mean : Matrix R => mean.operator_div_assign (U.n : R))) key.1

theorem apply_var_debug_eq (L : BatchNormalize R) (off size : Nat) (U mean var : Matrix R)
    (hm : mean.m = L.num_map) (hn : mean.n = size)
    (hvm : var.m = L.num_map) (hvn : var.n = size)
    (hrow : ∀ i j, i < L.num_map → j < size → i * L.prev_num_unit + off + j < U.m) :
    apply_var_debug L off size U mean var = some (apply_var L off size U mean var) := by
  have key := forLoopM3_eq (fun x : Matrix R => x.m = L.num_map ∧ x.n = size) L.num_map size U.n
    (fun i j k (var : Matrix R) =>
      (U.read ((i * L.prev_num_unit + off + j : Nat) : Int) (k : Int)).bind (fun u =>
        (mean.read (i : Int) (j : Int)).bind (fun a =>
          let v := u - a
          (var.read (i : Int) (j : Int)).bind (fun s =>
            var.write (i : Int) (j : Int) (s + v * v)))))
    (fun i j k (var : Matrix R) =>
      let v := U.get (i * L.prev_num_unit + off + j) k - mean.get i j
      var.set i j (var.get i j + v * v)) var ⟨hvm, hvn⟩
    (fun i j k hi hj hk x hx => by
      have h1 : i < x.m := by rw [hx.1]; exact hi
      have h2 : j < x.n := by rw [hx.2]; exact hj
      simp only []
      rw [read_in_range U _ k (hrow i j hi hj) hk, Option.some_bind,
        read_in_range mean i j (by rw [hm]; exact hi) (by rw [hn]; exact hj), Option.some_bind,
        read_in_range x i j h1 h2, Option.some_bind, write_in_range x i j _ h1 h2]
      exact ⟨rfl, hx⟩)
  exact congrArg (Option.map (fun var : Matrix R => var.operator_div_assign (U.n : R))) key.1

theorem apply_ret_debug_eq (ops : RealOps R) (L : BatchNormalize R) (U mean var ret : Matrix R)
    (hL : L.WF) (hm : mean.m = L.num_map) (hn : mean.n = L.num_unit)
    (hvm : var.m = L.num_map) (hvn : var.n = L.num_unit)
    (hrm : ret.m = L.num_map * L.num_unit) (hrn : ret.n = U.n)
    (hrow : ∀ i j, i < L.num_map → j < L.num_unit → i * L.prev_num_unit + j < U.m) :
    apply_ret_debug ops L L.num_unit U mean var ret
      = some (apply_ret ops L L.num_unit U mean var ret) := by
  obtain ⟨_, _, ⟨W0, hW, hW1, hW2⟩, ⟨b0, hb, hb1, hb2⟩⟩ := hL
  have eW : vec0 L.W = W0 := by rw [hW]; rfl
  have eb : vec0 L.b = b0 := by rw [hb]; rfl
  have key := forLoopM3_eq (fun x : Matrix R => x.m = L.num_map * L.num_unit ∧ x.n = U.n)
    L.num_map L.num_unit U.n
    (fun i j k (ret : Matrix R) =>
      ((vec0 L.W).read 0 (i : Int)).bind (fun w =>
        (U.read ((i * L.prev_num_unit + j : Nat) : Int) (k : Int)).bind (fun u =>
          (mean.read (i : Int) (j : Int)).bind (fun a =>
            (var.read (i : Int) (j : Int)).bind (fun s =>
              ((vec0 L.b).read 0 (i : Int)).bind (fun b =>
                ret.write ((i * L.num_unit + j : Nat) : Int) (k : Int)
                  (w * (u - a) / ops.sqrt (s + EPS) + b)))))))
    (fun i j k (ret : Matrix R) =>
      ret.set (i * L.num_unit + j) k
        ((vec0 L.W).get 0 i * (U.get (i * L.prev_num_unit + j) k - mean.get i j)
            / ops.sqrt (var.get i j + EPS) + (vec0 L.b).get 0 i)) ret ⟨hrm, hrn⟩
    (fun i j k hi hj hk x hx => by
      have h1 : i * L.num_unit + j < x.m := by rw [hx.1]; exact idx_lt hi hj
      have h2 : k < x.n := by rw [hx.2]; exact hk
      simp only []
      rw [read_row_zero (vec0 L.W) i (by rw [eW, hW1]; exact Nat.one_pos)
          (by rw [eW, hW2]; exact hi), Option.some_bind,
        read_in_range U _ k (hrow i j hi hj) hk, Option.some_bind,
        read_in_range mean i j (by rw [hm]; exact hi) (by rw [hn]; exact hj), Option.some_bind,
        read_in_range var i j (by rw [hvm]; exact hi) (by rw [hvn]; exact hj), Option.some_bind,
        read_row_zero (vec0 L.b) i (by rw [eb, hb1]; exact Nat.one_pos)
          (by rw [eb, hb2]; exact hi), Option.some_bind,
        write_in_range x _ k _ h1 h2]
      exact ⟨rfl, hx⟩)
  exact key.1

theorem apply_tmp_ret_debug_eq (ops : RealOps R) (L : BatchNormalize R) (off size : Nat)
    (U mean var tmp : Matrix R)
    (hL : L.WF) (hm : mean.m = L.num_map) (hn : mean.n = size)
    (hvm : var.m = L.num_map) (hvn : var.n = size)
    (hrm : tmp.m = L.num_map * size) (hrn : tmp.n = U.n)
    (hrow : ∀ i j, i < L.num_map → j < size → i * L.prev_num_unit + off + j < U.m) :
    apply_tmp_ret_debug ops L off size U mean var tmp
      = some (apply_tmp_ret ops L off size U mean var tmp) := by
  obtain ⟨_, _, ⟨W0, hW, hW1, hW2⟩, ⟨b0, hb, hb1, hb2⟩⟩ := hL
  have eW : vec0 L.W = W0 := by rw [hW]; rfl
  have eb : vec0 L.b = b0 := by rw [hb]; rfl
  have key := forLoopM3_eq (fun x : Matrix R => x.m = L.num_map * size ∧ x.n = U.n)
    L.num_map size U.n
    (fun i j k (tmp_ret : Matrix R) =>
      ((vec0 L.W).read 0 (i : Int)).bind (fun w =>
        (U.read ((i * L.prev_num_unit + off + j : Nat) : Int) (k : Int)).bind (fun u =>
          (mean.read (i : Int) (j : Int)).bind (fun a =>
            (var.read (i : Int) (j : Int)).bind (fun s =>
              ((vec0 L.b).read 0 (i : Int)).bind (fun b =>
                tmp_ret.write ((i * size + j : Nat) : Int) (k : Int)
                  (w * (u - a) / ops.sqrt (s + EPS) + b)))))))
    (fun i j k (tmp_ret : Matrix R) =>
      tmp_ret.set (i * size + j) k
        ((vec0 L.W).get 0 i * (U.get (i * L.prev_num_unit + off + j) k - mean.get i j)
            / ops.sqrt (var.get i j + EPS) + (vec0 L.b).get 0 i)) tmp ⟨hrm, hrn⟩
    (fun i j k hi hj hk x hx => by
      have h1 : i * size + j < x.m := by rw [hx.1]; exact idx_lt hi hj
      have h2 : k < x.n := by rw [hx.2]; exact hk
      simp only []
      rw [read_row_zero (vec0 L.W) i (by rw [eW, hW1]; exact Nat.one_pos)
          (by rw [eW, hW2]; exact hi), Option.some_bind,
        read_in_range U _ k (hrow i j hi hj) hk, Option.some_bind,
        read_in_range mean i j (by rw [hm]; exact hi) (by rw [hn]; exact hj), Option.some_bind,
        read_in_range var i j (by rw [hvm]; exact hi) (by rw [hvn]; exact hj), Option.some_bind,
        read_row_zero (vec0 L.b) i (by rw [eb, hb1]; exact Nat.one_pos)
          (by rw [eb, hb2]; exact hi), Option.some_bind,
        write_in_range x _ k _ h1 h2]
      exact ⟨rfl, hx⟩)
  exact key.1

theorem partition_size_pos (r units P : Nat) (hP : 1 ≤ P) (hPu : P ≤ units) :
    1 ≤ partition_size r units P := by
  unfold partition_size
  have h2 : (r * units + P) / P ≤ (r + 1) * units / P :=
    Nat.div_le_div_right (by rw [Nat.succ_mul]; omega)
  have h3 : (r * units + P) / P = r * units / P + 1 := Nat.add_div_right _ hP
  omega

theorem partition_slice_le (r units P : Nat) (hP : 1 ≤ P) (hr : r < P) :
    partition_offset r units P + partition_size r units P ≤ units := by
  rw [partition_offset_add_size]
  have h := partition_offset_mono' units P (Nat.succ_le_of_lt hr)
  rw [partition_offset_last units P hP] at h
  exact h

theorem slice_row_lt (M units off size i j rows : Nat) (hrows : M * units ≤ rows)
    (hs : off + size ≤ units) (hi : i < M) (hj : j < size) : i * units + off + j < rows := by
  have h : i * units + (off + j) < M * units := idx_lt hi (by omega)
  omega

/-- In a build with assertions the `apply` without `USE_MPI` returns, and returns what the build
without assertions returns, when `U` has the `num_map × num_unit` rows the loops read. -/
theorem apply_checked_eq (ops : RealOps R) (L : BatchNormalize R) (gs gr : Nat → R)
    (U : Matrix R) (use_func : Bool) (hL : L.WF) (hrows : L.num_map * L.num_unit ≤ U.m) :
    L.apply_debug ops gs gr U use_func = some (L.apply ops gs gr U use_func) := by
  obtain ⟨z1, z2, z3⟩ := zeros_spec gs L.num_map L.num_unit
  have hrow : ∀ i j, i < L.num_map → j < L.num_unit → i * L.prev_num_unit + 0 + j < U.m :=
    fun i j hi hj => by
      rw [hL.2.1]
      exact slice_row_lt L.num_map L.num_unit 0 L.num_unit i j U.m hrows (by omega) hi hj
  obtain ⟨a1, a2, _⟩ := apply_mean_gen L 0 L.num_unit U _ z1 z2 z3
  obtain ⟨v1, v2, _⟩ := apply_var_gen L 0 L.num_unit U
    (apply_mean L 0 L.num_unit U (Matrix.zeros gs L.num_map L.num_unit)) _ z1 z2 z3
  unfold BatchNormalize.apply_debug
  simp only []
  rw [apply_mean_debug_eq L 0 L.num_unit U _ z1 z2 hrow, Option.some_bind,
    apply_var_debug_eq L 0 L.num_unit U _ _ a1 a2 z1 z2 hrow, Option.some_bind,
    apply_ret_debug_eq ops L U _ _ (Matrix.alloc gr (L.num_map * L.num_unit) U.n) hL a1 a2
      v1 v2 rfl rfl
      (fun i j hi hj => by have := hrow i j hi hj; omega)]
  rfl

/-- In a build with assertions rank `rank` reaches the collective with the `tmp_ret` and the
statistics of the build without assertions, when `U` has the rows the loops read. -/
theorem apply_local_checked_eq (ops : RealOps R) (L : BatchNormalize R) (rank P : Nat)
    (gs gt : Nat → R) (U : Matrix R) (hL : L.WF) (hP : 1 ≤ P) (hr : rank < P) (hN : 0 < U.n)
    (hrows : L.num_map * L.num_unit ≤ U.m) :
    apply_local_debug ops L rank P gs gt U = some (apply_local ops L rank P gs gt U) := by
  obtain ⟨s1, s2⟩ := apply_slice_eq L U rank P hr hN
  have hs := partition_slice_le rank L.num_unit P hP hr
  rw [← s1, ← s2] at hs
  obtain ⟨z1, z2, z3⟩ := zeros_spec gs L.num_map (L.apply_slice rank P U).2.1
  have hrow : ∀ i j, i < L.num_map → j < (L.apply_slice rank P U).2.1 →
      i * L.prev_num_unit + (L.apply_slice rank P U).1 + j < U.m :=
    fun i j hi hj => by
      rw [hL.2.1]
      exact slice_row_lt L.num_map L.num_unit _ _ i j U.m hrows hs hi hj
  obtain ⟨a1, a2, _⟩ := apply_mean_gen L (L.apply_slice rank P U).1
    (L.apply_slice rank P U).2.1 U _ z1 z2 z3
  obtain ⟨v1, v2, _⟩ := apply_var_gen L (L.apply_slice rank P U).1
    (L.apply_slice rank P U).2.1 U
    (apply_mean L (L.apply_slice rank P U).1 (L.apply_slice rank P U).2.1 U
      (Matrix.zeros gs L.num_map (L.apply_slice rank P U).2.1)) _ z1 z2 z3
  unfold BatchNormalize.apply_local_debug
  rw [apply_slice_checked_eq L rank P U hN, Option.some_bind]
  simp only []
  rw [apply_mean_debug_eq L _ _ U _ z1 z2 hrow, Option.some_bind,
    apply_var_debug_eq L _ _ U _ _ a1 a2 z1 z2 hrow, Option.some_bind,
    apply_tmp_ret_debug_eq ops L _ _ U _ _
      (Matrix.alloc gt (L.num_map * (L.apply_slice rank P U).2.1) U.n) hL a1 a2 v1 v2 rfl rfl
      hrow]
  rfl

theorem allgatherv_debug_eq {α : Type} (P : Nat) (send : Nat → Option (Nat → α))
    (sb : Nat → Nat → α) (buf : Nat → α) (base : Nat) (counts displs : Nat → Nat)
    (h : ∀ r, r < P → send r = some (sb r)) :
    MPI_Allgatherv_debug P send buf base counts displs
      = some (MPI_Allgatherv P sb buf base counts displs) := by
  have key := forLoopM_eq_forLoop (fun _ : Nat → α => True) P
    (fun r (recvbuf : Nat → α) => (send r).map (fun (b : Nat → α) =>
      forLoop (counts r) (fun e (recvbuf : Nat → α) =>
        Function.update recvbuf (base + displs r + e) (b e)) recvbuf))
    (fun r (recvbuf : Nat → α) => forLoop (counts r) (fun e (recvbuf : Nat → α) =>
      Function.update recvbuf (base + displs r + e) (sb r e)) recvbuf) buf trivial
    (fun r hr x _ => by
      beta_reduce
      rw [h r hr]
      exact ⟨rfl, trivial⟩)
  exact key.1

theorem allgatherv_debug_none {α : Type} (P : Nat) (send : Nat → Option (Nat → α))
    (buf : Nat → α) (base : Nat) (counts displs : Nat → Nat) (r : Nat) (hr : r < P)
    (h : send r = none) : MPI_Allgatherv_debug P send buf base counts displs = none :=
  forLoopM_none P _ buf r hr (fun x => by
    rw [h]
    rfl)

/-- What rank `r` hands to the collective of channel `i` in a build with assertions, when its
slice is not empty: the elements of `tmp_ret` from position `i*my_size*n` on. -/
theorem apply_send_eq (ops : RealOps R) (L : BatchNormalize R) (r P : Nat) (gs gt : Nat → R)
    (U : Matrix R) (i : Nat) (hL : L.WF) (hP : 1 ≤ P) (hr : r < P) (hN : 0 < U.n)
    (hrows : L.num_map * L.num_unit ≤ U.m) (hPu : P ≤ L.num_unit) (hi : i < L.num_map) :
    apply_send ops L r P gs gt U i
      = some (fun e => (apply_local ops L r P gs gt U).1.v
          (i * (L.apply_slice r P U).2.1 * (apply_local ops L r P gs gt U).1.n + e)) := by
  obtain ⟨_, s2⟩ := apply_slice_eq L U r P hr hN
  obtain ⟨t1, t2, _⟩ := apply_local_tmp_ret ops L r P gs gt U hL hr hN
  have hpos := partition_size_pos r L.num_unit P hP hPu
  have hrow : i * (L.apply_slice r P U).2.1 < (apply_local ops L r P gs gt U).1.m := by
    rw [t1, s2]
    have := idx_lt hi hpos
    omega
  unfold BatchNormalize.apply_send
  rw [apply_slice_checked_eq L r P U hN, Option.some_bind,
    apply_local_checked_eq ops L r P gs gt U hL hP hr hN hrows, Option.some_bind,
    operator_call_column_zero _ (i * (L.apply_slice r P U).2.1) hrow (by rw [t2]; exact hN)]
  simp only [Option.map_some', Int.toNat_ofNat]

/-- In a build with assertions the `apply` of the build with `USE_MPI` returns, and returns what
the build without assertions returns, when no slice is empty and `U` has the rows the loops
read. -/
theorem apply_mpi_checked_eq (ops : RealOps R) (L : BatchNormalize R) (rank P : Nat)
    (gs gt : Nat → Nat → R) (gr : Nat → R) (U : Matrix R) (use_func : Bool) (hL : L.WF)
    (hP : 1 ≤ P) (hr : rank < P) (hN : 0 < U.n) (hrows : L.num_map * L.num_unit ≤ U.m)
    (hPu : P ≤ L.num_unit) :
    apply_mpi_debug ops L rank P gs gt gr U use_func
      = some (apply_mpi ops L rank P gs gt gr U use_func) := by
  have hnu : 0 < L.num_unit := Nat.lt_of_lt_of_le hP hPu
  have key := forLoopM_eq_forLoop
    (fun ret : Matrix R => ret.m = L.num_map * L.num_unit ∧ ret.n = U.n) L.num_map
    (fun i (ret : Matrix R) =>
      (ret.operator_call ((i * L.num_unit : Nat) : Int) 0).bind (fun p =>
        (MPI_Allgatherv_debug P (fun r => apply_send ops L r P (gs r) (gt r) U i) ret.v p.toNat
          (L.apply_slice rank P U).2.2.1 (L.apply_slice rank P U).2.2.2).map
          (fun v => (⟨ret.m, ret.n, v⟩ : Matrix R))))
    (fun i (ret : Matrix R) =>
      ⟨ret.m, ret.n, MPI_Allgatherv P
        (fun r e =>
          (apply_local ops L r P (gs r) (gt r) U).1.v
            (i * (L.apply_slice r P U).2.1
              * (apply_local ops L r P (gs r) (gt r) U).1.n + e))
        ret.v (i * L.num_unit * ret.n) (L.apply_slice rank P U).2.2.1
        (L.apply_slice rank P U).2.2.2⟩)
    (Matrix.alloc gr (L.num_map * L.num_unit) U.n) ⟨rfl, rfl⟩
    (fun i hi x hx => by
      have hrow : i * L.num_unit < x.m := by
        rw [hx.1]
        have := idx_lt hi hnu
        omega
      refine ⟨?_, hx⟩
      simp only []
      rw [operator_call_column_zero x (i * L.num_unit) hrow (by rw [hx.2]; exact hN),
        Option.some_bind,
        allgatherv_debug_eq P _
          (fun r e =>
            (apply_local ops L r P (gs r) (gt r) U).1.v
              (i * (L.apply_slice r P U).2.1
                * (apply_local ops L r P (gs r) (gt r) U).1.n + e)) _ _ _ _
          (fun r hr' => apply_send_eq ops L r P (gs r) (gt r) U i hL hP hr' hN hrows hPu hi)]
      simp only [Option.map_some', Int.toNat_ofNat])
  unfold BatchNormalize.apply_mpi_debug
  rw [apply_slice_checked_eq L rank P U hN, Option.some_bind]
  simp only []
  rw [apply_local_checked_eq ops L rank P (gs rank) (gt rank) U hL hP hr hN hrows,
    Option.some_bind, key.1]
  rfl

theorem apply_mean_debug_none (L : BatchNormalize R) (off size : Nat) (U mean : Matrix R)
    (i j : Nat) (hi : i < L.num_map) (hj : j < size) (hN : 0 < U.n)
    (hrow : U.m ≤ i * L.prev_num_unit + off + j) :
    apply_mean_debug L off size U mean = none := by
  have key := forLoopM3_none L.num_map size U.n
    (fun i j k (mean : Matrix R) =>
      (U.read ((i * L.prev_num_unit + off + j : Nat) : Int) (k : Int)).bind (fun u =>
        (mean.read (i : Int) (j : Int)).bind (fun a => mean.write (i : Int) (j : Int) (a + u))))
    mean i j 0 hi hj hN (fun x => by
      simp only []
      rw [read_out_of_range U _ 0 hrow]
      rfl)
  exact congrArg (Option.map (fun mean : Matrix R => mean.operator_div_assign (U.n : R))) key

theorem last_row_ge (M units off size rows : Nat) (h : rows < M * units)
    (hs : off + size = units) (hsz : 1 ≤ size) :
    M - 1 < M ∧ size - 1 < size ∧ rows ≤ (M - 1) * units + off + (size - 1) := by
  have hM : 1 ≤ M := by
    rcases Nat.eq_zero_or_pos M with h0 | h0
    · rw [h0, Nat.zero_mul] at h
      omega
    · exact h0
  have e : (M - 1) * units + units = M * units := by
    have e1 : M - 1 + 1 = M := by omega
    rw [← Nat.succ_mul, Nat.succ_eq_add_one, e1]
  omega

/-- In a build with assertions the `apply` without `USE_MPI` aborts on a non-empty batch `U`
with fewer than `num_map × num_unit` rows. -/
theorem apply_checked_none (ops : RealOps R) (L : BatchNormalize R) (gs gr : Nat → R)
    (U : Matrix R) (use_func : Bool) (hL : L.WF) (hN : 0 < U.n) (hnu : 1 ≤ L.num_unit)
    (hrows : U.m < L.num_map * L.num_unit) :
    L.apply_debug ops gs gr U use_func = none := by
  obtain ⟨h1, h2, h3⟩ := last_row_ge L.num_map L.num_unit 0 L.num_unit U.m hrows
    (Nat.zero_add _) hnu
  unfold BatchNormalize.apply_debug
  simp only []
  rw [apply_mean_debug_none L 0 L.num_unit U _ (L.num_map - 1) (L.num_unit - 1) h1 h2 hN
    (by rw [hL.2.1]; exact h3)]
  rfl

theorem apply_local_checked_none (ops : RealOps R) (L : BatchNormalize R) (P : Nat)
    (gs gt : Nat → R) (U : Matrix R) (hL : L.WF) (hP : 1 ≤ P) (hPu : P ≤ L.num_unit)
    (hN : 0 < U.n) (hrows : U.m < L.num_map * L.num_unit) :
    apply_local_debug ops L (P - 1) P gs gt U = none := by
  have hr : P - 1 < P := by omega
  obtain ⟨s1, s2⟩ := apply_slice_eq L U (P - 1) P hr hN
  have hsum : (L.apply_slice (P - 1) P U).1 + (L.apply_slice (P - 1) P U).2.1 = L.num_unit := by
    rw [s1, s2, partition_offset_add_size, show P - 1 + 1 = P by omega,
      partition_offset_last _ _ hP]
  have hpos : 1 ≤ (L.apply_slice (P - 1) P U).2.1 := by
    rw [s2]
    exact partition_size_pos _ _ _ hP hPu
  obtain ⟨h1, h2, h3⟩ := last_row_ge L.num_map L.num_unit _ _ U.m hrows hsum hpos
  unfold BatchNormalize.apply_local_debug
  rw [apply_slice_checked_eq L (P - 1) P U hN, Option.some_bind]
  simp only []
  rw [apply_mean_debug_none L _ _ U _ (L.num_map - 1) ((L.apply_slice (P - 1) P U).2.1 - 1)
    h1 h2 hN (by rw [hL.2.1]; exact h3)]
  rfl

/-- In a build with assertions the `apply` of the build with `USE_MPI` aborts on a non-empty
batch `U` with fewer than `num_map × num_unit` rows: the rank of the last slice does not reach
the collective. -/
theorem apply_mpi_checked_none (ops : RealOps R) (L : BatchNormalize R) (rank P : Nat)
    (gs gt : Nat → Nat → R) (gr : Nat → R) (U : Matrix R) (use_func : Bool) (hL : L.WF)
    (hP : 1 ≤ P) (hN : 0 < U.n) (hPu : P ≤ L.num_unit)
    (hrows : U.m < L.num_map * L.num_unit) :
    apply_mpi_debug ops L rank P gs gt gr U use_func = none := by
  have hM : 0 < L.num_map := by
    rcases Nat.eq_zero_or_pos L.num_map with h0 | h0
    · rw [h0, Nat.zero_mul] at hrows
      omega
    · exact h0
  have hsend : ∀ i, apply_send ops L (P - 1) P (gs (P - 1)) (gt (P - 1)) U i = none := by
    intro i
    unfold BatchNormalize.apply_send
    rw [apply_slice_checked_eq L (P - 1) P U hN, Option.some_bind,
      apply_local_checked_none ops L P _ _ U hL hP hPu hN hrows]
    rfl
  have hloop : ∀ ret : Matrix R, forLoopM L.num_map (fun i (ret : Matrix R) =>
      (ret.operator_call ((i * L.num_unit : Nat) : Int) 0).bind (fun p =>
        (MPI_Allgatherv_debug P (fun r => apply_send ops L r P (gs r) (gt r) U i) ret.v p.toNat
          (L.apply_slice rank P U).2.2.1 (L.apply_slice rank P U).2.2.2).map
          (fun v => (⟨ret.m, ret.n, v⟩ : Matrix R)))) ret = none :=
    fun ret => forLoopM_none L.num_map _ ret 0 hM (fun x => by
      cases x.operator_call ((0 * L.num_unit : Nat) : Int) 0 with
      | none => rfl
      | some p =>
        rw [Option.some_bind, allgatherv_debug_none P _ _ _ _ _ (P - 1) (by omega) (hsend 0)]
        rfl)
  unfold BatchNormalize.apply_mpi_debug
  rw [apply_slice_checked_eq L rank P U hN, Option.some_bind]
  simp only []
  cases apply_local_debug ops L rank P (gs rank) (gt rank) U with
  | none => rfl
  | some loc =>
    rw [Option.some_bind, hloop]
    rfl

/-- C14 (counterexample): on the empty batch `exEmptyBatch` (`U.n = 0`) the `apply` of the build
with `USE_MPI` has no result with one worker, with and without assertions (the `int` division by
`U.n` traps), while the `apply` without `USE_MPI` returns, a matrix of `num_map × num_unit` rows
and no column; and for `exLayerOne`, a layer of one unit, with two workers and the batch
`exOneU` of two samples, the `apply` of the build with `USE_MPI` and assertions has no result on
either rank (the slice of rank `0` is empty and `tmp_ret(0,0)` fails its assertion), while it
returns without assertions and the `apply` without `USE_MPI` returns. -/
theorem apply_mpi_aborts :
    ((exEmptyBatch.n = 0 ∧
        (apply_mpi_ndebug exOps (exLayer ℚ) 0 1 (fun _ _ => 7) (fun _ _ => 8) (fun _ => 9)
          exEmptyBatch false).isSome = false ∧
        (apply_mpi_debug exOps (exLayer ℚ) 0 1 (fun _ _ => 7) (fun _ _ => 8) (fun _ => 9)
          exEmptyBatch false).isSome = false) ∧
      ((exLayer ℚ).apply_debug exOps (fun _ => 7) (fun _ => 9) exEmptyBatch false).isSome
        = true ∧
      ((exLayer ℚ).apply exOps (fun _ => 7) (fun _ => 9) exEmptyBatch false).1.m = 2 ∧
      ((exLayer ℚ).apply exOps (fun _ => 7) (fun _ => 9) exEmptyBatch false).1.n = 0) ∧
    ((exLayerOne.WF ∧ 0 < exOneU.n ∧ exLayerOne.num_map * exLayerOne.num_unit ≤ exOneU.m ∧
        exLayerOne.num_unit < 2 ∧ partition_size 0 exLayerOne.num_unit 2 = 0) ∧
      (apply_mpi_debug exOps exLayerOne 0 2 (fun _ _ => 7) (fun _ _ => 8) (fun _ => 9)
        exOneU false).isSome = false ∧
      (apply_mpi_debug exOps exLayerOne 1 2 (fun _ _ => 7) (fun _ _ => 8) (fun _ => 9)
        exOneU false).isSome = false ∧
      (apply_mpi_ndebug exOps exLayerOne 1 2 (fun _ _ => 7) (fun _ _ => 8) (fun _ => 9)
        exOneU false).isSome = true ∧
      (exLayerOne.apply_debug exOps (fun _ => 7) (fun _ => 9) exOneU false).isSome = true) :=
  ⟨⟨⟨rfl, by decide!, by decide!⟩, by decide!, by decide!, by decide!⟩,
    ⟨⟨rfl, rfl, ⟨_, rfl, rfl, rfl⟩, ⟨_, rfl, rfl, rfl⟩⟩, by decide, by decide, by decide,
      by decide⟩, by decide!, by decide!, by decide!, by decide!⟩

/-- C14 (amended): for every worker count `P ≥ 1` and every input `U` with batch size
`U.n > 0`.  In a build without assertions the `apply` of the build with `USE_MPI` returns; it
places, for each rank `r` and channel `i`, row `i*my_size(r) + j` of that rank's `tmp_ret` at
row `i*num_unit + my_offset(r) + j` of `ret`, and the matrix so assembled has the shape and the
entries of the matrix the `apply` without partitioning returns, also after the activation; for
`P = 1` the slice is the whole range (`my_offset = 0`, `my_size = num_unit`).  In a build with
assertions the same holds on every rank when `P ≤ num_unit` (no slice is empty): the `apply` of
the build with `USE_MPI` returns exactly when the `apply` without `USE_MPI` returns, that is when
`U` has the `num_map × num_unit` rows the loops read, and both then return what they return
without assertions. -/
theorem apply_mpi_eq_apply (ops : RealOps R) (L : BatchNormalize R) (rank P : Nat)
    (gs gt : Nat → Nat → R) (gr gs' gr' : Nat → R) (U : Matrix R) (hL : L.WF) (hP : 1 ≤ P)
    (hN : 0 < U.n) :
    ((∀ use_func, apply_mpi_ndebug ops L rank P gs gt gr U use_func
        = some (apply_mpi ops L rank P gs gt gr U use_func)) ∧
      (∀ i r j k, i < L.num_map → r < P → j < partition_size r L.num_unit P → k < U.n →
        (apply_mpi ops L rank P gs gt gr U false).1.get
            (i * L.num_unit + (partition_offset r L.num_unit P + j)) k
          = (apply_local ops L r P (gs r) (gt r) U).1.get
              (i * partition_size r L.num_unit P + j) k) ∧
      (apply_mpi ops L rank P gs gt gr U false).1.m = (L.apply ops gs' gr' U false).1.m ∧
      (apply_mpi ops L rank P gs gt gr U false).1.n = (L.apply ops gs' gr' U false).1.n ∧
      (∀ i u k, i < L.num_map → u < L.num_unit → k < U.n →
        (apply_mpi ops L rank P gs gt gr U false).1.get (i * L.num_unit + u) k
          = (L.apply ops gs' gr' U false).1.get (i * L.num_unit + u) k) ∧
      (apply_mpi ops L rank P gs gt gr U true).1
        = L.func (apply_mpi ops L rank P gs gt gr U false).1 false ∧
      ((L.apply_slice 0 1 U).1 = 0 ∧ (L.apply_slice 0 1 U).2.1 = L.num_unit)) ∧
    (rank < P → P ≤ L.num_unit →
      (L.num_map * L.num_unit ≤ U.m → ∀ use_func,
        apply_mpi_debug ops L rank P gs gt gr U use_func
          = some (apply_mpi ops L rank P gs gt gr U use_func) ∧
        L.apply_debug ops gs' gr' U use_func = some (L.apply ops gs' gr' U use_func)) ∧
      (U.m < L.num_map * L.num_unit → ∀ use_func,
        apply_mpi_debug ops L rank P gs gt gr U use_func = none ∧
        L.apply_debug ops gs' gr' U use_func = none)) := by
  refine ⟨⟨fun use_func => ?_, apply_mpi_entries ops L rank P gs gt gr gs' gr' U hL hP hN⟩,
    fun hr hPu => ⟨fun hrows use_func =>
      ⟨apply_mpi_checked_eq ops L rank P gs gt gr U use_func hL hP hr hN hrows hPu,
        apply_checked_eq ops L gs' gr' U use_func hL hrows⟩,
      fun hrows use_func =>
        ⟨apply_mpi_checked_none ops L rank P gs gt gr U use_func hL hP hN hPu hrows,
          apply_checked_none ops L gs' gr' U use_func hL hN (le_trans hP hPu) hrows⟩⟩⟩
  unfold BatchNormalize.apply_mpi_ndebug
  rw [apply_slice_checked_eq L rank P U hN]
  rfl

end DistributedChecked

/-! ## Instances of the theorems at concrete data -/

section Instances

open BatchNormalize

theorem ctor_WF {R : Type} [Zero R] (gW gb : Nat → R) (pf f : Matrix R → Bool → Matrix R)
    (prev_num_map prev_num_unit : Nat) :
    (BatchNormalize.ctor gW gb pf prev_num_map prev_num_unit f).WF :=
  ⟨rfl, rfl, ⟨_, rfl, rfl, rfl⟩, ⟨_, rfl, rfl, rfl⟩⟩

theorem exLayer_WF (R : Type) [Field R] : (exLayer R).WF := ctor_WF _ _ _ _ _ _

/-- Instance of C1 at the `2 × 1` matrix `[[0],[1]]` and the `1 × 1` matrix `[[1]]`. -/
theorem operator_mul_spec_witness :
    ((Matrix.ofList 2 1 [(0 : ℚ), 1]).m = 2 ∧ (Matrix.ofList 2 1 [(0 : ℚ), 1]).n = 1) ∧
    ((Matrix.ofList 1 1 [(1 : ℚ)]).m = 1 ∧ (Matrix.ofList 1 1 [(1 : ℚ)]).n = 1) ∧
    (Matrix.operator_mul (fun _ => 7) (Matrix.ofList 2 1 [(0 : ℚ), 1])
        (Matrix.ofList 1 1 [1])).get 1 0
      = ∑ k ∈ Finset.range 1,
          (Matrix.ofList 2 1 [(0 : ℚ), 1]).get 1 k * (Matrix.ofList 1 1 [(1 : ℚ)]).get k 0 :=
  ⟨⟨rfl, rfl⟩, ⟨rfl, rfl⟩,
    (operator_mul_spec (fun _ => 7) (Matrix.ofList 2 1 [(0 : ℚ), 1]) (Matrix.ofList 1 1 [1])
      2 1 1 ⟨rfl, rfl⟩ ⟨rfl, rfl⟩).1.2.2 1 0 (by decide) (by decide)⟩

/-- Instance of C4 at `exLayer`, `exU`, channel `0`, unit `1`. -/
theorem apply_mean_var_witness :
    (exLayer ℚ).WF ∧ 0 < (exU ℚ).n ∧ 0 < (exLayer ℚ).num_map ∧ 1 < (exLayer ℚ).num_unit ∧
    (((exLayer ℚ).apply exOps (fun _ => 7) (fun _ => 8) (exU ℚ) false).2.mean.get 0 1
        = 1 / ((exU ℚ).n : ℚ)
            * ∑ k ∈ Finset.range (exU ℚ).n, (exU ℚ).get (0 * (exLayer ℚ).num_unit + 1) k ∧
      ((exLayer ℚ).apply exOps (fun _ => 7) (fun _ => 8) (exU ℚ) false).2.var.get 0 1
        = 1 / ((exU ℚ).n : ℚ)
            * ∑ k ∈ Finset.range (exU ℚ).n,
                ((exU ℚ).get (0 * (exLayer ℚ).num_unit + 1) k
                  - ((exLayer ℚ).apply exOps (fun _ => 7) (fun _ => 8) (exU ℚ)
                      false).2.mean.get 0 1) ^ 2) :=
  ⟨exLayer_WF ℚ, by decide, by decide, by decide,
    apply_mean_var exOps (exLayer ℚ) (fun _ => 7) (fun _ => 8) (exU ℚ) false (exLayer_WF ℚ)
      (by decide) 0 1 (by decide) (by decide)⟩

/-- Instance of C5 at `exLayer` and `exU`: the shape of the output. -/
theorem apply_output_witness :
    (exLayer ℚ).WF ∧
    ((exLayer ℚ).apply exOps (fun _ => 7) (fun _ => 8) (exU ℚ) false).1.m
      = (exLayer ℚ).num_map * (exLayer ℚ).num_unit ∧
    ((exLayer ℚ).apply exOps (fun _ => 7) (fun _ => 8) (exU ℚ) false).1.n = (exU ℚ).n ∧
    ((exLayer ℚ).apply exOps (fun _ => 7) (fun _ => 8) (exU ℚ) true).1
      = (exLayer ℚ).func
          ((exLayer ℚ).apply exOps (fun _ => 7) (fun _ => 8) (exU ℚ) false).1 false :=
  ⟨exLayer_WF ℚ,
    (apply_output exOps (exLayer ℚ) (fun _ => 7) (fun _ => 8) (exU ℚ) (exLayer_WF ℚ)).1,
    (apply_output exOps (exLayer ℚ) (fun _ => 7) (fun _ => 8) (exU ℚ) (exLayer_WF ℚ)).2.1,
    (apply_output exOps (exLayer ℚ) (fun _ => 7) (fun _ => 8) (exU ℚ)
      (exLayer_WF ℚ)).2.2.2.2⟩

/-- Instance of the constant row in exact arithmetic: unit `0` of `exU` holds `5` in every
sample; with scale `2` and shift `1` the variance is `0` and the output is the shift `1` in
every sample. -/
theorem apply_constant_row_exact_witness :
    (exLayer ℚ).WF ∧ 0 < (exU ℚ).n ∧
    (∀ k, k < (exU ℚ).n → (exU ℚ).get (0 * (exLayer ℚ).num_unit + 0) k = 5) ∧
    (vec0 (exLayer ℚ).W).get 0 0 = 2 ∧ (vec0 (exLayer ℚ).b).get 0 0 = 1 ∧
    ((exLayer ℚ).apply exOps (fun _ => 7) (fun _ => 8) (exU ℚ) false).2.var.get 0 0 = 0 ∧
    ∀ k, k < (exU ℚ).n →
      ((exLayer ℚ).apply exOps (fun _ => 7) (fun _ => 8) (exU ℚ) false).1.get
          (0 * (exLayer ℚ).num_unit + 0) k = (vec0 (exLayer ℚ).b).get 0 0 :=
  have hc : ∀ k, k < (exU ℚ).n → (exU ℚ).get (0 * (exLayer ℚ).num_unit + 0) k = 5 := by
    intro k hk
    have hk3 : k < 3 := hk
    interval_cases k <;> rfl
  ⟨exLayer_WF ℚ, by decide, hc, rfl, rfl,
    apply_constant_row_exact exOps (exLayer ℚ) (fun _ => 7) (fun _ => 8) (exU ℚ)
      (exLayer_WF ℚ) (by decide) 0 0 (by decide) (by decide) 5 hc⟩

/-- Instance of C6 (amended) at the layer `exLayerD` on `double` and the three samples `5.0` of
`exFiveU`: the multiples `5, 10, 15` are values of `double`; with scale `2` and shift `1` the
variance is `0` and the output is the shift `1` in every sample. -/
theorem apply_constant_row_witness :
    exLayerD.WF ∧ 0 < exFiveU.n ∧
    (∀ k, k < exFiveU.n → exFiveU.get (0 * exLayerD.num_unit + 0) k = ⟨5⟩) ∧
    (∀ k, 1 ≤ k → k ≤ exFiveU.n → representable ((k : ℚ) * (⟨5⟩ : Double).val)) ∧
    representable (exFiveU.n : ℚ) ∧ representable ((vec0 exLayerD.b).get 0 0).val ∧
    ((vec0 exLayerD.W).get 0 0).val = 2 ∧ ((vec0 exLayerD.b).get 0 0).val = 1 ∧
    (exLayerD.apply double_ops (fun _ => ⟨7⟩) (fun _ => ⟨8⟩) exFiveU false).2.var.get 0 0 = 0 ∧
    ∀ k, k < exFiveU.n →
      (exLayerD.apply double_ops (fun _ => ⟨7⟩) (fun _ => ⟨8⟩) exFiveU false).1.get
          (0 * exLayerD.num_unit + 0) k = (vec0 exLayerD.b).get 0 0 :=
  have hL : exLayerD.WF := ⟨rfl, rfl, ⟨_, rfl, rfl, rfl⟩, ⟨_, rfl, rfl, rfl⟩⟩
  have hc : ∀ k, k < exFiveU.n → exFiveU.get (0 * exLayerD.num_unit + 0) k = ⟨5⟩ := by
    intro k hk
    have hk3 : k < 3 := hk
    interval_cases k <;> decide!
  have hsum : ∀ k, 1 ≤ k → k ≤ exFiveU.n →
      representable ((k : ℚ) * (⟨5⟩ : Double).val) := by
    intro k h1 hk
    have hk3 : k ≤ 3 := hk
    interval_cases k <;> decide!
  have hcast : representable (exFiveU.n : ℚ) := by decide!
  have hb : representable ((vec0 exLayerD.b).get 0 0).val := by decide!
  ⟨hL, by decide, hc, hsum, hcast, hb, rfl, rfl,
    apply_constant_row exLayerD (fun _ => ⟨7⟩) (fun _ => ⟨8⟩) exFiveU hL (by decide) 0 0
      (by decide) (by decide) ⟨5⟩ hc hsum hcast hb⟩

/-- Instance of C7 at `exLayer`, `exU`, `exDelta`: the shape of the returned matrix. -/
theorem calc_delta_spec_witness :
    (exLayer ℚ).WF ∧ 0 < (exU ℚ).n ∧ (exDelta ℚ).n = (exU ℚ).n ∧
    ((exLayer ℚ).calc_delta exOps (fun _ => 7) (exU ℚ) (exDelta ℚ)).m
      = (exLayer ℚ).prev_num_map * (exLayer ℚ).prev_num_unit ∧
    ((exLayer ℚ).calc_delta exOps (fun _ => 7) (exU ℚ) (exDelta ℚ)).n = (exU ℚ).n :=
  ⟨exLayer_WF ℚ, by decide, rfl,
    (calc_delta_spec exOps (exLayer ℚ) (fun _ => 7) (exU ℚ) (exDelta ℚ) (exLayer_WF ℚ)
      (by decide) rfl).1,
    (calc_delta_spec exOps (exLayer ℚ) (fun _ => 7) (exU ℚ) (exDelta ℚ) (exLayer_WF ℚ)
      (by decide) rfl).2.1⟩

/-- Instance of C8 at `exLayer`, `exU`, `exDelta`: the gradients are one-element vectors. -/
theorem calc_gradient_spec_witness :
    (exLayer ℚ).WF ∧
    ∃ dW0 db0, (exLayer ℚ).calc_gradient exOps (fun _ => 7) (fun _ => 8) (exU ℚ) (exDelta ℚ)
        = ([dW0], [db0]) ∧
      (dW0.m = 1 ∧ dW0.n = (exLayer ℚ).num_map) ∧ (db0.m = 1 ∧ db0.n = (exLayer ℚ).num_map) :=
  ⟨exLayer_WF ℚ,
    (calc_gradient_spec exOps (exLayer ℚ) (fun _ => 7) (fun _ => 8) (exU ℚ) (exDelta ℚ)
      (exLayer_WF ℚ)).imp (fun _ h => h.imp (fun _ h' => ⟨h'.1, h'.2.1, h'.2.2.1⟩))⟩

/-- Instance of C10 at `exLayer` with `dW = [[3]]`, `db = [[4]]`. -/
theorem update_W_spec_witness :
    (exLayer ℚ).WF ∧
    ((vec0 [Matrix.ofList 1 1 [(3 : ℚ)]]).m = 1 ∧
      (vec0 [Matrix.ofList 1 1 [(3 : ℚ)]]).n = (exLayer ℚ).num_map) ∧
    ((vec0 [Matrix.ofList 1 1 [(4 : ℚ)]]).m = 1 ∧
      (vec0 [Matrix.ofList 1 1 [(4 : ℚ)]]).n = (exLayer ℚ).num_map) ∧
    ((exLayer ℚ).update_W [Matrix.ofList 1 1 [3]] [Matrix.ofList 1 1 [4]]).mean
      = (exLayer ℚ).mean ∧
    ((exLayer ℚ).update_W [Matrix.ofList 1 1 [3]] [Matrix.ofList 1 1 [4]]).var
      = (exLayer ℚ).var ∧
    (vec0 ((exLayer ℚ).update_W [Matrix.ofList 1 1 [3]] [Matrix.ofList 1 1 [4]]).W).get 0 0
      = (vec0 (exLayer ℚ).W).get 0 0 + (vec0 [Matrix.ofList 1 1 [(3 : ℚ)]]).get 0 0 :=
  ⟨exLayer_WF ℚ, ⟨rfl, rfl⟩, ⟨rfl, rfl⟩,
    (update_W_spec (exLayer ℚ) [Matrix.ofList 1 1 [3]] [Matrix.ofList 1 1 [4]] (exLayer_WF ℚ)
      ⟨rfl, rfl⟩ ⟨rfl, rfl⟩).2.2.2.1,
    (update_W_spec (exLayer ℚ) [Matrix.ofList 1 1 [3]] [Matrix.ofList 1 1 [4]] (exLayer_WF ℚ)
      ⟨rfl, rfl⟩ ⟨rfl, rfl⟩).2.2.2.2,
    ((update_W_spec (exLayer ℚ) [Matrix.ofList 1 1 [3]] [Matrix.ofList 1 1 [4]] (exLayer_WF ℚ)
      ⟨rfl, rfl⟩ ⟨rfl, rfl⟩).1 0 (by decide)).1⟩

/-- Instance of C9 at `exLayer`, `exU`, `exDelta` over the reals: the entry of `calc_delta` for
unit `1`, sample `2` is the partial derivative of the loss. -/
theorem backward_is_gradient_witness :
    (exLayer ℝ).WF ∧ 0 < (exU ℝ).n ∧
    (exU ℝ).m = (exLayer ℝ).num_map * (exLayer ℝ).num_unit ∧
    (exDelta ℝ).n = (exU ℝ).n ∧
    (∀ U, (exLayer ℝ).prev_func U false = U) ∧
    (∀ U r k, r < U.m → k < U.n → ((exLayer ℝ).prev_func U true).get r k = 1) ∧
    HasDerivAt
      (fun t => loss ((exLayer ℝ).num_map * (exLayer ℝ).num_unit) (exU ℝ).n (exDelta ℝ)
        ((exLayer ℝ).apply ⟨Real.sqrt, fun u v => u ^ v⟩ (fun _ => 7) (fun _ => 8)
          ((exU ℝ).set (0 * (exLayer ℝ).num_unit + 1) 2 t) false).1)
      ((((exLayer ℝ).apply ⟨Real.sqrt, fun u v => u ^ v⟩ (fun _ => 7) (fun _ => 8) (exU ℝ)
          false).2.calc_delta ⟨Real.sqrt, fun u v => u ^ v⟩ (fun _ => 9) (exU ℝ)
          (exDelta ℝ)).get (0 * (exLayer ℝ).num_unit + 1) 2)
      ((exU ℝ).get (0 * (exLayer ℝ).num_unit + 1) 2) :=
  ⟨exLayer_WF ℝ, by decide, rfl, rfl, fun _ => rfl, fun _ _ _ _ _ => rfl,
    (backward_is_gradient ⟨Real.sqrt, fun u v => u ^ v⟩ rfl rfl (exLayer ℝ) (fun _ => 7)
      (fun _ => 8) (fun _ => 9) (fun _ => 7) (fun _ => 8) (exU ℝ) (exDelta ℝ) (exLayer_WF ℝ)
      (by decide) rfl rfl (fun _ => rfl) (fun _ _ _ _ _ => rfl)).1 0 1 2 (by decide)
      (by decide) (by decide)⟩

/-- Instance of C11 at `6` units and `4` workers: the slice sizes sum to `6` and the last slice
ends at `6`. -/
theorem partition_exact_witness :
    1 ≤ 4 ∧ partition_offset 0 6 4 = 0 ∧
    partition_offset (4 - 1) 6 4 + partition_size (4 - 1) 6 4 = 6 ∧
    ∑ r ∈ Finset.range 4, partition_size r 6 4 = 6 :=
  ⟨by decide, (partition_exact 6 4 (by decide)).1, (partition_exact 6 4 (by decide)).2.2.2.1,
    (partition_exact 6 4 (by decide)).2.2.2.2.2.2.1⟩

/-- Instance of the amended C12 at `6` units and `4` workers: exactly `6 % 4 = 2` ranks hold
`6 / 4 + 1 = 2` units. -/
theorem partition_remainder_witness :
    1 ≤ 4 ∧
    (Finset.filter (fun r => partition_size r 6 4 = 6 / 4 + 1) (Finset.range 4)).card
      = 6 % 4 :=
  ⟨by decide, (partition_remainder 6 4 (by decide)).2.2⟩

/-- Instance of C13 at `exLayer`, `exU`, rank `1` of `2`. -/
theorem slices_agree_witness :
    (exLayer ℚ).WF ∧ 1 < 2 ∧ 0 < (exU ℚ).n ∧
    (((exLayer ℚ).apply_slice 1 2 (exU ℚ)).1, ((exLayer ℚ).apply_slice 1 2 (exU ℚ)).2.1)
      = (exLayer ℚ).init_slice 1 2 ∧
    (((exLayer ℚ).calc_delta_slice 1 2 (exU ℚ)).1,
        ((exLayer ℚ).calc_delta_slice 1 2 (exU ℚ)).2.1)
      = (exLayer ℚ).init_slice 1 2 ∧
    (exLayer ℚ).calc_gradient_slice 1 2 = (exLayer ℚ).init_slice 1 2 :=
  ⟨exLayer_WF ℚ, by decide, by decide,
    (slices_agree (exLayer ℚ) (exU ℚ) 1 2 (exLayer_WF ℚ) (by decide) (by decide)).2.2.2⟩

/-- Instance of C14 (amended) at `exLayer`, `exU` with `2` workers on rank `0`: with assertions
the distributed `apply` returns what it returns without them, and the gathered matrix agrees
with the matrix computed without partitioning. -/
theorem apply_mpi_eq_apply_witness :
    (exLayer ℚ).WF ∧ 1 ≤ 2 ∧ 0 < (exU ℚ).n ∧
    apply_mpi_debug exOps (exLayer ℚ) 0 2 (fun _ _ => 7) (fun _ _ => 8) (fun _ => 9) (exU ℚ)
        false
      = some (apply_mpi exOps (exLayer ℚ) 0 2 (fun _ _ => 7) (fun _ _ => 8) (fun _ => 9)
          (exU ℚ) false) ∧
    ∀ i u k, i < (exLayer ℚ).num_map → u < (exLayer ℚ).num_unit → k < (exU ℚ).n →
      (apply_mpi exOps (exLayer ℚ) 0 2 (fun _ _ => 7) (fun _ _ => 8) (fun _ => 9) (exU ℚ)
          false).1.get (i * (exLayer ℚ).num_unit + u) k
        = ((exLayer ℚ).apply exOps (fun _ => 7) (fun _ => 8) (exU ℚ) false).1.get
            (i * (exLayer ℚ).num_unit + u) k :=
  have h := apply_mpi_eq_apply exOps (exLayer ℚ) 0 2 (fun _ _ => 7) (fun _ _ => 8)
    (fun _ => 9) (fun _ => 7) (fun _ => 8) (exU ℚ) (exLayer_WF ℚ) (by decide) (by decide)
  ⟨exLayer_WF ℚ, by decide, by decide,
    ((h.2 (by decide) (by decide)).1 (by decide) false).1, h.1.2.2.2.2.1⟩

/-- Instance of C15 at `exLayer`, `exU`, `exDelta` with `2` workers. -/
theorem calc_gradient_mpi_eq_witness :
    (exLayer ℚ).WF ∧ 1 ≤ 2 ∧ 0 < (exU ℚ).n ∧
    ∃ dW0 db0,
      ((exLayer ℚ).apply exOps (fun _ => 7) (fun _ => 8) (exU ℚ) false).2.calc_gradient exOps
          (fun _ => 1) (fun _ => 2) (exU ℚ) (exDelta ℚ) = ([dW0], [db0]) ∧
      ∀ i, i < (exLayer ℚ).num_map →
        (∑ r ∈ Finset.range 2,
            (calc_gradient_local exOps
              (apply_local exOps (exLayer ℚ) r 2 (fun _ => 7) (fun _ => 8) (exU ℚ)).2 r 2
              (exU ℚ) (exDelta ℚ) i).1
          = dW0.get 0 i) ∧
        (∑ r ∈ Finset.range 2,
            (calc_gradient_local exOps
              (apply_local exOps (exLayer ℚ) r 2 (fun _ => 7) (fun _ => 8) (exU ℚ)).2 r 2
              (exU ℚ) (exDelta ℚ) i).2
          = db0.get 0 i) ∧
        ∀ rank,
          (vec0 (calc_gradient_mpi exOps
              (fun r => (apply_local exOps (exLayer ℚ) r 2 (fun _ => 7) (fun _ => 8)
                (exU ℚ)).2)
              rank 2 (fun _ => 3) (fun _ => 4) (exU ℚ) (exDelta ℚ)).1).get 0 i
            = dW0.get 0 i ∧
          (vec0 (calc_gradient_mpi exOps
              (fun r => (apply_local exOps (exLayer ℚ) r 2 (fun _ => 7) (fun _ => 8)
                (exU ℚ)).2)
              rank 2 (fun _ => 3) (fun _ => 4) (exU ℚ) (exDelta ℚ)).2).get 0 i
            = db0.get 0 i :=
  ⟨exLayer_WF ℚ, by decide, by decide,
    calc_gradient_mpi_eq exOps (exLayer ℚ) 2 (fun _ _ => 7) (fun _ _ => 8) (fun _ => 7)
      (fun _ => 8) (fun _ => 1) (fun _ => 2) (fun _ => 3) (fun _ => 4) (exU ℚ) (exU ℚ)
      (exDelta ℚ) (exLayer_WF ℚ) (by decide) (by decide)⟩

/-- Instance of C16 at three workers holding `exLayer` with `W[0](0,0)` replaced by the rank:
the mixed scale on rank `1` is the mean of the three scales. -/
theorem param_mix_mean_witness :
    1 ≤ 3 ∧ 1 < 3 ∧
    (vec0 (param_mix (fun w => (exLayer ℚ).perturb_W 0 (w : ℚ)) 1 3).W).get 0 0
      = (∑ w ∈ Finset.range 3, (vec0 ((exLayer ℚ).perturb_W 0 (w : ℚ)).W).get 0 0)
          / ((3 : Nat) : ℚ) :=
  ⟨by decide, by decide,
    (param_mix_mean (fun w => (exLayer ℚ).perturb_W 0 (w : ℚ)) 1 3 1 1 (by decide) (by decide)
      (fun _ _ => ⟨Nat.zero_lt_one, Nat.zero_lt_one, rfl, rfl⟩)).2.2.1 0 (by decide)⟩

/-- Instance of C17 at `exU` split into `2` channels. -/
theorem to_matrix_to_tensor_witness :
    1 ≤ 2 ∧ 2 ∣ (exU ℚ).m ∧
    (Matrix.to_matrix (fun _ => 7) (Matrix.to_tensor (fun _ _ => 8) (exU ℚ) 2)).m = (exU ℚ).m ∧
    (Matrix.to_matrix (fun _ => 7) (Matrix.to_tensor (fun _ _ => 8) (exU ℚ) 2)).n = (exU ℚ).n ∧
    (Matrix.to_matrix (fun _ => 7) (Matrix.to_tensor (fun _ _ => 8) (exU ℚ) 2)).get 1 2
      = (exU ℚ).get 1 2 :=
  ⟨by decide, ⟨1, rfl⟩,
    (to_matrix_to_tensor (fun _ => 7) (fun _ _ => 8) (exU ℚ) 2 (by decide) ⟨1, rfl⟩).1,
    (to_matrix_to_tensor (fun _ => 7) (fun _ _ => 8) (exU ℚ) 2 (by decide) ⟨1, rfl⟩).2.1,
    (to_matrix_to_tensor (fun _ => 7) (fun _ _ => 8) (exU ℚ) 2 (by decide) ⟨1, rfl⟩).2.2 1 2
      (by decide) (by decide)⟩

/-- Instance of C18 at the sequence `[exU, exDelta]` of two `2 × 3` matrices. -/
theorem to_tensor_to_matrix_witness :
    [exU ℚ, exDelta ℚ].length = 2 ∧ 0 < 2 ∧
    (∀ i, i < 2 → ([exU ℚ, exDelta ℚ].getD i Matrix.empty).m = 2 ∧
      ([exU ℚ, exDelta ℚ].getD i Matrix.empty).n = 3) ∧
    (Matrix.to_tensor (fun _ _ => 8)
      (Matrix.to_matrix (fun _ => 7) [exU ℚ, exDelta ℚ]) 2).length = 2 ∧
    ((Matrix.to_tensor (fun _ _ => 8)
      (Matrix.to_matrix (fun _ => 7) [exU ℚ, exDelta ℚ]) 2).getD 1 Matrix.empty).get 0 2
      = ([exU ℚ, exDelta ℚ].getD 1 Matrix.empty).get 0 2 :=
  have hs : ∀ i, i < 2 → ([exU ℚ, exDelta ℚ].getD i Matrix.empty).m = 2 ∧
      ([exU ℚ, exDelta ℚ].getD i Matrix.empty).n = 3 := by
    intro i hi
    interval_cases i <;> exact ⟨rfl, rfl⟩
  ⟨rfl, by decide, hs,
    (to_tensor_to_matrix (fun _ => 7) (fun _ _ => 8) [exU ℚ, exDelta ℚ] 2 2 3 rfl (by decide)
      hs).1,
    ((to_tensor_to_matrix (fun _ => 7) (fun _ _ => 8) [exU ℚ, exDelta ℚ] 2 2 3 rfl (by decide)
      hs).2 1 (by decide)).2.2 0 2 (by decide) (by decide)⟩

/-- Instance of C19 at the `2 × 3` matrix `exU`. -/
theorem transpose_involutive_witness :
    ((exU ℚ).m = 2 ∧ (exU ℚ).n = 3) ∧
    (Matrix.transpose_vec (exU ℚ)).m = 3 ∧ (Matrix.transpose_vec (exU ℚ)).n = 2 ∧
    (Matrix.transpose_vec (exU ℚ)).get 2 1 = (exU ℚ).get 1 2 ∧
    (Matrix.transpose_vec (Matrix.transpose_vec (exU ℚ))).get 1 2 = (exU ℚ).get 1 2 :=
  ⟨⟨rfl, rfl⟩, (transpose_involutive (exU ℚ) 2 3 ⟨rfl, rfl⟩).1.1,
    (transpose_involutive (exU ℚ) 2 3 ⟨rfl, rfl⟩).1.2.1,
    (transpose_involutive (exU ℚ) 2 3 ⟨rfl, rfl⟩).1.2.2 2 1 (by decide) (by decide),
    (transpose_involutive (exU ℚ) 2 3 ⟨rfl, rfl⟩).2.2.2 1 2 (by decide) (by decide)⟩

/-- Instance of C20 at `exU` and the `1 × 2` block `[[8, 9]]` at row `1`, column `1`. -/
theorem sub_block_spec_witness :
    1 + 1 ≤ (exU ℚ).m ∧ 1 + 2 ≤ (exU ℚ).n ∧
    ((Matrix.ofList 1 2 [(8 : ℚ), 9]).m = 1 ∧ (Matrix.ofList 1 2 [(8 : ℚ), 9]).n = 2) ∧
    ((exU ℚ).sub (fun _ => 7) 1 1 1 2).get 0 1 = (exU ℚ).get (1 + 0) (1 + 1) ∧
    ((exU ℚ).sub_insert 1 1 1 2 (Matrix.ofList 1 2 [8, 9])).get (1 + 0) (1 + 1)
      = (Matrix.ofList 1 2 [(8 : ℚ), 9]).get 0 1 ∧
    (((exU ℚ).sub_insert 1 1 1 2 (Matrix.ofList 1 2 [8, 9])).sub (fun _ => 7) 1 1 1 2).get 0 1
      = (Matrix.ofList 1 2 [(8 : ℚ), 9]).get 0 1 :=
  ⟨by decide, by decide, ⟨rfl, rfl⟩,
    (sub_block_spec (fun _ => 7) (exU ℚ) (Matrix.ofList 1 2 [8, 9]) 1 1 1 2 (by decide)
      (by decide) ⟨rfl, rfl⟩).1.2.2 0 1 (by decide) (by decide),
    (sub_block_spec (fun _ => 7) (exU ℚ) (Matrix.ofList 1 2 [8, 9]) 1 1 1 2 (by decide)
      (by decide) ⟨rfl, rfl⟩).2.1.2.2.1 0 1 (by decide) (by decide),
    (sub_block_spec (fun _ => 7) (exU ℚ) (Matrix.ofList 1 2 [8, 9]) 1 1 1 2 (by decide)
      (by decide) ⟨rfl, rfl⟩).2.2.2.2 0 1 (by decide) (by decide)⟩

/-- Instance of C27 at `exLayer`, `exU` over the reals, channel `0`, unit `1`. -/
theorem apply_var_nonneg_witness :
    0 < (exU ℝ).n ∧ 0 < (exLayer ℝ).num_map ∧ 1 < (exLayer ℝ).num_unit ∧
    0 ≤ ((exLayer ℝ).apply ⟨Real.sqrt, fun u v => u ^ v⟩ (fun _ => 7) (fun _ => 8) (exU ℝ)
      false).2.var.get 0 1 ∧
    Real.sqrt (((exLayer ℝ).apply ⟨Real.sqrt, fun u v => u ^ v⟩ (fun _ => 7) (fun _ => 8)
      (exU ℝ) false).2.var.get 0 1 + EPS) ≠ 0 :=
  ⟨by decide, by decide, by decide,
    (apply_var_nonneg ⟨Real.sqrt, fun u v => u ^ v⟩ rfl rfl (exLayer ℝ) (fun _ => 7)
      (fun _ => 8) (exU ℝ) false (by decide) 0 1 (by decide) (by decide)).1,
    (apply_var_nonneg ⟨Real.sqrt, fun u v => u ^ v⟩ rfl rfl (exLayer ℝ) (fun _ => 7)
      (fun _ => 8) (exU ℝ) false (by decide) 0 1 (by decide) (by decide)).2.2.1⟩

/-- Instance of the amended C29 at `exPool`, `exPoolU`, map `0`, sample `0` and the window origin
`(2, 2)`: both runs with assertions return, the cell holds the maximum of the window, and
with the activation it holds the activation of that value. -/
theorem pooling_apply_max_witness :
    (1 ≤ exPool.m ∧ 1 ≤ exPool.n ∧ 1 ≤ exPool.stlide ∧ 1 ≤ exPool.prev_ldu) ∧
    (exPool.prev_num_unit = exPool.prev_ldu * 4 ∧
      exPool.ldu = (exPool.prev_ldu + exPool.stlide - 1) / exPool.stlide ∧
      exPool.num_unit = exPool.ldu * ((4 + exPool.stlide - 1) / exPool.stlide)) ∧
    (1 ≤ exPool.num_map ∧ exPoolU.length = exPool.num_map ∧
      ∀ i, i < exPool.num_map → (exPoolU.getD i Matrix.empty).m = exPool.prev_num_unit ∧
        (exPoolU.getD i Matrix.empty).n = (exPoolU.getD 0 Matrix.empty).n) ∧
    (0 < exPool.num_map ∧ 0 < (exPoolU.getD 0 Matrix.empty).n ∧ 2 < exPool.prev_ldu ∧ 2 < 4 ∧
      exPool.stlide ∣ 2) ∧
    ∃ retF retT : List (Matrix ℚ),
      (exPool.apply_debug (fun _ => 7) (fun _ _ => 8) exPoolU false).map (fun r => r.1.1)
        = some retF ∧
      (exPool.apply_debug (fun _ => 7) (fun _ _ => 8) exPoolU true).map (fun r => r.1.1)
        = some retT ∧
      ((retF.getD 0 Matrix.empty).m = exPool.num_unit ∧
        (retF.getD 0 Matrix.empty).n = (exPoolU.getD 0 Matrix.empty).n ∧
        (retT.getD 0 Matrix.empty).m = exPool.num_unit ∧
        (retT.getD 0 Matrix.empty).n = (exPoolU.getD 0 Matrix.empty).n ∧
        2 / exPool.stlide + (2 / exPool.stlide) * exPool.ldu < exPool.num_unit) ∧
      (∀ x' y', 2 ≤ x' → x' < min (2 + exPool.m) exPool.prev_ldu → 2 ≤ y' →
        y' < min (2 + exPool.n) 4 →
        (exPoolU.getD 0 Matrix.empty).get (x' + exPool.prev_ldu * y') 0
          ≤ (retF.getD 0 Matrix.empty).get
              (2 / exPool.stlide + (2 / exPool.stlide) * exPool.ldu) 0) ∧
      (∃ x' y', (2 ≤ x' ∧ x' < min (2 + exPool.m) exPool.prev_ldu) ∧
        (2 ≤ y' ∧ y' < min (2 + exPool.n) 4) ∧
        (retF.getD 0 Matrix.empty).get (2 / exPool.stlide + (2 / exPool.stlide) * exPool.ldu) 0
          = (exPoolU.getD 0 Matrix.empty).get (x' + exPool.prev_ldu * y') 0) ∧
      (retT.getD 0 Matrix.empty).get (2 / exPool.stlide + (2 / exPool.stlide) * exPool.ldu) 0
        = exPool.activate_func
            ((retF.getD 0 Matrix.empty).get
              (2 / exPool.stlide + (2 / exPool.stlide) * exPool.ldu) 0) :=
  have hU : ∀ i, i < exPool.num_map →
      (exPoolU.getD i Matrix.empty).m = exPool.prev_num_unit ∧
      (exPoolU.getD i Matrix.empty).n = (exPoolU.getD 0 Matrix.empty).n := by
    intro i hi
    have hi1 : i < 1 := hi
    interval_cases i
    exact ⟨rfl, rfl⟩
  ⟨by decide, ⟨rfl, rfl, rfl⟩, ⟨by decide, rfl, hU⟩, by decide,
    pooling_apply_max exPool (fun _ => 7) (fun _ _ => 8) exPoolU 4 0 0 2 2 (by decide)
      (by decide) (by decide) (by decide) rfl rfl rfl (by decide) rfl hU (by decide)
      (by decide) (by decide) (by decide) (by decide) (by decide)⟩

/-- Instance of C35 at `U = 7` units and `P = 3` workers: one worker holds `3` units. -/
theorem partition_balanced_witness :
    1 ≤ 3 ∧
    (Finset.filter (fun r => partition_size r 7 3 = 7 / 3 + 1) (Finset.range 3)).card = 7 % 3 :=
  ⟨by decide, (partition_balanced (R := ℚ) 7 3 (by decide)).2.2.1⟩

/-- Instance of C36 at a `3 × 1` matrix split into `2` channels: two `1 × 1` matrices, the last
row is in neither. -/
theorem to_tensor_rows_witness :
    1 ≤ 2 ∧
    (Matrix.to_tensor (fun _ _ => 8) (Matrix.ofList 3 1 [(1 : ℚ), 2, 3]) 2).length = 2 ∧
    2 * ((Matrix.ofList 3 1 [(1 : ℚ), 2, 3]).m / 2)
      = (Matrix.ofList 3 1 [(1 : ℚ), 2, 3]).m - (Matrix.ofList 3 1 [(1 : ℚ), 2, 3]).m % 2 :=
  ⟨by decide,
    (to_tensor_rows (fun _ => 7) (fun _ _ => 8) (Matrix.ofList 3 1 [(1 : ℚ), 2, 3]) 2
      (by decide)).1,
    (to_tensor_rows (fun _ => 7) (fun _ _ => 8) (Matrix.ofList 3 1 [(1 : ℚ), 2, 3]) 2
      (by decide)).2.2.1⟩

/-- Instance of C33 at `exLayer`, `exU`, channel `0`, unit `1`. -/
theorem apply_output_mean_witness :
    (exLayer ℚ).WF ∧ 0 < (exU ℚ).n ∧ 0 < (exLayer ℚ).num_map ∧ 1 < (exLayer ℚ).num_unit ∧
    1 / ((exU ℚ).n : ℚ) * ∑ k ∈ Finset.range (exU ℚ).n,
        ((exLayer ℚ).apply exOps (fun _ => 7) (fun _ => 8) (exU ℚ) false).1.get
          (0 * (exLayer ℚ).num_unit + 1) k
      = (vec0 (exLayer ℚ).b).get 0 0 :=
  ⟨exLayer_WF ℚ, by decide, by decide, by decide,
    apply_output_mean exOps (exLayer ℚ) (fun _ => 7) (fun _ => 8) (exU ℚ) (exLayer_WF ℚ)
      (by decide) 0 1 (by decide) (by decide)⟩

/-- Instance of C34 at `exLayer`, `exU`, `exDelta`, channel `0`, unit `1`. -/
theorem calc_delta_batch_sum_zero_witness :
    (exLayer ℚ).WF ∧ 0 < (exU ℚ).n ∧
    (exU ℚ).m = (exLayer ℚ).num_map * (exLayer ℚ).num_unit ∧ (exDelta ℚ).n = (exU ℚ).n ∧
    (∀ U, (exLayer ℚ).prev_func U false = U) ∧
    (∀ U r k, r < U.m → k < U.n → ((exLayer ℚ).prev_func U true).get r k = 1) ∧
    ∑ k ∈ Finset.range (exU ℚ).n,
      (((exLayer ℚ).apply exOps (fun _ => 7) (fun _ => 8) (exU ℚ) false).2.calc_delta exOps
        (fun _ => 9) (exU ℚ) (exDelta ℚ)).get (0 * (exLayer ℚ).num_unit + 1) k = 0 :=
  ⟨exLayer_WF ℚ, by decide, rfl, rfl, fun _ => rfl, fun _ _ _ _ _ => rfl,
    calc_delta_batch_sum_zero exOps (exLayer ℚ) (fun _ => 7) (fun _ => 8) (fun _ => 9) (exU ℚ)
      (exDelta ℚ) (exLayer_WF ℚ) (by decide) rfl rfl (fun _ => rfl) (fun _ _ _ _ _ => rfl)
      0 1 (by decide) (by decide)⟩

/-- Instance of C39 at `w = 2` and the start value `6` of a layer with `prev_num_unit = 2` on a
batch of `3` samples: the loop launches `⌊log₂ 6⌋ + 1 = 3` kernels. -/
theorem reduction_loop_terminates_witness :
    2 ≤ 2 ∧ (exLayer ℚ).reduction_start 3 = 6 ∧
    ∃ l, (∀ fuel, 6 ≤ fuel → reduction_loop fuel 2 6 = some l) ∧
      (6 = 0 → l.length = 0) ∧
      (1 ≤ 6 → l.length = Nat.log 2 6 + 1) ∧
      (∀ t, t < l.length → l.getD t 0 = 6 / 2 ^ t ∧ 0 < l.getD t 0) ∧
      (∀ {R : Type} (L : BatchNormalize R) (n : Nat),
        L.reduction_start n = L.prev_num_unit * n) :=
  ⟨by decide, rfl, reduction_loop_terminates 2 6 (by decide)⟩

/-- Instance of C38 at `exLower`, `exUpper`, the swap `exSwap` and the column `exRhs`. -/
theorem FBS_solves_witness :
    (exLower.m = 2 ∧ exLower.n = 2) ∧ (exUpper.m = 2 ∧ exUpper.n = 2) ∧
    (exSwap.m = 2 ∧ exSwap.n = 2) ∧ (exRhs.m = 2 ∧ exRhs.n = 1) ∧
    (∀ i k, i < 2 → k < 2 → i < k → exLower.get i k = 0) ∧
    (∀ i k, i < 2 → k < 2 → k < i → exUpper.get i k = 0) ∧
    (∀ i, i < 2 → exLower.get i i ≠ 0) ∧ (∀ i, i < 2 → exUpper.get i i ≠ 0) ∧
    (Matrix.FBS (fun _ => 7) (fun _ => 8) (fun _ => 9) exLower exUpper exSwap exRhs).m
      = exRhs.m ∧
    ∑ k ∈ Finset.range 2, exLower.get 1 k * ∑ l ∈ Finset.range 2, exUpper.get k l *
        (Matrix.FBS (fun _ => 7) (fun _ => 8) (fun _ => 9) exLower exUpper exSwap exRhs).get l 0
      = ∑ k ∈ Finset.range 2, exSwap.get k 1 * exRhs.get k 0 :=
  have hL : ∀ i k, i < 2 → k < 2 → i < k → exLower.get i k = 0 := by
    intro i k hi hk hik
    obtain ⟨rfl, rfl⟩ : i = 0 ∧ k = 1 := by omega
    rfl
  have hU : ∀ i k, i < 2 → k < 2 → k < i → exUpper.get i k = 0 := by
    intro i k hi hk hik
    obtain ⟨rfl, rfl⟩ : i = 1 ∧ k = 0 := by omega
    rfl
  have hLd : ∀ i, i < 2 → exLower.get i i ≠ 0 := by
    intro i hi
    interval_cases i <;> simp [exLower, Matrix.get, Matrix.ofList]
  have hUd : ∀ i, i < 2 → exUpper.get i i ≠ 0 := by
    intro i hi
    interval_cases i <;> simp [exUpper, Matrix.get, Matrix.ofList]
  ⟨⟨rfl, rfl⟩, ⟨rfl, rfl⟩, ⟨rfl, rfl⟩, ⟨rfl, rfl⟩, hL, hU, hLd, hUd,
    (FBS_solves (fun _ => 7) (fun _ => 8) (fun _ => 9) exLower exUpper exSwap exRhs 2 1
      ⟨rfl, rfl⟩ ⟨rfl, rfl⟩ ⟨rfl, rfl⟩ ⟨rfl, rfl⟩ hL hU hLd hUd).1.1,
    (FBS_solves (fun _ => 7) (fun _ => 8) (fun _ => 9) exLower exUpper exSwap exRhs 2 1
      ⟨rfl, rfl⟩ ⟨rfl, rfl⟩ ⟨rfl, rfl⟩ ⟨rfl, rfl⟩ hL hU hLd hUd).1.2.2 1 0 (by decide)
      (by decide)⟩

/-- Instance of C32 (amended) at `exPoolTwo` and the two `2 × 2` matrices `exEvenU`. -/
theorem apply_debug_safe_witness :
    1 ≤ exPoolTwo.stlide ∧ 1 ≤ exPoolTwo.prev_ldu ∧
    exPoolTwo.prev_num_unit = exPoolTwo.prev_ldu * 1 ∧
    exPoolTwo.ldu = (exPoolTwo.prev_ldu + exPoolTwo.stlide - 1) / exPoolTwo.stlide ∧
    exPoolTwo.num_unit = exPoolTwo.ldu * ((1 + exPoolTwo.stlide - 1) / exPoolTwo.stlide) ∧
    1 ≤ exPoolTwo.num_map ∧ exEvenU.length = exPoolTwo.num_map ∧
    (∀ i, i < exPoolTwo.num_map →
      (exEvenU.getD i Matrix.empty).m = exPoolTwo.prev_num_unit ∧
      (exEvenU.getD i Matrix.empty).n = (exEvenU.getD 0 Matrix.empty).n) ∧
    exPoolTwo.apply_debug (fun _ => 7) (fun _ _ => 8) exEvenU false
      = some (exPoolTwo.apply (fun _ => 7) (fun _ _ => 8) exEvenU false,
          List.replicate exPoolTwo.num_map
            ((List.range (exEvenU.getD 0 Matrix.empty).n).flatMap (fun j =>
              (List.range exPoolTwo.num_unit).map (fun c => (c, j))))) :=
  have hU : ∀ i, i < exPoolTwo.num_map →
      (exEvenU.getD i Matrix.empty).m = exPoolTwo.prev_num_unit ∧
      (exEvenU.getD i Matrix.empty).n = (exEvenU.getD 0 Matrix.empty).n := by
    intro i hi
    have hi2 : i < 2 := hi
    interval_cases i <;> exact ⟨rfl, rfl⟩
  ⟨by decide, by decide, rfl, rfl, rfl, by decide, rfl, hU,
    (apply_debug_safe exPoolTwo (fun _ => 7) (fun _ _ => 8) exEvenU false 1 (by decide)
      (by decide) rfl rfl rfl (by decide) rfl hU).1⟩

/-- Instance of C21 (amended) at the `2 × 3` matrix `exHeap`: the sum `exHeap + exHeap` has
a buffer of exactly `2 × 3` elements, and `reshape(3, 3)` is refused as `9 > mem_size = 6`. -/
theorem buffer_length_spec_witness :
    (3 * 3 < 2 ^ 31 ∧ ([7, 8] : List ℚ).length < 2 ^ 31 ∧ exHeap.m * exHeap.n < 2 ^ 31 ∧
      1 * 2 < 2 ^ 31 ∧ exHeap.m * exHeap.n < 2 ^ 31) ∧
    Heap.Matrix.Returns (Heap.Matrix.operator_add (fun _ => 0) exHeap exHeap)
      (fun M => M.Exact ∧ M.Fits) ∧
    (exHeap.reshape false 3 3 = none ↔ exHeap.mem_size < 3 * 3) :=
  have h := buffer_length_spec (fun _ => 0) (fun _ => 0) exHeap exHeap 2 [7, 8] 3 3 0 0 1 2
    (by decide) (by decide) (by decide) (by decide) (by decide)
  ⟨⟨by decide, by decide, by decide, by decide, by decide⟩, h.2.1.2.1, h.2.2.2.1⟩

end Instances

end Deeplearning
